import Mathlib

/-!
Verification of the graph-algorithms engine in `grafos.js` (index-keyed `Grafo`
class backed by sorted adjacency lists, together with its `DisjointSet` and the
algorithms BFS, Dijkstra, Floyd-Warshall, Kruskal, Prim and Apaga-Reverso).

The definitions below are a shallow embedding of that code: JavaScript numbers
used as vertex ids become `Nat` (the source guards `v < 0 || v >= numVertices`;
with `Nat` the lower bound is inherent and only the upper bound remains), edge
weights become `Int`, the linked adjacency lists become `List ElemLista`, and
the unbounded `while` loops become fuel-indexed recursions whose fuel is shown
(or chosen) to be large enough.  Console output is dropped; functions that only
print are modelled by the value they print.
-/

namespace Grafos

/-- One node of an adjacency list (class `ElemLista`): the adjacent vertex and
the weight of the connecting edge.  The `proximo` pointer of the source is the
tail of the Lean list. -/
structure ElemLista where
  verticeAdjacente : Nat
  peso : Int
deriving DecidableEq, Repr

/-- An edge value (class `Aresta`): source, destination and weight. -/
structure Aresta where
  verticeOrigem : Nat
  verticeDestino : Nat
  peso : Int
deriving DecidableEq, Repr

/-- The sentinel `this.INFINITO = 999999` standing for "no path". -/
def INFINITO : Int := 999999

/-- The graph state (class `Grafo`): vertex count, directed/weighted flags,
logical edge count and one adjacency list per vertex. -/
structure Grafo where
  numVertices : Nat
  direcionado : Bool
  ponderado : Bool
  numArestas : Int
  listaAdjacencia : List (List ElemLista)
deriving DecidableEq, Repr

/-- The constructor `new Grafo(vertices, direcionado, ponderado)`: empty
adjacency lists and zero edges. -/
def Grafo.nova (vertices : Nat) (direcionado ponderado : Bool) : Grafo :=
  { numVertices := vertices, direcionado := direcionado, ponderado := ponderado,
    numArestas := 0, listaAdjacencia := List.replicate vertices [] }

/-- Reading `this.listaAdjacencia[v]`; out-of-range reads give the empty list. -/
def Grafo.adj (g : Grafo) (v : Nat) : List ElemLista :=
  g.listaAdjacencia.getD v []

/-- The list-walking loop of `insereArestaAux`: advance while the current node's
adjacent vertex is below the destination, fail (`none`) on a duplicate, and
otherwise link a new node in at the sorted position. -/
def insereListaAux (verticeDestino : Nat) (peso : Int) : List ElemLista → Option (List ElemLista)
  | [] => some [⟨verticeDestino, peso⟩]
  | e :: resto =>
    if e.verticeAdjacente < verticeDestino then
      (insereListaAux verticeDestino peso resto).map (fun l => e :: l)
    else if e.verticeAdjacente = verticeDestino then none
    else some (⟨verticeDestino, peso⟩ :: e :: resto)

/-- The method `insereArestaAux(verticeOrigem, verticeDestino, peso)`: sorted
insertion into the origin's list; the Boolean reports whether a node was
inserted (`false` exactly when the entry already existed). -/
def Grafo.insereArestaAux (g : Grafo) (verticeOrigem verticeDestino : Nat) (peso : Int) :
    Grafo × Bool :=
  match insereListaAux verticeDestino peso (g.adj verticeOrigem) with
  | none => (g, false)
  | some l => ({ g with listaAdjacencia := g.listaAdjacencia.set verticeOrigem l }, true)

/-- The argument validation shared verbatim by `adicionaAresta`,
`adicionaArestaDirecionada` and `removeAresta`: a vertex out of
`[0, numVertices)` or equal endpoints.  (The source also tests `< 0`, which is
vacuous for `Nat`.) -/
def entradaInvalida (g : Grafo) (verticeOrigem verticeDestino : Nat) : Bool :=
  g.numVertices ≤ verticeOrigem || g.numVertices ≤ verticeDestino ||
    verticeOrigem == verticeDestino

/-- The method `adicionaAresta`: validate, force weight `1` on unweighted
graphs, insert the forward entry, mirror it when the graph is undirected, and
count the edge once exactly when the forward insertion succeeded. -/
def Grafo.adicionaAresta (g : Grafo) (verticeOrigem verticeDestino : Nat) (peso : Int) : Grafo :=
  if entradaInvalida g verticeOrigem verticeDestino then g
  else
    let pesoReal := if g.ponderado then peso else 1
    let r := g.insereArestaAux verticeOrigem verticeDestino pesoReal
    if r.2 then
      let g2 := if !g.direcionado then
          (r.1.insereArestaAux verticeDestino verticeOrigem pesoReal).1
        else r.1
      { g2 with numArestas := g2.numArestas + 1 }
    else r.1

/-- The method `adicionaArestaDirecionada`: same validation and weight
resolution as `adicionaAresta`, but never inserts the reverse entry. -/
def Grafo.adicionaArestaDirecionada (g : Grafo) (verticeOrigem verticeDestino : Nat)
    (peso : Int) : Grafo :=
  if entradaInvalida g verticeOrigem verticeDestino then g
  else
    let pesoReal := if g.ponderado then peso else 1
    let r := g.insereArestaAux verticeOrigem verticeDestino pesoReal
    if r.2 then { r.1 with numArestas := r.1.numArestas + 1 }
    else r.1

/-- The list-walking loop of `removeArestaAux`: advance while below the
destination, unlink the node on a match, report failure otherwise. -/
def removeListaAux (verticeDestino : Nat) : List ElemLista → Option (List ElemLista)
  | [] => none
  | e :: resto =>
    if e.verticeAdjacente < verticeDestino then
      (removeListaAux verticeDestino resto).map (fun l => e :: l)
    else if e.verticeAdjacente = verticeDestino then some resto
    else none

/-- The method `removeArestaAux(verticeOrigem, verticeDestino)`. -/
def Grafo.removeArestaAux (g : Grafo) (verticeOrigem verticeDestino : Nat) : Grafo × Bool :=
  match removeListaAux verticeDestino (g.adj verticeOrigem) with
  | none => (g, false)
  | some l => ({ g with listaAdjacencia := g.listaAdjacencia.set verticeOrigem l }, true)

/-- The method `removeAresta(verticeOrigem, verticeDestino)`: validate, remove
the forward entry, mirror the removal when undirected, decrement `numArestas`
exactly when the forward removal succeeded.  (The `forApagaReverso` flag of the
source only silences a console message and is dropped.) -/
def Grafo.removeAresta (g : Grafo) (verticeOrigem verticeDestino : Nat) : Grafo × Bool :=
  if entradaInvalida g verticeOrigem verticeDestino then (g, false)
  else
    let r := g.removeArestaAux verticeOrigem verticeDestino
    if r.2 then
      let g2 := if !g.direcionado then (r.1.removeArestaAux verticeDestino verticeOrigem).1
        else r.1
      ({ g2 with numArestas := g2.numArestas - 1 }, true)
    else (g, false)

/-- The membership scan of `arestaExiste`: advance while below the destination,
then compare. -/
def arestaExisteLista (verticeDestino : Nat) : List ElemLista → Bool
  | [] => false
  | e :: resto =>
    if e.verticeAdjacente < verticeDestino then arestaExisteLista verticeDestino resto
    else e.verticeAdjacente == verticeDestino

/-- The method `arestaExiste(verticeOrigem, verticeDestino)`: bounds-checked
membership query over the sorted list (no equal-endpoints rejection). -/
def Grafo.arestaExiste (g : Grafo) (verticeOrigem verticeDestino : Nat) : Bool :=
  if g.numVertices ≤ verticeOrigem || g.numVertices ≤ verticeDestino then false
  else arestaExisteLista verticeDestino (g.adj verticeOrigem)

/-! ### Shortest-path algorithms -/

/-- State of the breadth-first search `algoritmoBFS`: the distance array, the
visited array and the FIFO queue (`push` at the back, `shift` from the front).
The extra `log` field is a ghost trace recording every vertex ever pushed onto
the queue, in order; it influences nothing and exists so that properties about
enqueue events can be stated. -/
structure BFSEstado where
  distancias : List Int
  visitado : List Bool
  fila : List Nat
  log : List Nat
deriving DecidableEq, Repr

/-- The inner neighbour loop of `algoritmoBFS` for a dequeued vertex `u`: each
unvisited neighbour is marked visited, given distance `distancias[u] + 1` and
pushed onto the queue. -/
def bfsVizinhos (u : Nat) : List ElemLista → BFSEstado → BFSEstado
  | [], st => st
  | e :: resto, st =>
    let w := e.verticeAdjacente
    if st.visitado.getD w false then bfsVizinhos u resto st
    else
      bfsVizinhos u resto
        { distancias := st.distancias.set w (st.distancias.getD u INFINITO + 1),
          visitado := st.visitado.set w true,
          fila := st.fila ++ [w],
          log := st.log ++ [w] }

/-- The `while (fila.length > 0)` loop of `algoritmoBFS`, with fuel standing in
for the unbounded loop; `bfsFuelBasta` below shows fuel `numVertices` always
drains the queue. -/
def bfsLoop (g : Grafo) : Nat → BFSEstado → BFSEstado
  | 0, st => st
  | fuel + 1, st =>
    match st.fila with
    | [] => st
    | u :: resto => bfsLoop g fuel (bfsVizinhos u (g.adj u) { st with fila := resto })

/-- The initial state of `algoritmoBFS(verticeInicial)`: all distances at the
sentinel except the source at `0`, only the source visited and enqueued. -/
def bfsInicial (g : Grafo) (verticeInicial : Nat) : BFSEstado :=
  { distancias := (List.replicate g.numVertices INFINITO).set verticeInicial 0,
    visitado := (List.replicate g.numVertices false).set verticeInicial true,
    fila := [verticeInicial],
    log := [verticeInicial] }

/-- The full run of `algoritmoBFS(verticeInicial)` (final state). -/
def Grafo.bfsExecucao (g : Grafo) (verticeInicial : Nat) : BFSEstado :=
  bfsLoop g g.numVertices (bfsInicial g verticeInicial)

/-- The method `algoritmoBFS(verticeInicial)`, modelled by the distance vector
it computes and prints. -/
def Grafo.algoritmoBFS (g : Grafo) (verticeInicial : Nat) : List Int :=
  (g.bfsExecucao verticeInicial).distancias

/-- One probe of the minimum-selection scan shared by `algoritmoDijkstra` and
`algoritmoPrim`: take the candidate when it is unmarked and strictly smaller
than the best so far. -/
def selecionaPasso (valores : List Int) (marcado : List Bool) (acc : Option Nat × Int)
    (v : Nat) : Option Nat × Int :=
  if !(marcado.getD v false) && valores.getD v INFINITO < acc.2 then
    (some v, valores.getD v INFINITO)
  else acc

/-- The minimum-selection scan appearing verbatim in both `algoritmoDijkstra`
(over `distancias`/`visitado`) and `algoritmoPrim` (over `chave`/`naArvore`):
start from `(-1, INFINITO)` and take every strictly smaller unmarked value. -/
def selecionaMinimo (valores : List Int) (marcado : List Bool) (n : Nat) : Option Nat × Int :=
  (List.range n).foldl (selecionaPasso valores marcado) (none, INFINITO)

/-- One relaxation of `algoritmoDijkstra`: improve the neighbour's distance
through `u` when `u` is reachable, the neighbour unvisited, and the new value
strictly smaller. -/
def dijkstraRelaxaPasso (u : Nat) (visitado : List Bool) (d : List Int) (e : ElemLista) :
    List Int :=
  let v := e.verticeAdjacente
  if !(visitado.getD v false) ∧ d.getD u INFINITO ≠ INFINITO ∧
      d.getD u INFINITO + e.peso < d.getD v INFINITO then
    d.set v (d.getD u INFINITO + e.peso)
  else d

/-- The relaxation loop of `algoritmoDijkstra` over the neighbours of the
just-visited vertex `u`. -/
def dijkstraRelaxa (g : Grafo) (u : Nat) (visitado : List Bool) (dist : List Int) : List Int :=
  (g.adj u).foldl (dijkstraRelaxaPasso u visitado) dist

/-- The main `numVertices - 1` rounds of `algoritmoDijkstra`: select the
unvisited vertex of minimum distance (breaking when none qualifies), mark it,
relax its outgoing edges. -/
def dijkstraLoop (g : Grafo) : Nat → List Int → List Bool → List Int × List Bool
  | 0, dist, vis => (dist, vis)
  | k + 1, dist, vis =>
    match (selecionaMinimo dist vis g.numVertices).1 with
    | none => (dist, vis)
    | some u =>
      let vis2 := vis.set u true
      dijkstraLoop g k (dijkstraRelaxa g u vis2 dist) vis2

/-- The method `algoritmoDijkstra(verticeInicial)`, modelled by the distance
vector it computes and prints. -/
def Grafo.algoritmoDijkstra (g : Grafo) (verticeInicial : Nat) : List Int :=
  (dijkstraLoop g (g.numVertices - 1)
    ((List.replicate g.numVertices INFINITO).set verticeInicial 0)
    (List.replicate g.numVertices false)).1

/-- Reading `dist[i][j]` in `algoritmoFloyd`. -/
def matGet (m : List (List Int)) (i j : Nat) : Int :=
  (m.getD i []).getD j INFINITO

/-- Writing `dist[i][j]` in `algoritmoFloyd`. -/
def matSet (m : List (List Int)) (i j : Nat) (x : Int) : List (List Int) :=
  m.set i ((m.getD i []).set j x)

/-- The seeding phase of `algoritmoFloyd`: each row starts at the sentinel,
gets `0` on the diagonal and then the direct edge weight for every adjacency
entry (with no sentinel guard on the stored weight). -/
def Grafo.floydInicial (g : Grafo) : List (List Int) :=
  (List.range g.numVertices).map
    (fun i =>
      (g.adj i).foldl (fun linha e => linha.set e.verticeAdjacente e.peso)
        ((List.replicate g.numVertices INFINITO).set i 0))

/-- The innermost update of `algoritmoFloyd` at `(i, j)` through `k`: relax in
place when both legs differ from the sentinel and their sum improves the
entry. -/
def floydPassoJ (k i : Nat) (m : List (List Int)) (j : Nat) : List (List Int) :=
  if matGet m i k ≠ INFINITO ∧ matGet m k j ≠ INFINITO ∧
      matGet m i k + matGet m k j < matGet m i j then
    matSet m i j (matGet m i k + matGet m k j)
  else m

/-- The inner `j` loop of `algoritmoFloyd` for a fixed row `i` and phase `k`. -/
def floydPassoI (g : Grafo) (k : Nat) (m : List (List Int)) (i : Nat) : List (List Int) :=
  (List.range g.numVertices).foldl (floydPassoJ k i) m

/-- One full phase of `algoritmoFloyd` for the intermediate vertex `k`. -/
def floydPassoK (g : Grafo) (m : List (List Int)) (k : Nat) : List (List Int) :=
  (List.range g.numVertices).foldl (floydPassoI g k) m

/-- The method `algoritmoFloyd()`, modelled by the matrix it computes and
prints: the triple in-place relaxation loop over `k`, `i`, `j`. -/
def Grafo.algoritmoFloyd (g : Grafo) : List (List Int) :=
  (List.range g.numVertices).foldl (floydPassoK g) g.floydInicial

/-! ### DisjointSet (the index-keyed Union-Find) -/

/-- The index-keyed `DisjointSet`: `ancestral` maps each element to its parent,
`altura` is the union-by-rank height. -/
structure DisjointSet where
  ancestral : List Nat
  altura : List Nat
deriving DecidableEq, Repr

/-- The constructor `new DisjointSet(numElementos)`: each element its own
ancestor, all heights zero. -/
def DisjointSet.nova (numElementos : Nat) : DisjointSet :=
  { ancestral := List.range numElementos, altura := List.replicate numElementos 0 }

/-- The recursive `encontrarRepresentante(elemento)` with path compression:
returns the root and the compressed structure.  The source recursion terminates
because parent chains are acyclic; here it carries fuel, and on states reachable
from `DisjointSet.nova` a fuel of `ancestral.length` never runs out. -/
def encontrarRepresentanteAux : Nat → DisjointSet → Nat → Nat × DisjointSet
  | 0, ds, x => (x, ds)
  | fuel + 1, ds, x =>
    let p := ds.ancestral.getD x x
    if p = x then (x, ds)
    else
      let r := encontrarRepresentanteAux fuel ds p
      (r.1, { r.2 with ancestral := r.2.ancestral.set x r.1 })

/-- The method `encontrarRepresentante` with the standard fuel. -/
def DisjointSet.encontrarRepresentante (ds : DisjointSet) (elemento : Nat) : Nat × DisjointSet :=
  encontrarRepresentanteAux ds.ancestral.length ds elemento

/-- The method `unirConjuntos(elementoA, elementoB)`: find both roots (with
compression), then union by rank, the taller tree winning and equal ranks
growing `raizA`. -/
def DisjointSet.unirConjuntos (ds : DisjointSet) (elementoA elementoB : Nat) : DisjointSet :=
  let r1 := ds.encontrarRepresentante elementoA
  let r2 := r1.2.encontrarRepresentante elementoB
  let raizA := r1.1
  let raizB := r2.1
  let ds2 := r2.2
  if raizA = raizB then ds2
  else if ds2.altura.getD raizA 0 < ds2.altura.getD raizB 0 then
    { ds2 with ancestral := ds2.ancestral.set raizA raizB }
  else
    let ds3 : DisjointSet := { ds2 with ancestral := ds2.ancestral.set raizB raizA }
    if ds2.altura.getD raizA 0 = ds2.altura.getD raizB 0 then
      { ds3 with altura := ds3.altura.set raizA (ds3.altura.getD raizA 0 + 1) }
    else ds3

/-! ### MST algorithms -/

/-- The edge-collection loop shared (verbatim up to the order of the two `if`
branches) by `algoritmoKruskal`, `algoritmoApagaReverso` and `ordenarArestas`:
every adjacency entry of a directed graph, and only the `origem < destino` copy
of each undirected edge. -/
def Grafo.coletaArestas (g : Grafo) : List Aresta :=
  (List.range g.numVertices).flatMap
    (fun v =>
      (g.adj v).filterMap
        (fun e =>
          if (!g.direcionado && decide (v < e.verticeAdjacente)) || g.direcionado then
            some ⟨v, e.verticeAdjacente, e.peso⟩
          else none))

/-- One iteration of the edge loop of `algoritmoKruskal`: compare the two
representatives (each `find` compressing paths), and on distinct roots accept
the edge, union the endpoints and add its weight to the running cost. -/
def kruskalPasso (acc : DisjointSet × List Aresta × Int) (aresta : Aresta) :
    DisjointSet × List Aresta × Int :=
  let r1 := acc.1.encontrarRepresentante aresta.verticeOrigem
  let r2 := r1.2.encontrarRepresentante aresta.verticeDestino
  if r1.1 ≠ r2.1 then
    (r2.2.unirConjuntos aresta.verticeOrigem aresta.verticeDestino,
      acc.2.1 ++ [aresta], acc.2.2 + aresta.peso)
  else (r2.2, acc.2.1, acc.2.2)

/-- The method `algoritmoKruskal()`, modelled by the accepted edge list and the
total cost it prints: collect the edges, sort ascending by weight (JavaScript's
stable sort, modelled by a stable merge sort), and fold `kruskalPasso` over a
fresh `DisjointSet` of `numVertices` singletons. -/
def Grafo.algoritmoKruskal (g : Grafo) : List Aresta × Int :=
  let todasArestas := g.coletaArestas.mergeSort (fun a b => a.peso ≤ b.peso)
  let r := todasArestas.foldl kruskalPasso (DisjointSet.nova g.numVertices, [], 0)
  r.2

/-- State of `algoritmoPrim`: best connecting weight, tree membership and
parent pointer (`-1` meaning none) per vertex. -/
structure PrimEstado where
  chave : List Int
  naArvore : List Bool
  pai : List Int
deriving DecidableEq, Repr

/-- The neighbour loop of `algoritmoPrim` for the vertex `u` just added to the
tree: improve the key and parent of every lighter-connected outside vertex. -/
def primRelaxa (g : Grafo) (u : Nat) (st : PrimEstado) : PrimEstado :=
  (g.adj u).foldl
    (fun st e =>
      let v := e.verticeAdjacente
      if !(st.naArvore.getD v false) ∧ e.peso < st.chave.getD v INFINITO then
        { st with pai := st.pai.set v ((u : Int)), chave := st.chave.set v e.peso }
      else st)
    st

/-- The `numVertices - 1` growth rounds of `algoritmoPrim`: select the
minimum-key outside vertex (same scan as Dijkstra), breaking when none
qualifies, add it to the tree and relax its neighbours. -/
def primLoop (g : Grafo) : Nat → PrimEstado → PrimEstado
  | 0, st => st
  | k + 1, st =>
    match (selecionaMinimo st.chave st.naArvore g.numVertices).1 with
    | none => st
    | some u => primLoop g k (primRelaxa g u { st with naArvore := st.naArvore.set u true })

/-- The weight lookup of `algoritmoPrim`'s cost loop: a full linear scan of
`listaAdjacencia[origem]` for the entry pointing at `destino`, with `-1` as the
not-found sentinel exactly as in the source. -/
def Grafo.buscaPeso (g : Grafo) (origem destino : Nat) : Int :=
  match (g.adj origem).find? (fun e => e.verticeAdjacente == destino) with
  | some e => e.peso
  | none => -1

/-- The final cost loop of `algoritmoPrim` (the `custoCalculadoPrim` value the
method prints): for every vertex with a parent, look the stored weight up in
the parent's list, fall back to the reverse direction on undirected graphs, and
skip the edge when both lookups miss. -/
def Grafo.custoPrim (g : Grafo) (pai : List Int) : Int :=
  (List.range g.numVertices).foldl
    (fun custo i =>
      if pai.getD i (-1) ≠ -1 then
        let p := (pai.getD i (-1)).toNat
        let fw := g.buscaPeso p i
        if fw ≠ -1 then custo + fw
        else if !g.direcionado then
          let fw2 := g.buscaPeso i p
          if fw2 ≠ -1 then custo + fw2 else custo
        else custo
      else custo)
    0

/-- The method `algoritmoPrim()`, modelled by the total cost it prints;
`none` models the hardcoded start vertex `1` failing its own validity check
(`numVertices <= 1`), where the source prints an error and returns. -/
def Grafo.algoritmoPrim (g : Grafo) : Option Int :=
  if g.numVertices ≤ 1 then none
  else
    let inicial : PrimEstado :=
      { chave := (List.replicate g.numVertices INFINITO).set 1 0,
        naArvore := List.replicate g.numVertices false,
        pai := List.replicate g.numVertices (-1) }
    some (g.custoPrim (primLoop g (g.numVertices - 1) inicial).pai)

/-! ### Connectivity check and Apaga-Reverso -/

/-- The recursive `dfsUtil(v, visitado)`: mark `v`, then recurse into every
unvisited neighbour.  Fuel `numVertices` is enough: every nested call marks a
previously unvisited vertex. -/
def dfsUtil (g : Grafo) : Nat → Nat → List Bool → List Bool
  | 0, _, visitado => visitado
  | fuel + 1, v, visitado =>
    (g.adj v).foldl
      (fun vis e =>
        if vis.getD e.verticeAdjacente false then vis
        else dfsUtil g fuel e.verticeAdjacente vis)
      (visitado.set v true)

/-- The isolation scan inside `estaConectadoDFS`: vertex `i` is isolated when
no other vertex has an edge to or from it. -/
def Grafo.verticeIsolado (g : Grafo) (i : Nat) : Bool :=
  (List.range g.numVertices).all
    (fun j => i == j || (!(g.arestaExiste i j) && !(g.arestaExiste j i)))

/-- The method `estaConectadoDFS()`: run a depth-first scan from vertex `0`,
then declare the graph disconnected on any unvisited vertex — except that an
unvisited vertex with an empty adjacency list only counts when it is fully
isolated (the source falls through, reporting nothing, for an unvisited
empty-list vertex that some other vertex still points at). -/
def Grafo.estaConectadoDFS (g : Grafo) : Bool :=
  if g.numVertices = 0 then true
  else
    let visitado := dfsUtil g g.numVertices 0 (List.replicate g.numVertices false)
    (List.range g.numVertices).all
      (fun i =>
        if visitado.getD i false then true
        else if (g.adj i).isEmpty && decide (1 < g.numVertices) then !(g.verticeIsolado i)
        else false)

/-- The method `algoritmoApagaReverso()`, modelled by the graph state it leaves
behind: collect the edges, sort descending by weight, and for each edge remove
it and put it back (with its own weight) exactly when the removal left the
graph disconnected.  (The `mstEdges` list the source also builds is dead code
and is not modelled.) -/
def Grafo.algoritmoApagaReverso (g : Grafo) : Grafo :=
  let arestas := g.coletaArestas.mergeSort (fun a b => b.peso ≤ a.peso)
  arestas.foldl
    (fun gr aresta =>
      let r := gr.removeAresta aresta.verticeOrigem aresta.verticeDestino
      if r.2 then
        if !(r.1.estaConectadoDFS) then
          r.1.adicionaAresta aresta.verticeOrigem aresta.verticeDestino aresta.peso
        else r.1
      else r.1)
    g

/-- The final cost loop of `algoritmoApagaReverso` (the value it prints): the
weight sum of the surviving edges, each undirected edge counted once via the
`origem < destino` convention — that is, the weight sum of `coletaArestas`. -/
def Grafo.custoTotalArestas (g : Grafo) : Int :=
  (g.coletaArestas.map Aresta.peso).sum

/-! ### Basic facts about the list-level helpers -/

/-- Adjacency lists whose destinations strictly increase, as maintained by the
sorted insertion. -/
def ListaOrdenada (l : List ElemLista) : Prop :=
  List.Pairwise (fun a b => a.verticeAdjacente < b.verticeAdjacente) l

theorem insereListaAux_none_mem {d : Nat} {p : Int} {l : List ElemLista}
    (h : insereListaAux d p l = none) : ∃ w, (⟨d, w⟩ : ElemLista) ∈ l := by
  induction l with
  | nil => simp [insereListaAux] at h
  | cons e resto ih =>
    by_cases h1 : e.verticeAdjacente < d
    · cases hrec : insereListaAux d p resto with
      | none =>
        obtain ⟨w, hw⟩ := ih hrec
        exact ⟨w, List.mem_cons_of_mem _ hw⟩
      | some l3 => simp [insereListaAux, h1, hrec] at h
    · by_cases h2 : e.verticeAdjacente = d
      · exact ⟨e.peso, by simp [← h2]⟩
      · simp [insereListaAux, h1, h2] at h

theorem insereListaAux_self_none {d : Nat} {p : Int} {l l2 : List ElemLista}
    (h : insereListaAux d p l = some l2) : insereListaAux d p l2 = none := by
  induction l generalizing l2 with
  | nil =>
    simp only [insereListaAux, Option.some_inj] at h
    simp [← h, insereListaAux]
  | cons e resto ih =>
    by_cases h1 : e.verticeAdjacente < d
    · cases hrec : insereListaAux d p resto with
      | none => simp [insereListaAux, h1, hrec] at h
      | some l3 =>
        have hl2 : l2 = e :: l3 := by
          simp [insereListaAux, h1, hrec] at h
          exact h.symm
        subst hl2
        simp [insereListaAux, h1, ih hrec]
    · by_cases h2 : e.verticeAdjacente = d
      · simp [insereListaAux, h1, h2] at h
      · simp only [insereListaAux, if_neg h1, if_neg h2, Option.some_inj] at h
        simp [← h, insereListaAux]

theorem mem_insereListaAux {d : Nat} {p : Int} {l l2 : List ElemLista}
    (h : insereListaAux d p l = some l2) (x : ElemLista) :
    x ∈ l2 ↔ x ∈ l ∨ x = ⟨d, p⟩ := by
  induction l generalizing l2 with
  | nil =>
    simp only [insereListaAux, Option.some_inj] at h
    simp [← h, or_comm]
  | cons e resto ih =>
    by_cases h1 : e.verticeAdjacente < d
    · cases hrec : insereListaAux d p resto with
      | none => simp [insereListaAux, h1, hrec] at h
      | some l3 =>
        have hl2 : l2 = e :: l3 := by
          simp [insereListaAux, h1, hrec] at h
          exact h.symm
        subst hl2
        simp [ih hrec, or_assoc]
    · by_cases h2 : e.verticeAdjacente = d
      · simp [insereListaAux, h1, h2] at h
      · simp only [insereListaAux, if_neg h1, if_neg h2, Option.some_inj] at h
        simp [← h]
        tauto

theorem insereListaAux_ordenada {d : Nat} {p : Int} {l l2 : List ElemLista}
    (hord : ListaOrdenada l) (h : insereListaAux d p l = some l2) :
    ListaOrdenada l2 := by
  induction l generalizing l2 with
  | nil =>
    simp only [insereListaAux, Option.some_inj] at h
    simp [← h, ListaOrdenada]
  | cons e resto ih =>
    rw [ListaOrdenada, List.pairwise_cons] at hord
    by_cases h1 : e.verticeAdjacente < d
    · cases hrec : insereListaAux d p resto with
      | none => simp [insereListaAux, h1, hrec] at h
      | some l3 =>
        have hl2 : l2 = e :: l3 := by
          simp [insereListaAux, h1, hrec] at h
          exact h.symm
        subst hl2
        rw [ListaOrdenada, List.pairwise_cons]
        refine ⟨fun y hy => ?_, ih hord.2 hrec⟩
        rcases (mem_insereListaAux hrec y).mp hy with hmem | rfl
        · exact hord.1 y hmem
        · exact h1
    · by_cases h2 : e.verticeAdjacente = d
      · simp [insereListaAux, h1, h2] at h
      · simp only [insereListaAux, if_neg h1, if_neg h2, Option.some_inj] at h
        subst h
        rw [ListaOrdenada, List.pairwise_cons]
        constructor
        · intro y hy
          show d < y.verticeAdjacente
          rcases List.mem_cons.mp hy with heq | hy2
          · rw [heq]
            omega
          · have := hord.1 y hy2
            omega
        · exact List.pairwise_cons.mpr hord

theorem insereListaAux_none_iff {d : Nat} {p : Int} {l : List ElemLista}
    (hord : ListaOrdenada l) :
    insereListaAux d p l = none ↔ ∃ w, (⟨d, w⟩ : ElemLista) ∈ l := by
  constructor
  · exact insereListaAux_none_mem
  · rintro ⟨w, hw⟩
    induction l with
    | nil => simp at hw
    | cons e resto ih =>
      rw [ListaOrdenada, List.pairwise_cons] at hord
      rcases List.mem_cons.mp hw with rfl | hw2
      · simp [insereListaAux]
      · have hlt : e.verticeAdjacente < d := hord.1 _ hw2
        cases hrec : insereListaAux d p resto with
        | none => simp [insereListaAux, hlt, hrec]
        | some l3 =>
          rw [ih hord.2 hw2] at hrec
          cases hrec

theorem removeListaAux_none_iff {d : Nat} {l : List ElemLista} (hord : ListaOrdenada l) :
    removeListaAux d l = none ↔ ∀ w, (⟨d, w⟩ : ElemLista) ∉ l := by
  induction l with
  | nil => simp [removeListaAux]
  | cons e resto ih =>
    rw [ListaOrdenada, List.pairwise_cons] at hord
    by_cases h1 : e.verticeAdjacente < d
    · cases hrec : removeListaAux d resto with
      | none =>
        simp only [removeListaAux, if_pos h1, hrec, Option.map_none', true_iff]
        intro w hw
        rcases List.mem_cons.mp hw with heq | hw2
        · have : e.verticeAdjacente = d := by rw [← heq]
          omega
        · exact (ih hord.2).mp hrec w hw2
      | some l3 =>
        simp only [removeListaAux, if_pos h1, hrec, Option.map_some']
        constructor
        · intro hcon
          cases hcon
        · intro hall
          have hne := (ih hord.2).not.mp (by simp [hrec])
          push_neg at hne
          obtain ⟨w, hw⟩ := hne
          exact ((hall w (List.mem_cons_of_mem _ hw)).elim)
    · by_cases h2 : e.verticeAdjacente = d
      · simp only [removeListaAux, if_neg h1, if_pos h2]
        constructor
        · intro hcon
          cases hcon
        · intro hall
          exact ((hall e.peso (by simp [← h2])).elim)
      · simp only [removeListaAux, if_neg h1, if_neg h2, true_iff]
        intro w hw
        rcases List.mem_cons.mp hw with heq | hw2
        · exact h2 (by rw [← heq])
        · have := hord.1 _ hw2
          simp at this
          omega

theorem mem_removeListaAux {d : Nat} {l l2 : List ElemLista} (hord : ListaOrdenada l)
    (h : removeListaAux d l = some l2) (x : ElemLista) :
    x ∈ l2 ↔ x ∈ l ∧ x.verticeAdjacente ≠ d := by
  induction l generalizing l2 with
  | nil => simp [removeListaAux] at h
  | cons e resto ih =>
    rw [ListaOrdenada, List.pairwise_cons] at hord
    by_cases h1 : e.verticeAdjacente < d
    · cases hrec : removeListaAux d resto with
      | none => simp [removeListaAux, h1, hrec] at h
      | some l3 =>
        have hl2 : l2 = e :: l3 := by
          simp [removeListaAux, h1, hrec] at h
          exact h.symm
        subst hl2
        simp only [List.mem_cons, ih hord.2 hrec]
        constructor
        · rintro (rfl | hx)
          · exact ⟨Or.inl rfl, by omega⟩
          · exact ⟨Or.inr hx.1, hx.2⟩
        · rintro ⟨rfl | hx, hne⟩
          · exact Or.inl rfl
          · exact Or.inr ⟨hx, hne⟩
    · by_cases h2 : e.verticeAdjacente = d
      · have hl2 : l2 = resto := by
          simp [removeListaAux, h1, h2] at h
          exact h.symm
        subst hl2
        constructor
        · intro hx
          refine ⟨List.mem_cons_of_mem _ hx, ?_⟩
          have := hord.1 _ hx
          omega
        · rintro ⟨hx, hne⟩
          rcases List.mem_cons.mp hx with heq | hx2
          · exfalso
            apply hne
            rw [heq, h2]
          · exact hx2
      · simp [removeListaAux, h1, h2] at h

theorem removeListaAux_ordenada {d : Nat} {l l2 : List ElemLista} (hord : ListaOrdenada l)
    (h : removeListaAux d l = some l2) : ListaOrdenada l2 := by
  induction l generalizing l2 with
  | nil => simp [removeListaAux] at h
  | cons e resto ih =>
    rw [ListaOrdenada, List.pairwise_cons] at hord
    by_cases h1 : e.verticeAdjacente < d
    · cases hrec : removeListaAux d resto with
      | none => simp [removeListaAux, h1, hrec] at h
      | some l3 =>
        have hl2 : l2 = e :: l3 := by
          simp [removeListaAux, h1, hrec] at h
          exact h.symm
        subst hl2
        rw [ListaOrdenada, List.pairwise_cons]
        refine ⟨fun y hy => ?_, ih hord.2 hrec⟩
        exact hord.1 y ((mem_removeListaAux hord.2 hrec y).mp hy).1
    · by_cases h2 : e.verticeAdjacente = d
      · have hl2 : l2 = resto := by
          simp [removeListaAux, h1, h2] at h
          exact h.symm
        subst hl2
        exact hord.2
      · simp [removeListaAux, h1, h2] at h

theorem arestaExisteLista_iff {d : Nat} {l : List ElemLista} (hord : ListaOrdenada l) :
    arestaExisteLista d l = true ↔ ∃ w, (⟨d, w⟩ : ElemLista) ∈ l := by
  induction l with
  | nil => simp [arestaExisteLista]
  | cons e resto ih =>
    rw [ListaOrdenada, List.pairwise_cons] at hord
    by_cases h1 : e.verticeAdjacente < d
    · rw [arestaExisteLista, if_pos h1, ih hord.2]
      constructor
      · rintro ⟨w, hw⟩
        exact ⟨w, List.mem_cons_of_mem _ hw⟩
      · rintro ⟨w, hw⟩
        rcases List.mem_cons.mp hw with heq | hw2
        · have : e.verticeAdjacente = d := by rw [← heq]
          omega
        · exact ⟨w, hw2⟩
    · rw [arestaExisteLista, if_neg h1]
      by_cases h2 : e.verticeAdjacente = d
      · simp only [h2, beq_self_eq_true, true_iff]
        exact ⟨e.peso, by simp [← h2]⟩
      · have hb : (e.verticeAdjacente == d) = false := by simp [h2]
        rw [hb]
        simp only [Bool.false_eq_true, false_iff]
        rintro ⟨w, hw⟩
        rcases List.mem_cons.mp hw with heq | hw2
        · exact h2 (by rw [← heq])
        · have := hord.1 _ hw2
          simp at this
          omega

/-! ### Scalar fields are untouched by the edge mutators -/

theorem insereArestaAux_campos (g : Grafo) (u v : Nat) (p : Int) :
    (g.insereArestaAux u v p).1.numVertices = g.numVertices ∧
    (g.insereArestaAux u v p).1.direcionado = g.direcionado ∧
    (g.insereArestaAux u v p).1.ponderado = g.ponderado ∧
    (g.insereArestaAux u v p).1.numArestas = g.numArestas ∧
    (g.insereArestaAux u v p).1.listaAdjacencia.length = g.listaAdjacencia.length := by
  rw [Grafo.insereArestaAux]
  cases insereListaAux v p (g.adj u) <;> simp

theorem removeArestaAux_campos (g : Grafo) (u v : Nat) :
    (g.removeArestaAux u v).1.numVertices = g.numVertices ∧
    (g.removeArestaAux u v).1.direcionado = g.direcionado ∧
    (g.removeArestaAux u v).1.ponderado = g.ponderado ∧
    (g.removeArestaAux u v).1.numArestas = g.numArestas ∧
    (g.removeArestaAux u v).1.listaAdjacencia.length = g.listaAdjacencia.length := by
  rw [Grafo.removeArestaAux]
  cases removeListaAux v (g.adj u) <;> simp

theorem adicionaAresta_campos (g : Grafo) (u v : Nat) (p : Int) :
    (g.adicionaAresta u v p).numVertices = g.numVertices ∧
    (g.adicionaAresta u v p).direcionado = g.direcionado ∧
    (g.adicionaAresta u v p).ponderado = g.ponderado ∧
    (g.adicionaAresta u v p).listaAdjacencia.length = g.listaAdjacencia.length := by
  rw [Grafo.adicionaAresta]
  by_cases hi : entradaInvalida g u v
  · simp [hi]
  · obtain ⟨a1, a2, a3, a4, a5⟩ := insereArestaAux_campos g u v (if g.ponderado then p else 1)
    obtain ⟨b1, b2, b3, b4, b5⟩ :=
      insereArestaAux_campos (g.insereArestaAux u v (if g.ponderado then p else 1)).1 v u
        (if g.ponderado then p else 1)
    cases hr : (g.insereArestaAux u v (if g.ponderado then p else 1)).2 <;>
      by_cases hd : g.direcionado <;>
      simp_all

theorem removeAresta_campos (g : Grafo) (u v : Nat) :
    (g.removeAresta u v).1.numVertices = g.numVertices ∧
    (g.removeAresta u v).1.direcionado = g.direcionado ∧
    (g.removeAresta u v).1.ponderado = g.ponderado ∧
    (g.removeAresta u v).1.listaAdjacencia.length = g.listaAdjacencia.length := by
  rw [Grafo.removeAresta]
  by_cases hi : entradaInvalida g u v
  · simp [hi]
  · obtain ⟨a1, a2, a3, a4, a5⟩ := removeArestaAux_campos g u v
    obtain ⟨b1, b2, b3, b4, b5⟩ := removeArestaAux_campos (g.removeArestaAux u v).1 v u
    cases hr : (g.removeArestaAux u v).2 <;>
      by_cases hd : g.direcionado <;>
      simp_all

theorem getD_set_ne {α : Type} (lst : List α) (u x : Nat) (a d : α) (h : x ≠ u) :
    (lst.set u a).getD x d = lst.getD x d := by
  simp [List.getD, List.getElem?_set_ne (Ne.symm h)]

theorem getD_set_self {α : Type} (lst : List α) (u : Nat) (a d : α) (h : u < lst.length) :
    (lst.set u a).getD u d = a := by
  simp [List.getD, List.getElem?_set_self, h]

/-- How `insereArestaAux` transforms the adjacency reads: on success the origin
list becomes the inserted list and every other list is untouched. -/
theorem insereArestaAux_adj (g : Grafo) (u v : Nat) (p : Int) :
    (∀ x, x ≠ u → (g.insereArestaAux u v p).1.adj x = g.adj x) ∧
    (insereListaAux v p (g.adj u) = none → g.insereArestaAux u v p = (g, false)) ∧
    (∀ l, insereListaAux v p (g.adj u) = some l → u < g.listaAdjacencia.length →
      (g.insereArestaAux u v p).1.adj u = l ∧ (g.insereArestaAux u v p).2 = true) := by
  refine ⟨?_, ?_, ?_⟩
  · intro x hx
    rw [Grafo.insereArestaAux]
    cases h : insereListaAux v p (g.adj u) with
    | none => rfl
    | some l => exact getD_set_ne g.listaAdjacencia u x l [] hx
  · intro h
    rw [Grafo.insereArestaAux, h]
  · intro l h hlen
    rw [Grafo.insereArestaAux, h]
    exact ⟨getD_set_self _ _ _ _ hlen, rfl⟩

/-- How `removeArestaAux` transforms the adjacency reads. -/
theorem removeArestaAux_adj (g : Grafo) (u v : Nat) :
    (∀ x, x ≠ u → (g.removeArestaAux u v).1.adj x = g.adj x) ∧
    (removeListaAux v (g.adj u) = none → g.removeArestaAux u v = (g, false)) ∧
    (∀ l, removeListaAux v (g.adj u) = some l → u < g.listaAdjacencia.length →
      (g.removeArestaAux u v).1.adj u = l ∧ (g.removeArestaAux u v).2 = true) := by
  refine ⟨?_, ?_, ?_⟩
  · intro x hx
    rw [Grafo.removeArestaAux]
    cases h : removeListaAux v (g.adj u) with
    | none => rfl
    | some l => exact getD_set_ne g.listaAdjacencia u x l [] hx
  · intro h
    rw [Grafo.removeArestaAux, h]
  · intro l h hlen
    rw [Grafo.removeArestaAux, h]
    exact ⟨getD_set_self _ _ _ _ hlen, rfl⟩

/-! ### Claim C7 -/

/-- C7: for every graph and every call `adicionaAresta(u, v, w)` with `u` or
`v` outside `[0, numVertices)` or with `u = v` — in particular
`adicionaAresta(0, 0, 5)` — the call inserts nothing and leaves `numArestas`
and the entire adjacency structure unchanged (the source reports the invalid
input by printing "Entrada invalida" and returns without touching the state;
the returned graph equals the argument). -/
theorem adicionaAresta_invalida_sem_efeito (g : Grafo) (u v : Nat) (w : Int)
    (h : g.numVertices ≤ u ∨ g.numVertices ≤ v ∨ u = v) :
    g.adicionaAresta u v w = g := by
  have hcond : entradaInvalida g u v = true := by
    rcases h with h | h | h <;> simp [entradaInvalida, h]
  rw [Grafo.adicionaAresta, if_pos hcond]

/-- Witness for C7: the concrete scenario addEdge(0, 0, 5) on a fresh
3-vertex graph. -/
theorem adicionaAresta_invalida_sem_efeito_witness :
    ((Grafo.nova 3 false true).numVertices ≤ 0 ∨ (Grafo.nova 3 false true).numVertices ≤ 0 ∨
      (0 : Nat) = 0) ∧
    (Grafo.nova 3 false true).adicionaAresta 0 0 5 = Grafo.nova 3 false true :=
  ⟨by decide, adicionaAresta_invalida_sem_efeito (Grafo.nova 3 false true) 0 0 5 (by decide)⟩

/-! ### Claim C9 -/

/-- C9: `adicionaArestaDirecionada(u, v, w)` performs the same bounds and
self-loop validation as `adicionaAresta` (the shared `entradaInvalida` check;
no effect when it holds), stores weight `1` when the graph is unweighted,
never touches any adjacency list other than the origin's — in particular it
never inserts the reverse entry `(v, u)`, whatever the `direcionado` flag —
and increments `numArestas` by 1 exactly when the forward insertion
succeeded. -/
theorem adicionaArestaDirecionada_contrato (g : Grafo) (u v : Nat) (w : Int) :
    (entradaInvalida g u v = true → g.adicionaArestaDirecionada u v w = g) ∧
    (g.ponderado = false →
      g.adicionaArestaDirecionada u v w = g.adicionaArestaDirecionada u v 1) ∧
    (∀ x, x ≠ u → (g.adicionaArestaDirecionada u v w).adj x = g.adj x) ∧
    (entradaInvalida g u v = false →
      (g.adicionaArestaDirecionada u v w).numArestas =
        g.numArestas +
          if (g.insereArestaAux u v (if g.ponderado then w else 1)).2 then 1 else 0) := by
  refine ⟨?_, ?_, ?_, ?_⟩
  · intro h
    rw [Grafo.adicionaArestaDirecionada, if_pos h]
  · intro hp
    rw [Grafo.adicionaArestaDirecionada, Grafo.adicionaArestaDirecionada]
    simp [hp]
  · intro x hx
    rw [Grafo.adicionaArestaDirecionada]
    by_cases hi : entradaInvalida g u v
    · simp [hi]
    · simp only [hi, Bool.false_eq_true, if_false]
      have hadj := (insereArestaAux_adj g u v (if g.ponderado then w else 1)).1 x hx
      cases hr : (g.insereArestaAux u v (if g.ponderado then w else 1)).2
      · simpa using hadj
      · simpa [Grafo.adj] using hadj
  · intro hi
    rw [Grafo.adicionaArestaDirecionada]
    simp only [hi, Bool.false_eq_true, if_false]
    have hnum := (insereArestaAux_campos g u v (if g.ponderado then w else 1)).2.2.2.1
    cases hr : (g.insereArestaAux u v (if g.ponderado then w else 1)).2 <;> simp [hnum]

/-- Witness for C9 on a fresh unweighted 3-vertex graph and the edge (0, 1). -/
theorem adicionaArestaDirecionada_contrato_witness :
    ((entradaInvalida (Grafo.nova 3 true false) 0 1 = true →
        (Grafo.nova 3 true false).adicionaArestaDirecionada 0 1 7 = Grafo.nova 3 true false) ∧
      ((Grafo.nova 3 true false).ponderado = false →
        (Grafo.nova 3 true false).adicionaArestaDirecionada 0 1 7 =
          (Grafo.nova 3 true false).adicionaArestaDirecionada 0 1 1) ∧
      (∀ x, x ≠ 0 → ((Grafo.nova 3 true false).adicionaArestaDirecionada 0 1 7).adj x =
        (Grafo.nova 3 true false).adj x) ∧
      (entradaInvalida (Grafo.nova 3 true false) 0 1 = false →
        ((Grafo.nova 3 true false).adicionaArestaDirecionada 0 1 7).numArestas =
          (Grafo.nova 3 true false).numArestas +
            if ((Grafo.nova 3 true false).insereArestaAux 0 1
                (if (Grafo.nova 3 true false).ponderado then 7 else 1)).2 then 1 else 0)) ∧
    ((Grafo.nova 3 true false).ponderado = false) ∧
    (entradaInvalida (Grafo.nova 3 true false) 0 1 = false) :=
  ⟨adicionaArestaDirecionada_contrato (Grafo.nova 3 true false) 0 1 7, by decide, by decide⟩

/-! ### Claim C8 -/

/-- C8: calling `adicionaAresta(u, v, w)` twice with the same valid arguments
leaves exactly the state of a single call — the second call walks to the entry
inserted by the first, finds it present, inserts nothing and does not change
`numArestas`.  The length hypothesis records that adjacency arrays always have
`numVertices` entries, as the constructor guarantees. -/
theorem adicionaAresta_idempotente (g : Grafo) (u v : Nat) (w : Int)
    (hlen : g.listaAdjacencia.length = g.numVertices)
    (hu : u < g.numVertices) (hv : v < g.numVertices) (huv : u ≠ v) :
    (g.adicionaAresta u v w).adicionaAresta u v w = g.adicionaAresta u v w := by
  have hval : entradaInvalida g u v = false := by
    simp only [entradaInvalida, Bool.or_eq_false_iff]
    refine ⟨⟨?_, ?_⟩, ?_⟩ <;> simp [Nat.not_le.mpr, hu, hv, huv]
  cases hins : insereListaAux v (if g.ponderado then w else 1) (g.adj u) with
  | none =>
    have : g.adicionaAresta u v w = g := by
      rw [Grafo.adicionaAresta]
      simp only [hval, Bool.false_eq_true, if_false]
      rw [(insereArestaAux_adj g u v (if g.ponderado then w else 1)).2.1 hins]
      rfl
    rw [this, this]
  | some l =>
    set pr := if g.ponderado then w else 1 with hpr
    have hu' : u < g.listaAdjacencia.length := by omega
    have hfwd := (insereArestaAux_adj g u v pr).2.2 l hins hu'
    have hcampos := adicionaAresta_campos g u v w
    have hadju : (g.adicionaAresta u v w).adj u = l := by
      rw [Grafo.adicionaAresta]
      simp only [hval, Bool.false_eq_true, if_false, ← hpr, hfwd.2, if_true]
      by_cases hd : g.direcionado
      · simp only [hd, Bool.not_true, Bool.false_eq_true, if_false]
        exact hfwd.1
      · simp only [Bool.not_eq_true] at hd
        simp only [hd, Bool.not_false, if_true]
        show ((g.insereArestaAux u v pr).1.insereArestaAux v u pr).1.adj u = l
        rw [(insereArestaAux_adj (g.insereArestaAux u v pr).1 v u pr).1 u huv]
        exact hfwd.1
    have hself : insereListaAux v pr ((g.adicionaAresta u v w).adj u) = none := by
      rw [hadju]
      exact insereListaAux_self_none hins
    have hval2 : entradaInvalida (g.adicionaAresta u v w) u v = false := by
      simp only [entradaInvalida, hcampos.1]
      simpa [entradaInvalida] using hval
    conv_lhs => rw [Grafo.adicionaAresta]
    simp only [hval2, Bool.false_eq_true, if_false, hcampos.2.2.1, ← hpr,
      (insereArestaAux_adj (g.adicionaAresta u v w) u v pr).2.1 hself]

/-- Witness for C8 on a fresh undirected weighted 3-vertex graph. -/
theorem adicionaAresta_idempotente_witness :
    ((Grafo.nova 3 false true).listaAdjacencia.length = (Grafo.nova 3 false true).numVertices ∧
      0 < (Grafo.nova 3 false true).numVertices ∧ 1 < (Grafo.nova 3 false true).numVertices ∧
      (0 : Nat) ≠ 1) ∧
    ((Grafo.nova 3 false true).adicionaAresta 0 1 5).adicionaAresta 0 1 5 =
      (Grafo.nova 3 false true).adicionaAresta 0 1 5 :=
  ⟨by decide, adicionaAresta_idempotente (Grafo.nova 3 false true) 0 1 5
    (by decide) (by decide) (by decide) (by decide)⟩

/-! ### Characterizations of the two-sided mutators on undirected graphs -/

theorem entradaInvalida_false {g : Grafo} {u v : Nat} (h : entradaInvalida g u v = false) :
    u < g.numVertices ∧ v < g.numVertices ∧ u ≠ v := by
  by_cases h1 : u < g.numVertices
  · by_cases h2 : v < g.numVertices
    · by_cases h3 : u = v
      · rw [show entradaInvalida g u v = true by simp [entradaInvalida, h3]] at h
        cases h
      · exact ⟨h1, h2, h3⟩
    · rw [show entradaInvalida g u v = true by simp [entradaInvalida]; omega] at h
      cases h
  · rw [show entradaInvalida g u v = true by simp [entradaInvalida]; omega] at h
    cases h

theorem adicionaAresta_fwd_none (g : Grafo) (u v : Nat) (w : Int)
    (hval : entradaInvalida g u v = false)
    (hins : insereListaAux v (if g.ponderado then w else 1) (g.adj u) = none) :
    g.adicionaAresta u v w = g := by
  rw [Grafo.adicionaAresta]
  simp only [hval, Bool.false_eq_true, if_false]
  rw [(insereArestaAux_adj g u v (if g.ponderado then w else 1)).2.1 hins]
  rfl

theorem adicionaAresta_ambos (g : Grafo) (u v : Nat) (w : Int)
    (hdir : g.direcionado = false) (hval : entradaInvalida g u v = false) (huv : u ≠ v)
    {l1 l2 : List ElemLista}
    (h1 : insereListaAux v (if g.ponderado then w else 1) (g.adj u) = some l1)
    (h2 : insereListaAux u (if g.ponderado then w else 1) (g.adj v) = some l2) :
    g.adicionaAresta u v w =
      { g with listaAdjacencia := (g.listaAdjacencia.set u l1).set v l2,
               numArestas := g.numArestas + 1 } := by
  have e1 : g.insereArestaAux u v (if g.ponderado then w else 1)
      = ({ g with listaAdjacencia := g.listaAdjacencia.set u l1 }, true) := by
    rw [Grafo.insereArestaAux, h1]
  have hadjv : ({ g with listaAdjacencia := g.listaAdjacencia.set u l1 } : Grafo).adj v
      = g.adj v := getD_set_ne g.listaAdjacencia u v l1 [] (Ne.symm huv)
  have e2 : ({ g with listaAdjacencia := g.listaAdjacencia.set u l1 } : Grafo).insereArestaAux v u
        (if g.ponderado then w else 1)
      = ({ g with listaAdjacencia := (g.listaAdjacencia.set u l1).set v l2 }, true) := by
    rw [Grafo.insereArestaAux]
    rw [show insereListaAux u (if g.ponderado then w else 1)
        (({ g with listaAdjacencia := g.listaAdjacencia.set u l1 } : Grafo).adj v) = some l2 by
      rw [hadjv]
      exact h2]
  rw [Grafo.adicionaAresta]
  simp only [hval, Bool.false_eq_true, if_false, hdir, Bool.not_false, if_true]
  rw [e1, if_pos rfl, e2]
  simp [hdir]

theorem removeAresta_fwd_none (g : Grafo) (u v : Nat)
    (hval : entradaInvalida g u v = false)
    (hrem : removeListaAux v (g.adj u) = none) :
    g.removeAresta u v = (g, false) := by
  rw [Grafo.removeAresta]
  simp only [hval, Bool.false_eq_true, if_false]
  rw [(removeArestaAux_adj g u v).2.1 hrem]
  rfl

theorem removeAresta_ambos (g : Grafo) (u v : Nat)
    (hdir : g.direcionado = false) (hval : entradaInvalida g u v = false) (huv : u ≠ v)
    {l1 l2 : List ElemLista}
    (h1 : removeListaAux v (g.adj u) = some l1)
    (h2 : removeListaAux u (g.adj v) = some l2) :
    g.removeAresta u v =
      ({ g with listaAdjacencia := (g.listaAdjacencia.set u l1).set v l2,
                numArestas := g.numArestas - 1 }, true) := by
  have e1 : g.removeArestaAux u v
      = ({ g with listaAdjacencia := g.listaAdjacencia.set u l1 }, true) := by
    rw [Grafo.removeArestaAux, h1]
  have hadjv : ({ g with listaAdjacencia := g.listaAdjacencia.set u l1 } : Grafo).adj v
      = g.adj v := getD_set_ne g.listaAdjacencia u v l1 [] (Ne.symm huv)
  have e2 : ({ g with listaAdjacencia := g.listaAdjacencia.set u l1 } : Grafo).removeArestaAux v u
      = ({ g with listaAdjacencia := (g.listaAdjacencia.set u l1).set v l2 }, true) := by
    rw [Grafo.removeArestaAux]
    rw [show removeListaAux u
        (({ g with listaAdjacencia := g.listaAdjacencia.set u l1 } : Grafo).adj v) = some l2 by
      rw [hadjv]
      exact h2]
  rw [Grafo.removeAresta]
  simp only [hval, Bool.false_eq_true, if_false, hdir, Bool.not_false, if_true]
  rw [e1, if_pos rfl, e2]
  simp [hdir]

/-! ### The symmetry invariant of undirected graphs (claim C4) -/

/-- The well-formedness of an undirected graph as built by the system: the
adjacency array has one (sorted) list per vertex, destinations are in range,
and an entry `u → (v, w)` exists iff the mirrored entry `v → (u, w)` does. -/
structure InvarianteSimetria (g : Grafo) : Prop where
  comprimento : g.listaAdjacencia.length = g.numVertices
  direcao : g.direcionado = false
  ordenada : ∀ u, ListaOrdenada (g.adj u)
  limites : ∀ u, ∀ e ∈ g.adj u, e.verticeAdjacente < g.numVertices
  simetrica : ∀ u v (w : Int),
    (⟨v, w⟩ : ElemLista) ∈ g.adj u ↔ (⟨u, w⟩ : ElemLista) ∈ g.adj v

theorem adj_nova (n : Nat) (d p : Bool) (u : Nat) : (Grafo.nova n d p).adj u = [] := by
  rw [Grafo.nova, Grafo.adj]
  simp only [List.getD, List.get?_eq_getElem?]
  rw [List.getElem?_replicate]
  split <;> rfl

theorem invarianteSimetria_nova (n : Nat) (p : Bool) :
    InvarianteSimetria (Grafo.nova n false p) := by
  constructor
  · simp [Grafo.nova]
  · rfl
  · intro u
    rw [adj_nova]
    exact List.Pairwise.nil
  · intro u e he
    rw [adj_nova] at he
    cases he
  · intro u v w
    rw [adj_nova, adj_nova]
    simp


theorem invarianteSimetria_adicionaAresta {g : Grafo} (hg : InvarianteSimetria g)
    (u v : Nat) (w : Int) : InvarianteSimetria (g.adicionaAresta u v w) := by
  by_cases hval : entradaInvalida g u v
  · rw [Grafo.adicionaAresta, if_pos hval]
    exact hg
  · have hval2 : entradaInvalida g u v = false := by
      cases h : entradaInvalida g u v
      · rfl
      · exact absurd h hval
    obtain ⟨hu, hv, huv⟩ := entradaInvalida_false hval2
    cases hins : insereListaAux v (if g.ponderado then w else 1) (g.adj u) with
    | none =>
      rw [adicionaAresta_fwd_none g u v w hval2 hins]
      exact hg
    | some l1 =>
      have hnotmem : ∀ x : Int, (⟨u, x⟩ : ElemLista) ∉ g.adj v := by
        intro x hmem
        have hm2 : (⟨v, x⟩ : ElemLista) ∈ g.adj u := (hg.simetrica v u x).mp hmem
        have : insereListaAux v (if g.ponderado then w else 1) (g.adj u) = none :=
          (insereListaAux_none_iff (hg.ordenada u)).mpr ⟨x, hm2⟩
        rw [this] at hins
        cases hins
      cases hins2 : insereListaAux u (if g.ponderado then w else 1) (g.adj v) with
      | none =>
        obtain ⟨x, hx⟩ := insereListaAux_none_mem hins2
        exact absurd hx (hnotmem x)
      | some l2 =>
        rw [adicionaAresta_ambos g u v w hg.direcao hval2 huv hins hins2]
        have hlu : u < g.listaAdjacencia.length := by
          rw [hg.comprimento]
          exact hu
        have hlv : v < g.listaAdjacencia.length := by
          rw [hg.comprimento]
          exact hv
        have hadju : ((g.listaAdjacencia.set u l1).set v l2).getD u [] = l1 := by
          rw [getD_set_ne _ _ _ _ _ huv]
          exact getD_set_self _ _ _ _ hlu
        have hadjv : ((g.listaAdjacencia.set u l1).set v l2).getD v [] = l2 :=
          getD_set_self _ _ _ _ (by simpa using hlv)
        have hadjo : ∀ x, x ≠ u → x ≠ v →
            ((g.listaAdjacencia.set u l1).set v l2).getD x [] = g.adj x := by
          intro x hxu hxv
          rw [getD_set_ne _ _ _ _ _ hxv, getD_set_ne _ _ _ _ _ hxu]
          rfl
        have memNew : ∀ (a b : Nat) (x : Int),
            (⟨b, x⟩ : ElemLista) ∈ ((g.listaAdjacencia.set u l1).set v l2).getD a [] ↔
            ((⟨b, x⟩ : ElemLista) ∈ g.adj a ∨
              (a = u ∧ b = v ∧ x = (if g.ponderado then w else 1)) ∨
              (a = v ∧ b = u ∧ x = (if g.ponderado then w else 1))) := by
          intro a b x
          by_cases hau : a = u
          · rw [hau, hadju, mem_insereListaAux hins]
            simp [ElemLista.mk.injEq, huv]
          · by_cases hav : a = v
            · rw [hav, hadjv, mem_insereListaAux hins2]
              simp [ElemLista.mk.injEq, Ne.symm huv]
            · rw [hadjo a hau hav]
              simp [hau, hav]
        refine ⟨by simp [hg.comprimento], hg.direcao, ?_, ?_, ?_⟩
        · intro a
          show ListaOrdenada (((g.listaAdjacencia.set u l1).set v l2).getD a [])
          by_cases hau : a = u
          · rw [hau, hadju]
            exact insereListaAux_ordenada (hg.ordenada u) hins
          · by_cases hav : a = v
            · rw [hav, hadjv]
              exact insereListaAux_ordenada (hg.ordenada v) hins2
            · rw [hadjo a hau hav]
              exact hg.ordenada a
        · intro a e he
          show e.verticeAdjacente < g.numVertices
          have hmem := (memNew a e.verticeAdjacente e.peso).mp he
          rcases hmem with hold | ⟨-, rfl, -⟩ | ⟨-, rfl, -⟩
          · exact hg.limites a e hold
          · exact hv
          · exact hu
        · intro a b x
          rw [show (({ g with
                listaAdjacencia := (g.listaAdjacencia.set u l1).set v l2,
                numArestas := g.numArestas + 1 } : Grafo).adj a)
              = ((g.listaAdjacencia.set u l1).set v l2).getD a [] from rfl]
          rw [show (({ g with
                listaAdjacencia := (g.listaAdjacencia.set u l1).set v l2,
                numArestas := g.numArestas + 1 } : Grafo).adj b)
              = ((g.listaAdjacencia.set u l1).set v l2).getD b [] from rfl]
          rw [memNew a b x, memNew b a x, hg.simetrica a b x]
          tauto

theorem invarianteSimetria_removeAresta {g : Grafo} (hg : InvarianteSimetria g)
    (u v : Nat) : InvarianteSimetria (g.removeAresta u v).1 := by
  by_cases hval : entradaInvalida g u v
  · rw [Grafo.removeAresta, if_pos hval]
    exact hg
  · have hval2 : entradaInvalida g u v = false := by
      cases h : entradaInvalida g u v
      · rfl
      · exact absurd h hval
    obtain ⟨hu, hv, huv⟩ := entradaInvalida_false hval2
    cases hrem : removeListaAux v (g.adj u) with
    | none =>
      rw [removeAresta_fwd_none g u v hval2 hrem]
      exact hg
    | some l1 =>
      have hmem1 : ¬ (∀ x : Int, (⟨v, x⟩ : ElemLista) ∉ g.adj u) := by
        intro hall
        have : removeListaAux v (g.adj u) = none :=
          (removeListaAux_none_iff (hg.ordenada u)).mpr hall
        rw [this] at hrem
        cases hrem
      cases hrem2 : removeListaAux u (g.adj v) with
      | none =>
        exfalso
        apply hmem1
        intro x hx
        have hm2 : (⟨u, x⟩ : ElemLista) ∈ g.adj v := (hg.simetrica u v x).mp hx
        exact (removeListaAux_none_iff (hg.ordenada v)).mp hrem2 x hm2
      | some l2 =>
        rw [removeAresta_ambos g u v hg.direcao hval2 huv hrem hrem2]
        have hlu : u < g.listaAdjacencia.length := by
          rw [hg.comprimento]
          exact hu
        have hlv : v < g.listaAdjacencia.length := by
          rw [hg.comprimento]
          exact hv
        have hadju : ((g.listaAdjacencia.set u l1).set v l2).getD u [] = l1 := by
          rw [getD_set_ne _ _ _ _ _ huv]
          exact getD_set_self _ _ _ _ hlu
        have hadjv : ((g.listaAdjacencia.set u l1).set v l2).getD v [] = l2 :=
          getD_set_self _ _ _ _ (by simpa using hlv)
        have hadjo : ∀ x, x ≠ u → x ≠ v →
            ((g.listaAdjacencia.set u l1).set v l2).getD x [] = g.adj x := by
          intro x hxu hxv
          rw [getD_set_ne _ _ _ _ _ hxv, getD_set_ne _ _ _ _ _ hxu]
          rfl
        have memNew : ∀ (a b : Nat) (x : Int),
            (⟨b, x⟩ : ElemLista) ∈ ((g.listaAdjacencia.set u l1).set v l2).getD a [] ↔
            ((⟨b, x⟩ : ElemLista) ∈ g.adj a ∧ ¬(a = u ∧ b = v) ∧ ¬(a = v ∧ b = u)) := by
          intro a b x
          by_cases hau : a = u
          · rw [hau, hadju, mem_removeListaAux (hg.ordenada u) hrem]
            simp [huv]
          · by_cases hav : a = v
            · rw [hav, hadjv, mem_removeListaAux (hg.ordenada v) hrem2]
              simp [Ne.symm huv]
            · rw [hadjo a hau hav]
              simp [hau, hav]
        refine ⟨by simp [hg.comprimento], hg.direcao, ?_, ?_, ?_⟩
        · intro a
          show ListaOrdenada (((g.listaAdjacencia.set u l1).set v l2).getD a [])
          by_cases hau : a = u
          · rw [hau, hadju]
            exact removeListaAux_ordenada (hg.ordenada u) hrem
          · by_cases hav : a = v
            · rw [hav, hadjv]
              exact removeListaAux_ordenada (hg.ordenada v) hrem2
            · rw [hadjo a hau hav]
              exact hg.ordenada a
        · intro a e he
          show e.verticeAdjacente < g.numVertices
          have hmem := (memNew a e.verticeAdjacente e.peso).mp he
          exact hg.limites a e hmem.1
        · intro a b x
          rw [show (({ g with
                listaAdjacencia := (g.listaAdjacencia.set u l1).set v l2,
                numArestas := g.numArestas - 1 } : Grafo).adj a)
              = ((g.listaAdjacencia.set u l1).set v l2).getD a [] from rfl]
          rw [show (({ g with
                listaAdjacencia := (g.listaAdjacencia.set u l1).set v l2,
                numArestas := g.numArestas - 1 } : Grafo).adj b)
              = ((g.listaAdjacencia.set u l1).set v l2).getD b [] from rfl]
          rw [memNew a b x, memNew b a x, hg.simetrica a b x]
          tauto


/-- An element of an arbitrary sequence of edge-mutator calls, as in claim C4. -/
inductive OperacaoAresta where
  | adiciona (u v : Nat) (w : Int)
  | remove (u v : Nat)
deriving DecidableEq, Repr

/-- Applying one mutator call to the graph. -/
def aplicaOperacao (g : Grafo) : OperacaoAresta → Grafo
  | OperacaoAresta.adiciona u v w => g.adicionaAresta u v w
  | OperacaoAresta.remove u v => (g.removeAresta u v).1

/-- Applying a sequence of mutator calls, first to last. -/
def aplicaOperacoes (g : Grafo) (ops : List OperacaoAresta) : Grafo :=
  ops.foldl aplicaOperacao g

theorem invarianteSimetria_aplicaOperacoes {g : Grafo} (hg : InvarianteSimetria g)
    (ops : List OperacaoAresta) : InvarianteSimetria (aplicaOperacoes g ops) := by
  induction ops generalizing g with
  | nil => exact hg
  | cons op resto ih =>
    show InvarianteSimetria (aplicaOperacoes (aplicaOperacao g op) resto)
    apply ih
    cases op with
    | adiciona u v w => exact invarianteSimetria_adicionaAresta hg u v w
    | remove u v => exact invarianteSimetria_removeAresta hg u v

theorem arestaExiste_simetrica {g : Grafo} (hg : InvarianteSimetria g) (u v : Nat) :
    g.arestaExiste u v = g.arestaExiste v u := by
  rw [Grafo.arestaExiste, Grafo.arestaExiste]
  by_cases h1 : g.numVertices ≤ u
  · by_cases h2 : g.numVertices ≤ v <;> simp [h1, h2]
  · by_cases h2 : g.numVertices ≤ v
    · simp [h1, h2]
    · rw [if_neg (by simp [h1, h2]), if_neg (by simp [h1, h2])]
      cases ha : arestaExisteLista v (g.adj u) with
      | true =>
        obtain ⟨x, hx⟩ := (arestaExisteLista_iff (hg.ordenada u)).mp ha
        have : (⟨u, x⟩ : ElemLista) ∈ g.adj v := (hg.simetrica u v x).mp hx
        exact ((arestaExisteLista_iff (hg.ordenada v)).mpr ⟨x, this⟩).symm
      | false =>
        cases hb : arestaExisteLista u (g.adj v) with
        | false => rfl
        | true =>
          obtain ⟨x, hx⟩ := (arestaExisteLista_iff (hg.ordenada v)).mp hb
          have hx2 : (⟨v, x⟩ : ElemLista) ∈ g.adj u := (hg.simetrica v u x).mp hx
          rw [(arestaExisteLista_iff (hg.ordenada u)).mpr ⟨x, hx2⟩] at ha
          cases ha

/-! ### Claim C4 -/

/-- C4: for every undirected graph (freshly constructed and then subjected to
any sequence of `adicionaAresta`/`removeAresta` calls) and every pair of
distinct vertices `(u, v)`, `arestaExiste(u, v)` equals `arestaExiste(v, u)`,
and `u`'s list holds an entry to `v` of weight `w` exactly when `v`'s list
holds an entry to `u` of the same weight `w`. -/
theorem simetria_apos_operacoes (n : Nat) (p : Bool) (ops : List OperacaoAresta)
    (u v : Nat) (_huv : u ≠ v) :
    ((aplicaOperacoes (Grafo.nova n false p) ops).arestaExiste u v =
      (aplicaOperacoes (Grafo.nova n false p) ops).arestaExiste v u) ∧
    ∀ w : Int,
      ((⟨v, w⟩ : ElemLista) ∈ (aplicaOperacoes (Grafo.nova n false p) ops).adj u ↔
        (⟨u, w⟩ : ElemLista) ∈ (aplicaOperacoes (Grafo.nova n false p) ops).adj v) := by
  have hg := invarianteSimetria_aplicaOperacoes (invarianteSimetria_nova n p) ops
  exact ⟨arestaExiste_simetrica hg u v, fun w => hg.simetrica u v w⟩

/-- Witness for C4: a 3-vertex graph after adding edges (0,1) and (1,2) and
removing (1,0). -/
theorem simetria_apos_operacoes_witness :
    ((0 : Nat) ≠ 1) ∧
    (((aplicaOperacoes (Grafo.nova 3 false true)
        [OperacaoAresta.adiciona 0 1 5, OperacaoAresta.adiciona 1 2 7,
          OperacaoAresta.remove 1 0]).arestaExiste 0 1 =
      (aplicaOperacoes (Grafo.nova 3 false true)
        [OperacaoAresta.adiciona 0 1 5, OperacaoAresta.adiciona 1 2 7,
          OperacaoAresta.remove 1 0]).arestaExiste 1 0) ∧
    ∀ w : Int,
      ((⟨1, w⟩ : ElemLista) ∈ (aplicaOperacoes (Grafo.nova 3 false true)
        [OperacaoAresta.adiciona 0 1 5, OperacaoAresta.adiciona 1 2 7,
          OperacaoAresta.remove 1 0]).adj 0 ↔
        (⟨0, w⟩ : ElemLista) ∈ (aplicaOperacoes (Grafo.nova 3 false true)
        [OperacaoAresta.adiciona 0 1 5, OperacaoAresta.adiciona 1 2 7,
          OperacaoAresta.remove 1 0]).adj 1)) :=
  ⟨by decide,
    simetria_apos_operacoes 3 true
      [OperacaoAresta.adiciona 0 1 5, OperacaoAresta.adiciona 1 2 7,
        OperacaoAresta.remove 1 0] 0 1 (by decide)⟩


/-! ### Walks in the adjacency structure, and claim C10 -/

/-- A walk through the adjacency structure from `u` to `v` whose edge weights
sum to `w` (growing at the far end). -/
inductive Caminho (g : Grafo) : Nat → Nat → Int → Prop
  | nulo (v : Nat) : Caminho g v v 0
  | passo {u v d : Nat} {acc p : Int} : Caminho g u v acc →
      (⟨d, p⟩ : ElemLista) ∈ g.adj v → Caminho g u d (acc + p)

theorem caminho_nova {n : Nat} {dct pnd : Bool} {u v : Nat} {w : Int}
    (h : Caminho (Grafo.nova n dct pnd) u v w) : u = v := by
  induction h with
  | nulo => rfl
  | passo hpre hmem ih =>
    rw [adj_nova] at hmem
    cases hmem

/-- Soundness invariant of the Dijkstra distance array: every entry is the
sentinel or the weight of an actual walk from the source, strictly below the
sentinel. -/
def InvarianteDijkstra (g : Grafo) (s : Nat) (dist : List Int) : Prop :=
  ∀ v, dist.getD v INFINITO = INFINITO ∨
    (Caminho g s v (dist.getD v INFINITO) ∧ dist.getD v INFINITO < INFINITO)

theorem getD_set_geral {α : Type} (lst : List α) (i v : Nat) (a d : α) :
    (lst.set i a).getD v d = lst.getD v d ∨
      ((lst.set i a).getD v d = a ∧ v = i ∧ i < lst.length) := by
  by_cases hvi : v = i
  · subst hvi
    by_cases hlen : v < lst.length
    · exact Or.inr ⟨getD_set_self lst v a d hlen, rfl, hlen⟩
    · rw [List.set_eq_of_length_le (Nat.le_of_not_lt hlen)]
      exact Or.inl rfl
  · exact Or.inl (getD_set_ne lst i v a d hvi)

theorem dijkstraRelaxaPasso_preserva {g : Grafo} {s u : Nat} {visitado : List Bool}
    {d : List Int} (hinv : InvarianteDijkstra g s d) {e : ElemLista} (he : e ∈ g.adj u) :
    InvarianteDijkstra g s (dijkstraRelaxaPasso u visitado d e) := by
  rw [dijkstraRelaxaPasso]
  split
  · next hcond =>
    intro v
    rcases getD_set_geral d e.verticeAdjacente v (d.getD u INFINITO + e.peso) INFINITO with
      hsame | ⟨hnew, hv, -⟩
    · rw [hsame]
      exact hinv v
    · rw [hnew]
      right
      obtain ⟨-, hu, hlt⟩ := hcond
      rcases hinv u with hinf | ⟨hcam, -⟩
      · exact absurd hinf hu
      · refine ⟨hv ▸ ?_, ?_⟩
        · exact Caminho.passo hcam (show (⟨e.verticeAdjacente, e.peso⟩ : ElemLista) ∈ g.adj u
            from he)
        · calc d.getD u INFINITO + e.peso < d.getD v INFINITO := hv ▸ hlt
            _ ≤ INFINITO := by
              rcases hinv v with h | ⟨-, h⟩
              · rw [h]
              · exact le_of_lt h
  · exact hinv

theorem dijkstraRelaxa_preserva {g : Grafo} {s u : Nat} (visitado : List Bool)
    {dist : List Int} (hinv : InvarianteDijkstra g s dist) :
    InvarianteDijkstra g s (dijkstraRelaxa g u visitado dist) := by
  rw [dijkstraRelaxa]
  have hgen : ∀ (l : List ElemLista), (∀ e ∈ l, e ∈ g.adj u) → ∀ d : List Int,
      InvarianteDijkstra g s d →
      InvarianteDijkstra g s (l.foldl (dijkstraRelaxaPasso u visitado) d) := by
    intro l
    induction l with
    | nil => exact fun _ d hd => hd
    | cons e resto ih =>
      intro hl d hd
      exact ih (fun x hx => hl x (List.mem_cons_of_mem _ hx))
        (dijkstraRelaxaPasso u visitado d e)
        (dijkstraRelaxaPasso_preserva hd (hl e (List.mem_cons_self e resto)))
  exact hgen (g.adj u) (fun e he => he) dist hinv

theorem dijkstraLoop_preserva {g : Grafo} {s : Nat} (fuel : Nat)
    (dist : List Int) (vis : List Bool) (hinv : InvarianteDijkstra g s dist) :
    InvarianteDijkstra g s (dijkstraLoop g fuel dist vis).1 := by
  induction fuel generalizing dist vis with
  | zero => exact hinv
  | succ k ih =>
    rw [dijkstraLoop]
    cases hsel : (selecionaMinimo dist vis g.numVertices).1 with
    | none => exact hinv
    | some u => exact ih _ _ (dijkstraRelaxa_preserva _ hinv)

theorem invarianteDijkstra_inicial (g : Grafo) (s : Nat) :
    InvarianteDijkstra g s ((List.replicate g.numVertices INFINITO).set s 0) := by
  intro v
  rcases getD_set_geral (List.replicate g.numVertices INFINITO) s v 0 INFINITO with
    hsame | ⟨hnew, hv, -⟩
  · left
    rw [hsame]
    by_cases hlt : v < g.numVertices
    · simp [List.getD, List.get?_eq_getElem?, List.getElem?_replicate, hlt]
    · simp [List.getD, List.get?_eq_getElem?, List.getElem?_replicate, hlt]
  · right
    rw [hnew, hv]
    exact ⟨Caminho.nulo s, by rw [INFINITO]; omega⟩

/-- C10: every entry of the distance vector `algoritmoDijkstra` produces is at
most the sentinel `999999`; and if every walk from the source to `v` weighs at
least `999999` — in particular when `v` is reachable only at true distance
`≥ 999999` — then `v` is left exactly at the sentinel, indistinguishable from
an unreachable vertex. -/
theorem algoritmoDijkstra_sentinela (g : Grafo) (s v : Nat) :
    ((g.algoritmoDijkstra s).getD v INFINITO ≤ INFINITO) ∧
    ((∀ w : Int, Caminho g s v w → INFINITO ≤ w) →
      (g.algoritmoDijkstra s).getD v INFINITO = INFINITO) := by
  have hfinal : InvarianteDijkstra g s (g.algoritmoDijkstra s) :=
    dijkstraLoop_preserva (g.numVertices - 1) _ _ (invarianteDijkstra_inicial g s)
  constructor
  · rcases hfinal v with h | ⟨-, h⟩
    · rw [h]
    · exact le_of_lt h
  · intro hall
    rcases hfinal v with h | ⟨hcam, hlt⟩
    · exact h
    · exact absurd (hall _ hcam) (not_le.mpr hlt)

/-- Witness for C10 at the edgeless 2-vertex graph, where vertex 1 admits no
walk from vertex 0 at all. -/
theorem algoritmoDijkstra_sentinela_witness :
    (∀ w : Int, Caminho (Grafo.nova 2 false true) 0 1 w → INFINITO ≤ w) ∧
    ((Grafo.nova 2 false true).algoritmoDijkstra 0).getD 1 INFINITO ≤ INFINITO ∧
    ((Grafo.nova 2 false true).algoritmoDijkstra 0).getD 1 INFINITO = INFINITO :=
  have hp : ∀ w : Int, Caminho (Grafo.nova 2 false true) 0 1 w → INFINITO ≤ w :=
    fun w h => absurd (caminho_nova h) (by decide)
  ⟨hp, (algoritmoDijkstra_sentinela (Grafo.nova 2 false true) 0 1).1,
    (algoritmoDijkstra_sentinela (Grafo.nova 2 false true) 0 1).2 hp⟩


/-! ### Well-formedness, and claim C5 (BFS) -/

/-- The shape every graph of the system has: one adjacency list per vertex and
in-range destinations (guaranteed by the constructor and the mutators). -/
structure BemFormado (g : Grafo) : Prop where
  comprimento : g.listaAdjacencia.length = g.numVertices
  limites : ∀ u, ∀ e ∈ g.adj u, e.verticeAdjacente < g.numVertices

theorem bemFormado_nova (n : Nat) (d p : Bool) : BemFormado (Grafo.nova n d p) := by
  constructor
  · simp [Grafo.nova]
  · intro u e he
    rw [adj_nova] at he
    cases he

theorem removeListaAux_subset {d : Nat} {l l2 : List ElemLista}
    (h : removeListaAux d l = some l2) : ∀ x ∈ l2, x ∈ l := by
  induction l generalizing l2 with
  | nil => simp [removeListaAux] at h
  | cons e resto ih =>
    by_cases h1 : e.verticeAdjacente < d
    · cases hrec : removeListaAux d resto with
      | none => simp [removeListaAux, h1, hrec] at h
      | some l3 =>
        have hl2 : l2 = e :: l3 := by
          simp [removeListaAux, h1, hrec] at h
          exact h.symm
        subst hl2
        intro x hx
        rcases List.mem_cons.mp hx with heq | hx2
        · exact heq ▸ List.mem_cons_self e resto
        · exact List.mem_cons_of_mem _ (ih hrec x hx2)
    · by_cases h2 : e.verticeAdjacente = d
      · have hl2 : l2 = resto := by
          simp [removeListaAux, h1, h2] at h
          exact h.symm
        subst hl2
        exact fun x hx => List.mem_cons_of_mem _ hx
      · simp [removeListaAux, h1, h2] at h

theorem count_true_set {vis : List Bool} {w : Nat} (hw : w < vis.length)
    (hf : vis.getD w false = false) :
    (vis.set w true).count true = vis.count true + 1 := by
  induction vis generalizing w with
  | nil => cases hw
  | cons b resto ih =>
    cases w with
    | zero =>
      have hb : b = false := by simpa using hf
      subst hb
      simp [List.count_cons]
    | succ k =>
      have hk : k < resto.length := by simpa using hw
      have hf2 : resto.getD k false = false := by simpa using hf
      simp only [List.set, List.count_cons, ih hk hf2]
      omega

theorem count_true_lt {vis : List Bool} {w : Nat} (hw : w < vis.length)
    (hf : vis.getD w false = false) : vis.count true < vis.length := by
  induction vis generalizing w with
  | nil => cases hw
  | cons b resto ih =>
    cases w with
    | zero =>
      have hb : b = false := by simpa using hf
      subst hb
      have := List.count_le_length true resto
      simp [List.count_cons]
      omega
    | succ k =>
      have hk : k < resto.length := by simpa using hw
      have hf2 : resto.getD k false = false := by simpa using hf
      have := ih hk hf2
      simp only [List.count_cons, List.length_cons]
      have hb : (if (b == true) = true then 1 else 0) ≤ 1 := by split <;> omega
      omega

/-- The loop invariant of `algoritmoBFS` except the closure property: sizes,
the source pinned at distance `0` and visited, queue members visited and in
range, unvisited vertices at the sentinel, every visited non-source vertex one
step beyond a visited parent, visited distances below the visited count, and
the enqueue log duplicate-free and in bijection with the visited set. -/
structure QuaseInvBFS (g : Grafo) (s : Nat) (st : BFSEstado) : Prop where
  dlen : st.distancias.length = g.numVertices
  vlen : st.visitado.length = g.numVertices
  fonte_dist : st.distancias.getD s INFINITO = 0
  fonte_vis : st.visitado.getD s false = true
  fila_vis : ∀ u ∈ st.fila, st.visitado.getD u false = true
  fila_limite : ∀ u ∈ st.fila, u < g.numVertices
  nao_visitado : ∀ v, st.visitado.getD v false = false →
    st.distancias.getD v INFINITO = INFINITO
  visitado_pai : ∀ v < g.numVertices, st.visitado.getD v false = true → v ≠ s →
    ∃ u, u < g.numVertices ∧ st.visitado.getD u false = true ∧
      (∃ p : Int, (⟨v, p⟩ : ElemLista) ∈ g.adj u) ∧
      st.distancias.getD v INFINITO = st.distancias.getD u INFINITO + 1
  dist_limite : ∀ v, st.visitado.getD v false = true →
    st.distancias.getD v INFINITO < (st.visitado.count true : Int)
  log_nodup : st.log.Nodup
  log_vis : ∀ u, u ∈ st.log ↔ st.visitado.getD u false = true

/-- The closure property: a visited vertex no longer in the queue has had all
its neighbours visited. -/
def FechoBFS (g : Grafo) (st : BFSEstado) : Prop :=
  ∀ x, st.visitado.getD x false = true → x ∉ st.fila →
    ∀ e ∈ g.adj x, st.visitado.getD e.verticeAdjacente false = true


theorem getD_vis_set_mono {vis : List Bool} {w x : Nat} (h : vis.getD x false = true) :
    (vis.set w true).getD x false = true := by
  rcases getD_set_geral vis w x true false with hs | ⟨hs, -, -⟩
  · rw [hs]
    exact h
  · rw [hs]

/-- The facts the neighbour loop of `algoritmoBFS` establishes: the invariant
is preserved, visitedness is monotone, every processed neighbour ends visited,
the queue only grows and only by previously unvisited vertices, every visited
vertex is old or enqueued, visited distances are frozen, and the quantity
`fila.length + (numVertices - visitedCount)` is unchanged. -/
theorem bfsVizinhos_spec {g : Grafo} {s u : Nat} (hwf : BemFormado g)
    (hu : u < g.numVertices) :
    ∀ (l : List ElemLista), (∀ e ∈ l, e ∈ g.adj u) →
    ∀ st : BFSEstado, QuaseInvBFS g s st →
      st.visitado.getD u false = true →
      QuaseInvBFS g s (bfsVizinhos u l st) ∧
      (∀ x, st.visitado.getD x false = true →
        (bfsVizinhos u l st).visitado.getD x false = true) ∧
      (∀ e ∈ l, (bfsVizinhos u l st).visitado.getD e.verticeAdjacente false = true) ∧
      (∃ extras : List Nat, (bfsVizinhos u l st).fila = st.fila ++ extras) ∧
      (∀ x, x ∈ (bfsVizinhos u l st).fila →
        x ∈ st.fila ∨ st.visitado.getD x false = false) ∧
      (∀ x, (bfsVizinhos u l st).visitado.getD x false = true →
        st.visitado.getD x false = true ∨ x ∈ (bfsVizinhos u l st).fila) ∧
      (∀ x, st.visitado.getD x false = true →
        (bfsVizinhos u l st).distancias.getD x INFINITO =
          st.distancias.getD x INFINITO) ∧
      ((bfsVizinhos u l st).fila.length +
          (g.numVertices - (bfsVizinhos u l st).visitado.count true)
        = st.fila.length + (g.numVertices - st.visitado.count true)) := by
  intro l
  induction l with
  | nil =>
    intro hl st hinv huvis
    rw [bfsVizinhos]
    exact ⟨hinv, fun x h => h, by simp, ⟨[], by simp⟩, fun x hx => Or.inl hx,
      fun x h => Or.inl h, fun x _ => rfl, rfl⟩
  | cons e resto ih =>
    intro hl st hinv huvis
    have hee : e ∈ g.adj u := hl e (List.mem_cons_self e resto)
    have hlr : ∀ x ∈ resto, x ∈ g.adj u := fun x hx => hl x (List.mem_cons_of_mem _ hx)
    by_cases hvw : st.visitado.getD e.verticeAdjacente false = true
    · rw [show bfsVizinhos u (e :: resto) st = bfsVizinhos u resto st by
        rw [bfsVizinhos, if_pos hvw]]
      obtain ⟨c1, c2, c3, c4, c5, c6, c7, c8⟩ := ih hlr st hinv huvis
      exact ⟨c1, c2, fun x hx => by
          rcases List.mem_cons.mp hx with heq | hx2
          · exact heq ▸ c2 _ hvw
          · exact c3 x hx2,
        c4, c5, c6, c7, c8⟩
    · have hvwf : st.visitado.getD e.verticeAdjacente false = false := by
        cases h : st.visitado.getD e.verticeAdjacente false
        · rfl
        · exact absurd h hvw
      set w := e.verticeAdjacente with hwdef
      have hwn : w < g.numVertices := hwf.limites u e hee
      have hwv : w < st.visitado.length := by rw [hinv.vlen]; exact hwn
      have hwd : w < st.distancias.length := by rw [hinv.dlen]; exact hwn
      have huw : u ≠ w := fun h => by rw [← h] at hvwf; rw [huvis] at hvwf; cases hvwf
      have hsw : s ≠ w := fun h => by
        rw [← h] at hvwf
        rw [hinv.fonte_vis] at hvwf
        cases hvwf
      set st2 : BFSEstado :=
        { distancias := st.distancias.set w (st.distancias.getD u INFINITO + 1),
          visitado := st.visitado.set w true,
          fila := st.fila ++ [w],
          log := st.log ++ [w] } with hst2
      have hstep : bfsVizinhos u (e :: resto) st = bfsVizinhos u resto st2 := by
        rw [bfsVizinhos, if_neg (by rw [hvwf]; exact Bool.false_ne_true)]
      have hviss : st2.visitado.getD w false = true := getD_set_self _ _ _ _ hwv
      have hdistw : st2.distancias.getD w INFINITO = st.distancias.getD u INFINITO + 1 :=
        getD_set_self _ _ _ _ hwd
      have hvis_ne : ∀ x, x ≠ w → st2.visitado.getD x false = st.visitado.getD x false :=
        fun x hx => getD_set_ne _ _ _ _ _ hx
      have hdist_ne : ∀ x, x ≠ w → st2.distancias.getD x INFINITO =
          st.distancias.getD x INFINITO :=
        fun x hx => getD_set_ne _ _ _ _ _ hx
      have hcnt : st2.visitado.count true = st.visitado.count true + 1 :=
        count_true_set hwv hvwf
      have hcntlt : st.visitado.count true < g.numVertices := by
        rw [← hinv.vlen]
        exact count_true_lt hwv hvwf
      have hinv2 : QuaseInvBFS g s st2 := by
        constructor
        · simp [hst2, hinv.dlen]
        · simp [hst2, hinv.vlen]
        · rw [show st2.distancias.getD s INFINITO = st.distancias.getD s INFINITO from
            hdist_ne s hsw]
          exact hinv.fonte_dist
        · rw [show st2.visitado.getD s false = st.visitado.getD s false from
            hvis_ne s hsw]
          exact hinv.fonte_vis
        · intro x hx
          rcases List.mem_append.mp hx with hx1 | hx2
          · exact getD_vis_set_mono (hinv.fila_vis x hx1)
          · rw [List.mem_singleton.mp hx2]
            exact hviss
        · intro x hx
          rcases List.mem_append.mp hx with hx1 | hx2
          · exact hinv.fila_limite x hx1
          · rw [List.mem_singleton.mp hx2]
            exact hwn
        · intro v hv
          by_cases hvwq : v = w
          · rw [hvwq, hviss] at hv
            cases hv
          · rw [hvis_ne v hvwq] at hv
            rw [hdist_ne v hvwq]
            exact hinv.nao_visitado v hv
        · intro v hvn hv hvs
          by_cases hvwq : v = w
          · refine ⟨u, hu, ?_, ?_, ?_⟩
            · exact getD_vis_set_mono huvis
            · exact ⟨e.peso, by rw [hvwq, hwdef]; exact hee⟩
            · rw [hvwq, hdistw, show st2.distancias.getD u INFINITO =
                st.distancias.getD u INFINITO from hdist_ne u huw]
          · rw [hvis_ne v hvwq] at hv
            obtain ⟨u2, hu2n, hu2v, hu2e, hu2d⟩ := hinv.visitado_pai v hvn hv hvs
            have hu2w : u2 ≠ w := fun h => by
              rw [h] at hu2v
              rw [hu2v] at hvwf
              cases hvwf
            exact ⟨u2, hu2n, getD_vis_set_mono hu2v, hu2e, by
              rw [hdist_ne v hvwq, hdist_ne u2 hu2w]
              exact hu2d⟩
        · intro v hv
          rw [hcnt]
          push_cast
          by_cases hvwq : v = w
          · rw [hvwq, hdistw]
            have := hinv.dist_limite u huvis
            omega
          · rw [hvis_ne v hvwq] at hv
            rw [hdist_ne v hvwq]
            have := hinv.dist_limite v hv
            omega
        · have hwlog : w ∉ st.log := fun h => by
            rw [(hinv.log_vis w).mp h] at hvwf
            cases hvwf
          simp [hst2, List.nodup_append, hinv.log_nodup, hwlog]
        · intro x
          show x ∈ st.log ++ [w] ↔ (st.visitado.set w true).getD x false = true
          rw [List.mem_append, List.mem_singleton, hinv.log_vis x]
          by_cases hxw : x = w
          · rw [hxw, getD_set_self _ _ _ _ hwv]
            simp
          · rw [show (st.visitado.set w true).getD x false = st.visitado.getD x false from
              getD_set_ne _ _ _ _ _ hxw]
            simp [hxw]
      obtain ⟨c1, c2, c3, c4, c5, c6, c7, c8⟩ :=
        ih hlr st2 hinv2 (getD_vis_set_mono huvis)
      rw [hstep]
      have hmono : ∀ x, st.visitado.getD x false = true →
          (bfsVizinhos u resto st2).visitado.getD x false = true :=
        fun x hx => c2 x (getD_vis_set_mono hx)
      refine ⟨c1, hmono, ?_, ?_, ?_, ?_, ?_, ?_⟩
      · intro x hx
        rcases List.mem_cons.mp hx with heq | hx2
        · rw [heq]
          exact c2 w hviss
        · exact c3 x hx2
      · obtain ⟨extras, hextras⟩ := c4
        exact ⟨w :: extras, by rw [hextras, hst2]; simp⟩
      · intro x hx
        rcases c5 x hx with hx1 | hx2
        · rcases List.mem_append.mp (by rw [hst2] at hx1; exact hx1) with h1 | h2
          · exact Or.inl h1
          · rw [List.mem_singleton.mp h2]
            exact Or.inr hvwf
        · by_cases hxw : x = w
          · rw [hxw]
            exact Or.inr hvwf
          · rw [hvis_ne x hxw] at hx2
            exact Or.inr hx2
      · intro x hx
        rcases c6 x hx with hx1 | hx2
        · by_cases hxw : x = w
          · right
            obtain ⟨extras, hextras⟩ := c4
            rw [hextras]
            apply List.mem_append_left
            rw [hst2, hxw]
            simp
          · rw [hvis_ne x hxw] at hx1
            exact Or.inl hx1
        · exact Or.inr hx2
      · intro x hx
        have hxw : x ≠ w := fun h => by
          rw [h] at hx
          rw [hx] at hvwf
          cases hvwf
        rw [c7 x (getD_vis_set_mono hx), hdist_ne x hxw]
      · rw [c8]
        have : st2.fila.length = st.fila.length + 1 := by
          rw [hst2]
          simp
        rw [this, hcnt]
        omega


theorem bfsLoop_spec {g : Grafo} {s : Nat} (hwf : BemFormado g) :
    ∀ (fuel : Nat) (st : BFSEstado), QuaseInvBFS g s st → FechoBFS g st →
      st.fila.length + (g.numVertices - st.visitado.count true) ≤ fuel →
      QuaseInvBFS g s (bfsLoop g fuel st) ∧ FechoBFS g (bfsLoop g fuel st) ∧
      (bfsLoop g fuel st).fila = [] := by
  intro fuel
  induction fuel with
  | zero =>
    intro st hinv hfecho hm
    have hnil : st.fila = [] := List.length_eq_zero.mp (by omega)
    rw [bfsLoop]
    exact ⟨hinv, hfecho, hnil⟩
  | succ k ih =>
    intro st hinv hfecho hm
    cases hfila : st.fila with
    | nil =>
      rw [show bfsLoop g (k + 1) st = st by rw [bfsLoop, hfila]]
      exact ⟨hinv, hfecho, hfila⟩
    | cons u resto =>
      have hu_mem : u ∈ st.fila := by
        rw [hfila]
        exact List.mem_cons_self u resto
      have huvis : st.visitado.getD u false = true := hinv.fila_vis u hu_mem
      have hun : u < g.numVertices := hinv.fila_limite u hu_mem
      set st0 : BFSEstado := { st with fila := resto } with hst0
      have hinv0 : QuaseInvBFS g s st0 := by
        constructor
        · exact hinv.dlen
        · exact hinv.vlen
        · exact hinv.fonte_dist
        · exact hinv.fonte_vis
        · intro x hx
          exact hinv.fila_vis x (by rw [hfila]; exact List.mem_cons_of_mem _ hx)
        · intro x hx
          exact hinv.fila_limite x (by rw [hfila]; exact List.mem_cons_of_mem _ hx)
        · exact hinv.nao_visitado
        · exact hinv.visitado_pai
        · exact hinv.dist_limite
        · exact hinv.log_nodup
        · exact hinv.log_vis
      obtain ⟨c1, c2, c3, c4, c5, c6, c7, c8⟩ :=
        bfsVizinhos_spec hwf hun (g.adj u) (fun e he => he) st0 hinv0 huvis
      have hfecho2 : FechoBFS g (bfsVizinhos u (g.adj u) st0) := by
        intro x hx hxfila e he
        rcases c6 x hx with hxold | hxfila2
        · by_cases hxu : x = u
          · exact c3 e (hxu ▸ he)
          · have hx_st : x ∉ st.fila := by
              rw [hfila]
              intro hmem
              rcases List.mem_cons.mp hmem with heq | hmem2
              · exact hxu heq
              · obtain ⟨extras, hextras⟩ := c4
                apply hxfila
                rw [hextras]
                exact List.mem_append_left _ hmem2
            exact c2 _ (hfecho x hxold hx_st e he)
        · exact absurd hxfila2 hxfila
      have hmeasure : (bfsVizinhos u (g.adj u) st0).fila.length +
          (g.numVertices - (bfsVizinhos u (g.adj u) st0).visitado.count true) ≤ k := by
        rw [c8]
        have : st.fila.length = resto.length + 1 := by rw [hfila]; rfl
        rw [hst0] at *
        simp only at hm ⊢
        omega
      rw [show bfsLoop g (k + 1) st = bfsLoop g k (bfsVizinhos u (g.adj u) st0) by
        rw [bfsLoop, hfila]]
      exact ih (bfsVizinhos u (g.adj u) st0) c1 hfecho2 hmeasure

theorem bfsInicial_spec (g : Grafo) (s : Nat) (hs : s < g.numVertices) :
    QuaseInvBFS g s (bfsInicial g s) ∧ FechoBFS g (bfsInicial g s) ∧
      (bfsInicial g s).fila.length +
        (g.numVertices - (bfsInicial g s).visitado.count true) ≤ g.numVertices := by
  have hld : ((List.replicate g.numVertices INFINITO).set s 0).length = g.numVertices := by
    simp
  have hlv : ((List.replicate g.numVertices false).set s true).length = g.numVertices := by
    simp
  have hsd : s < (List.replicate g.numVertices (INFINITO : Int)).length := by
    simpa using hs
  have hsv : s < (List.replicate g.numVertices false).length := by simpa using hs
  have hvis : ∀ x, ((List.replicate g.numVertices false).set s true).getD x false = true ↔
      x = s := by
    intro x
    constructor
    · intro hx
      by_contra hxs
      rw [getD_set_ne _ _ _ _ _ hxs] at hx
      by_cases hxn : x < g.numVertices
      · simp [List.getD, List.get?_eq_getElem?, List.getElem?_replicate, hxn] at hx
      · simp [List.getD, List.get?_eq_getElem?, List.getElem?_replicate, hxn] at hx
    · intro hx
      rw [hx]
      exact getD_set_self _ _ _ _ hsv
  have hdist : ∀ x, x ≠ s →
      ((List.replicate g.numVertices INFINITO).set s 0).getD x INFINITO = INFINITO := by
    intro x hx
    rw [getD_set_ne _ _ _ _ _ hx]
    by_cases hxn : x < g.numVertices
    · simp [List.getD, List.get?_eq_getElem?, List.getElem?_replicate, hxn]
    · simp [List.getD, List.get?_eq_getElem?, List.getElem?_replicate, hxn]
  have hcnt1 : ((List.replicate g.numVertices false).set s true).count true = 1 := by
    have h0 : (List.replicate g.numVertices false).getD s false = false := by
      simp [List.getD, List.get?_eq_getElem?, List.getElem?_replicate, hs]
    rw [count_true_set hsv h0]
    simp [List.count_replicate]
  refine ⟨?_, ?_, ?_⟩
  · constructor
    · exact hld
    · exact hlv
    · exact getD_set_self _ _ _ _ hsd
    · exact getD_set_self _ _ _ _ hsv
    · intro x hx
      rw [List.mem_singleton.mp hx]
      exact getD_set_self _ _ _ _ hsv
    · intro x hx
      rw [List.mem_singleton.mp hx]
      exact hs
    · intro v hv
      have hvs : v ≠ s := by
        intro heq
        rw [heq] at hv
        have hts : (bfsInicial g s).visitado.getD s false = true :=
          getD_set_self _ _ _ _ hsv
        rw [hts] at hv
        cases hv
      exact hdist v hvs
    · intro v hvn hv hvs
      exact absurd ((hvis v).mp hv) hvs
    · intro v hv
      have hvs : v = s := (hvis v).mp hv
      rw [hvs]
      show ((List.replicate g.numVertices INFINITO).set s 0).getD s INFINITO <
        ((((List.replicate g.numVertices false).set s true).count true : Nat) : Int)
      rw [getD_set_self _ _ _ _ hsd, hcnt1]
      omega
    · exact List.nodup_singleton s
    · intro x
      show x ∈ [s] ↔ ((List.replicate g.numVertices false).set s true).getD x false = true
      rw [List.mem_singleton, hvis x]
  · intro x hx hxf e he
    exfalso
    apply hxf
    rw [show (bfsInicial g s).fila = [s] from rfl, List.mem_singleton]
    exact (hvis x).mp hx
  · rw [show (bfsInicial g s).fila = [s] from rfl]
    rw [show (bfsInicial g s).visitado = (List.replicate g.numVertices false).set s true
      from rfl]
    rw [hcnt1]
    simp
    omega

/-- Reachability through the adjacency structure (edge weights ignored). -/
inductive Alcancavel (g : Grafo) : Nat → Nat → Prop
  | refl (v : Nat) : Alcancavel g v v
  | passo {u v d : Nat} {p : Int} : Alcancavel g u v →
      (⟨d, p⟩ : ElemLista) ∈ g.adj v → Alcancavel g u d

/-- C5: for a well-formed graph and a valid source, BFS leaves the source at
distance `0`; every vertex never discovered stays at the sentinel `999999`;
every discovered non-source vertex got its distance as its parent's distance
plus one along an actual edge; each vertex is enqueued at most once (the ghost
enqueue log is duplicate-free); and every vertex in the source's connected
component ends at a distance of at most `numVertices - 1`. -/
theorem algoritmoBFS_contrato (g : Grafo) (s : Nat) (hwf : BemFormado g)
    (hs : s < g.numVertices) :
    ((g.algoritmoBFS s).getD s INFINITO = 0) ∧
    (∀ v, (g.bfsExecucao s).visitado.getD v false = false →
      (g.algoritmoBFS s).getD v INFINITO = INFINITO) ∧
    (∀ v, v < g.numVertices → (g.bfsExecucao s).visitado.getD v false = true → v ≠ s →
      ∃ u, u < g.numVertices ∧
        (∃ p : Int, (⟨v, p⟩ : ElemLista) ∈ g.adj u) ∧
        (g.algoritmoBFS s).getD v INFINITO = (g.algoritmoBFS s).getD u INFINITO + 1) ∧
    ((g.bfsExecucao s).log.Nodup) ∧
    (∀ v, Alcancavel g s v →
      (g.algoritmoBFS s).getD v INFINITO ≤ (g.numVertices : Int) - 1) := by
  obtain ⟨hinv0, hfecho0, hm0⟩ := bfsInicial_spec g s hs
  obtain ⟨hinv, hfecho, hfila⟩ :=
    bfsLoop_spec hwf g.numVertices (bfsInicial g s) hinv0 hfecho0 hm0
  rw [show g.bfsExecucao s = bfsLoop g g.numVertices (bfsInicial g s) from rfl] at *
  rw [show g.algoritmoBFS s =
    (bfsLoop g g.numVertices (bfsInicial g s)).distancias from rfl] at *
  set fin := bfsLoop g g.numVertices (bfsInicial g s) with hfin
  refine ⟨hinv.fonte_dist, hinv.nao_visitado, ?_, hinv.log_nodup, ?_⟩
  · intro v hvn hv hvs
    obtain ⟨u, hun, -, hue, hud⟩ := hinv.visitado_pai v hvn hv hvs
    exact ⟨u, hun, hue, hud⟩
  · intro v hv
    have hvisv : fin.visitado.getD v false = true := by
      induction hv with
      | refl => exact hinv.fonte_vis
      | passo hpre hmem ih =>
        refine hfecho _ ih ?_ _ hmem
        rw [hfila]
        exact List.not_mem_nil _
    have hlt := hinv.dist_limite v hvisv
    have hle : fin.visitado.count true ≤ g.numVertices := by
      rw [← hinv.vlen]
      exact List.count_le_length _ _
    have : (fin.visitado.count true : Int) ≤ (g.numVertices : Int) := by
      exact_mod_cast hle
    omega


theorem bemFormado_de_listas {g : Grafo}
    (hlen : g.listaAdjacencia.length = g.numVertices)
    (h : ∀ l ∈ g.listaAdjacencia, ∀ e ∈ l, e.verticeAdjacente < g.numVertices) :
    BemFormado g := by
  refine ⟨hlen, ?_⟩
  intro u e he
  rw [Grafo.adj, List.getD] at he
  cases hg : g.listaAdjacencia.get? u with
  | none =>
    rw [hg] at he
    simp at he
  | some l =>
    rw [hg] at he
    simp at he
    exact h l (List.get?_mem hg) e he

/-- The unweighted triangle of the specification's BFS scenario: vertices
`1, 2, 3` of a 4-vertex graph, edges 1-2, 1-3, 3-2. -/
def grafoTrianguloBFS : Grafo :=
  (((Grafo.nova 4 false false).adicionaAresta 1 2 1).adicionaAresta 1 3 1).adicionaAresta 3 2 1

/-- Witness for C5 on the specification's BFS triangle from source 1. -/
theorem algoritmoBFS_contrato_witness :
    (BemFormado grafoTrianguloBFS ∧ 1 < grafoTrianguloBFS.numVertices) ∧
    (grafoTrianguloBFS.algoritmoBFS 1).getD 1 INFINITO = 0 :=
  have hwf : BemFormado grafoTrianguloBFS :=
    bemFormado_de_listas (by decide) (by decide)
  ⟨⟨hwf, by decide⟩, (algoritmoBFS_contrato grafoTrianguloBFS 1 hwf (by decide)).1⟩


/-! ### Claim C1: preliminary facts about walks -/

/-- Every adjacency weight is non-negative ("strictly non-negative weights" in
the claim). -/
def PesosNaoNegativos (g : Grafo) : Prop := ∀ u, ∀ e ∈ g.adj u, 0 ≤ e.peso

/-- Every adjacency weight is at most the sentinel (the restriction the
counterexample to the claim forces). -/
def PesosLimitados (g : Grafo) : Prop := ∀ u, ∀ e ∈ g.adj u, e.peso ≤ INFINITO

/-- No vertex lists itself as a neighbour (the mutators reject self-loops). -/
def SemLacos (g : Grafo) : Prop := ∀ u, ∀ e ∈ g.adj u, e.verticeAdjacente ≠ u

/-- Every adjacency list is sorted with no duplicate destination (as the
sorted insertion maintains). -/
def ListasOrdenadas (g : Grafo) : Prop := ∀ u, ListaOrdenada (g.adj u)

theorem caminho_nonneg {g : Grafo} (hnn : PesosNaoNegativos g) {u v : Nat} {w : Int}
    (h : Caminho g u v w) : 0 ≤ w := by
  induction h with
  | nulo => exact le_refl 0
  | passo hpre hmem ih =>
    rename_i x d acc p
    have hp : (0 : Int) ≤ p := hnn _ _ hmem
    omega

theorem caminho_concat {g : Grafo} {i k j : Nat} {w1 w2 : Int}
    (h1 : Caminho g i k w1) (h2 : Caminho g k j w2) : Caminho g i j (w1 + w2) := by
  induction h2 with
  | nulo => simpa using h1
  | passo hpre hmem ih =>
    rw [← add_assoc]
    exact Caminho.passo ih hmem

theorem adj_vazio_fora {g : Grafo} (hlen : g.listaAdjacencia.length = g.numVertices)
    {v : Nat} (hv : g.numVertices ≤ v) : g.adj v = [] := by
  rw [Grafo.adj, List.getD, List.get?_eq_getElem?, List.getElem?_eq_none (by omega)]
  rfl

theorem caminho_fim {g : Grafo} (hbf : BemFormado g) {s v : Nat} {w : Int}
    (h : Caminho g s v w) : v = s ∨ v < g.numVertices := by
  induction h with
  | nulo => exact Or.inl rfl
  | passo hpre hmem ih => exact Or.inr (hbf.limites _ _ hmem)

/-- A walk all of whose vertices before the endpoint are flagged in `vis`. -/
inductive CaminhoV (g : Grafo) (vis : List Bool) : Nat → Nat → Int → Prop
  | nulo (v : Nat) : CaminhoV g vis v v 0
  | passo {u v d : Nat} {acc p : Int} : CaminhoV g vis u v acc →
      vis.getD v false = true → (⟨d, p⟩ : ElemLista) ∈ g.adj v →
      CaminhoV g vis u d (acc + p)

theorem caminhoV_caminho {g : Grafo} {vis : List Bool} {u v : Nat} {w : Int}
    (h : CaminhoV g vis u v w) : Caminho g u v w := by
  induction h with
  | nulo => exact Caminho.nulo _
  | passo hpre hvis hmem ih => exact Caminho.passo ih hmem

theorem caminhoV_fim {g : Grafo} (hbf : BemFormado g) {vis : List Bool} {s v : Nat} {w : Int}
    (h : CaminhoV g vis s v w) : v = s ∨ v < g.numVertices := by
  induction h with
  | nulo => exact Or.inl rfl
  | passo hpre hvis hmem ih => exact Or.inr (hbf.limites _ _ hmem)

/-- Every walk has a prefix that is a `CaminhoV` walk, of no larger weight,
ending at an unvisited vertex or at the walk's endpoint. -/
theorem caminho_decompoe {g : Grafo} (hnn : PesosNaoNegativos g) (vis : List Bool)
    {s v : Nat} {w : Int} (h : Caminho g s v w) :
    ∃ y w1, CaminhoV g vis s y w1 ∧ (vis.getD y false = false ∨ y = v) ∧ w1 ≤ w := by
  induction h with
  | nulo => exact ⟨_, 0, CaminhoV.nulo _, Or.inr rfl, le_refl 0⟩
  | passo hpre hmem ih =>
    rename_i x d acc p
    obtain ⟨y, w1, hcv, hdisj, hle⟩ := ih
    have hp : 0 ≤ p := hnn _ _ hmem
    rcases hdisj with hunvis | rfl
    · exact ⟨y, w1, hcv, Or.inl hunvis, by omega⟩
    · by_cases hx : vis.getD y false = true
      · exact ⟨d, w1 + p, CaminhoV.passo hcv hx hmem, Or.inr rfl, by omega⟩
      · refine ⟨y, w1, hcv, Or.inl ?_, by omega⟩
        cases hb : vis.getD y false
        · rfl
        · exact absurd hb hx


theorem selecao_fold (valores : List Int) (marcado : List Bool) (L : List Nat) :
    ∀ acc : Option Nat × Int,
      (L.foldl (selecionaPasso valores marcado) acc).2 ≤ acc.2 ∧
      (∀ y ∈ L, marcado.getD y false = false →
        (L.foldl (selecionaPasso valores marcado) acc).2 ≤ valores.getD y INFINITO) ∧
      (∀ u, (L.foldl (selecionaPasso valores marcado) acc).1 = some u →
        (acc.1 = some u ∧ (L.foldl (selecionaPasso valores marcado) acc).2 = acc.2) ∨
          (u ∈ L ∧ marcado.getD u false = false ∧
            valores.getD u INFINITO = (L.foldl (selecionaPasso valores marcado) acc).2 ∧
            (L.foldl (selecionaPasso valores marcado) acc).2 < acc.2)) ∧
      ((L.foldl (selecionaPasso valores marcado) acc).1 = none →
        acc.1 = none ∧ (L.foldl (selecionaPasso valores marcado) acc).2 = acc.2) := by
  induction L with
  | nil =>
    intro acc
    exact ⟨le_refl _, by simp, fun u hu => Or.inl ⟨hu, rfl⟩, fun h => ⟨h, rfl⟩⟩
  | cons v L ih =>
    intro acc
    rw [show (v :: L).foldl (selecionaPasso valores marcado) acc
      = L.foldl (selecionaPasso valores marcado) (selecionaPasso valores marcado acc v)
      from rfl]
    by_cases hcond : (!(marcado.getD v false) && decide (valores.getD v INFINITO < acc.2)) = true
    · have hstep : selecionaPasso valores marcado acc v = (some v, valores.getD v INFINITO) := by
        rw [selecionaPasso, if_pos hcond]
      rw [hstep]
      obtain ⟨i1, i2, i3, i4⟩ := ih (some v, valores.getD v INFINITO)
      simp only at i1 i2 i3 i4
      simp only [Bool.and_eq_true, Bool.not_eq_true', decide_eq_true_eq] at hcond
      refine ⟨le_of_lt (lt_of_le_of_lt i1 hcond.2), ?_, ?_, ?_⟩
      · intro y hy hmy
        rcases List.mem_cons.mp hy with rfl | hy2
        · exact i1
        · exact i2 y hy2 hmy
      · intro u hu
        rcases i3 u hu with ⟨heq, hval⟩ | ⟨hmem, hmu, hvu, hlt⟩
        · have hvu : v = u := by simpa using heq
          subst hvu
          right
          refine ⟨List.mem_cons_self v L, hcond.1, hval.symm, ?_⟩
          rw [hval]
          exact hcond.2
        · exact Or.inr ⟨List.mem_cons_of_mem _ hmem, hmu, hvu, lt_trans hlt hcond.2⟩
      · intro hnone
        exact absurd (i4 hnone).1 (by simp)
    · have hstep : selecionaPasso valores marcado acc v = acc := by
        rw [selecionaPasso, if_neg hcond]
      rw [hstep]
      obtain ⟨i1, i2, i3, i4⟩ := ih acc
      refine ⟨i1, ?_, ?_, i4⟩
      · intro y hy hmy
        rcases List.mem_cons.mp hy with rfl | hy2
        · simp only [Bool.and_eq_true, Bool.not_eq_true', decide_eq_true_eq, not_and] at hcond
          have hge := hcond hmy
          omega
        · exact i2 y hy2 hmy
      · intro u hu
        rcases i3 u hu with h | ⟨hm, r1, r2, r3⟩
        · exact Or.inl h
        · exact Or.inr ⟨List.mem_cons_of_mem _ hm, r1, r2, r3⟩

theorem selecionaMinimo_spec (valores : List Int) (marcado : List Bool) (n : Nat) :
    (selecionaMinimo valores marcado n).2 ≤ INFINITO ∧
    (∀ y, y < n → marcado.getD y false = false →
      (selecionaMinimo valores marcado n).2 ≤ valores.getD y INFINITO) ∧
    (∀ u, (selecionaMinimo valores marcado n).1 = some u →
      u < n ∧ marcado.getD u false = false ∧
      valores.getD u INFINITO = (selecionaMinimo valores marcado n).2 ∧
      (selecionaMinimo valores marcado n).2 < INFINITO) ∧
    ((selecionaMinimo valores marcado n).1 = none →
      ∀ y, y < n → marcado.getD y false = false →
        INFINITO ≤ valores.getD y INFINITO) := by
  obtain ⟨i1, i2, i3, i4⟩ := selecao_fold valores marcado (List.range n) (none, INFINITO)
  rw [show selecionaMinimo valores marcado n
    = (List.range n).foldl (selecionaPasso valores marcado) (none, INFINITO) from rfl]
  refine ⟨i1, ?_, ?_, ?_⟩
  · intro y hy hmy
    exact i2 y (List.mem_range.mpr hy) hmy
  · intro u hu
    rcases i3 u hu with ⟨heq, -⟩ | ⟨hmem, hmu, hvu, hlt⟩
    · cases heq
    · exact ⟨List.mem_range.mp hmem, hmu, hvu, hlt⟩
  · intro hnone y hy hmy
    have h2 := i2 y (List.mem_range.mpr hy) hmy
    have h4 := (i4 hnone).2
    rw [h4] at h2
    exact h2


theorem relaxaPasso_fatos (u : Nat) (vis : List Bool) (d : List Int) (e : ElemLista) :
    ((dijkstraRelaxaPasso u vis d e).length = d.length) ∧
    (∀ v, (dijkstraRelaxaPasso u vis d e).getD v INFINITO ≤ d.getD v INFINITO) ∧
    (∀ v, v ≠ e.verticeAdjacente →
      (dijkstraRelaxaPasso u vis d e).getD v INFINITO = d.getD v INFINITO) := by
  rw [dijkstraRelaxaPasso]
  split
  · next hcond =>
    refine ⟨by simp, ?_, ?_⟩
    · intro v
      rcases getD_set_geral d e.verticeAdjacente v
          (d.getD u INFINITO + e.peso) INFINITO with hs | ⟨hs, hv, -⟩
      · rw [hs]
      · rw [hs, hv]
        exact le_of_lt hcond.2.2
    · intro v hv
      exact getD_set_ne _ _ _ _ _ hv
  · exact ⟨rfl, fun v => le_refl _, fun v hv => rfl⟩

theorem relaxa_fold_cota (u : Nat) (vis : List Bool) (huvis : vis.getD u false = true) :
    ∀ (l : List ElemLista) (d : List Int),
      (∀ e ∈ l, e.verticeAdjacente < d.length) →
      ((l.foldl (dijkstraRelaxaPasso u vis) d).length = d.length) ∧
      (∀ v, (l.foldl (dijkstraRelaxaPasso u vis) d).getD v INFINITO ≤ d.getD v INFINITO) ∧
      (∀ v, vis.getD v false = true →
        (l.foldl (dijkstraRelaxaPasso u vis) d).getD v INFINITO = d.getD v INFINITO) ∧
      (d.getD u INFINITO ≠ INFINITO →
        ∀ e ∈ l, vis.getD e.verticeAdjacente false = false →
          (l.foldl (dijkstraRelaxaPasso u vis) d).getD e.verticeAdjacente INFINITO ≤
            d.getD u INFINITO + e.peso) := by
  intro l
  induction l with
  | nil =>
    intro d hlim
    exact ⟨rfl, fun v => le_refl _, fun v _ => rfl, fun _ e he => absurd he
      (List.not_mem_nil e)⟩
  | cons e l ih =>
    intro d hlim
    have hlim0 : e.verticeAdjacente < d.length := hlim e (List.mem_cons_self e l)
    obtain ⟨p1, p2, p3⟩ := relaxaPasso_fatos u vis d e
    have hune : u ≠ e.verticeAdjacente ∨ vis.getD e.verticeAdjacente false = true := by
      by_cases h : u = e.verticeAdjacente
      · right
        rw [← h]
        exact huvis
      · exact Or.inl h
    have hufrozen : (dijkstraRelaxaPasso u vis d e).getD u INFINITO = d.getD u INFINITO := by
      rcases hune with h | h
      · exact p3 u h
      · rw [dijkstraRelaxaPasso]
        split
        · next hcond =>
          rw [h] at hcond
          simp at hcond
        · rfl
    obtain ⟨i1, i2, i3, i4⟩ := ih (dijkstraRelaxaPasso u vis d e)
      (by rw [p1]; exact fun x hx => hlim x (List.mem_cons_of_mem _ hx))
    rw [show (e :: l).foldl (dijkstraRelaxaPasso u vis) d
      = l.foldl (dijkstraRelaxaPasso u vis) (dijkstraRelaxaPasso u vis d e) from rfl]
    refine ⟨by rw [i1, p1], ?_, ?_, ?_⟩
    · intro v
      exact le_trans (i2 v) (p2 v)
    · intro v hv
      rw [i3 v hv]
      rcases hune with - | -
      all_goals {
        by_cases hve : v = e.verticeAdjacente
        · rw [dijkstraRelaxaPasso]
          split
          · next hcond =>
            rw [← hve] at hcond
            rw [hv] at hcond
            simp at hcond
          · rfl
        · exact p3 v hve }
    · intro hufin e2 he2 hve2
      rcases List.mem_cons.mp he2 with rfl | he2l
      · have hbound : (dijkstraRelaxaPasso u vis d e2).getD e2.verticeAdjacente INFINITO ≤
            d.getD u INFINITO + e2.peso := by
          rw [dijkstraRelaxaPasso]
          split
          · next hcond =>
            rw [getD_set_self _ _ _ _ hlim0]
          · next hcond =>
            rw [not_and_or, not_and_or] at hcond
            rcases hcond with h | h | h
            · exact absurd (by rw [hve2]; rfl) h
            · exact absurd hufin h
            · omega
        calc (l.foldl (dijkstraRelaxaPasso u vis) (dijkstraRelaxaPasso u vis d e2)).getD
              e2.verticeAdjacente INFINITO
            ≤ (dijkstraRelaxaPasso u vis d e2).getD e2.verticeAdjacente INFINITO := i2 _
          _ ≤ d.getD u INFINITO + e2.peso := hbound
      · have := i4 (by rw [hufrozen]; exact hufin) e2 he2l hve2
        rw [hufrozen] at this
        exact this

/-! ### Completeness of Dijkstra -/

theorem getD_fora {α : Type} (l : List α) (v : Nat) (d : α) (h : l.length ≤ v) :
    l.getD v d = d := by
  rw [List.getD, List.get?_eq_getElem?, List.getElem?_eq_none h]
  rfl

theorem getD_replicate {α : Type} (n v : Nat) (a : α) :
    (List.replicate n a).getD v a = a := by
  by_cases h : v < n
  · simp [List.getD, List.get?_eq_getElem?, List.getElem?_replicate, h]
  · simp [List.getD, List.get?_eq_getElem?, List.getElem?_replicate, h]

theorem count_true_replicate_false (n : Nat) : (List.replicate n false).count true = 0 := by
  induction n with
  | zero => rfl
  | succ k ih => simp [List.replicate_succ, List.count_cons, ih]

/-- Two distinct in-range unvisited vertices leave the visited count two short
of the total. -/
theorem count_true_dois_falsos {vis : List Bool} {y j : Nat} (hy : y < vis.length)
    (hj : j < vis.length) (hne : y ≠ j) (hyf : vis.getD y false = false)
    (hjf : vis.getD j false = false) : vis.count true + 2 ≤ vis.length := by
  have h1 := count_true_set hy hyf
  have h2 : (vis.set y true).getD j false = false := by
    rw [getD_set_ne vis y j true false (Ne.symm hne)]
    exact hjf
  have h3 := count_true_lt (show j < (vis.set y true).length by
    rw [List.length_set]; exact hj) h2
  rw [List.length_set] at h3
  omega

/-- The full loop invariant of `algoritmoDijkstra`: array sizes, the soundness
invariant, the source pinned at zero, every visited vertex finished (its entry
at most every walk weight from the source), and every edge out of a visited
vertex into an unvisited one already relaxed. -/
structure InvDijkstra (g : Grafo) (s : Nat) (dist : List Int) (vis : List Bool) : Prop where
  dlen : dist.length = g.numVertices
  vlen : vis.length = g.numVertices
  solida : InvarianteDijkstra g s dist
  fonte : dist.getD s INFINITO ≤ 0
  visitado_completo : ∀ v, vis.getD v false = true →
    ∀ w, Caminho g s v w → dist.getD v INFINITO ≤ w
  fronteira : ∀ x, vis.getD x false = true → ∀ e ∈ g.adj x,
    vis.getD e.verticeAdjacente false = false →
    dist.getD e.verticeAdjacente INFINITO ≤ dist.getD x INFINITO + e.peso

/-- Under the loop invariant, any walk whose inner vertices are all visited
already bounds the distance of its endpoint. -/
theorem invDijkstra_caminhoV {g : Grafo} {s : Nat} {dist : List Int} {vis : List Bool}
    (hinv : InvDijkstra g s dist vis) :
    ∀ v w, CaminhoV g vis s v w → dist.getD v INFINITO ≤ w := by
  intro v w h
  induction h with
  | nulo => exact hinv.fonte
  | passo hpre hvis hmem ih =>
    rename_i x d acc p
    by_cases hd : vis.getD d false = true
    · exact hinv.visitado_completo d hd _ (Caminho.passo (caminhoV_caminho hpre) hmem)
    · have hdf : vis.getD d false = false := by
        cases hb : vis.getD d false
        · rfl
        · exact absurd hb hd
      have hfr : dist.getD d INFINITO ≤ dist.getD x INFINITO + p :=
        hinv.fronteira x hvis ⟨d, p⟩ hmem hdf
      omega

theorem invDijkstra_inicial (g : Grafo) (s : Nat) (hs : s < g.numVertices) :
    InvDijkstra g s ((List.replicate g.numVertices INFINITO).set s 0)
      (List.replicate g.numVertices false) := by
  refine ⟨by simp, by simp, invarianteDijkstra_inicial g s, ?_, ?_, ?_⟩
  · exact le_of_eq (getD_set_self _ _ _ _ (by simpa using hs))
  · intro v hv
    rw [getD_replicate] at hv
    exact Bool.noConfusion hv
  · intro x hx
    rw [getD_replicate] at hx
    exact Bool.noConfusion hx

/-- One successful round of the Dijkstra loop preserves the completeness
invariant and grows the visited count by one. -/
theorem invDijkstra_passo {g : Grafo} {s : Nat} (hbf : BemFormado g)
    (hnn : PesosNaoNegativos g)
    {dist : List Int} {vis : List Bool} (hinv : InvDijkstra g s dist vis)
    {u : Nat} (hsel : (selecionaMinimo dist vis g.numVertices).1 = some u) :
    InvDijkstra g s (dijkstraRelaxa g u (vis.set u true) dist) (vis.set u true) ∧
    (vis.set u true).count true = vis.count true + 1 := by
  obtain ⟨-, hmin0, hsome, -⟩ := selecionaMinimo_spec dist vis g.numVertices
  obtain ⟨hun, huf, hud, hult⟩ := hsome u hsel
  have hudlt : dist.getD u INFINITO < INFINITO := by rw [hud]; exact hult
  have hmin : ∀ y, vis.getD y false = false →
      dist.getD u INFINITO ≤ dist.getD y INFINITO := by
    intro y hyf
    by_cases hy : y < g.numVertices
    · have h2 := hmin0 y hy hyf
      omega
    · rw [getD_fora dist y INFINITO (by rw [hinv.dlen]; omega)]
      omega
  have huvis2 : (vis.set u true).getD u false = true :=
    getD_set_self vis u true false (by rw [hinv.vlen]; exact hun)
  have hu_comp : ∀ w, Caminho g s u w → dist.getD u INFINITO ≤ w := by
    intro w hw
    obtain ⟨y, w1, hcv, hdisj, hle⟩ := caminho_decompoe hnn vis hw
    have hy := invDijkstra_caminhoV hinv y w1 hcv
    rcases hdisj with hyf | rfl
    · have h3 := hmin y hyf
      omega
    · omega
  have hlim : ∀ e ∈ g.adj u, e.verticeAdjacente < dist.length := by
    intro e he
    rw [hinv.dlen]
    exact hbf.limites u e he
  obtain ⟨r1, r2, r3, r4⟩ := relaxa_fold_cota u (vis.set u true) huvis2 (g.adj u) dist hlim
  refine ⟨⟨?_, ?_, dijkstraRelaxa_preserva _ hinv.solida, ?_, ?_, ?_⟩, ?_⟩
  · rw [dijkstraRelaxa, r1]
    exact hinv.dlen
  · rw [List.length_set]
    exact hinv.vlen
  · have h2 := r2 s
    have hf := hinv.fonte
    rw [dijkstraRelaxa]
    omega
  · intro v hv w hw
    rw [dijkstraRelaxa, r3 v hv]
    by_cases hvu : v = u
    · subst hvu
      exact hu_comp w hw
    · have hvold : vis.getD v false = true := by
        rw [getD_set_ne vis u v true false hvu] at hv
        exact hv
      exact hinv.visitado_completo v hvold w hw
  · intro x hx e he hef
    have hefu : e.verticeAdjacente ≠ u := by
      intro hequ
      rw [hequ, huvis2] at hef
      exact Bool.noConfusion hef
    have hef_old : vis.getD e.verticeAdjacente false = false := by
      rw [getD_set_ne vis u _ true false hefu] at hef
      exact hef
    rw [dijkstraRelaxa]
    by_cases hxu : x = u
    · subst hxu
      have h4 := r4 (by omega) e he hef
      have h3 := r3 x huvis2
      omega
    · have hxold : vis.getD x false = true := by
        rw [getD_set_ne vis u x true false hxu] at hx
        exact hx
      have hold := hinv.fronteira x hxold e he hef_old
      have h2 := r2 e.verticeAdjacente
      have h3 := r3 x hx
      omega
  · exact count_true_set (by rw [hinv.vlen]; exact hun) huf

/-- Unfolding `dijkstraLoop` when the selection fails (the `break`). -/
theorem dijkstraLoop_none {g : Grafo} {dist : List Int} {vis : List Bool} {k : Nat}
    (hsel : (selecionaMinimo dist vis g.numVertices).1 = none) :
    dijkstraLoop g (k + 1) dist vis = (dist, vis) := by
  rw [dijkstraLoop, hsel]

/-- Unfolding `dijkstraLoop` when the selection returns `u`. -/
theorem dijkstraLoop_some {g : Grafo} {dist : List Int} {vis : List Bool} {k u : Nat}
    (hsel : (selecionaMinimo dist vis g.numVertices).1 = some u) :
    dijkstraLoop g (k + 1) dist vis
      = dijkstraLoop g k (dijkstraRelaxa g u (vis.set u true) dist) (vis.set u true) := by
  rw [dijkstraLoop, hsel]

/-- The Dijkstra loop keeps the completeness invariant, and either performs a
selection every round or breaks with every unvisited vertex at the sentinel. -/
theorem dijkstraLoop_espec {g : Grafo} {s : Nat} (hbf : BemFormado g)
    (hnn : PesosNaoNegativos g) :
    ∀ (fuel : Nat) (dist : List Int) (vis : List Bool), InvDijkstra g s dist vis →
      InvDijkstra g s (dijkstraLoop g fuel dist vis).1 (dijkstraLoop g fuel dist vis).2 ∧
      ((dijkstraLoop g fuel dist vis).2.count true = vis.count true + fuel ∨
        (∀ y, (dijkstraLoop g fuel dist vis).2.getD y false = false →
          (dijkstraLoop g fuel dist vis).1.getD y INFINITO = INFINITO)) := by
  intro fuel
  induction fuel with
  | zero =>
    intro dist vis hinv
    exact ⟨hinv, Or.inl rfl⟩
  | succ k ih =>
    intro dist vis hinv
    cases hsel : (selecionaMinimo dist vis g.numVertices).1 with
    | none =>
      rw [dijkstraLoop_none hsel]
      refine ⟨hinv, Or.inr ?_⟩
      intro y hyf
      show dist.getD y INFINITO = INFINITO
      have hyf2 : vis.getD y false = false := hyf
      obtain ⟨-, -, -, hnone⟩ := selecionaMinimo_spec dist vis g.numVertices
      by_cases hy : y < g.numVertices
      · have h1 := hnone hsel y hy hyf2
        rcases hinv.solida y with h | ⟨-, h⟩
        · exact h
        · omega
      · exact getD_fora dist y INFINITO (by rw [hinv.dlen]; omega)
    | some u =>
      rw [dijkstraLoop_some hsel]
      obtain ⟨hstep, hcount⟩ := invDijkstra_passo hbf hnn hinv hsel
      obtain ⟨j1, j2⟩ := ih (dijkstraRelaxa g u (vis.set u true) dist) (vis.set u true) hstep
      refine ⟨j1, ?_⟩
      rcases j2 with h | h
      · left
        rw [h, hcount]
        omega
      · right
        exact h

/-- Completeness of `algoritmoDijkstra` on a well-formed graph with
non-negative weights: the computed entry for `j` is at most the weight of any
walk from the source whose weight lies below the sentinel. -/
theorem algoritmoDijkstra_completo {g : Grafo} (hbf : BemFormado g)
    (hnn : PesosNaoNegativos g) {s : Nat} (hs : s < g.numVertices)
    {j : Nat} {w : Int} (hw : Caminho g s j w) (hwlt : w < INFINITO) :
    (g.algoritmoDijkstra s).getD j INFINITO ≤ w := by
  rw [Grafo.algoritmoDijkstra]
  obtain ⟨hfin, hpost⟩ := dijkstraLoop_espec hbf hnn (g.numVertices - 1)
    ((List.replicate g.numVertices INFINITO).set s 0)
    (List.replicate g.numVertices false)
    (invDijkstra_inicial g s hs)
  have hcnt0 : (List.replicate g.numVertices false).count true = 0 :=
    count_true_replicate_false g.numVertices
  rcases caminho_fim hbf hw with rfl | hjn
  · have h0 := hfin.fonte
    have h1 := caminho_nonneg hnn hw
    omega
  · by_cases hjvis : (dijkstraLoop g (g.numVertices - 1)
        ((List.replicate g.numVertices INFINITO).set s 0)
        (List.replicate g.numVertices false)).2.getD j false = true
    · exact hfin.visitado_completo j hjvis w hw
    · have hjf : (dijkstraLoop g (g.numVertices - 1)
          ((List.replicate g.numVertices INFINITO).set s 0)
          (List.replicate g.numVertices false)).2.getD j false = false := by
        cases hb : (dijkstraLoop g (g.numVertices - 1)
            ((List.replicate g.numVertices INFINITO).set s 0)
            (List.replicate g.numVertices false)).2.getD j false
        · rfl
        · exact absurd hb hjvis
      obtain ⟨y, w1, hcv, hdisj, hle⟩ := caminho_decompoe hnn
        (dijkstraLoop g (g.numVertices - 1)
          ((List.replicate g.numVertices INFINITO).set s 0)
          (List.replicate g.numVertices false)).2 hw
      have hy := invDijkstra_caminhoV hfin y w1 hcv
      rcases hdisj with hyf | rfl
      · rcases hpost with hcnt | hall
        · by_cases hyj : y = j
          · subst hyj
            omega
          · have hyn : y < g.numVertices := by
              rcases caminhoV_fim hbf hcv with rfl | h
              · exact hs
              · exact h
            have hdois := count_true_dois_falsos
              (show y < _ by rw [hfin.vlen]; exact hyn)
              (show j < _ by rw [hfin.vlen]; exact hjn) hyj hyf hjf
            rw [hcnt, hcnt0, hfin.vlen] at hdois
            omega
        · have hINF := hall y hyf
          omega
      · omega

/-! ### Claim C1: the Floyd matrix -/

theorem getD_map_range {α : Type} {n i : Nat} (f : Nat → α) (d : α) (h : i < n) :
    ((List.range n).map f).getD i d = f i := by
  rw [List.getD, List.get?_eq_getElem?, List.getElem?_map, List.getElem?_range h]
  rfl

theorem matGet_matSet_outra (m : List (List Int)) (i j a b : Nat) (x : Int)
    (h : a ≠ i ∨ b ≠ j) : matGet (matSet m i j x) a b = matGet m a b := by
  rw [matGet, matSet, matGet]
  rcases h with h | h
  · rw [getD_set_ne m i a ((m.getD i []).set j x) [] h]
  · rcases getD_set_geral m i a ((m.getD i []).set j x) [] with hs | ⟨hs, hv, -⟩
    · rw [hs]
    · rw [hs, hv, getD_set_ne (m.getD i []) j b x INFINITO h]

theorem matGet_matSet_propria (m : List (List Int)) (i j : Nat) (x : Int) :
    matGet (matSet m i j x) i j = matGet m i j ∨ matGet (matSet m i j x) i j = x := by
  rw [matGet, matSet, matGet]
  rcases getD_set_geral m i i ((m.getD i []).set j x) [] with hs | ⟨hs, -, -⟩
  · rw [hs]
    exact Or.inl rfl
  · rw [hs]
    rcases getD_set_geral (m.getD i []) j j x INFINITO with h2 | ⟨h2, -, -⟩
    · rw [h2]
      exact Or.inl rfl
    · rw [h2]
      exact Or.inr rfl

theorem matGet_matSet_em {m : List (List Int)} {i j : Nat} (x : Int)
    (hi : i < m.length) (hj : j < (m.getD i []).length) :
    matGet (matSet m i j x) i j = x := by
  rw [matGet, matSet, getD_set_self m i ((m.getD i []).set j x) [] hi,
    getD_set_self (m.getD i []) j x INFINITO hj]

/-- The running state of the Floyd matrix: square shape, every entry capped at
the sentinel, and every entry the sentinel or the weight of an actual walk. -/
structure EstadoFloyd (g : Grafo) (m : List (List Int)) : Prop where
  linhas : m.length = g.numVertices
  colunas : ∀ i, i < g.numVertices → (m.getD i []).length = g.numVertices
  cota : ∀ i j, matGet m i j ≤ INFINITO
  som : ∀ i j, matGet m i j = INFINITO ∨ Caminho g i j (matGet m i j)

theorem estadoFloyd_nonneg {g : Grafo} {m : List (List Int)}
    (hnn : PesosNaoNegativos g) (hm : EstadoFloyd g m) : ∀ a b, 0 ≤ matGet m a b := by
  intro a b
  rcases hm.som a b with h | h
  · rw [h, INFINITO]
    omega
  · exact caminho_nonneg hnn h

/-- The facts one inner Floyd update establishes: the state is preserved,
entries only decrease, only the entry `(i, j)` is touched, and `(i, j)` comes
out bounded by the two-leg sum when both legs differ from the sentinel. -/
theorem floydPassoJ_fatos {g : Grafo} {m : List (List Int)}
    (hm : EstadoFloyd g m) (k i j : Nat) :
    EstadoFloyd g (floydPassoJ k i m j) ∧
    (∀ a b, matGet (floydPassoJ k i m j) a b ≤ matGet m a b) ∧
    (∀ a b, a ≠ i ∨ b ≠ j → matGet (floydPassoJ k i m j) a b = matGet m a b) ∧
    (matGet m i k ≠ INFINITO → matGet m k j ≠ INFINITO →
      i < g.numVertices → j < g.numVertices →
      matGet (floydPassoJ k i m j) i j ≤ matGet m i k + matGet m k j) := by
  rw [floydPassoJ]
  split
  · next hc =>
    obtain ⟨hik, hkj, hlt⟩ := hc
    have hnand : ∀ a b : Nat, ¬(a = i ∧ b = j) → a ≠ i ∨ b ≠ j := by
      intro a b h
      by_cases h3 : a = i
      · exact Or.inr (fun hb => h ⟨h3, hb⟩)
      · exact Or.inl h3
    refine ⟨⟨?_, ?_, ?_, ?_⟩, ?_, ?_, ?_⟩
    · rw [matSet, List.length_set]
      exact hm.linhas
    · intro a ha
      rw [matSet]
      rcases getD_set_geral m i a ((m.getD i []).set j (matGet m i k + matGet m k j)) []
        with hs | ⟨hs, hv, -⟩
      · rw [hs]
        exact hm.colunas a ha
      · rw [hs, List.length_set]
        exact hm.colunas i (hv ▸ ha)
    · intro a b
      by_cases hab : a = i ∧ b = j
      · obtain ⟨rfl, rfl⟩ := hab
        rcases matGet_matSet_propria m a b (matGet m a k + matGet m k b) with hp | hp
        · rw [hp]
          exact hm.cota a b
        · rw [hp]
          have := hm.cota a b
          omega
      · rw [matGet_matSet_outra m i j a b _ (hnand a b hab)]
        exact hm.cota a b
    · intro a b
      by_cases hab : a = i ∧ b = j
      · obtain ⟨rfl, rfl⟩ := hab
        rcases matGet_matSet_propria m a b (matGet m a k + matGet m k b) with hp | hp
        · rw [hp]
          exact hm.som a b
        · rw [hp]
          right
        
          rcases hm.som a k with h1 | h1
          · exact absurd h1 hik
          · rcases hm.som k b with h2 | h2
            · exact absurd h2 hkj
            · exact caminho_concat h1 h2
      · rw [matGet_matSet_outra m i j a b _ (hnand a b hab)]
        exact hm.som a b
    · intro a b
      by_cases hab : a = i ∧ b = j
      · obtain ⟨rfl, rfl⟩ := hab
        rcases matGet_matSet_propria m a b (matGet m a k + matGet m k b) with hp | hp
        · rw [hp]
        · rw [hp]
          omega
      · rw [matGet_matSet_outra m i j a b _ (hnand a b hab)]
    · intro a b h
      exact matGet_matSet_outra m i j a b _ h
    · intro h1 h2 hi hj
      rw [matGet_matSet_em (matGet m i k + matGet m k j)
        (by rw [hm.linhas]; exact hi) (by rw [hm.colunas i hi]; exact hj)]
  · next hc =>
    refine ⟨hm, fun a b => le_refl _, fun a b h => rfl, ?_⟩
    intro hik hkj hi hj
    have hnlt : ¬(matGet m i k + matGet m k j < matGet m i j) :=
      fun hlt => hc ⟨hik, hkj, hlt⟩
    omega

/-- With a non-negative diagonal entry at `k`, updates targeting row `k` or
column `k` never fire during phase `k`. -/
theorem floydPassoJ_fixa {m : List (List Int)} {k : Nat} (hd : 0 ≤ matGet m k k) :
    (∀ j, floydPassoJ k k m j = m) ∧ (∀ i, floydPassoJ k i m k = m) := by
  constructor
  · intro j
    rw [floydPassoJ]
    split
    · next hc =>
      obtain ⟨-, -, hlt⟩ := hc
      omega
    · rfl
  · intro i
    rw [floydPassoJ]
    split
    · next hc =>
      obtain ⟨-, -, hlt⟩ := hc
      omega
    · rfl

/-- The facts the inner `j` loop of phase `k` establishes over any list of
columns: state preserved, entries only decrease, row `k` and column `k`
untouched, and every processed in-range entry bounded by its two-leg sum. -/
theorem floydFoldJ_fatos {g : Grafo} (hnn : PesosNaoNegativos g) (k i : Nat) :
    ∀ (L : List Nat) (m : List (List Int)), EstadoFloyd g m →
      EstadoFloyd g (L.foldl (floydPassoJ k i) m) ∧
      (∀ a b, matGet (L.foldl (floydPassoJ k i) m) a b ≤ matGet m a b) ∧
      (∀ b, matGet (L.foldl (floydPassoJ k i) m) k b = matGet m k b) ∧
      (∀ a, matGet (L.foldl (floydPassoJ k i) m) a k = matGet m a k) ∧
      (∀ j ∈ L, matGet m i k ≠ INFINITO → matGet m k j ≠ INFINITO →
        i < g.numVertices → j < g.numVertices →
        matGet (L.foldl (floydPassoJ k i) m) i j ≤ matGet m i k + matGet m k j)
  | [], m, hm => ⟨hm, fun a b => le_refl _, fun b => rfl, fun a => rfl, by intro j hj; cases hj⟩
  | j :: L, m, hm => by
    simp only [List.foldl_cons]
    obtain ⟨s1, s2, s3, s4⟩ := floydPassoJ_fatos hm k i j
    have hdiag : 0 ≤ matGet m k k := estadoFloyd_nonneg hnn hm k k
    have hpasso_kb : ∀ b, matGet (floydPassoJ k i m j) k b = matGet m k b := by
      intro b
      by_cases hik : i = k
      · subst hik
        rw [(floydPassoJ_fixa hdiag).1 j]
      · exact s3 k b (Or.inl (fun h => hik h.symm))
    have hpasso_ak : ∀ a, matGet (floydPassoJ k i m j) a k = matGet m a k := by
      intro a
      by_cases hjk : j = k
      · subst hjk
        rw [(floydPassoJ_fixa hdiag).2 i]
      · exact s3 a k (Or.inr (fun h => hjk h.symm))
    obtain ⟨r1, r2, r3, r4, r5⟩ := floydFoldJ_fatos hnn k i L (floydPassoJ k i m j) s1
    refine ⟨r1, ?_, ?_, ?_, ?_⟩
    · intro a b
      have h1 := r2 a b
      have h2 := s2 a b
      omega
    · intro b
      rw [r3 b, hpasso_kb b]
    · intro a
      rw [r4 a, hpasso_ak a]
    · intro x hx hik hkj hi hj
      rcases List.mem_cons.mp hx with rfl | hx2
      · have hfim := r2 i x
        have hprim := s4 hik hkj hi hj
        omega
      · have h5 := r5 x hx2
        rw [hpasso_ak i, hpasso_kb x] at h5
        exact h5 hik hkj hi hj

/-- The inner `j` loop instantiated at the full column range. -/
theorem floydPassoI_fatos {g : Grafo} (hnn : PesosNaoNegativos g) (k i : Nat)
    {m : List (List Int)} (hm : EstadoFloyd g m) :
    EstadoFloyd g (floydPassoI g k m i) ∧
    (∀ a b, matGet (floydPassoI g k m i) a b ≤ matGet m a b) ∧
    (∀ b, matGet (floydPassoI g k m i) k b = matGet m k b) ∧
    (∀ a, matGet (floydPassoI g k m i) a k = matGet m a k) ∧
    (∀ j, j < g.numVertices → matGet m i k ≠ INFINITO → matGet m k j ≠ INFINITO →
      i < g.numVertices →
      matGet (floydPassoI g k m i) i j ≤ matGet m i k + matGet m k j) := by
  obtain ⟨r1, r2, r3, r4, r5⟩ := floydFoldJ_fatos hnn k i (List.range g.numVertices) m hm
  rw [floydPassoI]
  exact ⟨r1, r2, r3, r4, fun j hj hik hkj hi => r5 j (List.mem_range.mpr hj) hik hkj hi hj⟩

/-- The facts the row loop of phase `k` establishes over any list of rows. -/
theorem floydFoldI_fatos {g : Grafo} (hnn : PesosNaoNegativos g) (k : Nat) :
    ∀ (L : List Nat) (m : List (List Int)), EstadoFloyd g m →
      EstadoFloyd g (L.foldl (floydPassoI g k) m) ∧
      (∀ a b, matGet (L.foldl (floydPassoI g k) m) a b ≤ matGet m a b) ∧
      (∀ b, matGet (L.foldl (floydPassoI g k) m) k b = matGet m k b) ∧
      (∀ a, matGet (L.foldl (floydPassoI g k) m) a k = matGet m a k) ∧
      (∀ i ∈ L, ∀ j, j < g.numVertices → i < g.numVertices →
        matGet m i k ≠ INFINITO → matGet m k j ≠ INFINITO →
        matGet (L.foldl (floydPassoI g k) m) i j ≤ matGet m i k + matGet m k j)
  | [], m, hm => ⟨hm, fun a b => le_refl _, fun b => rfl, fun a => rfl, by intro i hi; cases hi⟩
  | i :: L, m, hm => by
    simp only [List.foldl_cons]
    obtain ⟨s1, s2, s3, s4, s5⟩ := floydPassoI_fatos hnn k i hm
    obtain ⟨r1, r2, r3, r4, r5⟩ := floydFoldI_fatos hnn k L (floydPassoI g k m i) s1
    refine ⟨r1, ?_, ?_, ?_, ?_⟩
    · intro a b
      have h1 := r2 a b
      have h2 := s2 a b
      omega
    · intro b
      rw [r3 b, s3 b]
    · intro a
      rw [r4 a, s4 a]
    · intro x hx j hj hxn hik hkj
      rcases List.mem_cons.mp hx with rfl | hx2
      · have hfim := r2 x j
        have hprim := s5 j hj hik hkj hxn
        omega
      · have h5 := r5 x hx2 j hj hxn
        rw [s4 x, s3 j] at h5
        exact h5 hik hkj

/-- One full phase `k` of `algoritmoFloyd`: the state is preserved, entries
only decrease, and every in-range pair comes out bounded by its two-leg sum
through `k`. -/
theorem floydPassoK_fatos {g : Grafo} (hnn : PesosNaoNegativos g) {k : Nat}
    {m : List (List Int)} (hm : EstadoFloyd g m) :
    EstadoFloyd g (floydPassoK g m k) ∧
    (∀ a b, matGet (floydPassoK g m k) a b ≤ matGet m a b) ∧
    (∀ i j, i < g.numVertices → j < g.numVertices →
      matGet m i k ≠ INFINITO → matGet m k j ≠ INFINITO →
      matGet (floydPassoK g m k) i j ≤ matGet m i k + matGet m k j) := by
  obtain ⟨r1, r2, r3, r4, r5⟩ := floydFoldI_fatos hnn k (List.range g.numVertices) m hm
  rw [floydPassoK]
  exact ⟨r1, r2, fun i j hi hj hik hkj => r5 i (List.mem_range.mpr hi) j hj hi hik hkj⟩

/-- A walk whose internal vertices all lie below `k` (growing at the far end). -/
inductive CaminhoI (g : Grafo) (k : Nat) : Nat → Nat → Int → Prop
  | nulo (v : Nat) : CaminhoI g k v v 0
  | aresta {u d : Nat} {p : Int} : (⟨d, p⟩ : ElemLista) ∈ g.adj u → CaminhoI g k u d p
  | passo {u v d : Nat} {acc p : Int} : CaminhoI g k u v acc → v < k →
      (⟨d, p⟩ : ElemLista) ∈ g.adj v → CaminhoI g k u d (acc + p)

theorem caminhoI_caminho {g : Grafo} {k u v : Nat} {w : Int}
    (h : CaminhoI g k u v w) : Caminho g u v w := by
  induction h with
  | nulo => exact Caminho.nulo _
  | aresta hmem => simpa using Caminho.passo (Caminho.nulo _) hmem
  | passo hpre hv hmem ih => exact Caminho.passo ih hmem

/-- Every walk is a walk with internal vertices below `numVertices`, since a
vertex with an outgoing edge is in range. -/
theorem caminho_caminhoI {g : Grafo} (hlen : g.listaAdjacencia.length = g.numVertices)
    {u v : Nat} {w : Int} (h : Caminho g u v w) : CaminhoI g g.numVertices u v w := by
  induction h with
  | nulo => exact CaminhoI.nulo _
  | passo hpre hmem ih =>
    rename_i x d acc p
    have hx : x < g.numVertices := by
      by_contra hge
      rw [adj_vazio_fora hlen (by omega)] at hmem
      cases hmem
    exact CaminhoI.passo ih hx hmem

theorem caminhoI_zero {g : Grafo} {i j : Nat} {w : Int} (h : CaminhoI g 0 i j w) :
    (i = j ∧ w = 0) ∨ ∃ p, (⟨j, p⟩ : ElemLista) ∈ g.adj i ∧ w = p := by
  cases h with
  | nulo => exact Or.inl ⟨rfl, rfl⟩
  | aresta hmem => exact Or.inr ⟨_, hmem, rfl⟩
  | passo hpre hv hmem => exact absurd hv (Nat.not_lt_zero _)

/-- Splitting a walk with internal vertices below `k + 1`: either it avoids `k`
entirely or it decomposes at `k` into two legs avoiding `k` internally. -/
theorem caminhoI_succ {g : Grafo} (hnn : PesosNaoNegativos g) {k u v : Nat} {w : Int}
    (h : CaminhoI g (k + 1) u v w) :
    CaminhoI g k u v w ∨
      ∃ w1 w2, CaminhoI g k u k w1 ∧ CaminhoI g k k v w2 ∧ w1 + w2 ≤ w := by
  induction h with
  | nulo => exact Or.inl (CaminhoI.nulo _)
  | aresta hmem => exact Or.inl (CaminhoI.aresta hmem)
  | passo hpre hv hmem ih =>
    rename_i x d acc p
    have hp0 : (0 : Int) ≤ p := hnn _ _ hmem
    rcases ih with hI | ⟨w1, w2, h1, h2, hle⟩
    · by_cases hxk : x < k
      · exact Or.inl (CaminhoI.passo hI hxk hmem)
      · have hxeq : x = k := by omega
        subst hxeq
        exact Or.inr ⟨acc, p, hI, CaminhoI.aresta hmem, le_refl _⟩
    · by_cases hxk : x < k
      · exact Or.inr ⟨w1, w2 + p, h1, CaminhoI.passo h2 hxk hmem, by omega⟩
      · have hxeq : x = k := by omega
        subst hxeq
        have hw2 : (0 : Int) ≤ w2 := caminho_nonneg hnn (caminhoI_caminho h2)
        exact Or.inr ⟨w1, p, h1, CaminhoI.aresta hmem, by omega⟩

/-- Completeness up to phase `k`: every in-range entry is at most the weight of
every walk avoiding intermediate vertices at or above `k`. -/
def FloydAte (g : Grafo) (k : Nat) (m : List (List Int)) : Prop :=
  ∀ i j, i < g.numVertices → j < g.numVertices →
    ∀ w, CaminhoI g k i j w → matGet m i j ≤ w

theorem floydAte_passo {g : Grafo} (hnn : PesosNaoNegativos g) {k : Nat}
    (hk : k < g.numVertices) {m : List (List Int)} (hm : EstadoFloyd g m)
    (hc : FloydAte g k m) :
    EstadoFloyd g (floydPassoK g m k) ∧ FloydAte g (k + 1) (floydPassoK g m k) := by
  obtain ⟨r1, r2, r3⟩ := floydPassoK_fatos hnn hm
  refine ⟨r1, ?_⟩
  intro i j hi hj w hw
  rcases caminhoI_succ hnn hw with hI | ⟨w1, w2, h1, h2, hle⟩
  · have hb := hc i j hi hj w hI
    have hmono := r2 i j
    omega
  · have hw1 : (0 : Int) ≤ w1 := caminho_nonneg hnn (caminhoI_caminho h1)
    have hw2 : (0 : Int) ≤ w2 := caminho_nonneg hnn (caminhoI_caminho h2)
    have hb1 := hc i k hi hk w1 h1
    have hb2 := hc k j hk hj w2 h2
    by_cases hik : matGet m i k = INFINITO
    · have hcap := r1.cota i j
      rw [hik] at hb1
      omega
    · by_cases hkj : matGet m k j = INFINITO
      · have hcap := r1.cota i j
        rw [hkj] at hb2
        omega
      · have h3 := r3 i j hi hj hik hkj
        omega

/-- Processing the phases `c, c + 1, …, c + t - 1` in order. -/
theorem floydFases {g : Grafo} (hnn : PesosNaoNegativos g) :
    ∀ (t c : Nat) (m : List (List Int)), c + t ≤ g.numVertices →
      EstadoFloyd g m → FloydAte g c m →
      EstadoFloyd g ((List.range' c t).foldl (floydPassoK g) m) ∧
      FloydAte g (c + t) ((List.range' c t).foldl (floydPassoK g) m)
  | 0, c, m, hle, hm, hc => by simpa using ⟨hm, hc⟩
  | t + 1, c, m, hle, hm, hc => by
    rw [List.range'_succ]
    simp only [List.foldl_cons]
    obtain ⟨h1, h2⟩ := floydAte_passo hnn (by omega) hm hc
    obtain ⟨r1, r2⟩ := floydFases hnn t (c + 1) (floydPassoK g m c) (by omega) h1 h2
    refine ⟨r1, ?_⟩
    have hadd : c + 1 + t = c + (t + 1) := by omega
    rw [hadd] at r2
    exact r2

theorem linhaFold_comprimento :
    ∀ (l : List ElemLista) (r : List Int),
      (l.foldl (fun linha e => linha.set e.verticeAdjacente e.peso) r).length = r.length
  | [], r => rfl
  | e :: l, r => by
    simp only [List.foldl_cons]
    rw [linhaFold_comprimento l (r.set e.verticeAdjacente e.peso), List.length_set]

theorem linhaFold_ausente :
    ∀ (l : List ElemLista) (r : List Int) (j : Nat), (∀ e ∈ l, e.verticeAdjacente ≠ j) →
      (l.foldl (fun linha e => linha.set e.verticeAdjacente e.peso) r).getD j INFINITO
        = r.getD j INFINITO
  | [], r, j, h => rfl
  | e :: l, r, j, h => by
    simp only [List.foldl_cons]
    rw [linhaFold_ausente l (r.set e.verticeAdjacente e.peso) j
        (fun x hx => h x (List.mem_cons_of_mem _ hx)),
      getD_set_ne r e.verticeAdjacente j e.peso INFINITO
        (fun hj => h e (List.mem_cons_self e l) hj.symm)]

/-- With pairwise increasing destinations, each in-range adjacency entry lands
exactly in the built row. -/
theorem linhaFold_aresta :
    ∀ (l : List ElemLista) (r : List Int),
      List.Pairwise (fun a b => a.verticeAdjacente < b.verticeAdjacente) l →
      ∀ e ∈ l, e.verticeAdjacente < r.length →
      (l.foldl (fun linha x => linha.set x.verticeAdjacente x.peso) r).getD
        e.verticeAdjacente INFINITO = e.peso
  | [], r, hp, e, he, hlt => absurd he (List.not_mem_nil e)
  | x :: l, r, hp, e, he, hlt => by
    simp only [List.foldl_cons]
    rcases List.mem_cons.mp he with rfl | he2
    · have hne : ∀ y ∈ l, y.verticeAdjacente ≠ e.verticeAdjacente := by
        intro y hy
        have h2 := (List.pairwise_cons.mp hp).1 y hy
        omega
      rw [linhaFold_ausente l (r.set e.verticeAdjacente e.peso) e.verticeAdjacente hne,
        getD_set_self r e.verticeAdjacente e.peso INFINITO hlt]
    · exact linhaFold_aresta l (r.set x.verticeAdjacente x.peso)
        (List.pairwise_cons.mp hp).2 e he2
        (by rw [List.length_set]; exact hlt)

/-- Every built-row entry is the base entry or some stored edge weight. -/
theorem linhaFold_geral :
    ∀ (l : List ElemLista) (r : List Int) (j : Nat),
      (l.foldl (fun linha e => linha.set e.verticeAdjacente e.peso) r).getD j INFINITO
          = r.getD j INFINITO ∨
        ∃ e ∈ l, e.verticeAdjacente = j ∧
          (l.foldl (fun linha e => linha.set e.verticeAdjacente e.peso) r).getD j INFINITO
            = e.peso
  | [], r, j => Or.inl rfl
  | x :: l, r, j => by
    simp only [List.foldl_cons]
    rcases linhaFold_geral l (r.set x.verticeAdjacente x.peso) j with h | ⟨e, he, hej, hp⟩
    · by_cases hxj : x.verticeAdjacente = j
      · rcases getD_set_geral r x.verticeAdjacente j x.peso INFINITO with h2 | ⟨h2, -, -⟩
        · rw [h, h2]
          exact Or.inl rfl
        · exact Or.inr ⟨x, List.mem_cons_self x l, hxj, by rw [h, h2]⟩
      · rw [h, getD_set_ne r x.verticeAdjacente j x.peso INFINITO (fun hh => hxj hh.symm)]
        exact Or.inl rfl
    · exact Or.inr ⟨e, List.mem_cons_of_mem _ he, hej, hp⟩

theorem floydInicial_comprimento (g : Grafo) : g.floydInicial.length = g.numVertices := by
  rw [Grafo.floydInicial, List.length_map, List.length_range]

theorem floydInicial_linha {g : Grafo} {i : Nat} (hi : i < g.numVertices) :
    g.floydInicial.getD i [] =
      (g.adj i).foldl (fun linha e => linha.set e.verticeAdjacente e.peso)
        ((List.replicate g.numVertices INFINITO).set i 0) := by
  rw [Grafo.floydInicial, getD_map_range _ [] hi]

/-- Without self-loops the diagonal of the seeded matrix is exactly zero. -/
theorem floydInicial_diag {g : Grafo} (hsl : SemLacos g)
    {i : Nat} (hi : i < g.numVertices) : matGet g.floydInicial i i = 0 := by
  rw [matGet, floydInicial_linha hi,
    linhaFold_ausente (g.adj i) _ i (fun e he => hsl i e he),
    getD_set_self (List.replicate g.numVertices INFINITO) i 0 INFINITO (by simpa using hi)]

/-- With sorted lists, each in-range edge weight is stored verbatim. -/
theorem floydInicial_aresta {g : Grafo} (hbf : BemFormado g) (hord : ListasOrdenadas g)
    {i j : Nat} {p : Int} (hi : i < g.numVertices) (he : (⟨j, p⟩ : ElemLista) ∈ g.adj i) :
    matGet g.floydInicial i j = p := by
  have h := linhaFold_aresta (g.adj i) ((List.replicate g.numVertices INFINITO).set i 0)
    (hord i) ⟨j, p⟩ he
    (by rw [List.length_set, List.length_replicate]; exact hbf.limites i _ he)
  rw [matGet, floydInicial_linha hi]
  exact h

/-- The seeded matrix is a sound state and complete for phase `0`. -/
theorem floydInicial_fatos {g : Grafo} (hbf : BemFormado g)
    (hlim : PesosLimitados g) (hsl : SemLacos g) (hord : ListasOrdenadas g) :
    EstadoFloyd g g.floydInicial ∧ FloydAte g 0 g.floydInicial := by
  have hmat : ∀ i j, i < g.numVertices →
      matGet g.floydInicial i j = INFINITO ∨
      (matGet g.floydInicial i j = 0 ∧ j = i) ∨
      ∃ e ∈ g.adj i, e.verticeAdjacente = j ∧ matGet g.floydInicial i j = e.peso := by
    intro i j hi
    rw [matGet, floydInicial_linha hi]
    rcases linhaFold_geral (g.adj i) ((List.replicate g.numVertices INFINITO).set i 0) j
      with h | ⟨e, he, hej, hp⟩
    · rw [h]
      rcases getD_set_geral (List.replicate g.numVertices INFINITO) i j 0 INFINITO
        with h2 | ⟨h2, h3, -⟩
      · rw [h2, getD_replicate]
        exact Or.inl rfl
      · exact Or.inr (Or.inl ⟨h2, h3⟩)
    · exact Or.inr (Or.inr ⟨e, he, hej, hp⟩)
  have hfora : ∀ i j, g.numVertices ≤ i → matGet g.floydInicial i j = INFINITO := by
    intro i j hge
    rw [matGet, getD_fora g.floydInicial i [] (by rw [floydInicial_comprimento]; omega)]
    rfl
  refine ⟨⟨floydInicial_comprimento g, ?_, ?_, ?_⟩, ?_⟩
  · intro i hi
    rw [floydInicial_linha hi, linhaFold_comprimento, List.length_set, List.length_replicate]
  · intro i j
    by_cases hi : i < g.numVertices
    · rcases hmat i j hi with h | ⟨h, -⟩ | ⟨e, he, -, h⟩
      · rw [h]
      · rw [h, INFINITO]
        omega
      · rw [h]
        exact hlim i e he
    · rw [hfora i j (by omega)]
  · intro i j
    by_cases hi : i < g.numVertices
    · rcases hmat i j hi with h | ⟨h, rfl⟩ | ⟨e, he, hej, h⟩
      · exact Or.inl h
      · right
        rw [h]
        exact Caminho.nulo _
      · right
        rw [h]
        have hc := Caminho.passo (Caminho.nulo i) he
        rw [hej] at hc
        simpa using hc
    · exact Or.inl (hfora i j (by omega))
  · intro i j hi hj w hw
    rcases caminhoI_zero hw with ⟨rfl, rfl⟩ | ⟨p, hmem, rfl⟩
    · rw [floydInicial_diag hsl hi]
    · rw [floydInicial_aresta hbf hord hi hmem]

/-- `algoritmoFloyd` overall: a sound final state, complete for every walk. -/
theorem algoritmoFloyd_fatos {g : Grafo} (hbf : BemFormado g) (hnn : PesosNaoNegativos g)
    (hlim : PesosLimitados g) (hsl : SemLacos g) (hord : ListasOrdenadas g) :
    EstadoFloyd g g.algoritmoFloyd ∧
    ∀ i j, i < g.numVertices → j < g.numVertices →
      ∀ w, Caminho g i j w → matGet g.algoritmoFloyd i j ≤ w := by
  obtain ⟨h0, hc0⟩ := floydInicial_fatos hbf hlim hsl hord
  have h := floydFases hnn g.numVertices 0 g.floydInicial (by omega) h0 hc0
  simp only [Nat.zero_add] at h
  rw [Grafo.algoritmoFloyd, List.range_eq_range']
  refine ⟨h.1, ?_⟩
  intro i j hi hj w hw
  exact h.2 i j hi hj w (caminho_caminhoI hbf.comprimento hw)

theorem adj_mem_ou_vazio (g : Grafo) (u : Nat) :
    g.adj u ∈ g.listaAdjacencia ∨ g.adj u = [] := by
  rw [Grafo.adj, List.getD]
  cases h : g.listaAdjacencia.get? u with
  | none => exact Or.inr rfl
  | some l => exact Or.inl (List.get?_mem h)

theorem pesosNaoNegativos_de_listas {g : Grafo}
    (h : ∀ l ∈ g.listaAdjacencia, ∀ e ∈ l, 0 ≤ e.peso) : PesosNaoNegativos g := by
  intro u e he
  rcases adj_mem_ou_vazio g u with hm | hv
  · exact h _ hm e he
  · rw [hv] at he
    cases he

theorem pesosLimitados_de_listas {g : Grafo}
    (h : ∀ l ∈ g.listaAdjacencia, ∀ e ∈ l, e.peso ≤ INFINITO) : PesosLimitados g := by
  intro u e he
  rcases adj_mem_ou_vazio g u with hm | hv
  · exact h _ hm e he
  · rw [hv] at he
    cases he

theorem listasOrdenadas_de_listas {g : Grafo}
    (h : ∀ l ∈ g.listaAdjacencia,
      List.Pairwise (fun a b => a.verticeAdjacente < b.verticeAdjacente) l) :
    ListasOrdenadas g := by
  intro u
  rcases adj_mem_ou_vazio g u with hm | hv
  · exact h _ hm
  · rw [ListaOrdenada, hv]
    exact List.Pairwise.nil

theorem semLacos_de_listas {g : Grafo}
    (hlen : g.listaAdjacencia.length = g.numVertices)
    (h : ∀ u, u < g.numVertices → ∀ e ∈ g.adj u, e.verticeAdjacente ≠ u) : SemLacos g := by
  intro u e he
  by_cases hu : u < g.numVertices
  · exact h u hu e he
  · rw [adj_vazio_fora hlen (by omega)] at he
    cases he

/-- C1 (amended): on a well-formed graph whose adjacency lists are sorted and
free of self-loops, with non-negative weights that are also at most the
sentinel `999999`, the distance Dijkstra computes from `i` to `j` equals the
entry `[i][j]` of the Floyd matrix, for every in-range pair `(i, j)`. -/
theorem dijkstra_floyd_concordam {g : Grafo} (hbf : BemFormado g)
    (hnn : PesosNaoNegativos g) (hlim : PesosLimitados g) (hsl : SemLacos g)
    (hord : ListasOrdenadas g) {i j : Nat} (hi : i < g.numVertices)
    (hj : j < g.numVertices) :
    (g.algoritmoDijkstra i).getD j INFINITO = matGet g.algoritmoFloyd i j := by
  obtain ⟨hF, hFcomp⟩ := algoritmoFloyd_fatos hbf hnn hlim hsl hord
  have hD : InvarianteDijkstra g i (g.algoritmoDijkstra i) := by
    rw [Grafo.algoritmoDijkstra]
    exact dijkstraLoop_preserva _ _ _ (invarianteDijkstra_inicial g i)
  rcases hD j with hdI | ⟨hdw, hdlt⟩
  · rcases hF.som i j with hfI | hfw
    · rw [hdI, hfI]
    · have hcap := hF.cota i j
      by_cases hflt : matGet g.algoritmoFloyd i j < INFINITO
      · have hd2 := algoritmoDijkstra_completo hbf hnn hi hfw hflt
        omega
      · omega
  · have hf1 := hFcomp i j hi hj _ hdw
    rcases hF.som i j with hfI | hfw
    · omega
    · have hflt : matGet g.algoritmoFloyd i j < INFINITO := by omega
      have hd2 := algoritmoDijkstra_completo hbf hnn hi hfw hflt
      omega

/-- The weighted triangle `0-1` (4), `1-2` (2), `0-2` (7) used to witness the
amended agreement of Dijkstra and Floyd. -/
def grafoC1 : Grafo :=
  (((Grafo.nova 3 false true).adicionaAresta 0 1 4).adicionaAresta 1 2 2).adicionaAresta 0 2 7

/-- Witness for the amended C1 on the weighted triangle at the pair `(0, 2)`. -/
theorem dijkstra_floyd_concordam_witness :
    (BemFormado grafoC1 ∧ PesosNaoNegativos grafoC1 ∧ PesosLimitados grafoC1 ∧
      SemLacos grafoC1 ∧ ListasOrdenadas grafoC1 ∧
      0 < grafoC1.numVertices ∧ 2 < grafoC1.numVertices) ∧
    (grafoC1.algoritmoDijkstra 0).getD 2 INFINITO = matGet grafoC1.algoritmoFloyd 0 2 :=
  have hbf : BemFormado grafoC1 := bemFormado_de_listas (by decide) (by decide)
  have hnn : PesosNaoNegativos grafoC1 := pesosNaoNegativos_de_listas (by decide)
  have hlim : PesosLimitados grafoC1 := pesosLimitados_de_listas (by decide)
  have hsl : SemLacos grafoC1 := semLacos_de_listas (by decide) (by decide)
  have hord : ListasOrdenadas grafoC1 := listasOrdenadas_de_listas (by decide)
  ⟨⟨hbf, hnn, hlim, hsl, hord, by decide, by decide⟩,
    dijkstra_floyd_concordam hbf hnn hlim hsl hord (by decide) (by decide)⟩

/-- The two-vertex undirected weighted graph with the single edge `0-1` of
weight `1000000`, above the sentinel. -/
def grafoContraC1 : Grafo := (Grafo.nova 2 false true).adicionaAresta 0 1 1000000

/-- C1 (counterexample to the claim as stated): all weights are strictly
non-negative, yet Dijkstra leaves `0 → 1` at the sentinel `999999` while the
Floyd matrix stores the seeded weight `1000000`, so the two disagree. -/
theorem dijkstra_floyd_discordam :
    PesosNaoNegativos grafoContraC1 ∧
    (grafoContraC1.algoritmoDijkstra 0).getD 1 INFINITO ≠
      matGet grafoContraC1.algoritmoFloyd 0 1 := by
  constructor
  · exact pesosNaoNegativos_de_listas (by decide)
  · decide

/-! ### Claim C6: connectivity over edge lists, forests and component counts -/

/-- Connectivity through an explicit edge list, in the undirected sense. -/
inductive Conexo (T : List Aresta) : Nat → Nat → Prop
  | refl (v : Nat) : Conexo T v v
  | avante {u a b : Nat} {p : Int} : Conexo T u a →
      (⟨a, b, p⟩ : Aresta) ∈ T → Conexo T u b
  | tras {u a b : Nat} {p : Int} : Conexo T u a →
      (⟨b, a, p⟩ : Aresta) ∈ T → Conexo T u b

theorem conexo_trans {T : List Aresta} {u v w : Nat}
    (h1 : Conexo T u v) (h2 : Conexo T v w) : Conexo T u w := by
  induction h2 with
  | refl => exact h1
  | avante hpre hmem ih => exact Conexo.avante ih hmem
  | tras hpre hmem ih => exact Conexo.tras ih hmem

theorem conexo_symm {T : List Aresta} {u v : Nat} (h : Conexo T u v) : Conexo T v u := by
  induction h with
  | refl => exact Conexo.refl _
  | avante hpre hmem ih =>
    rename_i a b p
    exact conexo_trans (Conexo.tras (Conexo.refl b) hmem) ih
  | tras hpre hmem ih =>
    rename_i a b p
    exact conexo_trans (Conexo.avante (Conexo.refl b) hmem) ih

theorem conexo_mono {T U : List Aresta} (hsub : ∀ a ∈ T, a ∈ U) {u v : Nat}
    (h : Conexo T u v) : Conexo U u v := by
  induction h with
  | refl => exact Conexo.refl _
  | avante hpre hmem ih => exact Conexo.avante ih (hsub _ hmem)
  | tras hpre hmem ih => exact Conexo.tras ih (hsub _ hmem)

theorem conexo_aresta {T : List Aresta} {a : Aresta} (h : a ∈ T) :
    Conexo T a.verticeOrigem a.verticeDestino :=
  Conexo.avante (Conexo.refl a.verticeOrigem) (by
    have : (⟨a.verticeOrigem, a.verticeDestino, a.peso⟩ : Aresta) = a := rfl
    rw [this]
    exact h)

theorem conexo_nil {u v : Nat} (h : Conexo [] u v) : u = v := by
  induction h with
  | refl => rfl
  | avante hpre hmem ih => cases hmem
  | tras hpre hmem ih => cases hmem

/-- Adding one edge at the head: connectivity either existed already or routes
through the new edge in one of its two directions. -/
theorem conexo_cons {e : Aresta} {T : List Aresta} {u v : Nat} :
    Conexo (e :: T) u v ↔ Conexo T u v ∨
      (Conexo T u e.verticeOrigem ∧ Conexo T e.verticeDestino v) ∨
      (Conexo T u e.verticeDestino ∧ Conexo T e.verticeOrigem v) := by
  constructor
  · intro h
    induction h with
    | refl => exact Or.inl (Conexo.refl _)
    | avante hpre hmem ih =>
      rename_i a b p
      rcases List.mem_cons.mp hmem with heq | hmem2
      · have ha : a = e.verticeOrigem := by rw [← heq]
        have hb : b = e.verticeDestino := by rw [← heq]
        subst ha
        subst hb
        rcases ih with h1 | ⟨h1, h2⟩ | ⟨h1, h2⟩
        · exact Or.inr (Or.inl ⟨h1, Conexo.refl _⟩)
        · exact Or.inr (Or.inl ⟨h1, Conexo.refl _⟩)
        · exact Or.inl h1
      · rcases ih with h1 | ⟨h1, h2⟩ | ⟨h1, h2⟩
        · exact Or.inl (Conexo.avante h1 hmem2)
        · exact Or.inr (Or.inl ⟨h1, Conexo.avante h2 hmem2⟩)
        · exact Or.inr (Or.inr ⟨h1, Conexo.avante h2 hmem2⟩)
    | tras hpre hmem ih =>
      rename_i a b p
      rcases List.mem_cons.mp hmem with heq | hmem2
      · have hb : b = e.verticeOrigem := by rw [← heq]
        have ha : a = e.verticeDestino := by rw [← heq]
        subst ha
        subst hb
        rcases ih with h1 | ⟨h1, h2⟩ | ⟨h1, h2⟩
        · exact Or.inr (Or.inr ⟨h1, Conexo.refl _⟩)
        · exact Or.inl h1
        · exact Or.inr (Or.inr ⟨h1, Conexo.refl _⟩)
      · rcases ih with h1 | ⟨h1, h2⟩ | ⟨h1, h2⟩
        · exact Or.inl (Conexo.tras h1 hmem2)
        · exact Or.inr (Or.inl ⟨h1, Conexo.tras h2 hmem2⟩)
        · exact Or.inr (Or.inr ⟨h1, Conexo.tras h2 hmem2⟩)
  · intro h
    have hcons : ∀ x ∈ T, x ∈ e :: T := fun x hx => List.mem_cons_of_mem _ hx
    have hoe : Conexo (e :: T) e.verticeOrigem e.verticeDestino :=
      conexo_aresta (List.mem_cons_self e T)
    rcases h with h1 | ⟨h1, h2⟩ | ⟨h1, h2⟩
    · exact conexo_mono hcons h1
    · exact conexo_trans (conexo_mono hcons h1)
        (conexo_trans hoe (conexo_mono hcons h2))
    · exact conexo_trans (conexo_mono hcons h1)
        (conexo_trans (conexo_symm hoe) (conexo_mono hcons h2))

/-- `v` is the least vertex of its `Conexo`-class. -/
def MinClasse (T : List Aresta) (v : Nat) : Prop := ∀ u, u < v → ¬ Conexo T u v

section ContagemClassica
open Classical

/-- The number of connectivity classes meeting `[0, n)`, counted through least
representatives (classical, used only inside proofs). -/
noncomputable def numComp (n : Nat) (T : List Aresta) : Nat :=
  ((List.range n).filter (fun v => decide (MinClasse T v))).length

theorem numComp_nil (n : Nat) : numComp n [] = n := by
  have h : ∀ v ∈ List.range n, decide (MinClasse [] v) = true := by
    intro v hv
    rw [decide_eq_true_eq]
    intro u hu hc
    exact absurd (conexo_nil hc) (by omega)
  rw [numComp, List.filter_eq_self.mpr h, List.length_range]

theorem numComp_congr {n : Nat} {T U : List Aresta}
    (h : ∀ u v, Conexo T u v ↔ Conexo U u v) : numComp n T = numComp n U := by
  rw [numComp, numComp, List.filter_congr]
  intro v hv
  apply decide_eq_decide.mpr
  constructor
  · intro hm u hu hc
    exact hm u hu ((h u v).mpr hc)
  · intro hm u hu hc
    exact hm u hu ((h u v).mp hc)

theorem numComp_cons_conexo {n : Nat} {e : Aresta} {T : List Aresta}
    (hc : Conexo T e.verticeOrigem e.verticeDestino) :
    numComp n (e :: T) = numComp n T := by
  apply numComp_congr
  intro u v
  constructor
  · intro h
    rcases conexo_cons.mp h with h1 | ⟨h1, h2⟩ | ⟨h1, h2⟩
    · exact h1
    · exact conexo_trans h1 (conexo_trans hc h2)
    · exact conexo_trans h1 (conexo_trans (conexo_symm hc) h2)
  · intro h
    exact conexo_mono (fun a ha => List.mem_cons_of_mem _ ha) h

theorem filter_menos_um {f g : Nat → Bool} :
    ∀ {l : List Nat}, l.Nodup → ∀ {x : Nat}, x ∈ l → f x = true → g x = false →
      (∀ v ∈ l, v ≠ x → g v = f v) →
      (l.filter g).length + 1 = (l.filter f).length := by
  intro l
  induction l with
  | nil =>
    intro hnd x hx
    cases hx
  | cons a l ih =>
    intro hnd x hx hf hg hcongr
    have hal : a ∉ l := (List.nodup_cons.mp hnd).1
    rcases List.mem_cons.mp hx with rfl | hx2
    · rw [List.filter_cons_of_pos hf, List.filter_cons_of_neg (by simp [hg])]
      have heq : l.filter g = l.filter f := by
        apply List.filter_congr
        intro v hv
        exact hcongr v (List.mem_cons_of_mem _ hv) (fun hvx => hal (hvx ▸ hv))
      rw [heq, List.length_cons]
    · have hax : a ≠ x := fun h => hal (h ▸ hx2)
      have hga : g a = f a := hcongr a (List.mem_cons_self a l) hax
      have hrec := ih (List.nodup_cons.mp hnd).2 hx2 hf hg
        (fun v hv hvx => hcongr v (List.mem_cons_of_mem _ hv) hvx)
      by_cases hfa : f a = true
      · rw [List.filter_cons_of_pos hfa, List.filter_cons_of_pos (by rw [hga]; exact hfa),
          List.length_cons, List.length_cons]
        omega
      · rw [List.filter_cons_of_neg hfa, List.filter_cons_of_neg (by rw [hga]; exact hfa)]
        exact hrec

theorem numComp_cons_nova {n : Nat} {e : Aresta} {T : List Aresta}
    (ho : e.verticeOrigem < n) (hd : e.verticeDestino < n)
    (hnc : ¬ Conexo T e.verticeOrigem e.verticeDestino) :
    numComp n (e :: T) + 1 = numComp n T := by
  have hex1 : ∃ u, Conexo T u e.verticeOrigem := ⟨_, Conexo.refl _⟩
  have hex2 : ∃ u, Conexo T u e.verticeDestino := ⟨_, Conexo.refl _⟩
  have hm1c : Conexo T (Nat.find hex1) e.verticeOrigem := Nat.find_spec hex1
  have hm2c : Conexo T (Nat.find hex2) e.verticeDestino := Nat.find_spec hex2
  have hm1n : Nat.find hex1 < n := lt_of_le_of_lt (Nat.find_le (Conexo.refl _)) ho
  have hm2n : Nat.find hex2 < n := lt_of_le_of_lt (Nat.find_le (Conexo.refl _)) hd
  have hm1min : ∀ u, Conexo T u e.verticeOrigem → Nat.find hex1 ≤ u := by
    intro u hu
    by_contra hlt
    exact Nat.find_min hex1 (by omega) hu
  have hm2min : ∀ u, Conexo T u e.verticeDestino → Nat.find hex2 ≤ u := by
    intro u hu
    by_contra hlt
    exact Nat.find_min hex2 (by omega) hu
  have hMC1 : MinClasse T (Nat.find hex1) := by
    intro u hu hc
    have h2 := hm1min u (conexo_trans hc hm1c)
    omega
  have hMC2 : MinClasse T (Nat.find hex2) := by
    intro u hu hc
    have h2 := hm2min u (conexo_trans hc hm2c)
    omega
  have hne : Nat.find hex1 ≠ Nat.find hex2 := by
    intro h
    exact hnc (conexo_trans (conexo_symm hm1c) (h ▸ hm2c))
  have hclass1 : ∀ v, MinClasse T v → Conexo T v e.verticeOrigem → v = Nat.find hex1 := by
    intro v hv hc
    have h1 := hm1min v hc
    have h2 : ¬ Nat.find hex1 < v := fun hlt =>
      hv _ hlt (conexo_trans hm1c (conexo_symm hc))
    omega
  have hclass2 : ∀ v, MinClasse T v → Conexo T v e.verticeDestino → v = Nat.find hex2 := by
    intro v hv hc
    have h1 := hm2min v hc
    have h2 : ¬ Nat.find hex2 < v := fun hlt =>
      hv _ hlt (conexo_trans hm2c (conexo_symm hc))
    omega
  -- the larger of the two least representatives stops being one
  have hmM : min (Nat.find hex1) (Nat.find hex2) < max (Nat.find hex1) (Nat.find hex2) := by
    omega
  have hMmem : max (Nat.find hex1) (Nat.find hex2) ∈ List.range n :=
    List.mem_range.mpr (by omega)
  have hMf : decide (MinClasse T (max (Nat.find hex1) (Nat.find hex2))) = true := by
    rw [decide_eq_true_eq]
    rcases max_choice (Nat.find hex1) (Nat.find hex2) with h | h
    · rw [h]; exact hMC1
    · rw [h]; exact hMC2
  have hcross : Conexo (e :: T) (Nat.find hex1) (Nat.find hex2) := by
    have hsub : ∀ a ∈ T, a ∈ e :: T := fun a ha => List.mem_cons_of_mem _ ha
    have hoe : Conexo (e :: T) e.verticeOrigem e.verticeDestino :=
      conexo_aresta (List.mem_cons_self e T)
    exact conexo_trans (conexo_mono hsub hm1c)
      (conexo_trans hoe (conexo_mono hsub (conexo_symm hm2c)))
  have hMg : decide (MinClasse (e :: T) (max (Nat.find hex1) (Nat.find hex2))) = false := by
    rw [decide_eq_false_iff_not]
    intro hm
    rcases max_choice (Nat.find hex1) (Nat.find hex2) with h | h
    · rw [h] at hm
      exact hm (Nat.find hex2) (by omega) (conexo_symm hcross)
    · rw [h] at hm
      exact hm (Nat.find hex1) (by omega) hcross
  have hcongr : ∀ v ∈ List.range n, v ≠ max (Nat.find hex1) (Nat.find hex2) →
      decide (MinClasse (e :: T) v) = decide (MinClasse T v) := by
    intro v hv hvM
    apply decide_eq_decide.mpr
    constructor
    · intro hm u hu hc
      exact hm u hu (conexo_mono (fun a ha => List.mem_cons_of_mem _ ha) hc)
    · intro hm u hu hc
      rcases conexo_cons.mp hc with h1 | ⟨h1, h2⟩ | ⟨h1, h2⟩
      · exact hm u hu h1
      · have hv2 := hclass2 v hm (conexo_symm h2)
        have hu1 := hm1min u h1
        rcases max_choice (Nat.find hex1) (Nat.find hex2) with h | h
        · omega
        · exact hvM (by omega)
      · have hv1 := hclass1 v hm (conexo_symm h2)
        have hu2 := hm2min u h1
        rcases max_choice (Nat.find hex1) (Nat.find hex2) with h | h
        · exact hvM (by omega)
        · omega
  have hfinal := filter_menos_um (List.nodup_range n) hMmem hMf hMg hcongr
  rw [numComp, numComp]
  exact hfinal

theorem filter_length_mono {f g : Nat → Bool} :
    ∀ {l : List Nat}, (∀ v ∈ l, g v = true → f v = true) →
      (l.filter g).length ≤ (l.filter f).length := by
  intro l
  induction l with
  | nil => intro h; exact le_refl 0
  | cons a l ih =>
    intro h
    have ih2 := ih (fun v hv => h v (List.mem_cons_of_mem _ hv))
    by_cases hg : g a = true
    · rw [List.filter_cons_of_pos (h a (List.mem_cons_self a l) hg),
        List.filter_cons_of_pos hg, List.length_cons, List.length_cons]
      omega
    · rw [List.filter_cons_of_neg hg]
      by_cases hf : f a = true
      · rw [List.filter_cons_of_pos hf, List.length_cons]
        omega
      · rw [List.filter_cons_of_neg hf]
        exact ih2

theorem numComp_mono {n : Nat} {T U : List Aresta}
    (h : ∀ u v, Conexo T u v → Conexo U u v) : numComp n U ≤ numComp n T := by
  rw [numComp, numComp]
  apply filter_length_mono
  intro v hv hg
  rw [decide_eq_true_eq] at hg ⊢
  intro u hu hc
  exact hg u hu (h u v hc)

end ContagemClassica

/-- Greedy forests: each listed edge joined two previously unconnected
components (list head added last). -/
inductive FlorestaL : List Aresta → Prop
  | nil : FlorestaL []
  | cons {e : Aresta} {T : List Aresta} : FlorestaL T →
      ¬ Conexo T e.verticeOrigem e.verticeDestino → FlorestaL (e :: T)

/-- Every listed edge joins two in-range endpoints. -/
def ArestasNoIntervalo (n : Nat) (T : List Aresta) : Prop :=
  ∀ a ∈ T, a.verticeOrigem < n ∧ a.verticeDestino < n

theorem florestaL_conta {n : Nat} :
    ∀ {T : List Aresta}, FlorestaL T → ArestasNoIntervalo n T →
      numComp n T + T.length = n := by
  intro T hT
  induction hT with
  | nil =>
    intro hr
    rw [numComp_nil]
    simp
  | cons hfl hnc ih =>
    rename_i e T
    intro hr
    have hrT : ArestasNoIntervalo n T := fun a ha => hr a (List.mem_cons_of_mem _ ha)
    have he := hr e (List.mem_cons_self e T)
    have hnova := numComp_cons_nova he.1 he.2 hnc
    have hT2 := ih hrT
    rw [List.length_cons]
    omega

theorem floresta_troca {n : Nat} {A B : List Aresta} (hA : FlorestaL A)
    (hB : FlorestaL B) (hAr : ArestasNoIntervalo n A) (hBr : ArestasNoIntervalo n B)
    (hlen : A.length < B.length) :
    ∃ e ∈ B, ¬ Conexo A e.verticeOrigem e.verticeDestino := by
  by_contra hno
  push_neg at hno
  have hmono : ∀ u v, Conexo B u v → Conexo A u v := by
    intro u v h
    induction h with
    | refl => exact Conexo.refl _
    | avante hpre hmem ih => exact conexo_trans ih (hno _ hmem)
    | tras hpre hmem ih => exact conexo_trans ih (conexo_symm (hno _ hmem))
  have h1 : numComp n A ≤ numComp n B := numComp_mono hmono
  have h2 := florestaL_conta hA hAr
  have h3 := florestaL_conta hB hBr
  omega

/-! ### Claim C6: the union-find structure -/

/-- The `i`-th iterate of the parent map (used to show parent chains reach a
root). -/
def iterar (anc : List Nat) (x : Nat) : Nat → Nat
  | 0 => x
  | i + 1 =>
    let y := iterar anc x i
    anc.getD y y

/-- The parent chain from `x` reaches the root `r` in `k` steps. -/
inductive AtingeK (anc : List Nat) : Nat → Nat → Nat → Prop
  | fixo {x : Nat} : anc.getD x x = x → AtingeK anc x x 0
  | sobe {x r k : Nat} : anc.getD x x ≠ x → AtingeK anc (anc.getD x x) r k →
      AtingeK anc x r (k + 1)

/-- The parent chain from `x` reaches the root `r`. -/
def Atinge (anc : List Nat) (x r : Nat) : Prop := ∃ k, AtingeK anc x r k

/-- The union-find invariant: square shape, in-range parents, and strictly
increasing heights along non-trivial parent links. -/
structure UFInv (n : Nat) (ds : DisjointSet) : Prop where
  alen : ds.ancestral.length = n
  tlen : ds.altura.length = n
  intervalo : ∀ x, x < n → ds.ancestral.getD x x < n
  prog : ∀ x, x < n → ds.ancestral.getD x x ≠ x →
    ds.altura.getD x 0 < ds.altura.getD (ds.ancestral.getD x x) 0

theorem atingeK_raiz_fixa {anc : List Nat} :
    ∀ {x r k : Nat}, AtingeK anc x r k → anc.getD r r = r := by
  intro x r k h
  induction h with
  | fixo hf => exact hf
  | sobe hne hpre ih => exact ih

theorem atinge_raiz_fixa {anc : List Nat} {x r : Nat} (h : Atinge anc x r) :
    anc.getD r r = r := by
  obtain ⟨k, hk⟩ := h
  exact atingeK_raiz_fixa hk

theorem atingeK_fixa_eq {anc : List Nat} {r s k : Nat} (hr : anc.getD r r = r)
    (h : AtingeK anc r s k) : s = r := by
  cases h with
  | fixo hf => rfl
  | sobe hne hpre => exact absurd hr hne

theorem atinge_fixa_eq {anc : List Nat} {r s : Nat} (hr : anc.getD r r = r)
    (h : Atinge anc r s) : s = r := by
  obtain ⟨k, hk⟩ := h
  exact atingeK_fixa_eq hr hk

theorem atingeK_unica {anc : List Nat} :
    ∀ {x r k : Nat}, AtingeK anc x r k → ∀ {s m : Nat}, AtingeK anc x s m → r = s := by
  intro x r k h
  induction h with
  | fixo hf =>
    intro s m h2
    exact (atingeK_fixa_eq hf h2).symm
  | sobe hne hpre ih =>
    intro s m h2
    cases h2 with
    | fixo hf => exact absurd hf hne
    | sobe hne2 hpre2 => exact ih hpre2

theorem atinge_unica {anc : List Nat} {x r s : Nat} (h1 : Atinge anc x r)
    (h2 : Atinge anc x s) : r = s := by
  obtain ⟨k, hk⟩ := h1
  obtain ⟨m, hm⟩ := h2
  exact atingeK_unica hk hm

theorem atinge_para_si {anc : List Nat} {x : Nat} (h : Atinge anc x x) :
    anc.getD x x = x := atinge_raiz_fixa h

theorem atingeK_range {n : Nat} {anc : List Nat}
    (hint : ∀ x, x < n → anc.getD x x < n) :
    ∀ {x r k : Nat}, AtingeK anc x r k → x < n → r < n := by
  intro x r k h
  induction h with
  | fixo hf => intro hx; exact hx
  | sobe hne hpre ih => intro hx; exact ih (hint _ hx)

theorem atingeK_altura_mono {n : Nat} {anc alt : List Nat}
    (hint : ∀ x, x < n → anc.getD x x < n)
    (hprog : ∀ x, x < n → anc.getD x x ≠ x →
      alt.getD x 0 < alt.getD (anc.getD x x) 0) :
    ∀ {x r k : Nat}, AtingeK anc x r k → x < n → alt.getD x 0 ≤ alt.getD r 0 := by
  intro x r k h
  induction h with
  | fixo hf => intro hx; exact le_refl _
  | sobe hne hpre ih =>
    intro hx
    have h1 := hprog _ hx hne
    have h2 := ih (hint _ hx)
    omega

theorem iterar_shift (anc : List Nat) (x : Nat) :
    ∀ i, iterar anc x (i + 1) = iterar anc (anc.getD x x) i := by
  intro i
  induction i with
  | zero => rfl
  | succ j ih =>
    show (fun y => anc.getD y y) (iterar anc x (j + 1))
      = (fun y => anc.getD y y) (iterar anc (anc.getD x x) j)
    rw [ih]

theorem iterar_fixo_atinge {anc : List Nat} :
    ∀ (i : Nat) (x : Nat),
      anc.getD (iterar anc x i) (iterar anc x i) = iterar anc x i →
      ∃ r k, k ≤ i ∧ AtingeK anc x r k := by
  intro i
  induction i with
  | zero =>
    intro x hfix
    exact ⟨x, 0, le_refl _, AtingeK.fixo hfix⟩
  | succ j ih =>
    intro x hfix
    by_cases hx : anc.getD x x = x
    · exact ⟨x, 0, by omega, AtingeK.fixo hx⟩
    · rw [iterar_shift] at hfix
      obtain ⟨r, k, hk, hchain⟩ := ih (anc.getD x x) hfix
      exact ⟨r, k + 1, by omega, AtingeK.sobe hx hchain⟩

theorem iterar_range {n : Nat} {anc : List Nat}
    (hint : ∀ x, x < n → anc.getD x x < n) {x : Nat} (hx : x < n) :
    ∀ i, iterar anc x i < n := by
  intro i
  induction i with
  | zero => exact hx
  | succ j ih => exact hint _ ih

theorem iterar_cresce {n : Nat} {anc alt : List Nat}
    (hint : ∀ x, x < n → anc.getD x x < n)
    (hprog : ∀ x, x < n → anc.getD x x ≠ x →
      alt.getD x 0 < alt.getD (anc.getD x x) 0)
    {x : Nat} (hx : x < n) (j : Nat)
    (hnf : ∀ t, t < j → anc.getD (iterar anc x t) (iterar anc x t) ≠ iterar anc x t) :
    ∀ i m, 0 < m → i + m ≤ j → alt.getD (iterar anc x i) 0 < alt.getD (iterar anc x (i + m)) 0 := by
  intro i m
  induction m generalizing i with
  | zero => intro h0; omega
  | succ t ih =>
    intro h0 hle
    have hpasso : alt.getD (iterar anc x i) 0 < alt.getD (iterar anc x (i + 1)) 0 := by
      have hr := iterar_range hint hx i
      have hne := hnf i (by omega)
      exact hprog _ hr hne
    by_cases ht : t = 0
    · subst ht
      exact hpasso
    · have ih2 := ih (i + 1) (by omega) (by omega)
      have harr : i + 1 + t = i + (t + 1) := by omega
      rw [harr] at ih2
      omega

theorem atinge_existe {n : Nat} {ds : DisjointSet} (hinv : UFInv n ds) {x : Nat}
    (hx : x < n) : ∃ r k, AtingeK ds.ancestral x r k ∧ k < n ∧ r < n := by
  by_cases hex : ∃ i, i < n ∧
      ds.ancestral.getD (iterar ds.ancestral x i) (iterar ds.ancestral x i)
        = iterar ds.ancestral x i
  · obtain ⟨i, hi, hfix⟩ := hex
    obtain ⟨r, k, hk, hchain⟩ := iterar_fixo_atinge i x hfix
    exact ⟨r, k, hchain, by omega, atingeK_range hinv.intervalo hchain hx⟩
  · exfalso
    push_neg at hex
    obtain ⟨i, hi, j, hj, hne, heq⟩ :=
      Finset.exists_ne_map_eq_of_card_lt_of_maps_to
        (show (Finset.range n).card < (Finset.range (n + 1)).card by simp)
        (fun a _ => Finset.mem_range.mpr (iterar_range hinv.intervalo hx a))
    have hi2 := Finset.mem_range.mp hi
    have hj2 := Finset.mem_range.mp hj
    have hdif : ∀ a b : Nat, a < b → b ≤ n →
        iterar ds.ancestral x a ≠ iterar ds.ancestral x b := by
      intro a b hab hbn habs
      have hcr := iterar_cresce hinv.intervalo hinv.prog hx n
        hex a (b - a) (by omega) (by omega)
      rw [show a + (b - a) = b by omega, habs] at hcr
      omega
    rcases Nat.lt_or_ge i j with hlt | hge
    · exact hdif i j hlt (by omega) heq
    · have hlt : j < i := by omega
      exact hdif j i hlt (by omega) heq.symm

/-- Pointing `x` directly at its root preserves every chain's destination. -/
theorem atinge_compressao {anc : List Nat} {x r : Nat} (hx : Atinge anc x r)
    (hxr : x ≠ r) (hxl : x < anc.length) :
    ∀ y s, Atinge anc y s ↔ Atinge (anc.set x r) y s := by
  have hroot : anc.getD r r = r := atinge_raiz_fixa hx
  have hax : (anc.set x r).getD x x = r := getD_set_self anc x r x hxl
  have hrfix : (anc.set x r).getD r r = r := by
    rw [getD_set_ne anc x r r r (Ne.symm hxr)]
    exact hroot
  intro y s
  constructor
  · intro h
    obtain ⟨k, hk⟩ := h
    induction hk with
    | fixo hf =>
      rename_i z
      have hzx : z ≠ x := by
        intro hzx
        subst hzx
        exact hxr (atinge_fixa_eq hf hx).symm
      exact ⟨0, AtingeK.fixo (by rw [getD_set_ne anc x z r z hzx]; exact hf)⟩
    | sobe hne hpre ih =>
      rename_i z s2 k2
      by_cases hzx : z = x
      · subst hzx
        have hs2 : s2 = r := atinge_unica ⟨_, AtingeK.sobe hne hpre⟩ hx
        subst hs2
        refine ⟨1, AtingeK.sobe ?_ ?_⟩
        · rw [hax]
          exact fun h => hxr h.symm
        · rw [hax]
          exact AtingeK.fixo hrfix
      · obtain ⟨k3, hk3⟩ := ih
        refine ⟨k3 + 1, AtingeK.sobe ?_ ?_⟩
        · rw [getD_set_ne anc x z r z hzx]
          exact hne
        · rw [getD_set_ne anc x z r z hzx]
          exact hk3
  · intro h
    obtain ⟨k, hk⟩ := h
    induction hk with
    | fixo hf =>
      rename_i z
      have hzx : z ≠ x := by
        intro hzx
        subst hzx
        rw [hax] at hf
        exact hxr hf.symm
      rw [getD_set_ne anc x z r z hzx] at hf
      exact ⟨0, AtingeK.fixo hf⟩
    | sobe hne hpre ih =>
      rename_i z s2 k2
      by_cases hzx : z = x
      · subst hzx
        have hps : Atinge (anc.set z r) ((anc.set z r).getD z z) s2 := ⟨_, hpre⟩
        rw [hax] at hps
        have hs2 : s2 = r := atinge_fixa_eq hrfix hps
        subst hs2
        exact hx
      · rw [getD_set_ne anc x z r z hzx] at hne
        obtain ⟨k3, hk3⟩ := ih
        rw [getD_set_ne anc x z r z hzx] at hk3
        exact ⟨k3 + 1, AtingeK.sobe hne hk3⟩

/-- After linking `ra` under `rb`, a chain that used to end at `ra` ends at
`rb`. -/
theorem atinge_liga_direita {anc : List Nat} {ra rb : Nat}
    (hra : anc.getD ra ra = ra) (hnrb : rb ≠ ra) (hlen : ra < anc.length)
    (hrbfix : (anc.set ra rb).getD rb rb = rb) :
    ∀ {y s : Nat}, Atinge anc y s → s = ra → Atinge (anc.set ra rb) y rb := by
  have hax : (anc.set ra rb).getD ra ra = rb := getD_set_self anc ra rb ra hlen
  intro y s h
  obtain ⟨k, hk⟩ := h
  induction hk with
  | fixo hf =>
    rename_i z
    intro hza
    subst hza
    refine ⟨1, AtingeK.sobe ?_ ?_⟩
    · rw [hax]
      exact hnrb
    · rw [hax]
      exact AtingeK.fixo hrbfix
  | sobe hne hpre ih =>
    rename_i z s2 k2
    intro hs2
    have hzra : z ≠ ra := by
      intro hzra
      subst hzra
      exact hne hra
    obtain ⟨k3, hk3⟩ := ih hs2
    exact ⟨k3 + 1, AtingeK.sobe (by rw [getD_set_ne anc ra z rb z hzra]; exact hne)
      (by rw [getD_set_ne anc ra z rb z hzra]; exact hk3)⟩

/-- Linking the root `ra` under the distinct root `rb`: chains ending at `ra`
now end at `rb`, all others are untouched. -/
theorem atinge_liga {anc : List Nat} {ra rb : Nat}
    (hra : anc.getD ra ra = ra) (hrb : anc.getD rb rb = rb) (hne : ra ≠ rb)
    (hlen : ra < anc.length) :
    ∀ y s, Atinge (anc.set ra rb) y s ↔
      (Atinge anc y s ∧ s ≠ ra) ∨ (Atinge anc y ra ∧ s = rb) := by
  have hax : (anc.set ra rb).getD ra ra = rb := getD_set_self anc ra rb ra hlen
  have hrbfix : (anc.set ra rb).getD rb rb = rb := by
    rw [getD_set_ne anc ra rb rb rb (Ne.symm hne)]
    exact hrb
  intro y s
  constructor
  · intro h
    obtain ⟨k, hk⟩ := h
    induction hk with
    | fixo hf =>
      rename_i z
      have hzra : z ≠ ra := by
        intro hzra
        subst hzra
        rw [hax] at hf
        exact hne hf.symm
      rw [getD_set_ne anc ra z rb z hzra] at hf
      exact Or.inl ⟨⟨0, AtingeK.fixo hf⟩, hzra⟩
    | sobe hne2 hpre ih =>
      rename_i z s2 k2
      by_cases hzra : z = ra
      · subst hzra
        have hps : Atinge (anc.set z rb) ((anc.set z rb).getD z z) s2 := ⟨_, hpre⟩
        rw [hax] at hps
        have hs2 : s2 = rb := atinge_fixa_eq hrbfix hps
        subst hs2
        exact Or.inr ⟨⟨0, AtingeK.fixo hra⟩, rfl⟩
      · rw [getD_set_ne anc ra z rb z hzra] at hne2
        rcases ih with ⟨h1, h2⟩ | ⟨h1, h2⟩
        · obtain ⟨k3, hk3⟩ := h1
          refine Or.inl ⟨⟨k3 + 1, AtingeK.sobe hne2 ?_⟩, h2⟩
          rw [getD_set_ne anc ra z rb z hzra] at hk3
          exact hk3
        · obtain ⟨k3, hk3⟩ := h1
          refine Or.inr ⟨⟨k3 + 1, AtingeK.sobe hne2 ?_⟩, h2⟩
          rw [getD_set_ne anc ra z rb z hzra] at hk3
          exact hk3
  · intro h
    rcases h with ⟨h1, h2⟩ | ⟨h1, h2⟩
    · obtain ⟨k, hk⟩ := h1
      induction hk with
      | fixo hf =>
        rename_i z
        exact ⟨0, AtingeK.fixo (by rw [getD_set_ne anc ra z rb z h2]; exact hf)⟩
      | sobe hne2 hpre ih =>
        rename_i z s2 k2
        have hzra : z ≠ ra := by
          intro hzra
          subst hzra
          exact hne2 hra
        obtain ⟨k3, hk3⟩ := ih h2
        exact ⟨k3 + 1, AtingeK.sobe (by rw [getD_set_ne anc ra z rb z hzra]; exact hne2)
          (by rw [getD_set_ne anc ra z rb z hzra]; exact hk3)⟩
    · subst h2
      exact atinge_liga_direita hra (Ne.symm hne) hlen hrbfix h1 rfl

theorem encontrarAux_fixo {fuel : Nat} {ds : DisjointSet} {x : Nat}
    (hf : ds.ancestral.getD x x = x) :
    encontrarRepresentanteAux (fuel + 1) ds x = (x, ds) := by
  rw [encontrarRepresentanteAux]
  simp only [hf, if_pos]

theorem encontrarAux_sobe {fuel : Nat} {ds : DisjointSet} {x : Nat}
    (hf : ds.ancestral.getD x x ≠ x) :
    encontrarRepresentanteAux (fuel + 1) ds x =
      ((encontrarRepresentanteAux fuel ds (ds.ancestral.getD x x)).1,
        { (encontrarRepresentanteAux fuel ds (ds.ancestral.getD x x)).2 with
          ancestral :=
            (encontrarRepresentanteAux fuel ds (ds.ancestral.getD x x)).2.ancestral.set x
              (encontrarRepresentanteAux fuel ds (ds.ancestral.getD x x)).1 }) := by
  rw [encontrarRepresentanteAux]
  rw [if_neg hf]

/-- The recursion of `encontrarRepresentante` returns the chain's root, keeps
the invariant and the heights, and preserves every chain's destination,
whenever the fuel covers the chain length. -/
theorem encontrarAux_correto {n : Nat} :
    ∀ (fuel : Nat) {ds : DisjointSet} {x r k : Nat}, UFInv n ds → x < n →
      AtingeK ds.ancestral x r k → k ≤ fuel →
      (encontrarRepresentanteAux fuel ds x).1 = r ∧
      UFInv n (encontrarRepresentanteAux fuel ds x).2 ∧
      (encontrarRepresentanteAux fuel ds x).2.altura = ds.altura ∧
      (∀ y s, Atinge ds.ancestral y s ↔
        Atinge (encontrarRepresentanteAux fuel ds x).2.ancestral y s) := by
  intro fuel
  induction fuel with
  | zero =>
    intro ds x r k hinv hx hch hk
    have hk0 : k = 0 := by omega
    subst hk0
    cases hch with
    | fixo hf => exact ⟨rfl, hinv, rfl, fun y s => Iff.rfl⟩
  | succ f ih =>
    intro ds x r k hinv hx hch hk
    cases hch with
    | fixo hf =>
      rw [encontrarAux_fixo hf]
      exact ⟨rfl, hinv, rfl, fun y s => Iff.rfl⟩
    | sobe hne hpre =>
      rename_i k2
      have hp : ds.ancestral.getD x x < n := hinv.intervalo x hx
      obtain ⟨i1, i2, i3, i4⟩ := ih hinv hp hpre (by omega)
      rw [encontrarAux_sobe hne]
      set ds1 := encontrarRepresentanteAux f ds (ds.ancestral.getD x x) with hds1
      have hxr : x ≠ r := by
        intro hxr
        subst hxr
        exact hne (atinge_para_si ⟨_, AtingeK.sobe hne hpre⟩)
      have hrn : r < n := atingeK_range hinv.intervalo hpre hp
      have hx2 : Atinge ds1.2.ancestral x r := (i4 x r).mp ⟨_, AtingeK.sobe hne hpre⟩
      have hxl2 : x < ds1.2.ancestral.length := by
        rw [i2.alen]
        exact hx
      have hcomp := atinge_compressao hx2 hxr hxl2
      rw [i1]
      refine ⟨rfl, ⟨?_, ?_, ?_, ?_⟩, ?_, ?_⟩
      · show (ds1.2.ancestral.set x r).length = n
        rw [List.length_set]
        exact i2.alen
      · show ds1.2.altura.length = n
        exact i2.tlen
      · intro z hz
        show (ds1.2.ancestral.set x r).getD z z < n
        by_cases hzx : z = x
        · rw [hzx, getD_set_self ds1.2.ancestral x r x hxl2]
          exact hrn
        · rw [getD_set_ne ds1.2.ancestral x z r z hzx]
          exact i2.intervalo z hz
      · intro z hz hne2
        show ds1.2.altura.getD z 0 < ds1.2.altura.getD ((ds1.2.ancestral.set x r).getD z z) 0
        by_cases hzx : z = x
        · rw [hzx, getD_set_self ds1.2.ancestral x r x hxl2, i3]
          have h1 := hinv.prog x hx hne
          have h2 := atingeK_altura_mono hinv.intervalo hinv.prog hpre hp
          omega
        · rw [getD_set_ne ds1.2.ancestral x z r z hzx]
          have hne3 : ds1.2.ancestral.getD z z ≠ z := by
            have := hne2
            rw [show ({ ds1.2 with ancestral := ds1.2.ancestral.set x r } : DisjointSet).ancestral
              = ds1.2.ancestral.set x r from rfl] at this
            rw [getD_set_ne ds1.2.ancestral x z r z hzx] at this
            exact this
          exact i2.prog z hz hne3
      · show ds1.2.altura = ds.altura
        exact i3
      · intro y s
        rw [i4 y s]
        exact hcomp y s

/-- Two elements lie in the same union-find class: their chains share a root. -/
def Junto (anc : List Nat) (y z : Nat) : Prop :=
  ∃ r, Atinge anc y r ∧ Atinge anc z r

theorem junto_symm {anc : List Nat} {y z : Nat} (h : Junto anc y z) : Junto anc z y := by
  obtain ⟨r, h1, h2⟩ := h
  exact ⟨r, h2, h1⟩

theorem junto_trans {anc : List Nat} {x y z : Nat} (h1 : Junto anc x y)
    (h2 : Junto anc y z) : Junto anc x z := by
  obtain ⟨r, ha, hb⟩ := h1
  obtain ⟨s, hc, hd⟩ := h2
  have hrs : r = s := atinge_unica hb hc
  subst hrs
  exact ⟨r, ha, hd⟩

theorem junto_de_atinge {anc : List Nat} {y r : Nat} (h : Atinge anc y r) :
    Junto anc y r := ⟨r, h, ⟨0, AtingeK.fixo (atinge_raiz_fixa h)⟩⟩

theorem junto_raiz {anc : List Nat} {y r : Nat} (hr : anc.getD r r = r)
    (h : Junto anc y r) : Atinge anc y r := by
  obtain ⟨s, h1, h2⟩ := h
  rw [← atinge_fixa_eq hr h2]
  exact h1

/-- The partition-level effect of linking root `ra` under root `rb`. -/
theorem junto_liga {anc : List Nat} {ra rb : Nat}
    (hra : anc.getD ra ra = ra) (hrb : anc.getD rb rb = rb) (hne : ra ≠ rb)
    (hlen : ra < anc.length) :
    ∀ y z, Junto (anc.set ra rb) y z ↔
      (Junto anc y z ∨ (Junto anc y ra ∧ Junto anc rb z) ∨
        (Junto anc y rb ∧ Junto anc ra z)) := by
  intro y z
  constructor
  · rintro ⟨s, h1, h2⟩
    rcases (atinge_liga hra hrb hne hlen y s).mp h1 with ⟨hy, hsra⟩ | ⟨hy, hsrb⟩
    · rcases (atinge_liga hra hrb hne hlen z s).mp h2 with ⟨hz, -⟩ | ⟨hz, hsrb2⟩
      · exact Or.inl ⟨s, hy, hz⟩
      · rw [hsrb2] at hy
        exact Or.inr (Or.inr ⟨junto_de_atinge hy, junto_symm (junto_de_atinge hz)⟩)
    · rcases (atinge_liga hra hrb hne hlen z s).mp h2 with ⟨hz, -⟩ | ⟨hz, -⟩
      · rw [hsrb] at hz
        exact Or.inr (Or.inl ⟨junto_de_atinge hy, junto_symm (junto_de_atinge hz)⟩)
      · exact Or.inl ⟨ra, hy, hz⟩
  · intro h
    rcases h with ⟨s, h1, h2⟩ | ⟨h1, h2⟩ | ⟨h1, h2⟩
    · by_cases hsra : s = ra
      · subst hsra
        exact ⟨rb, (atinge_liga hra hrb hne hlen y rb).mpr (Or.inr ⟨h1, rfl⟩),
          (atinge_liga hra hrb hne hlen z rb).mpr (Or.inr ⟨h2, rfl⟩)⟩
      · exact ⟨s, (atinge_liga hra hrb hne hlen y s).mpr (Or.inl ⟨h1, hsra⟩),
          (atinge_liga hra hrb hne hlen z s).mpr (Or.inl ⟨h2, hsra⟩)⟩
    · have hy : Atinge anc y ra := junto_raiz hra h1
      have hz : Atinge anc z rb := junto_raiz hrb (junto_symm h2)
      exact ⟨rb, (atinge_liga hra hrb hne hlen y rb).mpr (Or.inr ⟨hy, rfl⟩),
        (atinge_liga hra hrb hne hlen z rb).mpr (Or.inl ⟨hz, Ne.symm hne⟩)⟩
    · have hy : Atinge anc y rb := junto_raiz hrb h1
      have hz : Atinge anc z ra := junto_raiz hra (junto_symm h2)
      exact ⟨rb, (atinge_liga hra hrb hne hlen y rb).mpr (Or.inl ⟨hy, Ne.symm hne⟩),
        (atinge_liga hra hrb hne hlen z rb).mpr (Or.inr ⟨hz, rfl⟩)⟩

/-- The union-by-rank tail of `unirConjuntos` after both finds (the `let ds3`
of the source inlined). -/
def ligaRaizes (ds2 : DisjointSet) (raizA raizB : Nat) : DisjointSet :=
  if raizA = raizB then ds2
  else if ds2.altura.getD raizA 0 < ds2.altura.getD raizB 0 then
    { ds2 with ancestral := ds2.ancestral.set raizA raizB }
  else if ds2.altura.getD raizA 0 = ds2.altura.getD raizB 0 then
    { ds2 with
      ancestral := ds2.ancestral.set raizB raizA
      altura := ds2.altura.set raizA (ds2.altura.getD raizA 0 + 1) }
  else { ds2 with ancestral := ds2.ancestral.set raizB raizA }

theorem unirConjuntos_eq (ds : DisjointSet) (a b : Nat) :
    ds.unirConjuntos a b =
      ligaRaizes ((ds.encontrarRepresentante a).2.encontrarRepresentante b).2
        (ds.encontrarRepresentante a).1
        ((ds.encontrarRepresentante a).2.encontrarRepresentante b).1 := by
  rw [DisjointSet.unirConjuntos, ligaRaizes]

/-- The union-by-rank core preserves the invariant and merges exactly the two
classes of the given roots. -/
theorem ligaRaizes_espec {n : Nat} {ds2 : DisjointSet} (hinv : UFInv n ds2)
    {ra rb : Nat} (hra : ds2.ancestral.getD ra ra = ra)
    (hrb : ds2.ancestral.getD rb rb = rb) (hran : ra < n) (hrbn : rb < n) :
    UFInv n (ligaRaizes ds2 ra rb) ∧
    (∀ y z, Junto (ligaRaizes ds2 ra rb).ancestral y z ↔
      (Junto ds2.ancestral y z ∨
        (Junto ds2.ancestral y ra ∧ Junto ds2.ancestral rb z) ∨
        (Junto ds2.ancestral y rb ∧ Junto ds2.ancestral ra z))) := by
  have hral : ra < ds2.ancestral.length := by rw [hinv.alen]; exact hran
  have hrbl : rb < ds2.ancestral.length := by rw [hinv.alen]; exact hrbn
  rw [ligaRaizes]
  by_cases heq : ra = rb
  · rw [if_pos heq]
    subst heq
    refine ⟨hinv, ?_⟩
    intro y z
    constructor
    · exact fun h => Or.inl h
    · intro h
      rcases h with h | ⟨h1, h2⟩ | ⟨h1, h2⟩
      · exact h
      · exact junto_trans h1 h2
      · exact junto_trans h1 h2
  · rw [if_neg heq]
    by_cases hlt : ds2.altura.getD ra 0 < ds2.altura.getD rb 0
    · rw [if_pos hlt]
      constructor
      · refine ⟨?_, ?_, ?_, ?_⟩
        · show (ds2.ancestral.set ra rb).length = n
          rw [List.length_set]
          exact hinv.alen
        · exact hinv.tlen
        · intro z hz
          show (ds2.ancestral.set ra rb).getD z z < n
          by_cases hzr : z = ra
          · rw [hzr, getD_set_self ds2.ancestral ra rb ra hral]
            exact hrbn
          · rw [getD_set_ne ds2.ancestral ra z rb z hzr]
            exact hinv.intervalo z hz
        · intro z hz hne2
          show ds2.altura.getD z 0 < ds2.altura.getD ((ds2.ancestral.set ra rb).getD z z) 0
          by_cases hzr : z = ra
          · rw [hzr, getD_set_self ds2.ancestral ra rb ra hral]
            exact hlt
          · rw [getD_set_ne ds2.ancestral ra z rb z hzr]
            refine hinv.prog z hz ?_
            have h2 := hne2
            rw [show ({ ds2 with ancestral := ds2.ancestral.set ra rb } : DisjointSet).ancestral
              = ds2.ancestral.set ra rb from rfl,
              getD_set_ne ds2.ancestral ra z rb z hzr] at h2
            exact h2
      · intro y z
        exact junto_liga hra hrb heq hral y z
    · rw [if_neg hlt]
      have hrardb : rb ≠ ra := Ne.symm heq
      by_cases he : ds2.altura.getD ra 0 = ds2.altura.getD rb 0
      · rw [if_pos he]
        constructor
        · refine ⟨?_, ?_, ?_, ?_⟩
          · show (ds2.ancestral.set rb ra).length = n
            rw [List.length_set]
            exact hinv.alen
          · show (ds2.altura.set ra (ds2.altura.getD ra 0 + 1)).length = n
            rw [List.length_set]
            exact hinv.tlen
          · intro z hz
            show (ds2.ancestral.set rb ra).getD z z < n
            by_cases hzr : z = rb
            · rw [hzr, getD_set_self ds2.ancestral rb ra rb hrbl]
              exact hran
            · rw [getD_set_ne ds2.ancestral rb z ra z hzr]
              exact hinv.intervalo z hz
          · intro z hz hne2
            show (ds2.altura.set ra (ds2.altura.getD ra 0 + 1)).getD z 0 <
              (ds2.altura.set ra (ds2.altura.getD ra 0 + 1)).getD
                ((ds2.ancestral.set rb ra).getD z z) 0
            by_cases hzr : z = rb
            · rw [hzr, getD_set_self ds2.ancestral rb ra rb hrbl]
              rw [getD_set_ne ds2.altura ra rb (ds2.altura.getD ra 0 + 1) 0 hrardb]
              rw [getD_set_self ds2.altura ra (ds2.altura.getD ra 0 + 1) 0
                (by rw [hinv.tlen]; exact hran)]
              omega
            · rw [getD_set_ne ds2.ancestral rb z ra z hzr]
              have hne3 : ds2.ancestral.getD z z ≠ z := by
                have h2 := hne2
                rw [show ({ ds2 with
                    ancestral := ds2.ancestral.set rb ra
                    altura := ds2.altura.set ra (ds2.altura.getD ra 0 + 1) }
                    : DisjointSet).ancestral = ds2.ancestral.set rb ra from rfl,
                  getD_set_ne ds2.ancestral rb z ra z hzr] at h2
                exact h2
              have hprogz := hinv.prog z hz hne3
              by_cases hzra : z = ra
              · rw [hzra] at hne3
                exact absurd hra hne3
              · rw [getD_set_ne ds2.altura ra z (ds2.altura.getD ra 0 + 1) 0 hzra]
                by_cases hpz : ds2.ancestral.getD z z = ra
                · rw [hpz, getD_set_self ds2.altura ra (ds2.altura.getD ra 0 + 1) 0
                    (by rw [hinv.tlen]; exact hran)]
                  rw [hpz] at hprogz
                  omega
                · rw [getD_set_ne ds2.altura ra (ds2.ancestral.getD z z)
                    (ds2.altura.getD ra 0 + 1) 0 hpz]
                  exact hprogz
        · intro y z
          have h := junto_liga hrb hra hrardb hrbl y z
          rw [show ({ ds2 with
              ancestral := ds2.ancestral.set rb ra
              altura := ds2.altura.set ra (ds2.altura.getD ra 0 + 1) }
              : DisjointSet).ancestral = ds2.ancestral.set rb ra from rfl]
          rw [h]
          constructor
          · intro h2
            rcases h2 with h2 | ⟨h1, h2⟩ | ⟨h1, h2⟩
            · exact Or.inl h2
            · exact Or.inr (Or.inr ⟨h1, h2⟩)
            · exact Or.inr (Or.inl ⟨h1, h2⟩)
          · intro h2
            rcases h2 with h2 | ⟨h1, h2⟩ | ⟨h1, h2⟩
            · exact Or.inl h2
            · exact Or.inr (Or.inr ⟨h1, h2⟩)
            · exact Or.inr (Or.inl ⟨h1, h2⟩)
      · rw [if_neg he]
        constructor
        · refine ⟨?_, ?_, ?_, ?_⟩
          · show (ds2.ancestral.set rb ra).length = n
            rw [List.length_set]
            exact hinv.alen
          · exact hinv.tlen
          · intro z hz
            show (ds2.ancestral.set rb ra).getD z z < n
            by_cases hzr : z = rb
            · rw [hzr, getD_set_self ds2.ancestral rb ra rb hrbl]
              exact hran
            · rw [getD_set_ne ds2.ancestral rb z ra z hzr]
              exact hinv.intervalo z hz
          · intro z hz hne2
            show ds2.altura.getD z 0 < ds2.altura.getD ((ds2.ancestral.set rb ra).getD z z) 0
            by_cases hzr : z = rb
            · rw [hzr, getD_set_self ds2.ancestral rb ra rb hrbl]
              omega
            · rw [getD_set_ne ds2.ancestral rb z ra z hzr]
              refine hinv.prog z hz ?_
              have h2 := hne2
              rw [show ({ ds2 with ancestral := ds2.ancestral.set rb ra } : DisjointSet).ancestral
                = ds2.ancestral.set rb ra from rfl,
                getD_set_ne ds2.ancestral rb z ra z hzr] at h2
              exact h2
        · intro y z
          have h := junto_liga hrb hra hrardb hrbl y z
          rw [show ({ ds2 with ancestral := ds2.ancestral.set rb ra } : DisjointSet).ancestral
            = ds2.ancestral.set rb ra from rfl]
          rw [h]
          constructor
          · intro h2
            rcases h2 with h2 | ⟨h1, h2⟩ | ⟨h1, h2⟩
            · exact Or.inl h2
            · exact Or.inr (Or.inr ⟨h1, h2⟩)
            · exact Or.inr (Or.inl ⟨h1, h2⟩)
          · intro h2
            rcases h2 with h2 | ⟨h1, h2⟩ | ⟨h1, h2⟩
            · exact Or.inl h2
            · exact Or.inr (Or.inr ⟨h1, h2⟩)
            · exact Or.inr (Or.inl ⟨h1, h2⟩)

/-- Top-level `encontrarRepresentante`: the standard fuel suffices, the root
comes back, and the invariant, heights and every chain's destination are
preserved. -/
theorem encontrar_correto {n : Nat} {ds : DisjointSet} (hinv : UFInv n ds) {x : Nat}
    (hx : x < n) :
    ∃ r, Atinge ds.ancestral x r ∧ r < n ∧
      (ds.encontrarRepresentante x).1 = r ∧
      UFInv n (ds.encontrarRepresentante x).2 ∧
      (ds.encontrarRepresentante x).2.altura = ds.altura ∧
      (∀ y s, Atinge ds.ancestral y s ↔
        Atinge (ds.encontrarRepresentante x).2.ancestral y s) := by
  obtain ⟨r, k, hch, hk, hrn⟩ := atinge_existe hinv hx
  obtain ⟨i1, i2, i3, i4⟩ := encontrarAux_correto ds.ancestral.length hinv hx hch
    (by rw [hinv.alen]; omega)
  exact ⟨r, ⟨k, hch⟩, hrn, i1, i2, i3, i4⟩

/-- `unirConjuntos` keeps the invariant and merges exactly the classes of its
two arguments. -/
theorem unirConjuntos_espec {n : Nat} {ds : DisjointSet} (hinv : UFInv n ds)
    {a b : Nat} (ha : a < n) (hb : b < n) :
    UFInv n (ds.unirConjuntos a b) ∧
    (∀ y z, Junto (ds.unirConjuntos a b).ancestral y z ↔
      (Junto ds.ancestral y z ∨ (Junto ds.ancestral y a ∧ Junto ds.ancestral b z) ∨
        (Junto ds.ancestral y b ∧ Junto ds.ancestral a z))) := by
  rw [unirConjuntos_eq ds a b]
  obtain ⟨ra, hAa, hran, e1, hinv1, halt1, hiff1⟩ := encontrar_correto hinv ha
  obtain ⟨rb, hAb1, hrbn, e2, hinv2, halt2, hiff2⟩ := encontrar_correto hinv1 hb
  rw [e1, e2]
  have hAa2 : Atinge ((ds.encontrarRepresentante a).2.encontrarRepresentante b).2.ancestral
      a ra := (hiff2 a ra).mp ((hiff1 a ra).mp hAa)
  have hAb2 : Atinge ((ds.encontrarRepresentante a).2.encontrarRepresentante b).2.ancestral
      b rb := (hiff2 b rb).mp hAb1
  have hra2 := atinge_raiz_fixa hAa2
  have hrb2 := atinge_raiz_fixa hAb2
  obtain ⟨j1, j2⟩ := ligaRaizes_espec hinv2 hra2 hrb2 hran hrbn
  refine ⟨j1, ?_⟩
  intro y z
  rw [j2 y z]
  have hJ : ∀ u v, Junto ds.ancestral u v ↔
      Junto ((ds.encontrarRepresentante a).2.encontrarRepresentante b).2.ancestral u v := by
    intro u v
    constructor
    · rintro ⟨r, h1, h2⟩
      exact ⟨r, (hiff2 u r).mp ((hiff1 u r).mp h1), (hiff2 v r).mp ((hiff1 v r).mp h2)⟩
    · rintro ⟨r, h1, h2⟩
      exact ⟨r, (hiff1 u r).mpr ((hiff2 u r).mpr h1), (hiff1 v r).mpr ((hiff2 v r).mpr h2)⟩
  have hJa : ∀ u, Junto ((ds.encontrarRepresentante a).2.encontrarRepresentante b).2.ancestral
      u ra ↔ Junto ds.ancestral u a := by
    intro u
    constructor
    · intro h
      exact (hJ u a).mpr (junto_trans h (junto_symm (junto_de_atinge hAa2)))
    · intro h
      exact junto_trans ((hJ u a).mp h) (junto_de_atinge hAa2)
  have hJb : ∀ u, Junto ((ds.encontrarRepresentante a).2.encontrarRepresentante b).2.ancestral
      u rb ↔ Junto ds.ancestral u b := by
    intro u
    constructor
    · intro h
      exact (hJ u b).mpr (junto_trans h (junto_symm (junto_de_atinge hAb2)))
    · intro h
      exact junto_trans ((hJ u b).mp h) (junto_de_atinge hAb2)
  constructor
  · intro h
    rcases h with h | ⟨h1, h2⟩ | ⟨h1, h2⟩
    · exact Or.inl ((hJ y z).mpr h)
    · exact Or.inr (Or.inl ⟨(hJa y).mp h1, junto_symm ((hJb z).mp (junto_symm h2))⟩)
    · exact Or.inr (Or.inr ⟨(hJb y).mp h1, junto_symm ((hJa z).mp (junto_symm h2))⟩)
  · intro h
    rcases h with h | ⟨h1, h2⟩ | ⟨h1, h2⟩
    · exact Or.inl ((hJ y z).mp h)
    · exact Or.inr (Or.inl ⟨(hJa y).mpr h1, junto_symm ((hJb z).mpr (junto_symm h2))⟩)
    · exact Or.inr (Or.inr ⟨(hJb y).mpr h1, junto_symm ((hJa z).mpr (junto_symm h2))⟩)

theorem getD_range_self (n x : Nat) : (List.range n).getD x x = x := by
  by_cases h : x < n
  · rw [List.getD, List.get?_eq_getElem?, List.getElem?_range h]
    rfl
  · exact getD_fora _ _ _ (by rw [List.length_range]; omega)

theorem ufInv_nova (n : Nat) : UFInv n (DisjointSet.nova n) := by
  refine ⟨by simp [DisjointSet.nova], by simp [DisjointSet.nova], ?_, ?_⟩
  · intro x hx
    show (List.range n).getD x x < n
    rw [getD_range_self]
    exact hx
  · intro x hx hne
    exact absurd (getD_range_self n x) hne

theorem atinge_nova {n y r : Nat} (h : Atinge (DisjointSet.nova n).ancestral y r) :
    y = r := by
  obtain ⟨k, hk⟩ := h
  cases hk with
  | fixo hf => rfl
  | sobe hne hpre => exact absurd (getD_range_self n y) hne

theorem junto_nova (n : Nat) :
    ∀ y z, Junto (DisjointSet.nova n).ancestral y z ↔ y = z := by
  intro y z
  constructor
  · rintro ⟨r, h1, h2⟩
    rw [atinge_nova h1, atinge_nova h2]
  · intro h
    subst h
    exact ⟨y, ⟨0, AtingeK.fixo (getD_range_self n y)⟩,
      ⟨0, AtingeK.fixo (getD_range_self n y)⟩⟩

theorem conexo_perm_membro {T U : List Aresta} (h : ∀ a, a ∈ T ↔ a ∈ U) {u v : Nat} :
    Conexo T u v ↔ Conexo U u v :=
  ⟨conexo_mono (fun a ha => (h a).mp ha), conexo_mono (fun a ha => (h a).mpr ha)⟩

/-- Everything the Kruskal edge loop guarantees about its final state, relative
to the already-accepted edges `T0` and the still-unscanned edges `resto`. -/
structure KruskalPos (n : Nat) (T0 resto Tf : List Aresta) (ds : DisjointSet)
    (custo : Int) : Prop where
  uf : UFInv n ds
  part : ∀ u v, u < n → v < n → (Junto ds.ancestral u v ↔ Conexo Tf u v)
  custo_eq : custo = (Tf.map Aresta.peso).sum
  floresta : FlorestaL Tf.reverse
  faixa : ArestasNoIntervalo n Tf
  ordenado : List.Pairwise (fun x y => x.peso ≤ y.peso) Tf
  mantem : ∀ t ∈ T0, t ∈ Tf
  origem : ∀ t ∈ Tf, t ∈ T0 ∨ t ∈ resto
  alcanca : ∀ e ∈ resto, Conexo Tf e.verticeOrigem e.verticeDestino
  rejeitadas : ∀ e ∈ resto, e ∉ Tf →
    Conexo (Tf.filter (fun t => decide (t.peso ≤ e.peso)))
      e.verticeOrigem e.verticeDestino

theorem kruskalPasso_aceita {ds : DisjointSet} {T : List Aresta} {c : Int} {e : Aresta}
    (h : (ds.encontrarRepresentante e.verticeOrigem).1 ≠
      ((ds.encontrarRepresentante e.verticeOrigem).2.encontrarRepresentante
        e.verticeDestino).1) :
    kruskalPasso (ds, T, c) e =
      (((ds.encontrarRepresentante e.verticeOrigem).2.encontrarRepresentante
          e.verticeDestino).2.unirConjuntos e.verticeOrigem e.verticeDestino,
        T ++ [e], c + e.peso) := by
  rw [kruskalPasso]
  rw [if_pos h]

theorem kruskalPasso_rejeita {ds : DisjointSet} {T : List Aresta} {c : Int} {e : Aresta}
    (h : ¬((ds.encontrarRepresentante e.verticeOrigem).1 ≠
      ((ds.encontrarRepresentante e.verticeOrigem).2.encontrarRepresentante
        e.verticeDestino).1)) :
    kruskalPasso (ds, T, c) e =
      (((ds.encontrarRepresentante e.verticeOrigem).2.encontrarRepresentante
          e.verticeDestino).2, T, c) := by
  rw [kruskalPasso]
  rw [if_neg h]

/-- The Kruskal edge loop, over any suffix of the sorted edge list. -/
theorem kruskal_fold_espec {n : Nat} :
    ∀ (resto : List Aresta) (ds : DisjointSet) (T : List Aresta) (custo : Int),
      UFInv n ds →
      (∀ u v, u < n → v < n → (Junto ds.ancestral u v ↔ Conexo T u v)) →
      ArestasNoIntervalo n resto → ArestasNoIntervalo n T →
      FlorestaL T.reverse →
      custo = (T.map Aresta.peso).sum →
      List.Pairwise (fun x y => x.peso ≤ y.peso) T →
      (∀ t ∈ T, ∀ r ∈ resto, t.peso ≤ r.peso) →
      List.Pairwise (fun x y => x.peso ≤ y.peso) resto →
      KruskalPos n T resto (resto.foldl kruskalPasso (ds, T, custo)).2.1
        (resto.foldl kruskalPasso (ds, T, custo)).1
        (resto.foldl kruskalPasso (ds, T, custo)).2.2 := by
  intro resto
  induction resto with
  | nil =>
    intro ds T custo hUF hPart hrR hrT hFl hC hOrd hCross hPw
    exact ⟨hUF, hPart, hC, hFl, hrT, hOrd, fun t ht => ht, fun t ht => Or.inl ht,
      fun e he => absurd he (List.not_mem_nil e),
      fun e he => absurd he (List.not_mem_nil e)⟩
  | cons e resto ih =>
    intro ds T custo hUF hPart hrR hrT hFl hC hOrd hCross hPw
    have hE := hrR e (List.mem_cons_self e resto)
    have hrR2 : ArestasNoIntervalo n resto :=
      fun a ha => hrR a (List.mem_cons_of_mem _ ha)
    have hPw2 : List.Pairwise (fun x y => x.peso ≤ y.peso) resto :=
      (List.pairwise_cons.mp hPw).2
    have hEmenor : ∀ r ∈ resto, e.peso ≤ r.peso := (List.pairwise_cons.mp hPw).1
    obtain ⟨ra, hAa, hran, e1, hinv1, halt1, hiff1⟩ := encontrar_correto hUF hE.1
    obtain ⟨rb, hAb1, hrbn, e2, hinv2, halt2, hiff2⟩ := encontrar_correto hinv1 hE.2
    have hAb0 : Atinge ds.ancestral e.verticeDestino rb := (hiff1 _ _).mpr hAb1
    have hJ2 : ∀ u v, Junto ds.ancestral u v ↔
        Junto ((ds.encontrarRepresentante e.verticeOrigem).2.encontrarRepresentante
          e.verticeDestino).2.ancestral u v := by
      intro u v
      constructor
      · rintro ⟨r, h1, h2⟩
        exact ⟨r, (hiff2 u r).mp ((hiff1 u r).mp h1), (hiff2 v r).mp ((hiff1 v r).mp h2)⟩
      · rintro ⟨r, h1, h2⟩
        exact ⟨r, (hiff1 u r).mpr ((hiff2 u r).mpr h1), (hiff1 v r).mpr ((hiff2 v r).mpr h2)⟩
    simp only [List.foldl_cons]
    by_cases hrarb : ra = rb
    · have hJun : Junto ds.ancestral e.verticeOrigem e.verticeDestino :=
        ⟨rb, by rw [← hrarb]; exact hAa, hAb0⟩
      have hCon : Conexo T e.verticeOrigem e.verticeDestino :=
        (hPart _ _ hE.1 hE.2).mp hJun
      rw [kruskalPasso_rejeita (by rw [e1, e2]; exact fun hc => hc hrarb)]
      have hPart2 : ∀ u v, u < n → v < n →
          (Junto ((ds.encontrarRepresentante e.verticeOrigem).2.encontrarRepresentante
            e.verticeDestino).2.ancestral u v ↔ Conexo T u v) := by
        intro u v hu hv
        rw [← hJ2 u v]
        exact hPart u v hu hv
      have hIH := ih ((ds.encontrarRepresentante e.verticeOrigem).2.encontrarRepresentante
          e.verticeDestino).2 T custo hinv2 hPart2 hrR2 hrT hFl hC hOrd
        (fun t ht r hr => hCross t ht r (List.mem_cons_of_mem _ hr)) hPw2
      refine ⟨hIH.uf, hIH.part, hIH.custo_eq, hIH.floresta, hIH.faixa, hIH.ordenado,
        hIH.mantem, ?_, ?_, ?_⟩
      · intro t ht
        rcases hIH.origem t ht with h | h
        · exact Or.inl h
        · exact Or.inr (List.mem_cons_of_mem _ h)
      · intro a ha
        rcases List.mem_cons.mp ha with heq | ha2
        · rw [heq]
          exact conexo_mono (fun t ht => hIH.mantem t ht) hCon
        · exact hIH.alcanca a ha2
      · intro a ha hnot
        rcases List.mem_cons.mp ha with heq | ha2
        · rw [heq]
          refine conexo_mono ?_ hCon
          intro t ht
          rw [List.mem_filter]
          refine ⟨hIH.mantem t ht, ?_⟩
          rw [decide_eq_true_eq]
          exact hCross t ht e (List.mem_cons_self e resto)
        · exact hIH.rejeitadas a ha2 hnot
    · have hNJ : ¬ Junto ds.ancestral e.verticeOrigem e.verticeDestino := by
        rintro ⟨s, h1, h2⟩
        exact hrarb ((atinge_unica hAa h1).trans (atinge_unica h2 hAb0))
      have hNC : ¬ Conexo T e.verticeOrigem e.verticeDestino :=
        fun hc => hNJ ((hPart _ _ hE.1 hE.2).mpr hc)
      rw [kruskalPasso_aceita (by rw [e1, e2]; exact hrarb)]
      obtain ⟨j1, j2⟩ := unirConjuntos_espec hinv2 hE.1 hE.2
      have hTe : ∀ a, a ∈ e :: T ↔ a ∈ T ++ [e] := by
        intro a
        rw [List.mem_cons, List.mem_append, List.mem_singleton]
        constructor
        · intro h
          exact h.symm
        · intro h
          exact h.symm
      have hq : ∀ a b, a < n → b < n →
          (Junto ((ds.encontrarRepresentante e.verticeOrigem).2.encontrarRepresentante
            e.verticeDestino).2.ancestral a b ↔ Conexo T a b) := by
        intro a b ha hb
        rw [← hJ2 a b]
        exact hPart a b ha hb
      have hPart2 : ∀ u v, u < n → v < n →
          (Junto (((ds.encontrarRepresentante e.verticeOrigem).2.encontrarRepresentante
              e.verticeDestino).2.unirConjuntos e.verticeOrigem
              e.verticeDestino).ancestral u v ↔
            Conexo (T ++ [e]) u v) := by
        intro u v hu hv
        rw [j2 u v, ← conexo_perm_membro hTe, conexo_cons]
        constructor
        · intro h
          rcases h with h | ⟨h1, h2⟩ | ⟨h1, h2⟩
          · exact Or.inl ((hq u v hu hv).mp h)
          · exact Or.inr (Or.inl ⟨(hq u _ hu hE.1).mp h1, (hq _ v hE.2 hv).mp h2⟩)
          · exact Or.inr (Or.inr ⟨(hq u _ hu hE.2).mp h1, (hq _ v hE.1 hv).mp h2⟩)
        · intro h
          rcases h with h | ⟨h1, h2⟩ | ⟨h1, h2⟩
          · exact Or.inl ((hq u v hu hv).mpr h)
          · exact Or.inr (Or.inl ⟨(hq u _ hu hE.1).mpr h1, (hq _ v hE.2 hv).mpr h2⟩)
          · exact Or.inr (Or.inr ⟨(hq u _ hu hE.2).mpr h1, (hq _ v hE.1 hv).mpr h2⟩)
      have hFl2 : FlorestaL (T ++ [e]).reverse := by
        have hrev : (T ++ [e]).reverse = e :: T.reverse := by simp
        rw [hrev]
        refine FlorestaL.cons hFl ?_
        intro hc
        exact hNC ((conexo_perm_membro (fun a => List.mem_reverse)).mp hc)
      have hrT2 : ArestasNoIntervalo n (T ++ [e]) := by
        intro a ha
        rcases List.mem_append.mp ha with h | h
        · exact hrT a h
        · rw [List.mem_singleton.mp h]
          exact hE
      have hC2 : custo + e.peso = ((T ++ [e]).map Aresta.peso).sum := by
        rw [hC]
        simp
      have hOrd2 : List.Pairwise (fun x y => x.peso ≤ y.peso) (T ++ [e]) := by
        rw [List.pairwise_append]
        refine ⟨hOrd, List.pairwise_singleton _ _, ?_⟩
        intro t ht b hb
        rw [List.mem_singleton.mp hb]
        exact hCross t ht e (List.mem_cons_self e resto)
      have hCross2 : ∀ t ∈ T ++ [e], ∀ r ∈ resto, t.peso ≤ r.peso := by
        intro t ht r hr
        rcases List.mem_append.mp ht with h | h
        · exact hCross t h r (List.mem_cons_of_mem _ hr)
        · rw [List.mem_singleton.mp h]
          exact hEmenor r hr
      have hIH := ih (((ds.encontrarRepresentante e.verticeOrigem).2.encontrarRepresentante
          e.verticeDestino).2.unirConjuntos e.verticeOrigem e.verticeDestino)
        (T ++ [e]) (custo + e.peso) j1 hPart2 hrR2 hrT2 hFl2 hC2 hOrd2 hCross2 hPw2
      have hetf : e ∈ (List.foldl kruskalPasso
          (((ds.encontrarRepresentante e.verticeOrigem).2.encontrarRepresentante
            e.verticeDestino).2.unirConjuntos e.verticeOrigem e.verticeDestino,
            T ++ [e], custo + e.peso) resto).2.1 :=
        hIH.mantem e (List.mem_append.mpr (Or.inr (List.mem_singleton.mpr rfl)))
      refine ⟨hIH.uf, hIH.part, hIH.custo_eq, hIH.floresta, hIH.faixa, hIH.ordenado,
        ?_, ?_, ?_, ?_⟩
      · intro t ht
        exact hIH.mantem t (List.mem_append.mpr (Or.inl ht))
      · intro t ht
        rcases hIH.origem t ht with h | h
        · rcases List.mem_append.mp h with h2 | h2
          · exact Or.inl h2
          · rw [List.mem_singleton.mp h2]
            exact Or.inr (List.mem_cons_self e resto)
        · exact Or.inr (List.mem_cons_of_mem _ h)
      · intro a ha
        rcases List.mem_cons.mp ha with heq | ha2
        · rw [heq]
          exact conexo_aresta hetf
        · exact hIH.alcanca a ha2
      · intro a ha hnot
        rcases List.mem_cons.mp ha with heq | ha2
        · rw [heq] at hnot
          exact absurd hetf hnot
        · exact hIH.rejeitadas a ha2 hnot

/-- Membership in the collected edge list of an undirected graph: exactly the
`origem < destino` copies of the adjacency entries. -/
theorem coletaArestas_mem {g : Grafo} (hdir : g.direcionado = false)
    (hlen : g.listaAdjacencia.length = g.numVertices) (a : Aresta) :
    a ∈ g.coletaArestas ↔
      (a.verticeOrigem < a.verticeDestino ∧
        (⟨a.verticeDestino, a.peso⟩ : ElemLista) ∈ g.adj a.verticeOrigem) := by
  rw [Grafo.coletaArestas, List.mem_flatMap]
  constructor
  · rintro ⟨v, hv, hmem⟩
    rw [List.mem_filterMap] at hmem
    obtain ⟨e, he, hsome⟩ := hmem
    by_cases hlt : v < e.verticeAdjacente
    · rw [if_pos (by rw [hdir]; simpa using hlt)] at hsome
      cases hsome
      exact ⟨hlt, he⟩
    · rw [if_neg (by rw [hdir]; simpa using hlt)] at hsome
      cases hsome
  · rintro ⟨hlt, hmem⟩
    refine ⟨a.verticeOrigem, ?_, ?_⟩
    · rw [List.mem_range]
      by_contra h
      rw [adj_vazio_fora hlen (by omega)] at hmem
      cases hmem
    · rw [List.mem_filterMap]
      refine ⟨⟨a.verticeDestino, a.peso⟩, hmem, ?_⟩
      rw [if_pos (by rw [hdir]; simpa using hlt)]

theorem coletaArestas_intervalo {g : Grafo} (hbf : BemFormado g) :
    ArestasNoIntervalo g.numVertices g.coletaArestas := by
  intro a ha
  rw [Grafo.coletaArestas, List.mem_flatMap] at ha
  obtain ⟨v, hv, hmem⟩ := ha
  rw [List.mem_filterMap] at hmem
  obtain ⟨e, he, hsome⟩ := hmem
  split at hsome
  · cases hsome
    exact ⟨List.mem_range.mp hv, hbf.limites v e he⟩
  · cases hsome

/-- Connectivity through the adjacency structure, in the undirected sense. -/
inductive ConexoAdj (g : Grafo) : Nat → Nat → Prop
  | refl (v : Nat) : ConexoAdj g v v
  | avante {u a b : Nat} {p : Int} : ConexoAdj g u a →
      (⟨b, p⟩ : ElemLista) ∈ g.adj a → ConexoAdj g u b
  | tras {u a b : Nat} {p : Int} : ConexoAdj g u a →
      (⟨a, p⟩ : ElemLista) ∈ g.adj b → ConexoAdj g u b

/-- On a symmetric graph, connectivity through the collected one-copy edge
list coincides with connectivity through the adjacency structure. -/
theorem conexo_coleta_adj {g : Grafo} (hsim : InvarianteSimetria g) :
    ∀ u v, Conexo g.coletaArestas u v ↔ ConexoAdj g u v := by
  have hmem := coletaArestas_mem hsim.direcao hsim.comprimento
  intro u v
  constructor
  · intro h
    induction h with
    | refl => exact ConexoAdj.refl _
    | avante hpre hm ih =>
      rename_i a b p
      have h2 := (hmem ⟨a, b, p⟩).mp hm
      exact ConexoAdj.avante ih h2.2
    | tras hpre hm ih =>
      rename_i a b p
      have h2 := (hmem ⟨b, a, p⟩).mp hm
      exact ConexoAdj.tras ih h2.2
  · intro h
    induction h with
    | refl => exact Conexo.refl _
    | avante hpre hm ih =>
      rename_i a b p
      rcases Nat.lt_trichotomy a b with hab | hab | hab
      · exact Conexo.avante ih ((hmem ⟨a, b, p⟩).mpr ⟨hab, hm⟩)
      · rw [← hab]
        exact ih
      · have hm2 : (⟨a, p⟩ : ElemLista) ∈ g.adj b := (hsim.simetrica a b p).mp hm
        exact Conexo.tras ih ((hmem ⟨b, a, p⟩).mpr ⟨hab, hm2⟩)
    | tras hpre hm ih =>
      rename_i a b p
      rcases Nat.lt_trichotomy a b with hab | hab | hab
      · have hm2 : (⟨b, p⟩ : ElemLista) ∈ g.adj a := (hsim.simetrica b a p).mp hm
        exact Conexo.avante ih ((hmem ⟨a, b, p⟩).mpr ⟨hab, hm2⟩)
      · rw [← hab]
        exact ih
      · exact Conexo.tras ih ((hmem ⟨b, a, p⟩).mpr ⟨hab, hm⟩)

theorem linhaColeta_nodup (g : Grafo) :
    ∀ (l : List ElemLista) (v : Nat),
      List.Pairwise (fun a b => a.verticeAdjacente < b.verticeAdjacente) l →
      ((l.filterMap (fun e =>
          if (!g.direcionado && decide (v < e.verticeAdjacente)) || g.direcionado then
            some (⟨v, e.verticeAdjacente, e.peso⟩ : Aresta)
          else none)).map (fun a => (a.verticeOrigem, a.verticeDestino))).Nodup := by
  intro l
  induction l with
  | nil =>
    intro v hp
    simp
  | cons e l ih =>
    intro v hp
    have hrest : ∀ b ∈ l.filterMap (fun e =>
        if (!g.direcionado && decide (v < e.verticeAdjacente)) || g.direcionado then
          some (⟨v, e.verticeAdjacente, e.peso⟩ : Aresta)
        else none), ∃ e2 ∈ l, b.verticeDestino = e2.verticeAdjacente := by
      intro b hb
      rw [List.mem_filterMap] at hb
      obtain ⟨e2, he2, hsome⟩ := hb
      split at hsome
      · cases hsome
        exact ⟨e2, he2, rfl⟩
      · cases hsome
    rw [List.filterMap_cons]
    split
    · exact ih v (List.pairwise_cons.mp hp).2
    · rename_i b hsome2
      have hbval : b.verticeDestino = e.verticeAdjacente := by
        split at hsome2
        · cases hsome2
          rfl
        · cases hsome2
      rw [List.map_cons, List.nodup_cons]
      refine ⟨?_, ih v (List.pairwise_cons.mp hp).2⟩
      intro hmem
      rw [List.mem_map] at hmem
      obtain ⟨c, hc, hpair⟩ := hmem
      obtain ⟨e2, he2, hdest⟩ := hrest c hc
      have hlt := (List.pairwise_cons.mp hp).1 e2 he2
      have h2 : c.verticeDestino = b.verticeDestino := congrArg Prod.snd hpair
      rw [hdest, hbval] at h2
      omega

theorem nodup_flatMap_pares {f : Nat → List Aresta}
    (hor : ∀ v, ∀ a ∈ f v, a.verticeOrigem = v)
    (hnd : ∀ v, ((f v).map (fun a => (a.verticeOrigem, a.verticeDestino))).Nodup) :
    ∀ (l : List Nat), l.Nodup →
      ((l.flatMap f).map (fun a => (a.verticeOrigem, a.verticeDestino))).Nodup := by
  intro l
  induction l with
  | nil =>
    intro h
    simp
  | cons v l ih =>
    intro h
    rw [List.flatMap_cons, List.map_append, List.nodup_append]
    refine ⟨hnd v, ih (List.nodup_cons.mp h).2, ?_⟩
    intro p hp hq
    rw [List.mem_map] at hp hq
    obtain ⟨a, ha, hpa⟩ := hp
    obtain ⟨b, hb, hpb⟩ := hq
    rw [List.mem_flatMap] at hb
    obtain ⟨w, hw, hbw⟩ := hb
    have h1 : a.verticeOrigem = v := hor v a ha
    have h2 : b.verticeOrigem = w := hor w b hbw
    have h3 : a.verticeOrigem = b.verticeOrigem := by
      have := hpa.trans hpb.symm
      exact congrArg Prod.fst this
    rw [h1, h2] at h3
    rw [h3] at h
    exact (List.nodup_cons.mp h).1 hw

/-- Each undirected edge is collected exactly once: the origin–destination
pairs of `coletaArestas` never repeat. -/
theorem coletaArestas_pares_nodup {g : Grafo} (hsim : InvarianteSimetria g) :
    (g.coletaArestas.map (fun a => (a.verticeOrigem, a.verticeDestino))).Nodup := by
  rw [Grafo.coletaArestas]
  refine nodup_flatMap_pares ?_ ?_ (List.range g.numVertices) (List.nodup_range _)
  · intro v a ha
    rw [List.mem_filterMap] at ha
    obtain ⟨e, he, hsome⟩ := ha
    split at hsome
    · cases hsome
      rfl
    · cases hsome
  · intro v
    exact linhaColeta_nodup g (g.adj v) v (hsim.ordenada v)

theorem conta_cota {n : Nat} :
    ∀ (T : List Aresta), ArestasNoIntervalo n T → n ≤ numComp n T + T.length := by
  intro T
  induction T with
  | nil =>
    intro h
    rw [numComp_nil]
    simp
  | cons e T ih =>
    intro h
    have hrT : ArestasNoIntervalo n T := fun a ha => h a (List.mem_cons_of_mem _ ha)
    have he := h e (List.mem_cons_self e T)
    have hT := ih hrT
    by_cases hc : Conexo T e.verticeOrigem e.verticeDestino
    · rw [numComp_cons_conexo hc, List.length_cons]
      omega
    · have hj := numComp_cons_nova he.1 he.2 hc
      rw [List.length_cons]
      omega

theorem florestaL_de_conta {n : Nat} :
    ∀ {T : List Aresta}, ArestasNoIntervalo n T → numComp n T + T.length = n →
      FlorestaL T := by
  intro T
  induction T with
  | nil =>
    intro h1 h2
    exact FlorestaL.nil
  | cons e T ih =>
    intro h1 h2
    have hrT : ArestasNoIntervalo n T := fun a ha => h1 a (List.mem_cons_of_mem _ ha)
    have he := h1 e (List.mem_cons_self e T)
    have hcota := conta_cota T hrT
    by_cases hc : Conexo T e.verticeOrigem e.verticeDestino
    · rw [numComp_cons_conexo hc, List.length_cons] at h2
      exfalso
      omega
    · have hjoin := numComp_cons_nova he.1 he.2 hc
      rw [List.length_cons] at h2
      exact FlorestaL.cons (ih hrT (by omega)) hc

/-- Being a forest does not depend on the listing order. -/
theorem florestaL_perm {n : Nat} {T U : List Aresta} (hr : ArestasNoIntervalo n T)
    (hperm : T.Perm U) (h : FlorestaL T) : FlorestaL U := by
  have hrU : ArestasNoIntervalo n U := fun a ha => hr a (hperm.mem_iff.mpr ha)
  have hcong : numComp n T = numComp n U :=
    numComp_congr (fun u v => conexo_perm_membro (fun a => hperm.mem_iff))
  have hc := florestaL_conta h hr
  refine florestaL_de_conta hrU ?_
  have hl := hperm.length_eq
  omega

theorem florestaL_append_right : ∀ {X Y : List Aresta}, FlorestaL (X ++ Y) → FlorestaL Y := by
  intro X
  induction X with
  | nil =>
    intro Y h
    exact h
  | cons e X ih =>
    intro Y h
    cases h with
    | cons hfl hnc => exact ih hfl

theorem soma_dominada :
    ∀ (A B : List Aresta), A.length = B.length →
      (∀ i (h1 : i < A.length) (h2 : i < B.length),
        (A.get ⟨i, h1⟩).peso ≤ (B.get ⟨i, h2⟩).peso) →
      (A.map Aresta.peso).sum ≤ (B.map Aresta.peso).sum := by
  intro A
  induction A with
  | nil =>
    intro B hlen hdom
    cases B with
    | nil => exact le_refl _
    | cons x xs => simp at hlen
  | cons a A ih =>
    intro B hlen hdom
    cases B with
    | nil => simp at hlen
    | cons b B =>
      have h0 : a.peso ≤ b.peso := hdom 0 (by simp) (by simp)
      have hrest := ih B (by simpa using hlen) (fun i h1 h2 =>
        hdom (i + 1) (by simpa using h1) (by simpa using h2))
      simp only [List.map_cons, List.sum_cons]
      omega

/-- In a weight-sorted list, an edge strictly lighter than the `i`-th entry
lies among the first `i`. -/
theorem menor_em_take {T : List Aresta}
    (hord : List.Pairwise (fun x y => x.peso ≤ y.peso) T) {e : Aresta} (he : e ∈ T)
    {i : Nat} (hi : i < T.length) (hlt : e.peso < (T.get ⟨i, hi⟩).peso) :
    e ∈ T.take i := by
  obtain ⟨j, hje⟩ := List.mem_iff_get.mp he
  have hget := List.pairwise_iff_get.mp hord
  have hij : (j : Nat) < i := by
    by_contra hge
    rcases Nat.eq_or_lt_of_le (Nat.le_of_not_lt hge) with heq | hlt2
    · rw [← hje] at hlt
      have hii : (⟨i, hi⟩ : Fin T.length) = j := Fin.ext heq
      rw [hii] at hlt
      omega
    · have hcomp := hget ⟨i, hi⟩ j hlt2
      rw [hje] at hcomp
      omega
  have hjt : (j : Nat) < (T.take i).length := by
    rw [List.length_take]
    exact lt_min hij j.isLt
  have hgt : (T.take i).get ⟨(j : Nat), hjt⟩ = e := by
    rw [List.get_eq_getElem, List.getElem_take, ← hje, List.get_eq_getElem]
  rw [← hgt]
  exact List.get_mem _ _ _

/-- The greedy forest weighs no more than any equally-long sorted competitor
forest drawn from the scanned edges. -/
theorem kruskal_dominancia {n : Nat} {Es T F : List Aresta}
    (hTord : List.Pairwise (fun x y => x.peso ≤ y.peso) T)
    (hFord : List.Pairwise (fun x y => x.peso ≤ y.peso) F)
    (hTfor : FlorestaL T.reverse) (hFfor : FlorestaL F.reverse)
    (hTr : ArestasNoIntervalo n T) (hFr : ArestasNoIntervalo n F)
    (hlen : T.length = F.length)
    (hFEs : ∀ f ∈ F, f ∈ Es)
    (hTmem : ∀ e ∈ Es, e ∉ T →
      Conexo (T.filter (fun t => decide (t.peso ≤ e.peso)))
        e.verticeOrigem e.verticeDestino) :
    (T.map Aresta.peso).sum ≤ (F.map Aresta.peso).sum := by
  refine soma_dominada T F hlen ?_
  intro i h1 h2
  by_contra hgt
  push_neg at hgt
  have hT1 : FlorestaL (T.take i).reverse := by
    have hsplit : T.reverse = (T.drop i).reverse ++ (T.take i).reverse := by
      rw [← List.reverse_append, List.take_append_drop]
    exact florestaL_append_right (hsplit ▸ hTfor)
  have hF1 : FlorestaL (F.take (i + 1)).reverse := by
    have hsplit : F.reverse = (F.drop (i + 1)).reverse ++ (F.take (i + 1)).reverse := by
      rw [← List.reverse_append, List.take_append_drop]
    exact florestaL_append_right (hsplit ▸ hFfor)
  have hT1r : ArestasNoIntervalo n (T.take i).reverse :=
    fun a ha => hTr a (List.take_subset _ _ (List.mem_reverse.mp ha))
  have hF1r : ArestasNoIntervalo n (F.take (i + 1)).reverse :=
    fun a ha => hFr a (List.take_subset _ _ (List.mem_reverse.mp ha))
  have hlens : (T.take i).reverse.length < (F.take (i + 1)).reverse.length := by
    rw [List.length_reverse, List.length_reverse, List.length_take, List.length_take]
    omega
  obtain ⟨e, heF1, henc⟩ := floresta_troca hT1 hF1 hT1r hF1r hlens
  have heF1b : e ∈ F.take (i + 1) := List.mem_reverse.mp heF1
  have heF : e ∈ F := List.take_subset _ _ heF1b
  have henc2 : ¬ Conexo (T.take i) e.verticeOrigem e.verticeDestino := by
    intro hc
    refine henc (conexo_mono ?_ hc)
    intro a ha
    exact List.mem_reverse.mpr ha
  have hepeso : e.peso ≤ (F.get ⟨i, h2⟩).peso := by
    obtain ⟨j, hjl, hje⟩ := List.mem_iff_getElem.mp heF1b
    have hjlen : j < F.length := by
      rw [List.length_take] at hjl
      omega
    have hji : j ≤ i := by
      rw [List.length_take] at hjl
      omega
    rw [List.getElem_take] at hje
    have hje2 : F.get ⟨j, hjlen⟩ = e := by
      rw [List.get_eq_getElem]
      exact hje
    rcases Nat.eq_or_lt_of_le hji with heq | hlt2
    · rw [← hje2]
      have hfin : (⟨j, hjlen⟩ : Fin F.length) = ⟨i, h2⟩ := Fin.ext heq
      rw [hfin]
    · have hcomp := List.pairwise_iff_get.mp hFord ⟨j, hjlen⟩ ⟨i, h2⟩ hlt2
      rw [hje2] at hcomp
      exact hcomp
  by_cases heT : e ∈ T
  · have hlt2 : e.peso < (T.get ⟨i, h1⟩).peso := lt_of_le_of_lt hepeso hgt
    exact henc2 (conexo_aresta (menor_em_take hTord heT h1 hlt2))
  · have hrej := hTmem e (hFEs e heF) heT
    refine henc2 (conexo_mono ?_ hrej)
    intro t ht
    rw [List.mem_filter] at ht
    obtain ⟨htT, htp⟩ := ht
    rw [decide_eq_true_eq] at htp
    exact menor_em_take hTord htT h1 (lt_of_le_of_lt (le_trans htp hepeso) hgt)

open Classical in
theorem numComp_congr_lt {n : Nat} {T U : List Aresta}
    (h : ∀ u v, u < n → v < n → (Conexo T u v ↔ Conexo U u v)) :
    numComp n T = numComp n U := by
  rw [numComp, numComp, List.filter_congr]
  intro v hv
  have hvn := List.mem_range.mp hv
  apply decide_eq_decide.mpr
  constructor
  · intro hm u hu hc
    exact hm u hu ((h u v (by omega) hvn).mpr hc)
  · intro hm u hu hc
    exact hm u hu ((h u v (by omega) hvn).mp hc)

theorem arestas_ordenadas (l : List Aresta) :
    List.Pairwise (fun x y => x.peso ≤ y.peso)
      (l.mergeSort (fun a b => a.peso ≤ b.peso)) := by
  have h := @List.sorted_mergeSort Aresta (fun a b => decide (a.peso ≤ b.peso))
    (fun a b c hab hbc => by
      rw [decide_eq_true_eq] at hab hbc ⊢
      omega)
    (fun a b => by
      rw [Bool.or_eq_true, decide_eq_true_eq, decide_eq_true_eq]
      omega)
    l
  exact h.imp (fun hab => decide_eq_true_eq.mp hab)

/-- C6: on every undirected weighted graph (connected or not), `algoritmoKruskal`
collects exactly the `origem < destino` copy of each undirected edge (each
exactly once), scans all of them sorted ascending by weight, accepts an edge
exactly when its endpoints lie in distinct components of the accepted set (the
`DisjointSet` classes), and the accepted set is a minimum spanning forest: one
tree per connected component of the graph, of total weight at most that of
every spanning forest of the graph — on disconnected graphs included. -/
theorem algoritmoKruskal_contrato {g : Grafo} (hsim : InvarianteSimetria g) :
    (∀ a : Aresta, a ∈ g.coletaArestas ↔
      (a.verticeOrigem < a.verticeDestino ∧
        (⟨a.verticeDestino, a.peso⟩ : ElemLista) ∈ g.adj a.verticeOrigem)) ∧
    (g.coletaArestas.map (fun a => (a.verticeOrigem, a.verticeDestino))).Nodup ∧
    (g.algoritmoKruskal).2 = ((g.algoritmoKruskal).1.map Aresta.peso).sum ∧
    (∀ t ∈ (g.algoritmoKruskal).1, t ∈ g.coletaArestas) ∧
    List.Pairwise (fun x y => x.peso ≤ y.peso) (g.algoritmoKruskal).1 ∧
    FlorestaL (g.algoritmoKruskal).1.reverse ∧
    (∀ e ∈ g.coletaArestas, e ∉ (g.algoritmoKruskal).1 →
      Conexo ((g.algoritmoKruskal).1.filter (fun t => decide (t.peso ≤ e.peso)))
        e.verticeOrigem e.verticeDestino) ∧
    (∀ u v, u < g.numVertices → v < g.numVertices →
      (Conexo (g.algoritmoKruskal).1 u v ↔ ConexoAdj g u v)) ∧
    (∀ F : List Aresta, (∀ f ∈ F, f ∈ g.coletaArestas) → FlorestaL F.reverse →
      (∀ u v, u < g.numVertices → v < g.numVertices →
        (Conexo F u v ↔ ConexoAdj g u v)) →
      ((g.algoritmoKruskal).1.map Aresta.peso).sum ≤ (F.map Aresta.peso).sum) := by
  have hbf : BemFormado g := ⟨hsim.comprimento, hsim.limites⟩
  have hEsm : ∀ a : Aresta,
      a ∈ g.coletaArestas.mergeSort (fun a b => a.peso ≤ b.peso) ↔
        a ∈ g.coletaArestas :=
    fun a => (List.mergeSort_perm g.coletaArestas _).mem_iff
  have hEsr : ArestasNoIntervalo g.numVertices
      (g.coletaArestas.mergeSort (fun a b => a.peso ≤ b.peso)) :=
    fun a ha => coletaArestas_intervalo hbf a ((hEsm a).mp ha)
  have hPart0 : ∀ u v, u < g.numVertices → v < g.numVertices →
      (Junto (DisjointSet.nova g.numVertices).ancestral u v ↔ Conexo [] u v) := by
    intro u v hu hv
    rw [junto_nova]
    constructor
    · intro h
      rw [h]
      exact Conexo.refl _
    · exact conexo_nil
  have hKP := kruskal_fold_espec
    (g.coletaArestas.mergeSort (fun a b => a.peso ≤ b.peso))
    (DisjointSet.nova g.numVertices) [] 0 (ufInv_nova g.numVertices) hPart0 hEsr
    (fun a ha => absurd ha (List.not_mem_nil a)) FlorestaL.nil rfl List.Pairwise.nil
    (fun t ht => absurd ht (List.not_mem_nil t)) (arestas_ordenadas g.coletaArestas)
  have hKeq : g.algoritmoKruskal =
      ((g.coletaArestas.mergeSort (fun a b => a.peso ≤ b.peso)).foldl kruskalPasso
        (DisjointSet.nova g.numVertices, [], 0)).2 := rfl
  rw [hKeq]
  have hTEs : ∀ t ∈ ((g.coletaArestas.mergeSort (fun a b => a.peso ≤ b.peso)).foldl
      kruskalPasso (DisjointSet.nova g.numVertices, [], 0)).2.1, t ∈ g.coletaArestas := by
    intro t ht
    rcases hKP.origem t ht with h | h
    · cases h
    · exact (hEsm t).mp h
  have hTr : ArestasNoIntervalo g.numVertices
      ((g.coletaArestas.mergeSort (fun a b => a.peso ≤ b.peso)).foldl
        kruskalPasso (DisjointSet.nova g.numVertices, [], 0)).2.1 :=
    fun a ha => coletaArestas_intervalo hbf a (hTEs a ha)
  have hSpan : ∀ u v, u < g.numVertices → v < g.numVertices →
      (Conexo ((g.coletaArestas.mergeSort (fun a b => a.peso ≤ b.peso)).foldl
        kruskalPasso (DisjointSet.nova g.numVertices, [], 0)).2.1 u v ↔
        ConexoAdj g u v) := by
    intro u v hu hv
    rw [← conexo_coleta_adj hsim u v]
    constructor
    · exact conexo_mono hTEs
    · intro h
      induction h with
      | refl => exact Conexo.refl _
      | avante hpre hm ih =>
        rename_i a b p
        have han : a < g.numVertices := (coletaArestas_intervalo hbf _ hm).1
        exact conexo_trans (ih han) (hKP.alcanca ⟨a, b, p⟩ ((hEsm ⟨a, b, p⟩).mpr hm))
      | tras hpre hm ih =>
        rename_i a b p
        have han : a < g.numVertices := (coletaArestas_intervalo hbf _ hm).2
        exact conexo_trans (ih han)
          (conexo_symm (hKP.alcanca ⟨b, a, p⟩ ((hEsm ⟨b, a, p⟩).mpr hm)))
  refine ⟨coletaArestas_mem hsim.direcao hsim.comprimento,
    coletaArestas_pares_nodup hsim, hKP.custo_eq, hTEs, hKP.ordenado, hKP.floresta,
    ?_, hSpan, ?_⟩
  · intro e he hnot
    exact hKP.rejeitadas e ((hEsm e).mpr he) hnot
  · intro F hFEs hFfor hFspan
    have hFr : ArestasNoIntervalo g.numVertices F :=
      fun a ha => coletaArestas_intervalo hbf a (hFEs a ha)
    have hFp : (F.mergeSort (fun a b => a.peso ≤ b.peso)).Perm F :=
      List.mergeSort_perm F _
    have hFr2 : ArestasNoIntervalo g.numVertices
        (F.mergeSort (fun a b => a.peso ≤ b.peso)) :=
      fun a ha => hFr a (hFp.mem_iff.mp ha)
    have hFrevr : ArestasNoIntervalo g.numVertices F.reverse :=
      fun a ha => hFr a (List.mem_reverse.mp ha)
    have hFrevperm : F.reverse.Perm (F.mergeSort (fun a b => a.peso ≤ b.peso)).reverse :=
      (F.reverse_perm).trans (hFp.symm.trans
        ((F.mergeSort (fun a b => a.peso ≤ b.peso)).reverse_perm.symm))
    have hFfor2 : FlorestaL (F.mergeSort (fun a b => a.peso ≤ b.peso)).reverse :=
      florestaL_perm hFrevr hFrevperm hFfor
    have hF2Es : ∀ f ∈ F.mergeSort (fun a b => a.peso ≤ b.peso),
        f ∈ g.coletaArestas.mergeSort (fun a b => a.peso ≤ b.peso) :=
      fun f hf => (hEsm f).mpr (hFEs f (hFp.mem_iff.mp hf))
    have hF2span : ∀ u v, Conexo (F.mergeSort (fun a b => a.peso ≤ b.peso)) u v ↔
        Conexo F u v :=
      fun u v => conexo_perm_membro (fun a => hFp.mem_iff)
    have hTrev : ArestasNoIntervalo g.numVertices
        (((g.coletaArestas.mergeSort (fun a b => a.peso ≤ b.peso)).foldl
          kruskalPasso (DisjointSet.nova g.numVertices, [], 0)).2.1).reverse :=
      fun a ha => hTr a (List.mem_reverse.mp ha)
    have hF2rev : ArestasNoIntervalo g.numVertices
        (F.mergeSort (fun a b => a.peso ≤ b.peso)).reverse :=
      fun a ha => hFr2 a (List.mem_reverse.mp ha)
    have hcT := florestaL_conta hKP.floresta hTrev
    have hcF := florestaL_conta hFfor2 hF2rev
    have hnum : numComp g.numVertices
        (((g.coletaArestas.mergeSort (fun a b => a.peso ≤ b.peso)).foldl
          kruskalPasso (DisjointSet.nova g.numVertices, [], 0)).2.1).reverse =
        numComp g.numVertices (F.mergeSort (fun a b => a.peso ≤ b.peso)).reverse := by
      apply numComp_congr_lt
      intro u v hu hv
      constructor
      · intro hc
        refine (conexo_perm_membro (fun a => List.mem_reverse)).mpr ?_
        refine (hF2span u v).mpr ?_
        refine (hFspan u v hu hv).mpr ?_
        refine (hSpan u v hu hv).mp ?_
        exact (conexo_perm_membro (fun a => List.mem_reverse)).mp hc
      · intro hc
        refine (conexo_perm_membro (fun a => List.mem_reverse)).mpr ?_
        refine (hSpan u v hu hv).mpr ?_
        refine (hFspan u v hu hv).mp ?_
        refine (hF2span u v).mp ?_
        exact (conexo_perm_membro (fun a => List.mem_reverse)).mp hc
    have hlen : (((g.coletaArestas.mergeSort (fun a b => a.peso ≤ b.peso)).foldl
        kruskalPasso (DisjointSet.nova g.numVertices, [], 0)).2.1).length =
        (F.mergeSort (fun a b => a.peso ≤ b.peso)).length := by
      rw [List.length_reverse] at hcT hcF
      omega
    have hdom := kruskal_dominancia hKP.ordenado (arestas_ordenadas F) hKP.floresta
      hFfor2 hTr hFr2 hlen hF2Es hKP.rejeitadas
    have hsum : ((F.mergeSort (fun a b => a.peso ≤ b.peso)).map Aresta.peso).sum =
        (F.map Aresta.peso).sum := (hFp.map Aresta.peso).sum_eq
    rw [hsum] at hdom
    exact hdom

/-- The undirected weighted triangle used to witness the Kruskal contract. -/
def grafoC6 : Grafo :=
  (((Grafo.nova 4 false true).adicionaAresta 0 1 4).adicionaAresta 1 2 2).adicionaAresta 0 2 7

/-- Witness for C6 on the weighted triangle inside a 4-vertex graph (which is
disconnected, exercising the forest case). -/
theorem algoritmoKruskal_contrato_witness :
    InvarianteSimetria grafoC6 ∧
    ((grafoC6.algoritmoKruskal).2 =
      ((grafoC6.algoritmoKruskal).1.map Aresta.peso).sum ∧
      FlorestaL (grafoC6.algoritmoKruskal).1.reverse) :=
  have hsim : InvarianteSimetria grafoC6 :=
    invarianteSimetria_adicionaAresta (invarianteSimetria_adicionaAresta
      (invarianteSimetria_adicionaAresta (invarianteSimetria_nova 4 true) 0 1 4) 1 2 2) 0 2 7
  ⟨hsim, (algoritmoKruskal_contrato hsim).2.2.1,
    (algoritmoKruskal_contrato hsim).2.2.2.2.2.1⟩

/-! ### Claim C3: correctness of the depth-first connectivity scan -/

/-- A fold preserves any property each of its steps preserves. -/
theorem foldl_preserva {α β : Type} (P : β → Prop) (f : β → α → β) :
    ∀ (l : List α) (b : β), (∀ b2 a, a ∈ l → P b2 → P (f b2 a)) → P b → P (l.foldl f b)
  | [], _, _, hb => hb
  | a :: l, b, h, hb =>
    foldl_preserva P f l (f b a) (fun b2 x hx => h b2 x (List.mem_cons_of_mem _ hx))
      (h b a (List.mem_cons_self a l) hb)

/-- Pointwise extension of visited arrays: every marked vertex stays marked. -/
def Estende (a b : List Bool) : Prop := ∀ i, a.getD i false = true → b.getD i false = true

theorem estende_refl (a : List Bool) : Estende a a := fun _ h => h

theorem estende_trans {a b c : List Bool} (h1 : Estende a b) (h2 : Estende b c) :
    Estende a c := fun i h => h2 i (h1 i h)

theorem estende_set (a : List Bool) (v : Nat) : Estende a (a.set v true) := by
  intro i hi
  by_cases hiv : i = v
  · subst hiv
    by_cases hlt : i < a.length
    · rw [getD_set_self a i true false hlt]
    · rw [List.set_eq_of_length_le (by omega)]
      exact hi
  · rw [getD_set_ne a v i true false hiv]
    exact hi

/-- Extension over equal lengths never lowers the visited count. -/
theorem estende_count {l1 : List Bool} :
    ∀ {l2 : List Bool}, l1.length = l2.length → Estende l1 l2 →
      l1.count true ≤ l2.count true := by
  induction l1 with
  | nil => intro l2 _ _; exact Nat.zero_le _
  | cons a l1 ih =>
    intro l2 hlen hext
    cases l2 with
    | nil => simp at hlen
    | cons b l2 =>
      have hlen2 : l1.length = l2.length := by simpa using hlen
      have hext2 : Estende l1 l2 := by
        intro i hi
        have := hext (i + 1) (by simpa using hi)
        simpa using this
      have hrec := ih hlen2 hext2
      cases a <;> cases b
      · simpa [List.count_cons] using hrec
      · simp [List.count_cons]
        omega
      · exact absurd (hext 0 (by simp)) (by simp)
      · simp [List.count_cons]
        omega

/-- One step of the neighbour fold inside `dfsUtil`. -/
def dfsPasso (g : Grafo) (fuel : Nat) (vis : List Bool) (e : ElemLista) : List Bool :=
  if vis.getD e.verticeAdjacente false then vis
  else dfsUtil g fuel e.verticeAdjacente vis

theorem dfsUtil_succ (g : Grafo) (f v : Nat) (vis : List Bool) :
    dfsUtil g (f + 1) v vis = (g.adj v).foldl (dfsPasso g f) (vis.set v true) := rfl

theorem dfsUtil_comprimento (g : Grafo) :
    ∀ (fuel v : Nat) (vis : List Bool), (dfsUtil g fuel v vis).length = vis.length := by
  intro fuel
  induction fuel with
  | zero =>
    intro v vis
    rfl
  | succ f ih =>
    intro v vis
    rw [dfsUtil_succ]
    have h := foldl_preserva (fun b => b.length = vis.length) (dfsPasso g f) (g.adj v)
      (vis.set v true) (fun b2 a _ hb => by
        rw [dfsPasso]
        by_cases hm : b2.getD a.verticeAdjacente false = true
        · rw [if_pos hm]
          exact hb
        · rw [if_neg hm]
          show (dfsUtil g f a.verticeAdjacente b2).length = vis.length
          rw [ih a.verticeAdjacente b2]
          exact hb)
      (List.length_set vis v true)
    exact h

theorem dfsUtil_estende (g : Grafo) :
    ∀ (fuel v : Nat) (vis : List Bool), Estende vis (dfsUtil g fuel v vis) := by
  intro fuel
  induction fuel with
  | zero =>
    intro v vis
    exact estende_refl vis
  | succ f ih =>
    intro v vis
    rw [dfsUtil_succ]
    refine foldl_preserva (fun b => Estende vis b) (dfsPasso g f) (g.adj v)
      (vis.set v true) ?_ (estende_set vis v)
    intro b2 a _ hb
    rw [dfsPasso]
    by_cases hm : b2.getD a.verticeAdjacente false = true
    · rw [if_pos hm]
      exact hb
    · rw [if_neg hm]
      exact estende_trans hb (ih a.verticeAdjacente b2)

theorem dfsFold_estende (g : Grafo) (f : Nat) (l : List ElemLista) (b : List Bool) :
    Estende b (l.foldl (dfsPasso g f) b) := by
  refine foldl_preserva (fun x => Estende b x) (dfsPasso g f) l b ?_ (estende_refl b)
  intro b2 a _ hb
  rw [dfsPasso]
  by_cases hm : b2.getD a.verticeAdjacente false = true
  · rw [if_pos hm]
    exact hb
  · rw [if_neg hm]
    exact estende_trans hb (dfsUtil_estende g f a.verticeAdjacente b2)

/-- With positive fuel the scanned vertex itself ends up marked. -/
theorem dfsUtil_marca (g : Grafo) {fuel : Nat} (hf : 0 < fuel) (v : Nat) (vis : List Bool)
    (hv : v < vis.length) : (dfsUtil g fuel v vis).getD v false = true := by
  obtain ⟨f, rfl⟩ : ∃ f, fuel = f + 1 := ⟨fuel - 1, by omega⟩
  rw [dfsUtil_succ]
  exact dfsFold_estende g f (g.adj v) (vis.set v true) v (getD_set_self vis v true false hv)

theorem conexoAdj_trans {g : Grafo} {u v w : Nat} (h1 : ConexoAdj g u v)
    (h2 : ConexoAdj g v w) : ConexoAdj g u w := by
  induction h2 with
  | refl => exact h1
  | avante hpre hmem ih => exact ConexoAdj.avante ih hmem
  | tras hpre hmem ih => exact ConexoAdj.tras ih hmem

/-- Soundness of the scan: every newly marked vertex is reachable from the
scanned vertex through the adjacency structure. -/
theorem dfsUtil_alcanca (g : Grafo) :
    ∀ (fuel v : Nat) (vis : List Bool) (u : Nat),
      (dfsUtil g fuel v vis).getD u false = true →
      vis.getD u false = true ∨ ConexoAdj g v u := by
  intro fuel
  induction fuel with
  | zero =>
    intro v vis u h
    exact Or.inl h
  | succ f ih =>
    intro v vis u
    rw [dfsUtil_succ]
    refine foldl_preserva (fun b => ∀ u2, b.getD u2 false = true →
      vis.getD u2 false = true ∨ ConexoAdj g v u2) (dfsPasso g f) (g.adj v)
      (vis.set v true) ?_ ?_ u
    · intro b2 a ha hb u2 hu2
      rw [dfsPasso] at hu2
      by_cases hm : b2.getD a.verticeAdjacente false = true
      · rw [if_pos hm] at hu2
        exact hb u2 hu2
      · rw [if_neg hm] at hu2
        rcases ih a.verticeAdjacente b2 u2 hu2 with h1 | h1
        · exact hb u2 h1
        · have hedge : ConexoAdj g v a.verticeAdjacente :=
            ConexoAdj.avante (ConexoAdj.refl v)
              (show (⟨a.verticeAdjacente, a.peso⟩ : ElemLista) ∈ g.adj v from ha)
          exact Or.inr (conexoAdj_trans hedge h1)
    · intro u2 hu2
      by_cases huv : u2 = v
      · subst huv
        exact Or.inr (ConexoAdj.refl _)
      · rw [getD_set_ne vis v u2 true false huv] at hu2
        exact Or.inl hu2

/-- Closure of the depth-first scan: with fuel at least the number of
unvisited vertices, every vertex first marked during the call has all its
neighbours marked in the final array, and every neighbour of the scanned
vertex ends up marked. -/
theorem dfsUtil_fecho {g : Grafo}
    (hlim : ∀ u, ∀ e ∈ g.adj u, e.verticeAdjacente < g.numVertices) :
    ∀ (fuel v : Nat) (vis : List Bool),
      vis.length = g.numVertices →
      g.numVertices ≤ fuel + vis.count true →
      vis.getD v false = false → v < g.numVertices →
      (∀ u, vis.getD u false = false → (dfsUtil g fuel v vis).getD u false = true →
        ∀ e ∈ g.adj u, (dfsUtil g fuel v vis).getD e.verticeAdjacente false = true) ∧
      (∀ e ∈ g.adj v, (dfsUtil g fuel v vis).getD e.verticeAdjacente false = true) := by
  intro fuel
  induction fuel with
  | zero =>
    intro v vis hlen hfuel hvf hvn
    exfalso
    have := count_true_lt (show v < vis.length by omega) hvf
    omega
  | succ f ih =>
    intro v vis hlen hfuel hvf hvn
    have haux : ∀ (l : List ElemLista), (∀ e ∈ l, e.verticeAdjacente < g.numVertices) →
        ∀ (b : List Bool), b.length = g.numVertices → g.numVertices ≤ f + b.count true →
          (∀ u, b.getD u false = false → (l.foldl (dfsPasso g f) b).getD u false = true →
            ∀ e ∈ g.adj u, (l.foldl (dfsPasso g f) b).getD e.verticeAdjacente false = true) ∧
          (∀ e ∈ l, (l.foldl (dfsPasso g f) b).getD e.verticeAdjacente false = true) := by
      intro l
      induction l with
      | nil =>
        intro _ b _ _
        refine ⟨?_, ?_⟩
        · intro u hu1 hu2 e _
          rw [List.foldl_nil] at hu2
          rw [hu1] at hu2
          exact absurd hu2 Bool.false_ne_true
        · intro e he
          cases he
      | cons e l ihl =>
        intro hl b hblen hbfuel
        have hltail : ∀ e2 ∈ l, e2.verticeAdjacente < g.numVertices :=
          fun e2 he2 => hl e2 (List.mem_cons_of_mem _ he2)
        rw [List.foldl_cons]
        by_cases hm : b.getD e.verticeAdjacente false = true
        · have hstep : dfsPasso g f b e = b := by
            rw [dfsPasso, if_pos hm]
          rw [hstep]
          have hrest := ihl hltail b hblen hbfuel
          refine ⟨hrest.1, ?_⟩
          intro e2 he2
          rcases List.mem_cons.mp he2 with heq | he3
          · rw [heq]
            exact dfsFold_estende g f l b e.verticeAdjacente hm
          · exact hrest.2 e2 he3
        · have het : e.verticeAdjacente < g.numVertices := hl e (List.mem_cons_self e l)
          have hmf : b.getD e.verticeAdjacente false = false := by
            cases hx : b.getD e.verticeAdjacente false
            · rfl
            · exact absurd hx hm
          have hcount : b.count true < g.numVertices := by
            have := count_true_lt (show e.verticeAdjacente < b.length by omega) hmf
            omega
          have hstep : dfsPasso g f b e = dfsUtil g f e.verticeAdjacente b := by
            rw [dfsPasso, if_neg hm]
          rw [hstep]
          have hihcall := ih e.verticeAdjacente b hblen (by omega) hmf het
          have hb2len : (dfsUtil g f e.verticeAdjacente b).length = g.numVertices := by
            rw [dfsUtil_comprimento]
            exact hblen
          have hb2est : Estende b (dfsUtil g f e.verticeAdjacente b) :=
            dfsUtil_estende g f e.verticeAdjacente b
          have hb2count : b.count true ≤ (dfsUtil g f e.verticeAdjacente b).count true :=
            estende_count (by rw [dfsUtil_comprimento]) hb2est
          have hrest := ihl hltail (dfsUtil g f e.verticeAdjacente b) hb2len (by omega)
          refine ⟨?_, ?_⟩
          · intro u hu1 hu2 e2 he2
            by_cases hub2 : (dfsUtil g f e.verticeAdjacente b).getD u false = true
            · exact dfsFold_estende g f l (dfsUtil g f e.verticeAdjacente b)
                e2.verticeAdjacente (hihcall.1 u hu1 hub2 e2 he2)
            · have hub2f : (dfsUtil g f e.verticeAdjacente b).getD u false = false := by
                cases hx : (dfsUtil g f e.verticeAdjacente b).getD u false
                · rfl
                · exact absurd hx hub2
              exact hrest.1 u hub2f hu2 e2 he2
          · intro e2 he2
            rcases List.mem_cons.mp he2 with heq | he3
            · rw [heq]
              refine dfsFold_estende g f l (dfsUtil g f e.verticeAdjacente b)
                e.verticeAdjacente ?_
              exact dfsUtil_marca g (by omega) e.verticeAdjacente b (by omega)
            · exact hrest.2 e2 he3
    have hcv : vis.count true < g.numVertices := by
      have := count_true_lt (show v < vis.length by omega) hvf
      omega
    have hsetlen : (vis.set v true).length = g.numVertices := by
      rw [List.length_set]
      exact hlen
    have hsetcount : (vis.set v true).count true = vis.count true + 1 :=
      count_true_set (by omega) hvf
    have hmain := haux (g.adj v) (hlim v) (vis.set v true) hsetlen (by omega)
    rw [dfsUtil_succ]
    refine ⟨?_, hmain.2⟩
    intro u hu1 hu2 e2 he2
    by_cases huv : u = v
    · subst huv
      exact hmain.2 e2 he2
    · have hu1b : (vis.set v true).getD u false = false := by
        rw [getD_set_ne vis v u true false huv]
        exact hu1
      exact hmain.1 u hu1b hu2 e2 he2

/-- Completeness of the scan from vertex `0`: on a symmetric graph every
vertex reachable from `0` ends up marked. -/
theorem dfs_alcanca_marca {g : Grafo} (hsim : InvarianteSimetria g)
    (hn : 0 < g.numVertices) {i : Nat} (hi : ConexoAdj g 0 i) :
    (dfsUtil g g.numVertices 0 (List.replicate g.numVertices false)).getD i false = true := by
  have hbase : ∀ u, (List.replicate g.numVertices false).getD u false = false :=
    fun u => getD_replicate g.numVertices u false
  have hlen : (List.replicate g.numVertices false).length = g.numVertices :=
    List.length_replicate g.numVertices false
  have hfecho := (dfsUtil_fecho hsim.limites g.numVertices 0
    (List.replicate g.numVertices false) hlen
    (by rw [count_true_replicate_false]; omega) (hbase 0) hn).1
  induction hi with
  | refl => exact dfsUtil_marca g hn 0 _ (by omega)
  | avante hpre hmem ihh => exact hfecho _ (hbase _) ihh _ hmem
  | tras hpre hmem ihh =>
    rename_i a b p
    exact hfecho _ (hbase _) ihh _ ((hsim.simetrica b a p).mp hmem)

/-- On a symmetric graph, a vertex with an empty adjacency list is isolated. -/
theorem verticeIsolado_de_vazio {g : Grafo} (hsim : InvarianteSimetria g) {i : Nat}
    (he : g.adj i = []) : g.verticeIsolado i = true := by
  rw [Grafo.verticeIsolado, List.all_eq_true]
  intro j _
  by_cases hij : i = j
  · simp [hij]
  · have h1 : g.arestaExiste i j = false := by
      rw [Grafo.arestaExiste]
      split
      · rfl
      · rw [he]
        rfl
    have h2 : g.arestaExiste j i = false := by
      rw [Grafo.arestaExiste]
      split
      · rfl
      · cases hx : arestaExisteLista i (g.adj j)
        · rfl
        · obtain ⟨w, hw⟩ := (arestaExisteLista_iff (hsim.ordenada j)).mp hx
          have hmem := (hsim.simetrica j i w).mp hw
          rw [he] at hmem
          cases hmem
    simp [hij, h1, h2]

theorem estaConectadoDFS_eq (g : Grafo) (hn : g.numVertices ≠ 0) :
    g.estaConectadoDFS =
      (List.range g.numVertices).all
        (fun i =>
          if (dfsUtil g g.numVertices 0
              (List.replicate g.numVertices false)).getD i false then true
          else if (g.adj i).isEmpty && decide (1 < g.numVertices) then !(g.verticeIsolado i)
          else false) := by
  rw [Grafo.estaConectadoDFS, if_neg hn]

/-- The connectivity check is exact on symmetric graphs: it returns `true`
precisely when every vertex is reachable from vertex `0`. -/
theorem estaConectadoDFS_correto {g : Grafo} (hsim : InvarianteSimetria g) :
    g.estaConectadoDFS = true ↔ ∀ v, v < g.numVertices → ConexoAdj g 0 v := by
  by_cases hn : g.numVertices = 0
  · rw [Grafo.estaConectadoDFS, if_pos hn]
    constructor
    · intro _ v hv
      omega
    · intro _
      rfl
  · rw [estaConectadoDFS_eq g hn]
    constructor
    · intro hall v hv
      rw [List.all_eq_true] at hall
      have hbranch := hall v (List.mem_range.mpr hv)
      cases hvis : (dfsUtil g g.numVertices 0
          (List.replicate g.numVertices false)).getD v false with
      | true =>
        rcases dfsUtil_alcanca g g.numVertices 0 _ v hvis with h1 | h1
        · rw [getD_replicate] at h1
          exact absurd h1 Bool.false_ne_true
        · exact h1
      | false =>
        exfalso
        rw [hvis] at hbranch
        simp only [Bool.false_eq_true, if_false] at hbranch
        by_cases hcond : ((g.adj v).isEmpty && decide (1 < g.numVertices)) = true
        · rw [if_pos hcond] at hbranch
          have hemp : g.adj v = [] := by
            have := (Bool.and_eq_true _ _).mp hcond
            exact List.isEmpty_iff.mp this.1
          have hiso := verticeIsolado_de_vazio hsim hemp
          rw [hiso] at hbranch
          exact absurd hbranch (by simp)
        · rw [if_neg hcond] at hbranch
          exact absurd hbranch Bool.false_ne_true
    · intro hreach
      rw [List.all_eq_true]
      intro i hi
      have hmark := dfs_alcanca_marca hsim (by omega) (hreach i (List.mem_range.mp hi))
      rw [hmark]
      rfl

/-! ### Claim C3: removing and re-adding an edge restores the graph -/

/-- Re-inserting the entry that a removal took out of a sorted list restores
the list exactly. -/
theorem insere_remove {d : Nat} {p : Int} :
    ∀ {l l2 : List ElemLista}, ListaOrdenada l → (⟨d, p⟩ : ElemLista) ∈ l →
      removeListaAux d l = some l2 → insereListaAux d p l2 = some l := by
  intro l
  induction l with
  | nil =>
    intro l2 _ hmem _
    cases hmem
  | cons e resto ih =>
    intro l2 hord hmem hrem
    rw [ListaOrdenada, List.pairwise_cons] at hord
    by_cases h1 : e.verticeAdjacente < d
    · have hmem2 : (⟨d, p⟩ : ElemLista) ∈ resto := by
        rcases List.mem_cons.mp hmem with heq | h
        · exfalso
          have : e.verticeAdjacente = d := by rw [← heq]
          omega
        · exact h
      cases hrec : removeListaAux d resto with
      | none => simp [removeListaAux, h1, hrec] at hrem
      | some l3 =>
        have hl2 : l2 = e :: l3 := by
          simp [removeListaAux, h1, hrec] at hrem
          exact hrem.symm
        subst hl2
        rw [insereListaAux, if_pos h1, ih hord.2 hmem2 hrec]
        rfl
    · by_cases h2 : e.verticeAdjacente = d
      · have hl2 : l2 = resto := by
          simp [removeListaAux, h1, h2] at hrem
          exact hrem.symm
        subst hl2
        have he : e = ⟨d, p⟩ := by
          rcases List.mem_cons.mp hmem with heq | h
          · exact heq.symm
          · exfalso
            have := hord.1 _ h
            simp at this
            omega
        cases l2 with
        | nil =>
          rw [insereListaAux, he]
        | cons e2 r2 =>
          have hgt : d < e2.verticeAdjacente := by
            have := hord.1 e2 (List.mem_cons_self e2 r2)
            omega
          rw [insereListaAux, if_neg (by omega), if_neg (by omega), he]
      · simp [removeListaAux, h1, h2] at hrem

/-- Writing back the original rows over a doubly-updated adjacency array is
the identity. -/
theorem set_set_restaura {α : Type} (L : List α) (u v : Nat) (l1 l2 la lb : α)
    (huv : u ≠ v) (hla : L[u]? = some la) (hlb : L[v]? = some lb) :
    (((L.set u l1).set v l2).set u la).set v lb = L := by
  have hu : u < L.length := by
    by_contra h
    rw [List.getElem?_eq_none (by omega)] at hla
    cases hla
  have hv : v < L.length := by
    by_contra h
    rw [List.getElem?_eq_none (by omega)] at hlb
    cases hlb
  apply List.ext_getElem?
  intro i
  by_cases hiv : i = v
  · subst hiv
    rw [List.getElem?_set_self (by simp; omega)]
    exact hlb.symm
  · rw [List.getElem?_set_ne (Ne.symm hiv)]
    by_cases hiu : i = u
    · subst hiu
      rw [List.getElem?_set_self (by simp; omega), hla]
    · rw [List.getElem?_set_ne (Ne.symm hiu), List.getElem?_set_ne (Ne.symm hiv),
        List.getElem?_set_ne (Ne.symm hiu)]

/-- Reading an in-range row of the adjacency array. -/
theorem adj_getElem {g : Grafo} {u : Nat} (h : u < g.listaAdjacencia.length) :
    g.listaAdjacencia[u]? = some (g.adj u) := by
  rw [Grafo.adj, List.getD, List.get?_eq_getElem?, List.getElem?_eq_getElem h]
  rfl

/-- Removing a collected edge `u–v` (`u < v`) of a symmetric weighted graph:
the call succeeds, symmetry is preserved, the collected edge list loses
exactly the pair `(u, v)`, and re-adding the edge with its own weight
restores the graph verbatim. -/
theorem removeAresta_espec {g : Grafo} (hsim : InvarianteSimetria g) {u v : Nat} {w : Int}
    (huv : u < v) (hv : v < g.numVertices) (hmem : (⟨v, w⟩ : ElemLista) ∈ g.adj u) :
    (g.removeAresta u v).2 = true ∧
    (∀ a : Aresta, a ∈ (g.removeAresta u v).1.coletaArestas ↔
      (a ∈ g.coletaArestas ∧ ¬(a.verticeOrigem = u ∧ a.verticeDestino = v))) ∧
    (g.ponderado = true → (g.removeAresta u v).1.adicionaAresta u v w = g) := by
  have hu : u < g.numVertices := by omega
  have hval : entradaInvalida g u v = false := by
    rw [entradaInvalida]
    simp only [Bool.or_eq_false_iff, decide_eq_false_iff_not, beq_eq_false_iff_ne]
    omega
  have hmem2 : (⟨u, w⟩ : ElemLista) ∈ g.adj v := (hsim.simetrica u v w).mp hmem
  have hne1 : removeListaAux v (g.adj u) ≠ none := by
    intro hx
    exact (removeListaAux_none_iff (hsim.ordenada u)).mp hx w hmem
  have hne2 : removeListaAux u (g.adj v) ≠ none := by
    intro hx
    exact (removeListaAux_none_iff (hsim.ordenada v)).mp hx w hmem2
  obtain ⟨l1, h1⟩ : ∃ l1, removeListaAux v (g.adj u) = some l1 := by
    cases hx : removeListaAux v (g.adj u)
    · exact absurd hx hne1
    · exact ⟨_, rfl⟩
  obtain ⟨l2, h2⟩ : ∃ l2, removeListaAux u (g.adj v) = some l2 := by
    cases hx : removeListaAux u (g.adj v)
    · exact absurd hx hne2
    · exact ⟨_, rfl⟩
  have hremeq := removeAresta_ambos g u v hsim.direcao hval (by omega) h1 h2
  have hlenL : g.listaAdjacencia.length = g.numVertices := hsim.comprimento
  have hadju : (g.removeAresta u v).1.adj u = l1 := by
    rw [hremeq]
    show ((g.listaAdjacencia.set u l1).set v l2).getD u [] = l1
    rw [getD_set_ne (g.listaAdjacencia.set u l1) v u l2 [] (by omega),
      getD_set_self g.listaAdjacencia u l1 [] (by omega)]
  have hadjv : (g.removeAresta u v).1.adj v = l2 := by
    rw [hremeq]
    show ((g.listaAdjacencia.set u l1).set v l2).getD v [] = l2
    rw [getD_set_self (g.listaAdjacencia.set u l1) v l2 [] (by simp; omega)]
  have hadjx : ∀ x, x ≠ u → x ≠ v → (g.removeAresta u v).1.adj x = g.adj x := by
    intro x hxu hxv
    rw [hremeq]
    show ((g.listaAdjacencia.set u l1).set v l2).getD x [] = g.adj x
    rw [getD_set_ne (g.listaAdjacencia.set u l1) v x l2 [] hxv,
      getD_set_ne g.listaAdjacencia u x l1 [] hxu]
    rfl
  have hgr : InvarianteSimetria (g.removeAresta u v).1 := invarianteSimetria_removeAresta hsim u v
  have hsucesso : (g.removeAresta u v).2 = true := by
    rw [hremeq]
  refine ⟨hsucesso, ?_, ?_⟩
  · intro a
    rw [coletaArestas_mem hgr.direcao hgr.comprimento,
      coletaArestas_mem hsim.direcao hsim.comprimento]
    by_cases hau : a.verticeOrigem = u
    · rw [hau, hadju]
      rw [mem_removeListaAux (hsim.ordenada u) h1]
      constructor
      · rintro ⟨hlt, hm, hne⟩
        have hne2 : a.verticeDestino ≠ v := hne
        exact ⟨⟨hlt, hm⟩, fun hc => hne2 hc.2⟩
      · rintro ⟨⟨hlt, hm⟩, hne⟩
        have hne2 : a.verticeDestino ≠ v := fun hc => hne ⟨rfl, hc⟩
        exact ⟨hlt, hm, hne2⟩
    · by_cases hav : a.verticeOrigem = v
      · rw [hav, hadjv]
        rw [mem_removeListaAux (hsim.ordenada v) h2]
        constructor
        · rintro ⟨hlt, hm, _⟩
          exact ⟨⟨hlt, hm⟩, fun hc => absurd hc.1 (by omega)⟩
        · rintro ⟨⟨hlt, hm⟩, _⟩
          have hne2 : a.verticeDestino ≠ u := by omega
          exact ⟨hlt, hm, hne2⟩
      · rw [hadjx a.verticeOrigem hau hav]
        constructor
        · rintro ⟨hlt, hm⟩
          exact ⟨⟨hlt, hm⟩, fun hc => hau hc.1⟩
        · rintro ⟨⟨hlt, hm⟩, _⟩
          exact ⟨hlt, hm⟩
  · intro hpond
    have h1r : insereListaAux v w l1 = some (g.adj u) :=
      insere_remove (hsim.ordenada u) hmem h1
    have h2r : insereListaAux u w l2 = some (g.adj v) :=
      insere_remove (hsim.ordenada v) hmem2 h2
    have hvalr : entradaInvalida (g.removeAresta u v).1 u v = false := by
      rw [entradaInvalida, (removeAresta_campos g u v).1]
      simp only [Bool.or_eq_false_iff, decide_eq_false_iff_not, beq_eq_false_iff_ne]
      omega
    have hpondr : (g.removeAresta u v).1.ponderado = true := by
      rw [(removeAresta_campos g u v).2.2.1, hpond]
    have hdirr : (g.removeAresta u v).1.direcionado = false := hgr.direcao
    have h1r2 : insereListaAux v (if (g.removeAresta u v).1.ponderado then w else 1)
        ((g.removeAresta u v).1.adj u) = some (g.adj u) := by
      rw [hpondr, if_pos rfl, hadju]
      exact h1r
    have h2r2 : insereListaAux u (if (g.removeAresta u v).1.ponderado then w else 1)
        ((g.removeAresta u v).1.adj v) = some (g.adj v) := by
      rw [hpondr, if_pos rfl, hadjv]
      exact h2r
    rw [adicionaAresta_ambos (g.removeAresta u v).1 u v w hdirr hvalr (by omega) h1r2 h2r2]
    rw [hremeq]
    show ({ g with
        listaAdjacencia :=
          ((((g.listaAdjacencia.set u l1).set v l2).set u (g.adj u)).set v (g.adj v)),
        numArestas := g.numArestas - 1 + 1 } : Grafo) = g
    rw [set_set_restaura g.listaAdjacencia u v l1 l2 (g.adj u) (g.adj v) (by omega)
      (adj_getElem (by omega)) (adj_getElem (by omega))]
    have harr : g.numArestas - 1 + 1 = g.numArestas := by omega
    rw [harr]

/-! ### Claim C3: walk surgery on edge lists -/

/-- Replacing dropped edges by detours: a walk in `E` survives into `E2` when
every edge of `E` missing from `E2` has its endpoints `E2`-connected. -/
theorem conexo_desvia {E E2 : List Aresta}
    (hdet : ∀ a ∈ E, a ∉ E2 → Conexo E2 a.verticeOrigem a.verticeDestino) :
    ∀ {x y : Nat}, Conexo E x y → Conexo E2 x y := by
  intro x y h
  induction h with
  | refl => exact Conexo.refl _
  | avante hpre hmem ih =>
    rename_i a b p
    by_cases hm2 : (⟨a, b, p⟩ : Aresta) ∈ E2
    · exact Conexo.avante ih hm2
    · exact conexo_trans ih (hdet _ hmem hm2)
  | tras hpre hmem ih =>
    rename_i a b p
    by_cases hm2 : (⟨b, a, p⟩ : Aresta) ∈ E2
    · exact Conexo.tras ih hm2
    · exact conexo_trans ih (conexo_symm (hdet _ hmem hm2))

/-- A walk from `s` to `t` leaving the `F`-component of `s` crosses some
listed edge. -/
theorem conexo_cruza {L F : List Aresta} :
    ∀ {s t : Nat}, Conexo L s t → ¬ Conexo F s t →
      ∃ a ∈ L, (Conexo F s a.verticeOrigem ∧ ¬ Conexo F s a.verticeDestino) ∨
        (Conexo F s a.verticeDestino ∧ ¬ Conexo F s a.verticeOrigem) := by
  intro s t h
  induction h with
  | refl =>
    intro hns
    exact absurd (Conexo.refl _) hns
  | avante hpre hmem ih =>
    rename_i a b p
    intro hns
    by_cases hsa : Conexo F s a
    · exact ⟨⟨a, b, p⟩, hmem, Or.inl ⟨hsa, hns⟩⟩
    · exact ih hsa
  | tras hpre hmem ih =>
    rename_i a b p
    intro hns
    by_cases hsa : Conexo F s a
    · exact ⟨⟨b, a, p⟩, hmem, Or.inr ⟨hsa, hns⟩⟩
    · exact ih hsa

/-- Forests are closed under sublists. -/
theorem florestaL_sublist : ∀ {A B : List Aresta}, List.Sublist A B → FlorestaL B → FlorestaL A := by
  intro A B hsub
  induction hsub with
  | slnil => exact fun h => h
  | cons e hs ih =>
    intro h
    cases h with
    | cons hfl _ => exact ih hfl
  | cons₂ e hs ih =>
    intro h
    cases h with
    | cons hfl hnc =>
      refine FlorestaL.cons (ih hfl) ?_
      intro hc
      exact hnc (conexo_mono (fun a ha => hs.subset ha) hc)

/-- Every edge of a forest is a bridge of the forest. -/
theorem florestaL_ponte : ∀ {T : List Aresta}, FlorestaL T → ∀ {e : Aresta}, e ∈ T →
    ¬ Conexo (T.erase e) e.verticeOrigem e.verticeDestino := by
  intro T hT
  induction hT with
  | nil =>
    intro e he
    cases he
  | cons hfl hnc ih =>
    rename_i f T
    intro e he
    by_cases hef : f = e
    · subst hef
      rw [List.erase_cons_head]
      exact hnc
    · rw [List.erase_cons, if_neg (by simp [hef])]
      have he2 : e ∈ T := by
        rcases List.mem_cons.mp he with heq | h
        · exact absurd heq.symm hef
        · exact h
      have hsubT : ∀ a ∈ T.erase e, a ∈ T := fun a ha => List.mem_of_mem_erase ha
      intro hc
      rcases conexo_cons.mp hc with h1 | ⟨h1, h2⟩ | ⟨h1, h2⟩
      · exact ih he2 h1
      · exact hnc (conexo_trans (conexo_symm (conexo_mono hsubT h1))
          (conexo_trans (conexo_aresta he2) (conexo_symm (conexo_mono hsubT h2))))
      · exact hnc (conexo_trans (conexo_mono hsubT h2)
          (conexo_trans (conexo_symm (conexo_aresta he2)) (conexo_mono hsubT h1)))

/-- A forest never lists two edges with the same endpoint pair. -/
theorem florestaL_pares : ∀ {T : List Aresta}, FlorestaL T →
    (T.map (fun a => (a.verticeOrigem, a.verticeDestino))).Nodup := by
  intro T hT
  induction hT with
  | nil => simp
  | cons hfl hnc ih =>
    rename_i e T
    rw [List.map_cons, List.nodup_cons]
    refine ⟨?_, ih⟩
    intro hmem
    rw [List.mem_map] at hmem
    obtain ⟨a, ha, hpair⟩ := hmem
    have ho : a.verticeOrigem = e.verticeOrigem := congrArg Prod.fst hpair
    have hd : a.verticeDestino = e.verticeDestino := congrArg Prod.snd hpair
    have hca := conexo_aresta ha
    rw [ho, hd] at hca
    exact hnc hca

/-- A walk inside the current edge set avoids every accumulated bridge: a
bridge on the walk would have its endpoints reconnected around it. -/
theorem conexo_sem_pontes {E : List Aresta} {x y : Nat} :
    ∀ (K : List Aresta) {R : List Aresta},
      ((K ++ R).map (fun a => (a.verticeOrigem, a.verticeDestino))).Nodup →
      (∀ a ∈ K ++ R, a ∈ E) →
      (∀ f ∈ K, ¬ Conexo (E.filter (fun a =>
        !(decide (a.verticeOrigem = f.verticeOrigem) &&
          decide (a.verticeDestino = f.verticeDestino)))) f.verticeOrigem f.verticeDestino) →
      (∀ f ∈ K, Conexo (E.filter (fun a =>
        !(decide (a.verticeOrigem = f.verticeOrigem) &&
          decide (a.verticeDestino = f.verticeDestino)))) x y) →
      Conexo (K ++ R) x y → Conexo R x y := by
  intro K
  induction K with
  | nil =>
    intro R _ _ _ _ h
    exact h
  | cons f K ih =>
    intro R hnd hE hpontes hxy h
    have hKR : ∀ a ∈ K ++ R, a ∈ E := fun a ha => hE a (List.mem_cons_of_mem _ ha)
    have hndKR : ((K ++ R).map (fun a => (a.verticeOrigem, a.verticeDestino))).Nodup := by
      rw [List.cons_append, List.map_cons, List.nodup_cons] at hnd
      exact hnd.2
    have hsubfilter : ∀ a ∈ K ++ R, a ∈ E.filter (fun a =>
        !(decide (a.verticeOrigem = f.verticeOrigem) &&
          decide (a.verticeDestino = f.verticeDestino))) := by
      intro a ha
      rw [List.mem_filter]
      refine ⟨hKR a ha, ?_⟩
      have hne : ¬(a.verticeOrigem = f.verticeOrigem ∧
          a.verticeDestino = f.verticeDestino) := by
        intro hpar
        rw [List.cons_append, List.map_cons, List.nodup_cons] at hnd
        apply hnd.1
        rw [List.mem_map]
        exact ⟨a, ha, by rw [hpar.1, hpar.2]⟩
      by_cases hao : a.verticeOrigem = f.verticeOrigem
      · have had : a.verticeDestino ≠ f.verticeDestino := fun h2 => hne ⟨hao, h2⟩
        simp [hao, had]
      · simp [hao]
    have hf := hpontes f (List.mem_cons_self f K)
    have hfxy := hxy f (List.mem_cons_self f K)
    rw [List.cons_append] at h
    rcases conexo_cons.mp h with h1 | ⟨h1, h2⟩ | ⟨h1, h2⟩
    · exact ih hndKR hKR (fun f2 hf2 => hpontes f2 (List.mem_cons_of_mem _ hf2))
        (fun f2 hf2 => hxy f2 (List.mem_cons_of_mem _ hf2)) h1
    · exact absurd (conexo_trans (conexo_symm (conexo_mono hsubfilter h1))
        (conexo_trans hfxy (conexo_symm (conexo_mono hsubfilter h2)))) hf
    · exact absurd (conexo_trans (conexo_mono hsubfilter h2)
        (conexo_trans (conexo_symm hfxy) (conexo_mono hsubfilter h1))) hf

/-- Exchange step: re-linking the two halves of a split forest through a
crossing edge. -/
theorem reconecta {F0 : List Aresta} {p q : Nat} {a : Aresta}
    (hpq : ¬ Conexo F0 p q)
    (hcase : (Conexo F0 p a.verticeOrigem ∧ Conexo F0 q a.verticeDestino) ∨
      (Conexo F0 p a.verticeDestino ∧ Conexo F0 q a.verticeOrigem)) :
    ¬ Conexo F0 a.verticeOrigem a.verticeDestino ∧ Conexo (a :: F0) p q := by
  have hsub : ∀ x ∈ F0, x ∈ a :: F0 := fun x hx => List.mem_cons_of_mem _ hx
  have hedge : Conexo (a :: F0) a.verticeOrigem a.verticeDestino :=
    conexo_aresta (List.mem_cons_self a F0)
  rcases hcase with ⟨h1, h2⟩ | ⟨h1, h2⟩
  · refine ⟨?_, ?_⟩
    · intro hc
      exact hpq (conexo_trans h1 (conexo_trans hc (conexo_symm h2)))
    · exact conexo_trans (conexo_mono hsub h1)
        (conexo_trans hedge (conexo_symm (conexo_mono hsub h2)))
  · refine ⟨?_, ?_⟩
    · intro hc
      exact hpq (conexo_trans h1 (conexo_trans (conexo_symm hc) (conexo_symm h2)))
    · exact conexo_trans (conexo_mono hsub h1)
        (conexo_trans (conexo_symm hedge) (conexo_symm (conexo_mono hsub h2)))

/-- Removing one edge from a list splits each walk into the two endpoint
classes. -/
theorem conexo_erase_casos {F : List Aresta} {e : Aresta} (he : e ∈ F) {x y : Nat}
    (h : Conexo F x y) :
    Conexo (F.erase e) x y ∨
      (Conexo (F.erase e) x e.verticeOrigem ∧ Conexo (F.erase e) e.verticeDestino y) ∨
      (Conexo (F.erase e) x e.verticeDestino ∧ Conexo (F.erase e) e.verticeOrigem y) := by
  have hperm : F.Perm (e :: F.erase e) := List.perm_cons_erase he
  have h2 : Conexo (e :: F.erase e) x y :=
    conexo_mono (fun a ha => hperm.mem_iff.mp ha) h
  exact conexo_cons.mp h2

/-- The descending sort used by `algoritmoApagaReverso` is sorted by
non-increasing weight. -/
theorem arestas_ordenadas_desc (l : List Aresta) :
    List.Pairwise (fun x y => y.peso ≤ x.peso)
      (l.mergeSort (fun a b => b.peso ≤ a.peso)) := by
  have h := @List.sorted_mergeSort Aresta (fun a b => decide (b.peso ≤ a.peso))
    (fun a b c hab hbc => by
      rw [decide_eq_true_eq] at hab hbc ⊢
      omega)
    (fun a b => by
      rw [Bool.or_eq_true, decide_eq_true_eq, decide_eq_true_eq]
      omega)
    l
  exact h.imp (fun hab => decide_eq_true_eq.mp hab)

/-! ### Claim C3: the Reverse-Delete loop invariant -/

/-- Within a duplicate-free image, the mapped values identify the elements. -/
theorem nodup_map_inj {α β : Type} {f : α → β} :
    ∀ {l : List α}, (l.map f).Nodup → ∀ {x y : α}, x ∈ l → y ∈ l → f x = f y → x = y := by
  intro l
  induction l with
  | nil =>
    intro _ x y hx
    cases hx
  | cons a l ih =>
    intro hnd x y hx hy hf
    rw [List.map_cons, List.nodup_cons] at hnd
    rcases List.mem_cons.mp hx with rfl | hx2
    · rcases List.mem_cons.mp hy with rfl | hy2
      · rfl
      · exact absurd (by rw [hf]; exact List.mem_map_of_mem f hy2) hnd.1
    · rcases List.mem_cons.mp hy with rfl | hy2
      · exact absurd (by rw [← hf]; exact List.mem_map_of_mem f hx2) hnd.1
      · exact ih hnd.2 hx2 hy2 hf

/-- One iteration of the edge loop of `algoritmoApagaReverso`: remove the
edge, and when the removal succeeded but disconnected the graph, put the
edge back with its own weight. -/
def apagaPasso (gr : Grafo) (aresta : Aresta) : Grafo :=
  if (gr.removeAresta aresta.verticeOrigem aresta.verticeDestino).2 then
    if !((gr.removeAresta aresta.verticeOrigem aresta.verticeDestino).1.estaConectadoDFS) then
      (gr.removeAresta aresta.verticeOrigem aresta.verticeDestino).1.adicionaAresta
        aresta.verticeOrigem aresta.verticeDestino aresta.peso
    else (gr.removeAresta aresta.verticeOrigem aresta.verticeDestino).1
  else (gr.removeAresta aresta.verticeOrigem aresta.verticeDestino).1

theorem apagaReverso_eq (g : Grafo) :
    g.algoritmoApagaReverso =
      (g.coletaArestas.mergeSort (fun a b => b.peso ≤ a.peso)).foldl apagaPasso g := rfl

/-- Everything the Reverse-Delete edge loop maintains, relative to the edges
`kept` reinserted so far and the still-unscanned edges `resto`: symmetry and
the scalar fields, the surviving collected edges are exactly `kept`
together with `resto`, the graph still spans every vertex from `0`, and each
reinserted edge separates its endpoints without itself. -/
structure ApagaPos (g0 : Grafo) (kept resto : List Aresta) (gr : Grafo) : Prop where
  sim : InvarianteSimetria gr
  nv : gr.numVertices = g0.numVertices
  pond : gr.ponderado = true
  membros : ∀ a : Aresta, a ∈ gr.coletaArestas ↔ (a ∈ kept ∨ a ∈ resto)
  span : ∀ v, v < g0.numVertices → Conexo gr.coletaArestas 0 v
  pontes : ∀ f ∈ kept, ¬ Conexo (gr.coletaArestas.filter (fun a =>
    !(decide (a.verticeOrigem = f.verticeOrigem) &&
      decide (a.verticeDestino = f.verticeDestino)))) f.verticeOrigem f.verticeDestino

/-- One Reverse-Delete step: the invariant advances, the surviving edges only
shrink, and every spanning forest of the pre-step graph maps to one of the
post-step graph of no larger weight. -/
theorem apagaPasso_espec {g0 : Grafo} {kept : List Aresta} {e : Aresta}
    {resto2 : List Aresta} {gr : Grafo}
    (hnd : ((kept ++ e :: resto2).map
      (fun a => (a.verticeOrigem, a.verticeDestino))).Nodup)
    (hdesc : List.Pairwise (fun x y => y.peso ≤ x.peso) (kept ++ e :: resto2))
    (hlt : e.verticeOrigem < e.verticeDestino) (hdn : e.verticeDestino < g0.numVertices)
    (haLt : ∀ a ∈ resto2, a.verticeOrigem < a.verticeDestino)
    (haN : ∀ a ∈ resto2, a.verticeDestino < g0.numVertices)
    (pos : ApagaPos g0 kept (e :: resto2) gr) :
    ∃ kept2, (kept2 = kept ∨ kept2 = kept ++ [e]) ∧
      ApagaPos g0 kept2 resto2 (apagaPasso gr e) ∧
      (∀ a ∈ (apagaPasso gr e).coletaArestas, a ∈ gr.coletaArestas) ∧
      (∀ F : List Aresta, (∀ f ∈ F, f ∈ gr.coletaArestas) → FlorestaL F →
        (∀ v, v < g0.numVertices → Conexo F 0 v) →
        ∃ F2 : List Aresta, (∀ f ∈ F2, f ∈ (apagaPasso gr e).coletaArestas) ∧
          FlorestaL F2 ∧ (∀ v, v < g0.numVertices → Conexo F2 0 v) ∧
          (F2.map Aresta.peso).sum ≤ (F.map Aresta.peso).sum) := by
  have hEnd : (gr.coletaArestas.map
      (fun a => (a.verticeOrigem, a.verticeDestino))).Nodup :=
    coletaArestas_pares_nodup pos.sim
  have heE : e ∈ gr.coletaArestas := (pos.membros e).mpr (Or.inr (List.mem_cons_self _ _))
  have hadj : (⟨e.verticeDestino, e.peso⟩ : ElemLista) ∈ gr.adj e.verticeOrigem :=
    ((coletaArestas_mem pos.sim.direcao pos.sim.comprimento e).mp heE).2
  have hesp := removeAresta_espec pos.sim hlt (by rw [pos.nv]; exact hdn) hadj
  have hr2 : (gr.removeAresta e.verticeOrigem e.verticeDestino).2 = true := hesp.1
  have hchar := hesp.2.1
  have sim1 : InvarianteSimetria (gr.removeAresta e.verticeOrigem e.verticeDestino).1 :=
    invarianteSimetria_removeAresta pos.sim _ _
  have hnv1 : (gr.removeAresta e.verticeOrigem e.verticeDestino).1.numVertices =
      g0.numVertices := by
    rw [(removeAresta_campos gr _ _).1, pos.nv]
  have hpond1 : (gr.removeAresta e.verticeOrigem e.verticeDestino).1.ponderado = true := by
    rw [(removeAresta_campos gr _ _).2.2.1, pos.pond]
  -- pair distinctness across the split
  have hndsplit := hnd
  rw [List.map_append, List.nodup_append] at hndsplit
  have hpairK : ∀ f ∈ kept,
      ¬((e.verticeOrigem, e.verticeDestino) =
        (f.verticeOrigem, f.verticeDestino)) := by
    intro f hf hpar
    exact hndsplit.2.2 (List.mem_map_of_mem _ hf)
      (by rw [← hpar]; exact List.mem_cons_self _ _)
  have hpairR : ∀ a ∈ resto2,
      ¬((a.verticeOrigem, a.verticeDestino) =
        (e.verticeOrigem, e.verticeDestino)) := by
    intro a ha hpar
    have h1 : ((e :: resto2).map
        (fun a => (a.verticeOrigem, a.verticeDestino))).Nodup := hndsplit.2.1
    rw [List.map_cons, List.nodup_cons] at h1
    exact h1.1 (by rw [← hpar]; exact List.mem_map_of_mem _ ha)
  -- membership of the removed graph
  have hmemb1 : ∀ a : Aresta,
      a ∈ (gr.removeAresta e.verticeOrigem e.verticeDestino).1.coletaArestas ↔
        (a ∈ kept ∨ a ∈ resto2) := by
    intro a
    rw [hchar a, pos.membros a]
    constructor
    · rintro ⟨h1 | h1, h2⟩
      · exact Or.inl h1
      · rcases List.mem_cons.mp h1 with heq | h3
        · exfalso
          apply h2
          rw [heq]
          exact ⟨rfl, rfl⟩
        · exact Or.inr h3
    · rintro (h1 | h1)
      · refine ⟨Or.inl h1, ?_⟩
        intro hpar
        exact hpairK a h1 (by rw [hpar.1, hpar.2])
      · refine ⟨Or.inr (List.mem_cons_of_mem _ h1), ?_⟩
        intro hpar
        exact hpairR a h1 (by rw [hpar.1, hpar.2])
  have hsubE : ∀ a ∈ (gr.removeAresta e.verticeOrigem e.verticeDestino).1.coletaArestas,
      a ∈ gr.coletaArestas := by
    intro a ha
    exact ((hchar a).mp ha).1
  by_cases hdfs : (gr.removeAresta e.verticeOrigem e.verticeDestino).1.estaConectadoDFS = true
  · -- the removal kept the graph connected: the edge stays deleted
    have hstep : apagaPasso gr e = (gr.removeAresta e.verticeOrigem e.verticeDestino).1 := by
      rw [apagaPasso, if_pos hr2, hdfs]
      rfl
    have hspan1 : ∀ v, v < g0.numVertices →
        Conexo (gr.removeAresta e.verticeOrigem e.verticeDestino).1.coletaArestas 0 v := by
      intro v hv
      have hca := (estaConectadoDFS_correto sim1).mp hdfs v (by rw [hnv1]; exact hv)
      exact (conexo_coleta_adj sim1 0 v).mpr hca
    have hpontes1 : ∀ f ∈ kept,
        ¬ Conexo ((gr.removeAresta e.verticeOrigem e.verticeDestino).1.coletaArestas.filter
          (fun a => !(decide (a.verticeOrigem = f.verticeOrigem) &&
            decide (a.verticeDestino = f.verticeDestino))))
          f.verticeOrigem f.verticeDestino := by
      intro f hf hc
      apply pos.pontes f hf
      refine conexo_mono ?_ hc
      intro a ha
      rw [List.mem_filter] at ha ⊢
      exact ⟨hsubE a ha.1, ha.2⟩
    have pos1 : ApagaPos g0 kept resto2 (apagaPasso gr e) := by
      rw [hstep]
      exact ⟨sim1, hnv1, hpond1, hmemb1, hspan1, hpontes1⟩
    refine ⟨kept, Or.inl rfl, pos1, ?_, ?_⟩
    · rw [hstep]
      exact hsubE
    · -- the exchange ledger
      intro F hFsub hFfl hFspan
      rw [hstep]
      by_cases heF : e ∈ F
      · -- exchange: replace e by a light crossing edge
        have hponte : ¬ Conexo (F.erase e) e.verticeOrigem e.verticeDestino :=
          florestaL_ponte hFfl heF
        have hFnd : (F.map (fun a => (a.verticeOrigem, a.verticeDestino))).Nodup :=
          florestaL_pares hFfl
        have hFvnd : F.Nodup := List.Nodup.of_map _ hFnd
        have hlink : Conexo
            (gr.removeAresta e.verticeOrigem e.verticeDestino).1.coletaArestas
            e.verticeOrigem e.verticeDestino :=
          conexo_trans (conexo_symm (hspan1 e.verticeOrigem (by omega)))
            (hspan1 e.verticeDestino hdn)
        have hKR : Conexo (kept ++ resto2) e.verticeOrigem e.verticeDestino := by
          refine conexo_mono ?_ hlink
          intro a ha
          rw [List.mem_append]
          exact (hmemb1 a).mp ha
        have hndKR : ((kept ++ resto2).map
            (fun a => (a.verticeOrigem, a.verticeDestino))).Nodup := by
          have hsub : List.Sublist (kept ++ resto2) (kept ++ e :: resto2) :=
            List.Sublist.append_left (List.sublist_cons_self e resto2) kept
          exact List.Nodup.sublist (hsub.map _) hnd
        have hER : ∀ a ∈ kept ++ resto2, a ∈ gr.coletaArestas := by
          intro a ha
          rcases List.mem_append.mp ha with h1 | h1
          · exact (pos.membros a).mpr (Or.inl h1)
          · exact (pos.membros a).mpr (Or.inr (List.mem_cons_of_mem _ h1))
        have hxyK : ∀ f ∈ kept, Conexo (gr.coletaArestas.filter
            (fun a => !(decide (a.verticeOrigem = f.verticeOrigem) &&
              decide (a.verticeDestino = f.verticeDestino))))
            e.verticeOrigem e.verticeDestino := by
          intro f hf
          have heFil : e ∈ gr.coletaArestas.filter
              (fun a => !(decide (a.verticeOrigem = f.verticeOrigem) &&
                decide (a.verticeDestino = f.verticeDestino))) := by
            rw [List.mem_filter]
            refine ⟨heE, ?_⟩
            have hne := hpairK f hf
            by_cases hao : e.verticeOrigem = f.verticeOrigem
            · have had : e.verticeDestino ≠ f.verticeDestino := by
                intro h2
                exact hne (by rw [hao, h2])
              simp [hao, had]
            · simp [hao]
          exact conexo_aresta heFil
        have hlight : Conexo resto2 e.verticeOrigem e.verticeDestino :=
          conexo_sem_pontes kept hndKR hER pos.pontes hxyK hKR
        obtain ⟨a, haR, hacase⟩ := conexo_cruza hlight hponte
        have haLt2 : a.verticeOrigem < a.verticeDestino := haLt a haR
        have haN2 : a.verticeDestino < g0.numVertices := haN a haR
        have duasClasses : ∀ w, w < g0.numVertices →
            Conexo (F.erase e) e.verticeOrigem w ∨
            Conexo (F.erase e) e.verticeDestino w := by
          intro w hw
          have hFw : Conexo F e.verticeOrigem w :=
            conexo_trans (conexo_symm (hFspan e.verticeOrigem (by omega))) (hFspan w hw)
          rcases conexo_erase_casos heF hFw with h1 | ⟨h1, h2⟩ | ⟨h1, h2⟩
          · exact Or.inl h1
          · exact Or.inr h2
          · exact absurd h1 hponte
        have hx : (Conexo (F.erase e) e.verticeOrigem a.verticeOrigem ∧
            Conexo (F.erase e) e.verticeDestino a.verticeDestino) ∨
            (Conexo (F.erase e) e.verticeOrigem a.verticeDestino ∧
            Conexo (F.erase e) e.verticeDestino a.verticeOrigem) := by
          rcases hacase with ⟨h1, h2⟩ | ⟨h1, h2⟩
          · rcases duasClasses a.verticeDestino haN2 with h3 | h3
            · exact absurd h3 h2
            · exact Or.inl ⟨h1, h3⟩
          · rcases duasClasses a.verticeOrigem (by omega) with h3 | h3
            · exact absurd h3 h2
            · exact Or.inr ⟨h1, h3⟩
        have hrec := reconecta hponte hx
        have hF0fl : FlorestaL (F.erase e) :=
          florestaL_sublist (List.erase_sublist e F) hFfl
        have hF2fl : FlorestaL (a :: F.erase e) := FlorestaL.cons hF0fl hrec.1
        have hF2link : Conexo (a :: F.erase e) e.verticeOrigem e.verticeDestino := hrec.2
        have hF0sub : ∀ x ∈ F.erase e, x ∈ a :: F.erase e :=
          fun x hx2 => List.mem_cons_of_mem _ hx2
        have hF2span : ∀ v, v < g0.numVertices → Conexo (a :: F.erase e) 0 v := by
          have hclasse : ∀ w, w < g0.numVertices →
              Conexo (a :: F.erase e) e.verticeOrigem w := by
            intro w hw
            rcases duasClasses w hw with h1 | h1
            · exact conexo_mono hF0sub h1
            · exact conexo_trans hF2link (conexo_mono hF0sub h1)
          intro v hv
          exact conexo_trans (conexo_symm (hclasse 0 (by omega))) (hclasse v hv)
        have hF2sub : ∀ f ∈ a :: F.erase e,
            f ∈ (gr.removeAresta e.verticeOrigem e.verticeDestino).1.coletaArestas := by
          intro f hf
          rcases List.mem_cons.mp hf with heq | hf2
          · rw [heq]
            exact (hmemb1 a).mpr (Or.inr haR)
          · have hfF : f ∈ F := List.mem_of_mem_erase hf2
            have hfne : f ≠ e := ((List.Nodup.mem_erase_iff hFvnd).mp hf2).1
            rw [hchar f]
            refine ⟨hFsub f hfF, ?_⟩
            intro hpar
            exact hfne (nodup_map_inj hEnd (hFsub f hfF) heE (by rw [hpar.1, hpar.2]))
        have hpeso : a.peso ≤ e.peso := by
          have hsub2 : List.Sublist (e :: resto2) (kept ++ e :: resto2) :=
            List.sublist_append_right kept (e :: resto2)
          have hdesc2 := hdesc.sublist hsub2
          exact (List.pairwise_cons.mp hdesc2).1 a haR
        have hsum : ((a :: F.erase e).map Aresta.peso).sum ≤ (F.map Aresta.peso).sum := by
          have hperm : F.Perm (e :: F.erase e) := List.perm_cons_erase heF
          have hs2 : (F.map Aresta.peso).sum = ((e :: F.erase e).map Aresta.peso).sum :=
            (hperm.map Aresta.peso).sum_eq
          rw [hs2, List.map_cons, List.map_cons, List.sum_cons, List.sum_cons]
          omega
        exact ⟨a :: F.erase e, hF2sub, hF2fl, hF2span, hsum⟩
      · -- the forest avoided the edge: it survives unchanged
        refine ⟨F, ?_, hFfl, hFspan, le_refl _⟩
        intro f hf
        rw [hchar f]
        refine ⟨hFsub f hf, ?_⟩
        intro hpar
        apply heF
        have : f = e := nodup_map_inj hEnd (hFsub f hf) heE (by rw [hpar.1, hpar.2])
        rw [← this]
        exact hf
  · -- the removal disconnected the graph: the edge is reinserted
    have hdfsf : (gr.removeAresta e.verticeOrigem e.verticeDestino).1.estaConectadoDFS
        = false := by
      cases hx : (gr.removeAresta e.verticeOrigem e.verticeDestino).1.estaConectadoDFS
      · rfl
      · exact absurd hx hdfs
    have hre := hesp.2.2 pos.pond
    have hstep : apagaPasso gr e = gr := by
      rw [apagaPasso, if_pos hr2, hdfsf]
      exact hre
    have hpe : ¬ Conexo (gr.coletaArestas.filter
        (fun a => !(decide (a.verticeOrigem = e.verticeOrigem) &&
          decide (a.verticeDestino = e.verticeDestino))))
        e.verticeOrigem e.verticeDestino := by
      intro hc
      obtain ⟨v0, hv0, hnc⟩ : ∃ v0, v0 < g0.numVertices ∧
          ¬ ConexoAdj (gr.removeAresta e.verticeOrigem e.verticeDestino).1 0 v0 := by
        by_contra hall
        push_neg at hall
        have : (gr.removeAresta e.verticeOrigem e.verticeDestino).1.estaConectadoDFS
            = true := by
          rw [estaConectadoDFS_correto sim1]
          intro v hv
          exact hall v (by omega)
        rw [this] at hdfsf
        cases hdfsf
      apply hnc
      rw [← conexo_coleta_adj sim1]
      -- transfer connectivity from the full graph around the missing edge
      have hcr : Conexo
          (gr.removeAresta e.verticeOrigem e.verticeDestino).1.coletaArestas
          e.verticeOrigem e.verticeDestino := by
        refine conexo_mono ?_ hc
        intro x hx2
        rw [List.mem_filter] at hx2
        rw [hchar x]
        refine ⟨hx2.1, ?_⟩
        intro hpar
        have := hx2.2
        rw [hpar.1, hpar.2] at this
        simp at this
      have hdet : ∀ x ∈ gr.coletaArestas,
          x ∉ (gr.removeAresta e.verticeOrigem e.verticeDestino).1.coletaArestas →
          Conexo (gr.removeAresta e.verticeOrigem e.verticeDestino).1.coletaArestas
            x.verticeOrigem x.verticeDestino := by
        intro x hxE hxno
        have hpar : x.verticeOrigem = e.verticeOrigem ∧
            x.verticeDestino = e.verticeDestino := by
          by_contra hno
          exact hxno ((hchar x).mpr ⟨hxE, hno⟩)
        rw [hpar.1, hpar.2]
        exact hcr
      exact conexo_desvia hdet (pos.span v0 hv0)
    have pos1 : ApagaPos g0 (kept ++ [e]) resto2 (apagaPasso gr e) := by
      rw [hstep]
      refine ⟨pos.sim, pos.nv, pos.pond, ?_, pos.span, ?_⟩
      · intro a
        rw [pos.membros a]
        constructor
        · rintro (h1 | h1)
          · exact Or.inl (List.mem_append.mpr (Or.inl h1))
          · rcases List.mem_cons.mp h1 with heq | h2
            · refine Or.inl (List.mem_append.mpr (Or.inr ?_))
              rw [heq]
              exact List.mem_singleton.mpr rfl
            · exact Or.inr h2
        · rintro (h1 | h1)
          · rcases List.mem_append.mp h1 with h2 | h2
            · exact Or.inl h2
            · rw [List.mem_singleton] at h2
              exact Or.inr (by rw [h2]; exact List.mem_cons_self _ _)
          · exact Or.inr (List.mem_cons_of_mem _ h1)
      · intro f hf
        rcases List.mem_append.mp hf with h1 | h1
        · exact pos.pontes f h1
        · rw [List.mem_singleton] at h1
          rw [h1]
          exact hpe
    refine ⟨kept ++ [e], Or.inr rfl, pos1, ?_, ?_⟩
    · rw [hstep]
      exact fun a ha => ha
    · intro F hFsub hFfl hFspan
      rw [hstep]
      exact ⟨F, hFsub, hFfl, hFspan, le_refl _⟩

/-- Membership in the pair-dropping filter. -/
theorem filtro_par_mem {E : List Aresta} {f a : Aresta} :
    a ∈ E.filter (fun a => !(decide (a.verticeOrigem = f.verticeOrigem) &&
      decide (a.verticeDestino = f.verticeDestino))) ↔
    (a ∈ E ∧ ¬(a.verticeOrigem = f.verticeOrigem ∧
      a.verticeDestino = f.verticeDestino)) := by
  rw [List.mem_filter]
  constructor
  · rintro ⟨h1, h2⟩
    refine ⟨h1, ?_⟩
    intro hpar
    rw [hpar.1, hpar.2] at h2
    simp at h2
  · rintro ⟨h1, h2⟩
    refine ⟨h1, ?_⟩
    by_cases hao : a.verticeOrigem = f.verticeOrigem
    · have had : a.verticeDestino ≠ f.verticeDestino := fun hd => h2 ⟨hao, hd⟩
      simp [hao, had]
    · simp [hao]

/-- An edge list in which every edge separates its endpoints without its own
pair is a forest. -/
theorem florestaL_de_pontes :
    ∀ (T : List Aresta),
      (T.map (fun a => (a.verticeOrigem, a.verticeDestino))).Nodup →
      (∀ e ∈ T, ¬ Conexo (T.filter (fun a =>
        !(decide (a.verticeOrigem = e.verticeOrigem) &&
          decide (a.verticeDestino = e.verticeDestino))))
        e.verticeOrigem e.verticeDestino) →
      FlorestaL T := by
  intro T
  induction T with
  | nil =>
    intro _ _
    exact FlorestaL.nil
  | cons e T2 ih =>
    intro hnd hpontes
    rw [List.map_cons, List.nodup_cons] at hnd
    refine FlorestaL.cons (ih hnd.2 ?_) ?_
    · intro f hf hc
      apply hpontes f (List.mem_cons_of_mem _ hf)
      refine conexo_mono ?_ hc
      intro a ha
      rw [filtro_par_mem] at ha ⊢
      exact ⟨List.mem_cons_of_mem _ ha.1, ha.2⟩
    · intro hc
      apply hpontes e (List.mem_cons_self e T2)
      refine conexo_mono ?_ hc
      intro a ha
      rw [filtro_par_mem]
      refine ⟨List.mem_cons_of_mem _ ha, ?_⟩
      intro hpar
      apply hnd.1
      rw [List.mem_map]
      exact ⟨a, ha, by rw [hpar.1, hpar.2]⟩

/-- The whole Reverse-Delete edge loop, by induction over the unscanned
suffix of the descending-sorted edge list. -/
theorem apagaFold_espec {g0 : Grafo} {A : List Aresta}
    (hndA : (A.map (fun a => (a.verticeOrigem, a.verticeDestino))).Nodup)
    (hdescA : List.Pairwise (fun x y => y.peso ≤ x.peso) A)
    (hALt : ∀ a ∈ A, a.verticeOrigem < a.verticeDestino)
    (hAN : ∀ a ∈ A, a.verticeDestino < g0.numVertices) :
    ∀ (resto kept : List Aresta) (gr : Grafo),
      List.Sublist (kept ++ resto) A →
      ApagaPos g0 kept resto gr →
      (∃ keptF, ApagaPos g0 keptF [] (resto.foldl apagaPasso gr)) ∧
      (∀ a ∈ (resto.foldl apagaPasso gr).coletaArestas, a ∈ gr.coletaArestas) ∧
      (∀ F : List Aresta, (∀ f ∈ F, f ∈ gr.coletaArestas) → FlorestaL F →
        (∀ v, v < g0.numVertices → Conexo F 0 v) →
        ∃ F2 : List Aresta,
          (∀ f ∈ F2, f ∈ (resto.foldl apagaPasso gr).coletaArestas) ∧
          FlorestaL F2 ∧ (∀ v, v < g0.numVertices → Conexo F2 0 v) ∧
          (F2.map Aresta.peso).sum ≤ (F.map Aresta.peso).sum) := by
  intro resto
  induction resto with
  | nil =>
    intro kept gr _ pos
    refine ⟨⟨kept, pos⟩, fun a ha => ha, ?_⟩
    intro F h1 h2 h3
    exact ⟨F, h1, h2, h3, le_refl _⟩
  | cons e resto2 ih =>
    intro kept gr hsubA pos
    have hnd : ((kept ++ e :: resto2).map
        (fun a => (a.verticeOrigem, a.verticeDestino))).Nodup :=
      List.Nodup.sublist (hsubA.map _) hndA
    have hdesc : List.Pairwise (fun x y => y.peso ≤ x.peso) (kept ++ e :: resto2) :=
      hdescA.sublist hsubA
    have heA : e ∈ A :=
      hsubA.subset (List.mem_append.mpr (Or.inr (List.mem_cons_self _ _)))
    have hstep := apagaPasso_espec hnd hdesc (hALt e heA) (hAN e heA)
      (fun a ha => hALt a (hsubA.subset
        (List.mem_append.mpr (Or.inr (List.mem_cons_of_mem _ ha)))))
      (fun a ha => hAN a (hsubA.subset
        (List.mem_append.mpr (Or.inr (List.mem_cons_of_mem _ ha)))))
      pos
    obtain ⟨kept2, hk2, pos1, hsub1, hledger1⟩ := hstep
    have hsub2 : List.Sublist (kept2 ++ resto2) A := by
      rcases hk2 with heq | heq
      · rw [heq]
        exact List.Sublist.trans
          (List.Sublist.append_left (List.sublist_cons_self e resto2) kept) hsubA
      · rw [heq, List.append_assoc]
        exact hsubA
    have hrec := ih kept2 (apagaPasso gr e) hsub2 pos1
    rw [List.foldl_cons]
    refine ⟨hrec.1, ?_, ?_⟩
    · intro a ha
      exact hsub1 a (hrec.2.1 a ha)
    · intro F h1 h2 h3
      obtain ⟨F2, hF2a, hF2b, hF2c, hF2d⟩ := hledger1 F h1 h2 h3
      obtain ⟨F3, hF3a, hF3b, hF3c, hF3d⟩ := hrec.2.2 F2 hF2a hF2b hF2c
      exact ⟨F3, hF3a, hF3b, hF3c, le_trans hF3d hF2d⟩

/-- The full Reverse-Delete summary: the C3 contract plus the symmetry
invariant of the final graph (needed again when comparing totals). -/
theorem apagaReverso_resumo {g : Grafo} (hsim : InvarianteSimetria g)
    (hpond : g.ponderado = true)
    (hconn : ∀ v, v < g.numVertices → ConexoAdj g 0 v) :
    List.Pairwise (fun x y => y.peso ≤ x.peso)
      (g.coletaArestas.mergeSort (fun a b => b.peso ≤ a.peso)) ∧
    (g.algoritmoApagaReverso).numVertices = g.numVertices ∧
    (∀ a ∈ (g.algoritmoApagaReverso).coletaArestas, a ∈ g.coletaArestas) ∧
    (∀ u v, u < g.numVertices → v < g.numVertices →
      ConexoAdj (g.algoritmoApagaReverso) u v) ∧
    FlorestaL (g.algoritmoApagaReverso).coletaArestas ∧
    (∀ e ∈ (g.algoritmoApagaReverso).coletaArestas,
      ¬ Conexo ((g.algoritmoApagaReverso).coletaArestas.filter
        (fun a => !(decide (a.verticeOrigem = e.verticeOrigem) &&
          decide (a.verticeDestino = e.verticeDestino))))
        e.verticeOrigem e.verticeDestino) ∧
    (g.algoritmoApagaReverso).custoTotalArestas =
      (((g.algoritmoApagaReverso).coletaArestas).map Aresta.peso).sum ∧
    (∀ F : List Aresta, (∀ f ∈ F, f ∈ g.coletaArestas) → FlorestaL F →
      (∀ v, v < g.numVertices → Conexo F 0 v) →
      (((g.algoritmoApagaReverso).coletaArestas).map Aresta.peso).sum ≤
        (F.map Aresta.peso).sum) ∧
    InvarianteSimetria (g.algoritmoApagaReverso) := by
  have hbf : BemFormado g := ⟨hsim.comprimento, hsim.limites⟩
  have hperm : List.Perm (g.coletaArestas.mergeSort (fun a b => b.peso ≤ a.peso))
      g.coletaArestas := List.mergeSort_perm g.coletaArestas _
  have hndA : ((g.coletaArestas.mergeSort (fun a b => b.peso ≤ a.peso)).map
      (fun a => (a.verticeOrigem, a.verticeDestino))).Nodup :=
    (hperm.map _).nodup_iff.mpr (coletaArestas_pares_nodup hsim)
  have hdescA := arestas_ordenadas_desc g.coletaArestas
  have hALt : ∀ a ∈ g.coletaArestas.mergeSort (fun a b => b.peso ≤ a.peso),
      a.verticeOrigem < a.verticeDestino := by
    intro a ha
    exact ((coletaArestas_mem hsim.direcao hsim.comprimento a).mp
      (hperm.mem_iff.mp ha)).1
  have hAN : ∀ a ∈ g.coletaArestas.mergeSort (fun a b => b.peso ≤ a.peso),
      a.verticeDestino < g.numVertices := by
    intro a ha
    exact (coletaArestas_intervalo hbf a (hperm.mem_iff.mp ha)).2
  have pos0 : ApagaPos g []
      (g.coletaArestas.mergeSort (fun a b => b.peso ≤ a.peso)) g := by
    refine ⟨hsim, rfl, hpond, ?_, ?_, ?_⟩
    · intro a
      rw [hperm.mem_iff]
      simp
    · intro v hv
      exact (conexo_coleta_adj hsim 0 v).mpr (hconn v hv)
    · intro f hf
      cases hf
  have hmain := apagaFold_espec hndA hdescA hALt hAN
    (g.coletaArestas.mergeSort (fun a b => b.peso ≤ a.peso)) [] g
    (by rw [List.nil_append]) pos0
  obtain ⟨⟨keptF, posF⟩, hsubF, hledgerF⟩ := hmain
  rw [apagaReverso_eq g]
  have hTkept : ∀ a ∈ ((g.coletaArestas.mergeSort
      (fun a b => b.peso ≤ a.peso)).foldl apagaPasso g).coletaArestas, a ∈ keptF := by
    intro a ha
    rcases (posF.membros a).mp ha with h1 | h1
    · exact h1
    · cases h1
  refine ⟨hdescA, posF.nv, hsubF, ?_, ?_, ?_, rfl, ?_, posF.sim⟩
  · intro u v hu hv
    rw [← conexo_coleta_adj posF.sim]
    exact conexo_trans (conexo_symm (posF.span u hu)) (posF.span v hv)
  · refine florestaL_de_pontes _ (coletaArestas_pares_nodup posF.sim) ?_
    intro e he
    exact posF.pontes e (hTkept e he)
  · intro e he
    exact posF.pontes e (hTkept e he)
  · intro F hFsub hFfl hFspan
    obtain ⟨F2, hF2a, hF2b, hF2c, hF2d⟩ := hledgerF F hFsub hFfl hFspan
    have hTnd : (((g.coletaArestas.mergeSort
        (fun a b => b.peso ≤ a.peso)).foldl apagaPasso g).coletaArestas.map
        (fun a => (a.verticeOrigem, a.verticeDestino))).Nodup :=
      coletaArestas_pares_nodup posF.sim
    have hTvnd : (((g.coletaArestas.mergeSort
        (fun a b => b.peso ≤ a.peso)).foldl apagaPasso g).coletaArestas).Nodup :=
      List.Nodup.of_map _ hTnd
    have hF2vnd : F2.Nodup := List.Nodup.of_map _ (florestaL_pares hF2b)
    have hTsubF2 : ∀ t ∈ ((g.coletaArestas.mergeSort
        (fun a b => b.peso ≤ a.peso)).foldl apagaPasso g).coletaArestas, t ∈ F2 := by
      intro t ht
      by_contra htno
      have htg : t ∈ g.coletaArestas := hsubF t ht
      have hto : t.verticeOrigem < t.verticeDestino :=
        ((coletaArestas_mem hsim.direcao hsim.comprimento t).mp htg).1
      have htd : t.verticeDestino < g.numVertices :=
        (coletaArestas_intervalo hbf t htg).2
      have hc : Conexo F2 t.verticeOrigem t.verticeDestino :=
        conexo_trans (conexo_symm (hF2c t.verticeOrigem (by omega)))
          (hF2c t.verticeDestino htd)
      apply posF.pontes t (hTkept t ht)
      refine conexo_mono ?_ hc
      intro a ha
      rw [filtro_par_mem]
      refine ⟨hF2a a ha, ?_⟩
      intro hpar
      have hat : a = t := nodup_map_inj hTnd (hF2a a ha) ht (by rw [hpar.1, hpar.2])
      rw [hat] at ha
      exact htno ha
    have hpermTF : (((g.coletaArestas.mergeSort
        (fun a b => b.peso ≤ a.peso)).foldl apagaPasso g).coletaArestas).Perm F2 := by
      rw [List.perm_ext_iff_of_nodup hTvnd hF2vnd]
      intro a
      exact ⟨fun h => hTsubF2 a h, fun h => hF2a a h⟩
    have hsum : ((((g.coletaArestas.mergeSort
        (fun a b => b.peso ≤ a.peso)).foldl apagaPasso g).coletaArestas).map
        Aresta.peso).sum = (F2.map Aresta.peso).sum :=
      (hpermTF.map Aresta.peso).sum_eq
    rw [hsum]
    exact hF2d

/-- C3: on a symmetric, weighted, connected graph, Reverse-Delete processes
the collected edges in descending weight order, removes each edge and puts it
back exactly when the depth-first reachability scan finds the removal
disconnecting, and at completion the surviving edges form a connected
spanning tree of the original graph whose every edge is a bridge, of total
weight at most that of any spanning forest of the original graph; the printed
cost is the weight sum of the surviving edges. -/
theorem algoritmoApagaReverso_contrato {g : Grafo} (hsim : InvarianteSimetria g)
    (hpond : g.ponderado = true)
    (hconn : ∀ v, v < g.numVertices → ConexoAdj g 0 v) :
    List.Pairwise (fun x y => y.peso ≤ x.peso)
      (g.coletaArestas.mergeSort (fun a b => b.peso ≤ a.peso)) ∧
    (g.algoritmoApagaReverso).numVertices = g.numVertices ∧
    (∀ a ∈ (g.algoritmoApagaReverso).coletaArestas, a ∈ g.coletaArestas) ∧
    (∀ u v, u < g.numVertices → v < g.numVertices →
      ConexoAdj (g.algoritmoApagaReverso) u v) ∧
    FlorestaL (g.algoritmoApagaReverso).coletaArestas ∧
    (∀ e ∈ (g.algoritmoApagaReverso).coletaArestas,
      ¬ Conexo ((g.algoritmoApagaReverso).coletaArestas.filter
        (fun a => !(decide (a.verticeOrigem = e.verticeOrigem) &&
          decide (a.verticeDestino = e.verticeDestino))))
        e.verticeOrigem e.verticeDestino) ∧
    (g.algoritmoApagaReverso).custoTotalArestas =
      (((g.algoritmoApagaReverso).coletaArestas).map Aresta.peso).sum ∧
    (∀ F : List Aresta, (∀ f ∈ F, f ∈ g.coletaArestas) → FlorestaL F →
      (∀ v, v < g.numVertices → Conexo F 0 v) →
      (((g.algoritmoApagaReverso).coletaArestas).map Aresta.peso).sum ≤
        (F.map Aresta.peso).sum) := by
  obtain ⟨h1, h2, h3, h4, h5, h6, h7, h8, h9⟩ := apagaReverso_resumo hsim hpond hconn
  exact ⟨h1, h2, h3, h4, h5, h6, h7, h8⟩

/-- The weighted triangle used to witness the Reverse-Delete contract. -/
def grafoC3 : Grafo :=
  (((Grafo.nova 3 false true).adicionaAresta 0 1 4).adicionaAresta 1 2 2).adicionaAresta 0 2 7

/-- Witness for C3 on the connected weighted triangle. -/
theorem algoritmoApagaReverso_contrato_witness :
    (∀ v, v < grafoC3.numVertices → ConexoAdj grafoC3 0 v) ∧
    (grafoC3.algoritmoApagaReverso).custoTotalArestas =
      (((grafoC3.algoritmoApagaReverso).coletaArestas).map Aresta.peso).sum ∧
    FlorestaL (grafoC3.algoritmoApagaReverso).coletaArestas := by
  have hsim : InvarianteSimetria grafoC3 :=
    invarianteSimetria_adicionaAresta (invarianteSimetria_adicionaAresta
      (invarianteSimetria_adicionaAresta (invarianteSimetria_nova 3 true) 0 1 4) 1 2 2) 0 2 7
  have hconn : ∀ v, v < grafoC3.numVertices → ConexoAdj grafoC3 0 v := by
    intro v hv
    have hv3 : v < 3 := hv
    interval_cases v
    · exact ConexoAdj.refl 0
    · exact ConexoAdj.avante (ConexoAdj.refl 0)
        (show (⟨1, 4⟩ : ElemLista) ∈ grafoC3.adj 0 by decide)
    · exact ConexoAdj.avante (ConexoAdj.refl 0)
        (show (⟨2, 7⟩ : ElemLista) ∈ grafoC3.adj 0 by decide)
  exact ⟨hconn, (algoritmoApagaReverso_contrato hsim rfl hconn).2.2.2.2.2.2.1,
    (algoritmoApagaReverso_contrato hsim rfl hconn).2.2.2.2.1⟩

/-! ### Claim C2: cut exchange, frontier and lookup lemmas -/

/-- Every adjacency weight is strictly below the sentinel (what Prim's
relaxation guard `peso < chave` requires to ever fire). -/
def PesosEstritos (g : Grafo) : Prop := ∀ u, ∀ e ∈ g.adj u, e.peso < INFINITO

theorem pesosEstritos_de_listas {g : Grafo}
    (h : ∀ l ∈ g.listaAdjacencia, ∀ e ∈ l, e.peso < INFINITO) : PesosEstritos g := by
  intro u e he
  rcases adj_mem_ou_vazio g u with hm | hv
  · exact h _ hm e he
  · rw [hv] at he
    cases he

theorem conexoAdj_symm {g : Grafo} {u v : Nat} (h : ConexoAdj g u v) : ConexoAdj g v u := by
  induction h with
  | refl => exact ConexoAdj.refl _
  | avante hpre hmem ih =>
    rename_i a b p
    exact conexoAdj_trans (ConexoAdj.tras (ConexoAdj.refl b) hmem) ih
  | tras hpre hmem ih =>
    rename_i a b p
    exact conexoAdj_trans (ConexoAdj.avante (ConexoAdj.refl b) hmem) ih

/-- An adjacency walk into the complement of `Pv` crosses the boundary. -/
theorem conexoAdj_corta {g : Grafo} (Pv : Nat → Prop) :
    ∀ {s t : Nat}, ConexoAdj g s t → Pv s → ¬ Pv t →
      ∃ x y : Nat, ∃ w : Int, Pv x ∧ ¬ Pv y ∧
        ((⟨y, w⟩ : ElemLista) ∈ g.adj x ∨ (⟨x, w⟩ : ElemLista) ∈ g.adj y) := by
  intro s t h
  induction h with
  | refl =>
    intro hs ht
    exact absurd hs ht
  | avante hpre hmem ih =>
    rename_i a b p
    intro hs ht
    by_cases ha : Pv a
    · exact ⟨a, b, p, ha, ht, Or.inl hmem⟩
    · exact ih hs ha
  | tras hpre hmem ih =>
    rename_i a b p
    intro hs ht
    by_cases ha : Pv a
    · exact ⟨a, b, p, ha, ht, Or.inr hmem⟩
    · exact ih hs ha

/-- Below-capacity visited arrays have an unvisited index. -/
theorem existe_falso : ∀ {vis : List Bool}, vis.count true < vis.length →
    ∃ y, y < vis.length ∧ vis.getD y false = false := by
  intro vis
  induction vis with
  | nil =>
    intro h
    simp at h
  | cons b l ih =>
    intro h
    cases b with
    | false => exact ⟨0, by simp, rfl⟩
    | true =>
      have h2 : l.count true < l.length := by
        simp [List.count_cons] at h
        omega
      obtain ⟨y, hy, hyf⟩ := ih h2
      exact ⟨y + 1, by simpa using hy, by simpa using hyf⟩

open Classical in
/-- A list connecting every vertex of `[0, n)` to `0` has a single class. -/
theorem numComp_conectado {n : Nat} {M : List Aresta} (hn : 0 < n)
    (hsp : ∀ v, v < n → Conexo M 0 v) : numComp n M = 1 := by
  rw [numComp]
  have h1 : (List.range n).filter (fun v => decide (MinClasse M v)) =
      (List.range n).filter (fun v => v == 0) := by
    apply List.filter_congr
    intro v hv
    have hvn := List.mem_range.mp hv
    by_cases hv0 : v = 0
    · subst hv0
      have hmc : MinClasse M 0 := fun u hu _ => absurd hu (Nat.not_lt_zero u)
      simp [hmc]
    · have hmc : ¬ MinClasse M v := fun hm => hm 0 (by omega) (hsp v hvn)
      simp [hmc, hv0]
  rw [h1]
  have h2 := @filter_menos_um (fun v => v == 0) (fun _ => false) (List.range n)
    (List.nodup_range n) 0 (List.mem_range.mpr hn) rfl rfl
    (fun v _ hv => (beq_eq_false_iff_ne.mpr hv).symm)
  have h0 : ((List.range n).filter (fun _ => false)) = [] := by simp
  rw [h0] at h2
  simp at h2
  omega

/-- `find?` over a sorted adjacency list locates exactly the stored entry. -/
theorem busca_encontra {d : Nat} {w : Int} :
    ∀ {l : List ElemLista}, ListaOrdenada l → (⟨d, w⟩ : ElemLista) ∈ l →
      l.find? (fun e => e.verticeAdjacente == d) = some ⟨d, w⟩ := by
  intro l
  induction l with
  | nil =>
    intro _ h
    cases h
  | cons e resto ih =>
    intro hord hmem
    rw [ListaOrdenada, List.pairwise_cons] at hord
    by_cases hbe : (e.verticeAdjacente == d) = true
    · rw [show List.find? (fun e => e.verticeAdjacente == d) (e :: resto) = some e from
        List.find?_cons_of_pos resto hbe]
      rcases List.mem_cons.mp hmem with heq | hmem2
      · rw [heq]
      · exfalso
        have h1 := hord.1 _ hmem2
        have h2 : e.verticeAdjacente = d := by simpa using hbe
        simp at h1
        omega
    · rw [show List.find? (fun e => e.verticeAdjacente == d) (e :: resto) =
        List.find? (fun e => e.verticeAdjacente == d) resto from
        List.find?_cons_of_neg resto hbe]
      rcases List.mem_cons.mp hmem with heq | hmem2
      · exfalso
        apply hbe
        rw [← heq]
        simp
      · exact ih hord.2 hmem2

/-- In a forest, a walk from inside `Pv` to outside it contains a boundary
edge whose removal separates the two endpoints of the walk. -/
theorem corta_separa :
    ∀ {M : List Aresta}, FlorestaL M → ∀ (Pv : Nat → Prop) {p u : Nat},
      Conexo M p u → Pv p → ¬ Pv u →
      ∃ f ∈ M, ((Pv f.verticeOrigem ∧ ¬ Pv f.verticeDestino) ∨
        (Pv f.verticeDestino ∧ ¬ Pv f.verticeOrigem)) ∧
        ¬ Conexo (M.erase f) p u := by
  intro M hM
  induction hM with
  | nil =>
    intro Pv p u hc hp hu
    exact absurd (conexo_nil hc ▸ hp) hu
  | cons hfl hnc ih =>
    rename_i e T
    intro Pv p u hc hp hu
    have heT : e ∉ T := fun h => hnc (conexo_aresta h)
    have hTsub : ∀ a ∈ T.erase e, a ∈ T := fun a ha => List.mem_of_mem_erase ha
    have herase : ∀ f ∈ T, (e :: T).erase f = e :: T.erase f := by
      intro f hfT
      have hef : ¬(e == f) = true := by
        simp only [beq_iff_eq]
        intro h
        exact heT (h ▸ hfT)
      rw [List.erase_cons, if_neg hef]
    have hsubTf : ∀ (f : Aresta), ∀ a ∈ T.erase f, a ∈ T :=
      fun f a ha => List.mem_of_mem_erase ha
    rcases conexo_cons.mp hc with hcT | ⟨hb1, hb2⟩ | ⟨hb1, hb2⟩
    · -- the walk avoids the head edge
      obtain ⟨f, hfT, hcrossf, hsepf⟩ := ih Pv hcT hp hu
      refine ⟨f, List.mem_cons_of_mem _ hfT, hcrossf, ?_⟩
      rw [herase f hfT]
      intro hcc
      rcases conexo_cons.mp hcc with h1 | ⟨h1, h2⟩ | ⟨h1, h2⟩
      · exact hsepf h1
      · exact hnc (conexo_trans (conexo_symm (conexo_mono (hsubTf f) h1))
          (conexo_trans hcT (conexo_symm (conexo_mono (hsubTf f) h2))))
      · exact hnc (conexo_trans (conexo_mono (hsubTf f) h2)
          (conexo_trans (conexo_symm hcT) (conexo_mono (hsubTf f) h1)))
    · -- the walk passes the head edge forwards: p ~ e.o, e.d ~ u
      have hTpu : ¬ Conexo T p u := fun hTc =>
        hnc (conexo_trans (conexo_symm hb1) (conexo_trans hTc (conexo_symm hb2)))
      by_cases hPd : Pv e.verticeDestino
      · obtain ⟨f, hfT, hcrossf, hsepf⟩ := ih Pv hb2 hPd hu
        refine ⟨f, List.mem_cons_of_mem _ hfT, hcrossf, ?_⟩
        rw [herase f hfT]
        intro hcc
        rcases conexo_cons.mp hcc with h1 | ⟨h1, h2⟩ | ⟨h1, h2⟩
        · exact hTpu (conexo_mono (hsubTf f) h1)
        · exact hsepf h2
        · exact hnc (conexo_trans (conexo_symm hb1)
            (conexo_mono (hsubTf f) h1))
      · by_cases hPo : Pv e.verticeOrigem
        · refine ⟨e, List.mem_cons_self e T, Or.inl ⟨hPo, hPd⟩, ?_⟩
          rw [List.erase_cons_head]
          exact hTpu
        · obtain ⟨f, hfT, hcrossf, hsepf⟩ := ih Pv hb1 hp hPo
          refine ⟨f, List.mem_cons_of_mem _ hfT, hcrossf, ?_⟩
          rw [herase f hfT]
          intro hcc
          rcases conexo_cons.mp hcc with h1 | ⟨h1, h2⟩ | ⟨h1, h2⟩
          · exact hTpu (conexo_mono (hsubTf f) h1)
          · exact hsepf h1
          · exact hnc (conexo_trans (conexo_symm hb1)
              (conexo_mono (hsubTf f) h1))
    · -- the walk passes the head edge backwards: p ~ e.d, e.o ~ u
      have hTpu : ¬ Conexo T p u := fun hTc =>
        hnc (conexo_trans (conexo_symm (conexo_trans hTc (conexo_symm hb2)))
          hb1)
      by_cases hPo : Pv e.verticeOrigem
      · obtain ⟨f, hfT, hcrossf, hsepf⟩ := ih Pv hb2 hPo hu
        refine ⟨f, List.mem_cons_of_mem _ hfT, hcrossf, ?_⟩
        rw [herase f hfT]
        intro hcc
        rcases conexo_cons.mp hcc with h1 | ⟨h1, h2⟩ | ⟨h1, h2⟩
        · exact hTpu (conexo_mono (hsubTf f) h1)
        · exact hnc (conexo_trans (conexo_symm (conexo_mono (hsubTf f) h1)) hb1)
        · exact hsepf h2
      · by_cases hPd : Pv e.verticeDestino
        · refine ⟨e, List.mem_cons_self e T, Or.inr ⟨hPd, hPo⟩, ?_⟩
          rw [List.erase_cons_head]
          exact hTpu
        · obtain ⟨f, hfT, hcrossf, hsepf⟩ := ih Pv hb1 hp hPd
          refine ⟨f, List.mem_cons_of_mem _ hfT, hcrossf, ?_⟩
          rw [herase f hfT]
          intro hcc
          rcases conexo_cons.mp hcc with h1 | ⟨h1, h2⟩ | ⟨h1, h2⟩
          · exact hTpu (conexo_mono (hsubTf f) h1)
          · exact hnc (conexo_trans (conexo_symm (conexo_mono (hsubTf f) h1)) hb1)
          · exact hsepf h1

/-- Swapping a crossing edge into a forest: some boundary edge leaves, the
result is again a forest with the same connectivity, and the weights trade
one for one. -/
theorem troca_em {M : List Aresta} (hfl : FlorestaL M) (Pv : Nat → Prop) {c : Aresta}
    (hcross : (Pv c.verticeOrigem ∧ ¬ Pv c.verticeDestino) ∨
      (Pv c.verticeDestino ∧ ¬ Pv c.verticeOrigem))
    (hMc : Conexo M c.verticeOrigem c.verticeDestino) :
    ∃ f ∈ M, ((Pv f.verticeOrigem ∧ ¬ Pv f.verticeDestino) ∨
      (Pv f.verticeDestino ∧ ¬ Pv f.verticeOrigem)) ∧
      FlorestaL (c :: M.erase f) ∧
      (∀ x y : Nat, Conexo (c :: M.erase f) x y ↔ Conexo M x y) ∧
      ((c :: M.erase f).map Aresta.peso).sum + f.peso =
        (M.map Aresta.peso).sum + c.peso := by
  have hsep : ∃ f ∈ M, ((Pv f.verticeOrigem ∧ ¬ Pv f.verticeDestino) ∨
      (Pv f.verticeDestino ∧ ¬ Pv f.verticeOrigem)) ∧
      ¬ Conexo (M.erase f) c.verticeOrigem c.verticeDestino := by
    rcases hcross with ⟨hp, hu⟩ | ⟨hp, hu⟩
    · exact corta_separa hfl Pv hMc hp hu
    · obtain ⟨f, hfM, hcrossf, hsepf⟩ := corta_separa hfl Pv (conexo_symm hMc) hp hu
      exact ⟨f, hfM, hcrossf, fun h => hsepf (conexo_symm h)⟩
  obtain ⟨f, hfM, hcrossf, hsepf⟩ := hsep
  have hfl2 : FlorestaL (c :: M.erase f) :=
    FlorestaL.cons (florestaL_sublist (List.erase_sublist f M) hfl) hsepf
  have hsubE : ∀ a ∈ M.erase f, a ∈ M := fun a ha => List.mem_of_mem_erase ha
  have hsubE2 : ∀ a ∈ M.erase f, a ∈ c :: M.erase f :=
    fun a ha => List.mem_cons_of_mem _ ha
  have hcmem : c ∈ c :: M.erase f := List.mem_cons_self _ _
  have hfvolta : Conexo (c :: M.erase f) f.verticeOrigem f.verticeDestino := by
    rcases conexo_erase_casos hfM hMc with h1 | ⟨h1, h2⟩ | ⟨h1, h2⟩
    · exact absurd h1 hsepf
    · exact conexo_trans (conexo_symm (conexo_mono hsubE2 h1))
        (conexo_trans (conexo_aresta hcmem) (conexo_symm (conexo_mono hsubE2 h2)))
    · exact conexo_trans (conexo_mono hsubE2 h2)
        (conexo_trans (conexo_symm (conexo_aresta hcmem)) (conexo_mono hsubE2 h1))
  have hiff : ∀ x y : Nat, Conexo (c :: M.erase f) x y ↔ Conexo M x y := by
    intro x y
    constructor
    · refine conexo_desvia ?_
      intro a ha hano
      rcases List.mem_cons.mp ha with heq | ha2
      · rw [heq]
        exact hMc
      · exact absurd (hsubE a ha2) hano
    · refine conexo_desvia ?_
      intro a ha hano
      have hperm : M.Perm (f :: M.erase f) := List.perm_cons_erase hfM
      rcases List.mem_cons.mp (hperm.mem_iff.mp ha) with heq | ha2
      · rw [heq]
        exact hfvolta
      · exact absurd (List.mem_cons_of_mem c ha2) hano
  have hsM : (M.map Aresta.peso).sum = f.peso + ((M.erase f).map Aresta.peso).sum := by
    have hperm : M.Perm (f :: M.erase f) := List.perm_cons_erase hfM
    rw [(hperm.map Aresta.peso).sum_eq, List.map_cons, List.sum_cons]
  refine ⟨f, hfM, hcrossf, hfl2, hiff, ?_⟩
  rw [List.map_cons, List.sum_cons, hsM]
  omega

/-- The facts about Kruskal's accepted list reused by the total-weight
comparison: it is a minimum spanning forest whose weight is the printed
total. -/
theorem kruskal_resumo {g : Grafo} (hsim : InvarianteSimetria g) :
    ∃ M : List Aresta, (∀ f ∈ M, f ∈ g.coletaArestas) ∧ FlorestaL M ∧
      (∀ x y, x < g.numVertices → y < g.numVertices →
        (Conexo M x y ↔ ConexoAdj g x y)) ∧
      (∀ F : List Aresta, (∀ f ∈ F, f ∈ g.coletaArestas) → FlorestaL F →
        (∀ x y, x < g.numVertices → y < g.numVertices →
          (Conexo F x y ↔ ConexoAdj g x y)) →
        (M.map Aresta.peso).sum ≤ (F.map Aresta.peso).sum) ∧
      (M.map Aresta.peso).sum = (g.algoritmoKruskal).2 := by
  have hbf : BemFormado g := ⟨hsim.comprimento, hsim.limites⟩
  have hEsm : ∀ a : Aresta,
      a ∈ g.coletaArestas.mergeSort (fun a b => a.peso ≤ b.peso) ↔
        a ∈ g.coletaArestas :=
    fun a => (List.mergeSort_perm g.coletaArestas _).mem_iff
  have hEsr : ArestasNoIntervalo g.numVertices
      (g.coletaArestas.mergeSort (fun a b => a.peso ≤ b.peso)) :=
    fun a ha => coletaArestas_intervalo hbf a ((hEsm a).mp ha)
  have hPart0 : ∀ u v, u < g.numVertices → v < g.numVertices →
      (Junto (DisjointSet.nova g.numVertices).ancestral u v ↔ Conexo [] u v) := by
    intro u v hu hv
    rw [junto_nova]
    constructor
    · intro h
      rw [h]
      exact Conexo.refl _
    · exact conexo_nil
  have hKP := kruskal_fold_espec
    (g.coletaArestas.mergeSort (fun a b => a.peso ≤ b.peso))
    (DisjointSet.nova g.numVertices) [] 0 (ufInv_nova g.numVertices) hPart0 hEsr
    (fun a ha => absurd ha (List.not_mem_nil a)) FlorestaL.nil rfl List.Pairwise.nil
    (fun t ht => absurd ht (List.not_mem_nil t)) (arestas_ordenadas g.coletaArestas)
  have hTEs : ∀ t ∈ ((g.coletaArestas.mergeSort (fun a b => a.peso ≤ b.peso)).foldl
      kruskalPasso (DisjointSet.nova g.numVertices, [], 0)).2.1, t ∈ g.coletaArestas := by
    intro t ht
    rcases hKP.origem t ht with h | h
    · cases h
    · exact (hEsm t).mp h
  have hTr : ArestasNoIntervalo g.numVertices
      ((g.coletaArestas.mergeSort (fun a b => a.peso ≤ b.peso)).foldl
        kruskalPasso (DisjointSet.nova g.numVertices, [], 0)).2.1 :=
    fun a ha => coletaArestas_intervalo hbf a (hTEs a ha)
  have hSpan : ∀ u v, u < g.numVertices → v < g.numVertices →
      (Conexo ((g.coletaArestas.mergeSort (fun a b => a.peso ≤ b.peso)).foldl
        kruskalPasso (DisjointSet.nova g.numVertices, [], 0)).2.1 u v ↔
        ConexoAdj g u v) := by
    intro u v hu hv
    rw [← conexo_coleta_adj hsim u v]
    constructor
    · exact conexo_mono hTEs
    · intro h
      induction h with
      | refl => exact Conexo.refl _
      | avante hpre hm ih =>
        rename_i a b p
        have han : a < g.numVertices := (coletaArestas_intervalo hbf _ hm).1
        exact conexo_trans (ih han) (hKP.alcanca ⟨a, b, p⟩ ((hEsm ⟨a, b, p⟩).mpr hm))
      | tras hpre hm ih =>
        rename_i a b p
        have han : a < g.numVertices := (coletaArestas_intervalo hbf _ hm).2
        exact conexo_trans (ih han)
          (conexo_symm (hKP.alcanca ⟨b, a, p⟩ ((hEsm ⟨b, a, p⟩).mpr hm)))
  have hTrev : ArestasNoIntervalo g.numVertices
      (((g.coletaArestas.mergeSort (fun a b => a.peso ≤ b.peso)).foldl
        kruskalPasso (DisjointSet.nova g.numVertices, [], 0)).2.1).reverse :=
    fun a ha => hTr a (List.mem_reverse.mp ha)
  refine ⟨((g.coletaArestas.mergeSort (fun a b => a.peso ≤ b.peso)).foldl
    kruskalPasso (DisjointSet.nova g.numVertices, [], 0)).2.1, hTEs, ?_, hSpan, ?_, ?_⟩
  · exact florestaL_perm hTrev (List.reverse_perm _) hKP.floresta
  · intro F hFEs hFfor0 hFspan
    have hFr : ArestasNoIntervalo g.numVertices F :=
      fun a ha => coletaArestas_intervalo hbf a (hFEs a ha)
    have hFfor : FlorestaL F.reverse :=
      florestaL_perm hFr (List.reverse_perm F).symm hFfor0
    have hFp : (F.mergeSort (fun a b => a.peso ≤ b.peso)).Perm F :=
      List.mergeSort_perm F _
    have hFr2 : ArestasNoIntervalo g.numVertices
        (F.mergeSort (fun a b => a.peso ≤ b.peso)) :=
      fun a ha => hFr a (hFp.mem_iff.mp ha)
    have hFrevr : ArestasNoIntervalo g.numVertices F.reverse :=
      fun a ha => hFr a (List.mem_reverse.mp ha)
    have hFrevperm : F.reverse.Perm (F.mergeSort (fun a b => a.peso ≤ b.peso)).reverse :=
      (F.reverse_perm).trans (hFp.symm.trans
        ((F.mergeSort (fun a b => a.peso ≤ b.peso)).reverse_perm.symm))
    have hFfor2 : FlorestaL (F.mergeSort (fun a b => a.peso ≤ b.peso)).reverse :=
      florestaL_perm hFrevr hFrevperm hFfor
    have hF2Es : ∀ f ∈ F.mergeSort (fun a b => a.peso ≤ b.peso),
        f ∈ g.coletaArestas.mergeSort (fun a b => a.peso ≤ b.peso) :=
      fun f hf => (hEsm f).mpr (hFEs f (hFp.mem_iff.mp hf))
    have hF2span : ∀ u v, Conexo (F.mergeSort (fun a b => a.peso ≤ b.peso)) u v ↔
        Conexo F u v :=
      fun u v => conexo_perm_membro (fun a => hFp.mem_iff)
    have hF2rev : ArestasNoIntervalo g.numVertices
        (F.mergeSort (fun a b => a.peso ≤ b.peso)).reverse :=
      fun a ha => hFr2 a (List.mem_reverse.mp ha)
    have hcT := florestaL_conta hKP.floresta hTrev
    have hcF := florestaL_conta hFfor2 hF2rev
    have hnum : numComp g.numVertices
        (((g.coletaArestas.mergeSort (fun a b => a.peso ≤ b.peso)).foldl
          kruskalPasso (DisjointSet.nova g.numVertices, [], 0)).2.1).reverse =
        numComp g.numVertices (F.mergeSort (fun a b => a.peso ≤ b.peso)).reverse := by
      apply numComp_congr_lt
      intro u v hu hv
      constructor
      · intro hc
        refine (conexo_perm_membro (fun a => List.mem_reverse)).mpr ?_
        refine (hF2span u v).mpr ?_
        refine (hFspan u v hu hv).mpr ?_
        refine (hSpan u v hu hv).mp ?_
        exact (conexo_perm_membro (fun a => List.mem_reverse)).mp hc
      · intro hc
        refine (conexo_perm_membro (fun a => List.mem_reverse)).mpr ?_
        refine (hSpan u v hu hv).mpr ?_
        refine (hFspan u v hu hv).mp ?_
        refine (hF2span u v).mp ?_
        exact (conexo_perm_membro (fun a => List.mem_reverse)).mp hc
    have hlen : (((g.coletaArestas.mergeSort (fun a b => a.peso ≤ b.peso)).foldl
        kruskalPasso (DisjointSet.nova g.numVertices, [], 0)).2.1).length =
        (F.mergeSort (fun a b => a.peso ≤ b.peso)).length := by
      rw [List.length_reverse] at hcT hcF
      omega
    have hdom := kruskal_dominancia hKP.ordenado (arestas_ordenadas F) hKP.floresta
      hFfor2 hTr hFr2 hlen hF2Es hKP.rejeitadas
    have hsum : ((F.mergeSort (fun a b => a.peso ≤ b.peso)).map Aresta.peso).sum =
        (F.map Aresta.peso).sum := (hFp.map Aresta.peso).sum_eq
    rw [hsum] at hdom
    exact hdom
  · exact hKP.custo_eq.symm


/-! ### Claim C2: the Prim loop invariant -/

/-- The undirected edge recorded by `pai[v]`/`chave[v]`, in the
`origem < destino` normal form of `coletaArestas`. -/
def arestaPai (st : PrimEstado) (v : Nat) : Aresta :=
  if (st.pai.getD v (-1)).toNat < v then
    ⟨(st.pai.getD v (-1)).toNat, v, st.chave.getD v INFINITO⟩
  else ⟨v, (st.pai.getD v (-1)).toNat, st.chave.getD v INFINITO⟩

theorem arestaPai_peso (st : PrimEstado) (v : Nat) :
    (arestaPai st v).peso = st.chave.getD v INFINITO := by
  rw [arestaPai]
  split <;> rfl

theorem arestaPai_extremos (st : PrimEstado) (v : Nat) :
    ((arestaPai st v).verticeOrigem = (st.pai.getD v (-1)).toNat ∧
      (arestaPai st v).verticeDestino = v) ∨
    ((arestaPai st v).verticeOrigem = v ∧
      (arestaPai st v).verticeDestino = (st.pai.getD v (-1)).toNat) := by
  rw [arestaPai]
  split
  · exact Or.inl ⟨rfl, rfl⟩
  · exact Or.inr ⟨rfl, rfl⟩

/-- `arestaPai` only looks at the `pai` and `chave` entries of `v`. -/
theorem arestaPai_congr {st st2 : PrimEstado} {v : Nat}
    (hp : st2.pai.getD v (-1) = st.pai.getD v (-1))
    (hc : st2.chave.getD v INFINITO = st.chave.getD v INFINITO) :
    arestaPai st2 v = arestaPai st v := by
  rw [arestaPai, arestaPai, hp, hc]

/-- Everything the growth loop of `algoritmoPrim` maintains. -/
structure InvPrim (g : Grafo) (st : PrimEstado) : Prop where
  clen : st.chave.length = g.numVertices
  vlen : st.naArvore.length = g.numVertices
  plen : st.pai.length = g.numVertices
  marcado1 : st.naArvore.getD 1 false = true
  pai1 : st.pai.getD 1 (-1) = -1
  paifatos : ∀ v, v < g.numVertices → st.pai.getD v (-1) ≠ -1 →
    ∃ u : Nat, st.pai.getD v (-1) = (u : Int) ∧ u < g.numVertices ∧
      st.naArvore.getD u false = true ∧
      (⟨v, st.chave.getD v INFINITO⟩ : ElemLista) ∈ g.adj u
  paichave : ∀ v, v < g.numVertices → v ≠ 1 →
    (st.pai.getD v (-1) ≠ -1 ↔ st.chave.getD v INFINITO < INFINITO)
  relaxado : ∀ u, st.naArvore.getD u false = true → ∀ e ∈ g.adj u,
    st.naArvore.getD e.verticeAdjacente false = false →
    st.chave.getD e.verticeAdjacente INFINITO ≤ e.peso
  marcadopai : ∀ v, v < g.numVertices → st.naArvore.getD v false = true → v ≠ 1 →
    st.pai.getD v (-1) ≠ -1
  distintos : ∀ v w : Nat, st.naArvore.getD v false = true →
    ¬(st.pai.getD v (-1) = (w : Int) ∧ st.pai.getD w (-1) = (v : Int))
  otimo : ∃ M : List Aresta, (∀ f ∈ M, f ∈ g.coletaArestas) ∧ FlorestaL M ∧
    (∀ x y, x < g.numVertices → y < g.numVertices →
      (Conexo M x y ↔ ConexoAdj g x y)) ∧
    (∀ F : List Aresta, (∀ f ∈ F, f ∈ g.coletaArestas) → FlorestaL F →
      (∀ x y, x < g.numVertices → y < g.numVertices →
        (Conexo F x y ↔ ConexoAdj g x y)) →
      (M.map Aresta.peso).sum ≤ (F.map Aresta.peso).sum) ∧
    (M.map Aresta.peso).sum = (g.algoritmoKruskal).2 ∧
    (∀ v, v < g.numVertices → st.naArvore.getD v false = true → v ≠ 1 →
      arestaPai st v ∈ M)

/-- One probe of the neighbour loop of `algoritmoPrim`. -/
def primAjuste (u : Nat) (st : PrimEstado) (e : ElemLista) : PrimEstado :=
  if !(st.naArvore.getD e.verticeAdjacente false) ∧
      e.peso < st.chave.getD e.verticeAdjacente INFINITO then
    { st with pai := st.pai.set e.verticeAdjacente ((u : Int)),
              chave := st.chave.set e.verticeAdjacente e.peso }
  else st

theorem primRelaxa_eq (g : Grafo) (u : Nat) (st : PrimEstado) :
    primRelaxa g u st = (g.adj u).foldl (primAjuste u) st := rfl

/-- What the neighbour fold does: the tree set is untouched, keys only
shrink, and an entry changes exactly to a listed edge into an out-of-tree
vertex whose parent becomes `u`; every listed edge into an out-of-tree
vertex ends up relaxed. -/
theorem primFold_fatos (u : Nat) :
    ∀ (l : List ElemLista) (st : PrimEstado),
      (∀ e ∈ l, e.verticeAdjacente < st.chave.length) →
      (∀ e ∈ l, e.verticeAdjacente < st.pai.length) →
      ((l.foldl (primAjuste u) st).naArvore = st.naArvore ∧
       (l.foldl (primAjuste u) st).chave.length = st.chave.length ∧
       (l.foldl (primAjuste u) st).pai.length = st.pai.length) ∧
      (∀ v : Nat,
        ((l.foldl (primAjuste u) st).chave.getD v INFINITO =
          st.chave.getD v INFINITO ∧
         (l.foldl (primAjuste u) st).pai.getD v (-1) = st.pai.getD v (-1)) ∨
        (st.naArvore.getD v false = false ∧
         (l.foldl (primAjuste u) st).pai.getD v (-1) = (u : Int) ∧
         (∃ e ∈ l, e.verticeAdjacente = v ∧
           (l.foldl (primAjuste u) st).chave.getD v INFINITO = e.peso) ∧
         (l.foldl (primAjuste u) st).chave.getD v INFINITO <
           st.chave.getD v INFINITO)) ∧
      (∀ e ∈ l, st.naArvore.getD e.verticeAdjacente false = false →
        (l.foldl (primAjuste u) st).chave.getD e.verticeAdjacente INFINITO ≤
          e.peso) := by
  intro l
  induction l with
  | nil =>
    intro st _ _
    refine ⟨⟨rfl, rfl, rfl⟩, fun v => Or.inl ⟨rfl, rfl⟩, fun e he => absurd he
      (List.not_mem_nil e)⟩
  | cons e l ih =>
    intro st hcl hpl
    rw [List.foldl_cons]
    by_cases hcond : (!(st.naArvore.getD e.verticeAdjacente false)) = true ∧
        e.peso < st.chave.getD e.verticeAdjacente INFINITO
    · have hstep : primAjuste u st e = { st with pai := st.pai.set e.verticeAdjacente ((u : Int)), chave := st.chave.set e.verticeAdjacente e.peso } := by
        rw [primAjuste, if_pos hcond]
      rw [hstep]
      set st2 : PrimEstado := { st with pai := st.pai.set e.verticeAdjacente ((u : Int)), chave := st.chave.set e.verticeAdjacente e.peso } with hst2
      have hprojA : st2.naArvore = st.naArvore := by rw [hst2]
      have hprojC : st2.chave = st.chave.set e.verticeAdjacente e.peso := by rw [hst2]
      have hprojP : st2.pai = st.pai.set e.verticeAdjacente ((u : Int)) := by rw [hst2]
      have hmarc : st.naArvore.getD e.verticeAdjacente false = false := by
        have := hcond.1
        cases hx : st.naArvore.getD e.verticeAdjacente false
        · rfl
        · rw [hx] at this
          simp at this
      have hev : e.verticeAdjacente < st.chave.length := hcl e (List.mem_cons_self e l)
      have hep : e.verticeAdjacente < st.pai.length := hpl e (List.mem_cons_self e l)
      have hcl2 : ∀ e2 ∈ l, e2.verticeAdjacente < st2.chave.length := by
        intro e2 he2
        rw [hprojC, List.length_set]
        exact hcl e2 (List.mem_cons_of_mem _ he2)
      have hpl2 : ∀ e2 ∈ l, e2.verticeAdjacente < st2.pai.length := by
        intro e2 he2
        rw [hprojP, List.length_set]
        exact hpl e2 (List.mem_cons_of_mem _ he2)
      obtain ⟨⟨hA, hCl, hPl⟩, hdisj, hbound⟩ := ih st2 hcl2 hpl2
      have hchse : st2.chave.getD e.verticeAdjacente INFINITO = e.peso := by
        rw [hprojC]
        exact getD_set_self st.chave e.verticeAdjacente e.peso INFINITO hev
      have hpase : st2.pai.getD e.verticeAdjacente (-1) = (u : Int) := by
        rw [hprojP]
        exact getD_set_self st.pai e.verticeAdjacente ((u : Int)) (-1) hep
      have hchne : ∀ v, v ≠ e.verticeAdjacente →
          st2.chave.getD v INFINITO = st.chave.getD v INFINITO := by
        intro v hv
        rw [hprojC]
        exact getD_set_ne st.chave e.verticeAdjacente v e.peso INFINITO hv
      have hpane : ∀ v, v ≠ e.verticeAdjacente →
          st2.pai.getD v (-1) = st.pai.getD v (-1) := by
        intro v hv
        rw [hprojP]
        exact getD_set_ne st.pai e.verticeAdjacente v ((u : Int)) (-1) hv
      refine ⟨⟨by rw [hA, hprojA], by rw [hCl, hprojC, List.length_set],
        by rw [hPl, hprojP, List.length_set]⟩, ?_, ?_⟩
      · intro v
        rcases hdisj v with ⟨h1, h2⟩ | ⟨hnA, hpai, ⟨e2, he2, hveq, hchv⟩, hlt⟩
        · by_cases hv : v = e.verticeAdjacente
          · subst hv
            refine Or.inr ⟨hmarc, ?_, ⟨e, List.mem_cons_self e l, rfl, ?_⟩, ?_⟩
            · rw [h2]
              exact hpase
            · rw [h1]
              exact hchse
            · rw [h1, hchse]
              exact hcond.2
          · rw [h1, h2, hchne v hv, hpane v hv]
            exact Or.inl ⟨rfl, rfl⟩
        · rw [hprojA] at hnA
          refine Or.inr ⟨hnA, hpai, ⟨e2, List.mem_cons_of_mem _ he2, hveq, hchv⟩, ?_⟩
          by_cases hv : v = e.verticeAdjacente
          · subst hv
            rw [hchse] at hlt
            omega
          · rw [hchne v hv] at hlt
            exact hlt
      · intro e2 he2 hum
        have hmono : ∀ w : Nat, (l.foldl (primAjuste u) st2).chave.getD w INFINITO ≤
            st2.chave.getD w INFINITO := by
          intro w
          rcases hdisj w with ⟨h1, _⟩ | ⟨_, _, _, hlt⟩
          · rw [h1]
          · exact le_of_lt hlt
        rcases List.mem_cons.mp he2 with heq | he3
        · rw [heq]
          have := hmono e.verticeAdjacente
          rw [hchse] at this
          exact this
        · rw [hprojA] at hbound
          exact hbound e2 he3 hum
    · have hstep : primAjuste u st e = st := by
        rw [primAjuste, if_neg hcond]
      rw [hstep]
      obtain ⟨hlens, hdisj, hbound⟩ := ih st
        (fun e2 he2 => hcl e2 (List.mem_cons_of_mem _ he2))
        (fun e2 he2 => hpl e2 (List.mem_cons_of_mem _ he2))
      refine ⟨hlens, ?_, ?_⟩
      · intro v
        rcases hdisj v with h | ⟨h1, h2, ⟨e2, he2, hv2, hc2⟩, h4⟩
        · exact Or.inl h
        · exact Or.inr ⟨h1, h2, ⟨e2, List.mem_cons_of_mem _ he2, hv2, hc2⟩, h4⟩
      intro e2 he2 hum
      rcases List.mem_cons.mp he2 with heq | he3
      · have hnlt : ¬ e.peso < st.chave.getD e.verticeAdjacente INFINITO := by
          intro hlt
          apply hcond
          refine ⟨?_, hlt⟩
          rw [heq] at hum
          rw [hum]
          rfl
        have hmono : (l.foldl (primAjuste u) st).chave.getD e.verticeAdjacente
            INFINITO ≤ st.chave.getD e.verticeAdjacente INFINITO := by
          rcases hdisj e.verticeAdjacente with ⟨h1, _⟩ | ⟨_, _, _, hlt⟩
          · rw [h1]
          · exact le_of_lt hlt
        rw [heq]
        omega
      · exact hbound e2 he3 hum

/-- One growth round of `algoritmoPrim`: selecting the minimum-key outside
vertex, marking it and relaxing its neighbours preserves the invariant and
grows the tree by one vertex. -/
theorem primPasso_inv {g : Grafo} (hsim : InvarianteSimetria g)
    (hnn : PesosNaoNegativos g) (hstr : PesosEstritos g) {st : PrimEstado} {u : Nat}
    (hinv : InvPrim g st)
    (hsel : (selecionaMinimo st.chave st.naArvore g.numVertices).1 = some u) :
    InvPrim g (primRelaxa g u { st with naArvore := st.naArvore.set u true }) ∧
    (primRelaxa g u { st with naArvore := st.naArvore.set u true }).naArvore.count true
      = st.naArvore.count true + 1 := by
  have hspec := selecionaMinimo_spec st.chave st.naArvore g.numVertices
  obtain ⟨hun, humk, hchu_eq, hsel_lt⟩ := hspec.2.2.1 u hsel
  have hchu_lt : st.chave.getD u INFINITO < INFINITO := by rw [hchu_eq]; exact hsel_lt
  have hne1 : u ≠ 1 := by
    intro h
    rw [h, hinv.marcado1] at humk
    cases humk
  have hpau : st.pai.getD u (-1) ≠ -1 := (hinv.paichave u hun hne1).mpr hchu_lt
  obtain ⟨p, hpval, hpn, hpmk, hpent⟩ := hinv.paifatos u hun hpau
  have hpu : p ≠ u := by
    intro h
    rw [h, humk] at hpmk
    cases hpmk
  have hrelq := primRelaxa_eq g u { st with naArvore := st.naArvore.set u true }
  rw [hrelq]
  have hcl0 : ∀ e ∈ g.adj u, e.verticeAdjacente <
      ({ st with naArvore := st.naArvore.set u true } : PrimEstado).chave.length := by
    intro e he
    show e.verticeAdjacente < st.chave.length
    rw [hinv.clen]
    exact hsim.limites u e he
  have hpl0 : ∀ e ∈ g.adj u, e.verticeAdjacente <
      ({ st with naArvore := st.naArvore.set u true } : PrimEstado).pai.length := by
    intro e he
    show e.verticeAdjacente < st.pai.length
    rw [hinv.plen]
    exact hsim.limites u e he
  obtain ⟨⟨hA, hCl, hPl⟩, hdisj, hbound⟩ :=
    primFold_fatos u (g.adj u) { st with naArvore := st.naArvore.set u true } hcl0 hpl0
  have hredc : ({ st with naArvore := st.naArvore.set u true } : PrimEstado).chave
      = st.chave := rfl
  have hredp : ({ st with naArvore := st.naArvore.set u true } : PrimEstado).pai
      = st.pai := rfl
  have hredv : ({ st with naArvore := st.naArvore.set u true } : PrimEstado).naArvore
      = st.naArvore.set u true := rfl
  rw [hredc] at hCl
  rw [hredp] at hPl
  rw [hredv] at hA
  rw [hredc, hredp, hredv] at hdisj
  rw [hredc, hredv] at hbound
  have hvlen : u < st.naArvore.length := by
    rw [hinv.vlen]
    exact hun
  have hmku : (List.foldl (primAjuste u) { st with naArvore := st.naArvore.set u true }
      (g.adj u)).naArvore.getD u false = true := by
    rw [hA]
    exact getD_set_self st.naArvore u true false hvlen
  have hmkv : ∀ v, v ≠ u →
      (List.foldl (primAjuste u) { st with naArvore := st.naArvore.set u true }
        (g.adj u)).naArvore.getD v false = st.naArvore.getD v false := by
    intro v hv
    rw [hA]
    exact getD_set_ne st.naArvore u v true false hv
  have hsetv : ∀ v, st.naArvore.getD v false = true →
      (st.naArvore.set u true).getD v false = true := by
    intro v hv
    have hvu : v ≠ u := by
      intro h
      rw [h, humk] at hv
      cases hv
    rw [getD_set_ne st.naArvore u v true false hvu]
    exact hv
  have hfroz : ∀ v, (st.naArvore.getD v false = true ∨ v = u) →
      (List.foldl (primAjuste u) { st with naArvore := st.naArvore.set u true }
        (g.adj u)).chave.getD v INFINITO = st.chave.getD v INFINITO ∧
      (List.foldl (primAjuste u) { st with naArvore := st.naArvore.set u true }
        (g.adj u)).pai.getD v (-1) = st.pai.getD v (-1) := by
    intro v hv
    rcases hdisj v with ⟨h1, h2⟩ | ⟨hnA, _, _, _⟩
    · exact ⟨h1, h2⟩
    · exfalso
      rcases hv with hv | hv
      · rw [hsetv v hv] at hnA
        cases hnA
      · rw [hv, getD_set_self st.naArvore u true false hvlen] at hnA
        cases hnA
  have hmono : ∀ w, (List.foldl (primAjuste u)
      { st with naArvore := st.naArvore.set u true } (g.adj u)).chave.getD w INFINITO
      ≤ st.chave.getD w INFINITO := by
    intro w
    rcases hdisj w with ⟨h1, _⟩ | ⟨_, _, _, hlt⟩
    · rw [h1]
    · exact le_of_lt hlt
  have htoNat : (st.pai.getD u (-1)).toNat = p := by
    rw [hpval]
    exact Int.toNat_ofNat p
  have humkb : ¬ st.naArvore.getD u false = true := by
    rw [humk]
    simp
  have hEuCol : arestaPai st u ∈ g.coletaArestas := by
    rw [arestaPai, htoNat]
    by_cases hplt : p < u
    · rw [if_pos hplt]
      exact (coletaArestas_mem hsim.direcao hsim.comprimento ⟨p, u,
        st.chave.getD u INFINITO⟩).mpr ⟨hplt, hpent⟩
    · rw [if_neg hplt]
      have hup : u < p := by omega
      refine (coletaArestas_mem hsim.direcao hsim.comprimento ⟨u, p,
        st.chave.getD u INFINITO⟩).mpr ⟨hup, ?_⟩
      exact (hsim.simetrica p u (st.chave.getD u INFINITO)).mp hpent
  have hcross : ((fun w => st.naArvore.getD w false = true)
        (arestaPai st u).verticeOrigem ∧
      ¬ (fun w => st.naArvore.getD w false = true) (arestaPai st u).verticeDestino) ∨
      ((fun w => st.naArvore.getD w false = true) (arestaPai st u).verticeDestino ∧
      ¬ (fun w => st.naArvore.getD w false = true) (arestaPai st u).verticeOrigem) := by
    rw [arestaPai, htoNat]
    by_cases hplt : p < u
    · rw [if_pos hplt]
      exact Or.inl ⟨hpmk, humkb⟩
    · rw [if_neg hplt]
      exact Or.inr ⟨hpmk, humkb⟩
  obtain ⟨M0, hMsub, hMfl, hMiff, hMmin, hMsum, hMfroz⟩ := hinv.otimo
  have hMnd : (M0.map
      (fun a => (a.verticeOrigem, a.verticeDestino))).Nodup := florestaL_pares hMfl
  have hMvnd : M0.Nodup := List.Nodup.of_map _ hMnd
  have hMadj : ConexoAdj g p u := ConexoAdj.avante (ConexoAdj.refl p) hpent
  have hMc : Conexo M0 (arestaPai st u).verticeOrigem
      (arestaPai st u).verticeDestino := by
    rw [arestaPai, htoNat]
    by_cases hplt : p < u
    · rw [if_pos hplt]
      exact (hMiff p u hpn hun).mpr hMadj
    · rw [if_neg hplt]
      exact (hMiff u p hun hpn).mpr (conexoAdj_symm hMadj)
  have hfrozedge : ∀ v, v < g.numVertices → st.naArvore.getD v false = true →
      v ≠ 1 → st.naArvore.getD (arestaPai st v).verticeOrigem false = true ∧
        st.naArvore.getD (arestaPai st v).verticeDestino false = true := by
    intro v hv hvmk hv1
    have hpav : st.pai.getD v (-1) ≠ -1 := hinv.marcadopai v hv hvmk hv1
    obtain ⟨q, hqval, hqn, hqmk, _⟩ := hinv.paifatos v hv hpav
    have htq : (st.pai.getD v (-1)).toNat = q := by
      rw [hqval]
      exact Int.toNat_ofNat q
    rw [arestaPai, htq]
    by_cases hqlt : q < v
    · rw [if_pos hqlt]
      exact ⟨hqmk, hvmk⟩
    · rw [if_neg hqlt]
      exact ⟨hvmk, hqmk⟩
  have hotimo : ∃ M : List Aresta, (∀ f ∈ M, f ∈ g.coletaArestas) ∧ FlorestaL M ∧
      (∀ x y, x < g.numVertices → y < g.numVertices →
        (Conexo M x y ↔ ConexoAdj g x y)) ∧
      (∀ F : List Aresta, (∀ f ∈ F, f ∈ g.coletaArestas) → FlorestaL F →
        (∀ x y, x < g.numVertices → y < g.numVertices →
          (Conexo F x y ↔ ConexoAdj g x y)) →
        (M.map Aresta.peso).sum ≤ (F.map Aresta.peso).sum) ∧
      (M.map Aresta.peso).sum = (g.algoritmoKruskal).2 ∧
      (∀ v, v < g.numVertices → st.naArvore.getD v false = true → v ≠ 1 →
        arestaPai st v ∈ M) ∧ arestaPai st u ∈ M := by
    by_cases heM : arestaPai st u ∈ M0
    · exact ⟨M0, hMsub, hMfl, hMiff, hMmin, hMsum, hMfroz, heM⟩
    · obtain ⟨f, hfM, hfcross, hfl2, hiff2, hsum2⟩ :=
        troca_em hMfl (fun w => st.naArvore.getD w false = true) hcross hMc
      have hfcol := hMsub f hfM
      have hfint := coletaArestas_intervalo ⟨hsim.comprimento, hsim.limites⟩ f hfcol
      have hfadj := (coletaArestas_mem hsim.direcao hsim.comprimento f).mp hfcol
      have hwf : st.chave.getD u INFINITO ≤ f.peso := by
        rcases hfcross with ⟨hfo, hfd⟩ | ⟨hfd, hfo⟩
        · have hfdum : st.naArvore.getD f.verticeDestino false = false := by
            cases hx : st.naArvore.getD f.verticeDestino false
            · rfl
            · exact absurd hx hfd
          have hrel := hinv.relaxado f.verticeOrigem hfo _ hfadj.2 hfdum
          have hrel2 : st.chave.getD f.verticeDestino INFINITO ≤ f.peso := hrel
          have hsel2 := hspec.2.1 f.verticeDestino hfint.2 hfdum
          rw [← hchu_eq] at hsel2
          omega
        · have hfoum : st.naArvore.getD f.verticeOrigem false = false := by
            cases hx : st.naArvore.getD f.verticeOrigem false
            · rfl
            · exact absurd hx hfo
          have hent2 : (⟨f.verticeOrigem, f.peso⟩ : ElemLista) ∈ g.adj f.verticeDestino :=
            (hsim.simetrica f.verticeOrigem f.verticeDestino f.peso).mp hfadj.2
          have hrel := hinv.relaxado f.verticeDestino hfd _ hent2 hfoum
          have hrel2 : st.chave.getD f.verticeOrigem INFINITO ≤ f.peso := hrel
          have hsel2 := hspec.2.1 f.verticeOrigem hfint.1 hfoum
          rw [← hchu_eq] at hsel2
          omega
      have hsub2 : ∀ x ∈ arestaPai st u :: M0.erase f,
          x ∈ g.coletaArestas := by
        intro x hx
        rcases List.mem_cons.mp hx with heq | hx2
        · rw [heq]
          exact hEuCol
        · exact hMsub x (List.mem_of_mem_erase hx2)
      have hiff3 : ∀ x y, x < g.numVertices → y < g.numVertices →
          (Conexo (arestaPai st u :: M0.erase f) x y ↔
            ConexoAdj g x y) := by
        intro x y hx hy
        rw [hiff2 x y]
        exact hMiff x y hx hy
      have hpeu : (arestaPai st u).peso = st.chave.getD u INFINITO :=
        arestaPai_peso st u
      have hsum3 : (((arestaPai st u :: M0.erase f).map
          Aresta.peso).sum) ≤ (M0.map Aresta.peso).sum := by
        rw [hpeu] at hsum2
        omega
      have hmin3 : ∀ F : List Aresta, (∀ h ∈ F, h ∈ g.coletaArestas) → FlorestaL F →
          (∀ x y, x < g.numVertices → y < g.numVertices →
            (Conexo F x y ↔ ConexoAdj g x y)) →
          (((arestaPai st u :: M0.erase f).map Aresta.peso).sum) ≤
            (F.map Aresta.peso).sum := by
        intro F h1 h2 h3
        exact le_trans hsum3 (hMmin F h1 h2 h3)
      have hsum4 : (((arestaPai st u :: M0.erase f).map
          Aresta.peso).sum) = (g.algoritmoKruskal).2 := by
        have hback := hMmin (arestaPai st u :: M0.erase f)
          hsub2 hfl2 hiff3
        omega
      refine ⟨arestaPai st u :: M0.erase f, hsub2, hfl2, hiff3,
        hmin3, hsum4, ?_, List.mem_cons_self _ _⟩
      intro v hv hvmk hv1
      have hold := hMfroz v hv hvmk hv1
      have hne : arestaPai st v ≠ f := by
        intro heq
        have hboth := hfrozedge v hv hvmk hv1
        rw [heq] at hboth
        rcases hfcross with ⟨_, hfd⟩ | ⟨_, hfo⟩
        · exact hfd hboth.2
        · exact hfo hboth.1
      exact List.mem_cons_of_mem _
        ((List.Nodup.mem_erase_iff hMvnd).mpr ⟨hne, hold⟩)
  obtain ⟨M, hM1, hM2, hM3, hM4, hM5, hM6, hM7⟩ := hotimo
  refine ⟨?_, ?_⟩
  · refine ⟨?_, ?_, ?_, ?_, ?_, ?_, ?_, ?_, ?_, ?_, ?_⟩
    · rw [hCl, hinv.clen]
    · rw [hA, List.length_set, hinv.vlen]
    · rw [hPl, hinv.plen]
    · rw [hmkv 1 (Ne.symm hne1)]
      exact hinv.marcado1
    · rw [(hfroz 1 (Or.inl hinv.marcado1)).2]
      exact hinv.pai1
    · intro v hv hpv
      rcases hdisj v with ⟨h1, h2⟩ | ⟨hnA, hpai, ⟨e, he, hveq, hchv⟩, _⟩
      · rw [h2] at hpv
        obtain ⟨w, hw1, hw2, hw3, hw4⟩ := hinv.paifatos v hv hpv
        have hwu : w ≠ u := by
          intro h
          rw [h, humk] at hw3
          cases hw3
        refine ⟨w, by rw [h2]; exact hw1, hw2, ?_, ?_⟩
        · rw [hmkv w hwu]
          exact hw3
        · rw [h1]
          exact hw4
      · refine ⟨u, hpai, hun, hmku, ?_⟩
        rw [hchv, ← hveq]
        exact he
    · intro v hv hv1
      rcases hdisj v with ⟨h1, h2⟩ | ⟨hnA, hpai, ⟨e, he, hveq, hchv⟩, _⟩
      · rw [h1, h2]
        exact hinv.paichave v hv hv1
      · rw [hpai, hchv]
        constructor
        · intro _
          exact hstr u e he
        · intro _
          omega
    · intro x hx e he ht
      by_cases hxu : x = u
      · have hux : u = x := hxu.symm
        subst hux
        have ht0 : (st.naArvore.set u true).getD e.verticeAdjacente false = false := by
          have htu : e.verticeAdjacente ≠ u := by
            intro h
            rw [h, hmku] at ht
            cases ht
          rw [getD_set_ne st.naArvore u e.verticeAdjacente true false htu]
          rw [← hmkv e.verticeAdjacente htu]
          exact ht
        exact hbound e he ht0
      · have hxmk : st.naArvore.getD x false = true := by
          rw [← hmkv x hxu]
          exact hx
        have htu : e.verticeAdjacente ≠ u := by
          intro h
          rw [h, hmku] at ht
          cases ht
        have htum : st.naArvore.getD e.verticeAdjacente false = false := by
          rw [← hmkv e.verticeAdjacente htu]
          exact ht
        have hold := hinv.relaxado x hxmk e he htum
        have := hmono e.verticeAdjacente
        omega
    · intro v hv hvmk hv1
      by_cases hvu : v = u
      · subst hvu
        rw [(hfroz v (Or.inr rfl)).2]
        exact hpau
      · rw [(hfroz v (Or.inl (by rw [← hmkv v hvu]; exact hvmk))).2]
        exact hinv.marcadopai v hv (by rw [← hmkv v hvu]; exact hvmk) hv1
    · intro v w hvmk hpar
      by_cases hvu : v = u
      · rw [hvu] at hpar
        rw [(hfroz u (Or.inr rfl)).2, hpval] at hpar
        have hwp : w = p := by
          have h := hpar.1
          omega
        rw [hwp] at hpar
        rw [(hfroz p (Or.inl hpmk)).2] at hpar
        by_cases hp1 : p = 1
        · rw [hp1, hinv.pai1] at hpar
          have h := hpar.2
          omega
        · have hpne : st.pai.getD p (-1) ≠ -1 := by
            rw [hpar.2]
            omega
          obtain ⟨q, hq1, _, hq3, _⟩ := hinv.paifatos p hpn hpne
          rw [hq1] at hpar
          have hqu : q = u := by
            have h := hpar.2
            omega
          rw [hqu, humk] at hq3
          cases hq3
      · have hvmk0 : st.naArvore.getD v false = true := by
          rw [← hmkv v hvu]
          exact hvmk
        rw [(hfroz v (Or.inl hvmk0)).2] at hpar
        rcases hdisj w with ⟨h1, h2⟩ | ⟨hnA, hpai, _, _⟩
        · rw [h2] at hpar
          exact hinv.distintos v w hvmk0 hpar
        · rw [hpai] at hpar
          have hvu2 : v = u := by
            have := hpar.2
            omega
          exact hvu hvu2
    · refine ⟨M, hM1, hM2, hM3, hM4, hM5, ?_⟩
      intro v hv hvmk hv1
      by_cases hvu : v = u
      · subst hvu
        rw [arestaPai_congr (hfroz v (Or.inr rfl)).2 (hfroz v (Or.inr rfl)).1]
        exact hM7
      · have hvmk0 : st.naArvore.getD v false = true := by
          rw [← hmkv v hvu]
          exact hvmk
        rw [arestaPai_congr (hfroz v (Or.inl hvmk0)).2 (hfroz v (Or.inl hvmk0)).1]
        exact hM6 v hv hvmk0 hv1
  · rw [hA]
    exact count_true_set hvlen humk

/-- A constant-`false` array has no `true` entries. -/
theorem count_true_replicate : ∀ n : Nat, (List.replicate n false).count true = 0 := by
  intro n
  induction n with
  | zero => rfl
  | succ n ih =>
    rw [List.replicate_succ, List.count_cons, ih]
    rfl

/-- The state `algoritmoPrim` builds before its growth loop: every key at the
sentinel except vertex `1` at `0`, nothing in the tree, no parents. -/
def primInicial (g : Grafo) : PrimEstado :=
  { chave := (List.replicate g.numVertices INFINITO).set 1 0, naArvore := List.replicate g.numVertices false, pai := List.replicate g.numVertices (-1) }

/-- The state after the first round has admitted vertex `1`. -/
def primBase (g : Grafo) : PrimEstado :=
  { chave := (List.replicate g.numVertices INFINITO).set 1 0, naArvore := (List.replicate g.numVertices false).set 1 true, pai := List.replicate g.numVertices (-1) }

theorem algoritmoPrim_eq {g : Grafo} (h : ¬ g.numVertices ≤ 1) :
    g.algoritmoPrim =
      some (g.custoPrim (primLoop g (g.numVertices - 1) (primInicial g)).pai) := by
  rw [Grafo.algoritmoPrim, if_neg h]
  rfl

/-- The first selection scan returns the seeded start vertex `1`. -/
theorem primSelecao_inicial {g : Grafo} (h1n : 1 < g.numVertices) :
    (selecionaMinimo (primInicial g).chave (primInicial g).naArvore g.numVertices).1
      = some 1 := by
  have hlenI : (1:Nat) < (List.replicate g.numVertices INFINITO).length := by
    rw [List.length_replicate]
    exact h1n
  have hch1 : (primInicial g).chave.getD 1 INFINITO = 0 :=
    getD_set_self _ 1 0 INFINITO hlenI
  have hv0 : ∀ v, (primInicial g).naArvore.getD v false = false := fun v =>
    getD_replicate g.numVertices v false
  have hspec := selecionaMinimo_spec (primInicial g).chave (primInicial g).naArvore
    g.numVertices
  have hINF : INFINITO = (999999 : Int) := rfl
  cases hsel : (selecionaMinimo (primInicial g).chave (primInicial g).naArvore
      g.numVertices).1 with
  | none =>
    exfalso
    have h := hspec.2.2.2 hsel 1 h1n (hv0 1)
    rw [hch1] at h
    omega
  | some u =>
    obtain ⟨hun, humk, hchu, hlt⟩ := hspec.2.2.1 u hsel
    by_cases hu1 : u = 1
    · rw [hu1]
    · exfalso
      have hchu2 : (primInicial g).chave.getD u INFINITO = INFINITO := by
        have h1 : ((List.replicate g.numVertices INFINITO).set 1 0).getD u INFINITO
            = (List.replicate g.numVertices INFINITO).getD u INFINITO :=
          getD_set_ne _ 1 u 0 INFINITO hu1
        rw [show (primInicial g).chave
            = (List.replicate g.numVertices INFINITO).set 1 0 from rfl, h1]
        exact getD_replicate g.numVertices u INFINITO
      rw [hchu2] at hchu
      rw [← hchu] at hlt
      exact absurd hlt (lt_irrefl _)

/-- The invariant holds after the opening round that admits vertex `1` and
relaxes its neighbours. -/
theorem primIni_inv {g : Grafo} (hsim : InvarianteSimetria g) (hstr : PesosEstritos g)
    (h1n : 1 < g.numVertices) :
    InvPrim g (primRelaxa g 1 (primBase g)) ∧
    (primRelaxa g 1 (primBase g)).naArvore.count true = 1 := by
  have hrelq := primRelaxa_eq g 1 (primBase g)
  rw [hrelq]
  have hlen1 : (1:Nat) < (List.replicate g.numVertices false).length := by
    rw [List.length_replicate]
    exact h1n
  have hlenI : (1:Nat) < (List.replicate g.numVertices INFINITO).length := by
    rw [List.length_replicate]
    exact h1n
  have hch1 : (primBase g).chave.getD 1 INFINITO = 0 :=
    getD_set_self _ 1 0 INFINITO hlenI
  have hch0 : ∀ v, v ≠ 1 → (primBase g).chave.getD v INFINITO = INFINITO := by
    intro v hv
    show ((List.replicate g.numVertices INFINITO).set 1 0).getD v INFINITO = INFINITO
    rw [getD_set_ne _ 1 v 0 INFINITO hv]
    exact getD_replicate g.numVertices v INFINITO
  have hv1 : (primBase g).naArvore.getD 1 false = true :=
    getD_set_self _ 1 true false hlen1
  have hv0 : ∀ v, v ≠ 1 → (primBase g).naArvore.getD v false = false := by
    intro v hv
    show ((List.replicate g.numVertices false).set 1 true).getD v false = false
    rw [getD_set_ne _ 1 v true false hv]
    exact getD_replicate g.numVertices v false
  have hp0 : ∀ v, (primBase g).pai.getD v (-1) = -1 := fun v =>
    getD_replicate g.numVertices v (-1)
  have hcl : (primBase g).chave.length = g.numVertices := by
    show ((List.replicate g.numVertices INFINITO).set 1 0).length = g.numVertices
    rw [List.length_set, List.length_replicate]
  have hvl : (primBase g).naArvore.length = g.numVertices := by
    show ((List.replicate g.numVertices false).set 1 true).length = g.numVertices
    rw [List.length_set, List.length_replicate]
  have hpl : (primBase g).pai.length = g.numVertices := by
    show (List.replicate g.numVertices (-1) : List Int).length = g.numVertices
    rw [List.length_replicate]
  have hcl0 : ∀ e ∈ g.adj 1, e.verticeAdjacente < (primBase g).chave.length := by
    intro e he
    rw [hcl]
    exact hsim.limites 1 e he
  have hpl0 : ∀ e ∈ g.adj 1, e.verticeAdjacente < (primBase g).pai.length := by
    intro e he
    rw [hpl]
    exact hsim.limites 1 e he
  obtain ⟨⟨hA, hCl, hPl⟩, hdisj, hbound⟩ :=
    primFold_fatos 1 (g.adj 1) (primBase g) hcl0 hpl0
  refine ⟨⟨?_, ?_, ?_, ?_, ?_, ?_, ?_, ?_, ?_, ?_, ?_⟩, ?_⟩
  · rw [hCl, hcl]
  · rw [hA, hvl]
  · rw [hPl, hpl]
  · rw [hA]
    exact hv1
  · rcases hdisj 1 with ⟨_, h2⟩ | ⟨hnA, _, _, _⟩
    · rw [h2]
      exact hp0 1
    · rw [hv1] at hnA
      cases hnA
  · intro v hv hpv
    rcases hdisj v with ⟨_, h2⟩ | ⟨hnA, hpai, ⟨e, he, hveq, hchv⟩, _⟩
    · rw [h2, hp0 v] at hpv
      exact absurd rfl hpv
    · refine ⟨1, hpai, h1n, by rw [hA]; exact hv1, ?_⟩
      rw [hchv, ← hveq]
      exact he
  · intro v hv hv1x
    rcases hdisj v with ⟨h1, h2⟩ | ⟨hnA, hpai, ⟨e, he, hveq, hchv⟩, _⟩
    · rw [h1, h2, hp0 v, hch0 v hv1x]
      constructor
      · intro h
        exact absurd rfl h
      · intro h
        exact absurd h (lt_irrefl _)
    · rw [hpai, hchv]
      constructor
      · intro _
        exact hstr 1 e he
      · intro _
        omega
  · intro x hx e he ht
    rw [hA] at hx ht
    by_cases hx1 : x = 1
    · rw [hx1] at he
      exact hbound e he ht
    · rw [hv0 x hx1] at hx
      cases hx
  · intro v hv hvm hv1x
    rw [hA] at hvm
    by_cases hvx : v = 1
    · exact absurd hvx hv1x
    · rw [hv0 v hvx] at hvm
      cases hvm
  · intro v w hvm hpar
    rw [hA] at hvm
    by_cases hvx : v = 1
    · rcases hdisj v with ⟨_, h2⟩ | ⟨hnA, _, _, _⟩
      · rw [h2, hp0 v] at hpar
        have h := hpar.1
        omega
      · rw [hvx, hv1] at hnA
        cases hnA
    · rw [hv0 v hvx] at hvm
      cases hvm
  · obtain ⟨M, hM1, hM2, hM3, hM4, hM5⟩ := kruskal_resumo hsim
    refine ⟨M, hM1, hM2, hM3, hM4, hM5, ?_⟩
    intro v hv hvm hv1x
    rw [hA] at hvm
    by_cases hvx : v = 1
    · exact absurd hvx hv1x
    · rw [hv0 v hvx] at hvm
      cases hvm
  · rw [hA]
    show ((List.replicate g.numVertices false).set 1 true).count true = 1
    rw [count_true_set hlen1 (getD_replicate g.numVertices 1 false)]
    rw [count_true_replicate]

/-- While some vertex is outside the tree, connectivity puts a finite key on
some outside vertex (a boundary edge has been relaxed). -/
theorem prim_fronteira {g : Grafo} (hsim : InvarianteSimetria g)
    (hstr : PesosEstritos g) (hconn : ∀ v, v < g.numVertices → ConexoAdj g 0 v)
    (h1n : 1 < g.numVertices) {st : PrimEstado} (hinv : InvPrim g st)
    {z : Nat} (hz : z < g.numVertices) (hzu : st.naArvore.getD z false = false) :
    ∃ y, y < g.numVertices ∧ st.naArvore.getD y false = false ∧
      st.chave.getD y INFINITO < INFINITO := by
  have hPz : ¬ (st.naArvore.getD z false = true) := by
    rw [hzu]
    simp
  have hc1z : ConexoAdj g 1 z :=
    conexoAdj_trans (conexoAdj_symm (hconn 1 h1n)) (hconn z hz)
  obtain ⟨x, y, w, hPx, hPy, hedge⟩ :=
    conexoAdj_corta (fun v => st.naArvore.getD v false = true) hc1z hinv.marcado1 hPz
  have hyF : st.naArvore.getD y false = false := by
    cases hb : st.naArvore.getD y false
    · rfl
    · exact absurd hb hPy
  have hm2 : (⟨y, w⟩ : ElemLista) ∈ g.adj x := by
    rcases hedge with hm | hm
    · exact hm
    · exact (hsim.simetrica y x w).mp hm
  have hyn : y < g.numVertices := hsim.limites x ⟨y, w⟩ hm2
  have hrel : st.chave.getD y INFINITO ≤ w := hinv.relaxado x hPx ⟨y, w⟩ hm2 hyF
  have hwI : w < INFINITO := hstr x ⟨y, w⟩ hm2
  exact ⟨y, hyn, hyF, by omega⟩

/-- While the tree misses a vertex, the selection scan keeps succeeding. -/
theorem primSelecao_sucede {g : Grafo} (hsim : InvarianteSimetria g)
    (hstr : PesosEstritos g) (hconn : ∀ v, v < g.numVertices → ConexoAdj g 0 v)
    (h1n : 1 < g.numVertices) {st : PrimEstado} (hinv : InvPrim g st)
    (hcnt : st.naArvore.count true < g.numVertices) :
    ∃ u, (selecionaMinimo st.chave st.naArvore g.numVertices).1 = some u := by
  cases hsel : (selecionaMinimo st.chave st.naArvore g.numVertices).1 with
  | some u => exact ⟨u, rfl⟩
  | none =>
    exfalso
    have hcnt2 : st.naArvore.count true < st.naArvore.length := by
      rw [hinv.vlen]
      exact hcnt
    obtain ⟨z, hz, hzf⟩ := existe_falso hcnt2
    have hzn : z < g.numVertices := by
      rw [hinv.vlen] at hz
      exact hz
    obtain ⟨y, hyn, hyf, hylt⟩ := prim_fronteira hsim hstr hconn h1n hinv hzn hzf
    have hnone := (selecionaMinimo_spec st.chave st.naArvore g.numVertices).2.2.2
      hsel y hyn hyf
    omega

/-- Running `k` further growth rounds keeps the invariant and admits exactly
`k` more vertices, as long as `k` vertices are still missing. -/
theorem primLoop_espec {g : Grafo} (hsim : InvarianteSimetria g)
    (hnn : PesosNaoNegativos g) (hstr : PesosEstritos g)
    (hconn : ∀ v, v < g.numVertices → ConexoAdj g 0 v) (h1n : 1 < g.numVertices) :
    ∀ (k : Nat) (st : PrimEstado), InvPrim g st →
      st.naArvore.count true + k ≤ g.numVertices →
      InvPrim g (primLoop g k st) ∧
      (primLoop g k st).naArvore.count true = st.naArvore.count true + k := by
  intro k
  induction k with
  | zero =>
    intro st hinv _
    exact ⟨hinv, rfl⟩
  | succ k ih =>
    intro st hinv hcnt
    have hcl : st.naArvore.count true < g.numVertices := by omega
    obtain ⟨u, hsel⟩ := primSelecao_sucede hsim hstr hconn h1n hinv hcl
    have hstep := primPasso_inv hsim hnn hstr hinv hsel
    have hred : primLoop g (k + 1) st =
        primLoop g k (primRelaxa g u { st with naArvore := st.naArvore.set u true }) := by
      have hm : primLoop g (k + 1) st =
          match (selecionaMinimo st.chave st.naArvore g.numVertices).1 with
          | none => st
          | some u => primLoop g k
              (primRelaxa g u { st with naArvore := st.naArvore.set u true }) := rfl
      rw [hm, hsel]
    rw [hred]
    obtain ⟨h1, h2⟩ := ih _ hstep.1 (by rw [hstep.2]; omega)
    refine ⟨h1, ?_⟩
    rw [h2, hstep.2]
    omega

/-- A left fold whose body only ever adds a per-index amount sums them. -/
theorem foldl_soma {f : Nat → Int} :
    ∀ (l : List Nat) (c : Int) (body : Int → Nat → Int),
      (∀ i ∈ l, ∀ c2 : Int, body c2 i = c2 + f i) →
      l.foldl body c = c + (l.map f).sum := by
  intro l
  induction l with
  | nil =>
    intro c body _
    simp
  | cons a l ih =>
    intro c body h
    rw [List.foldl_cons,
      ih (body c a) body (fun i hi c2 => h i (List.mem_cons_of_mem _ hi) c2),
      h a (List.mem_cons_self a l) c, List.map_cons, List.sum_cons]
    omega

/-- Summing a guarded amount over a list is summing over its filter. -/
theorem soma_filtrada {q : Nat → Prop} [DecidablePred q] {h : Nat → Int} :
    ∀ l : List Nat, (l.map (fun i => if q i then h i else 0)).sum =
      ((l.filter (fun v => decide (q v))).map h).sum := by
  intro l
  induction l with
  | nil => rfl
  | cons a l ih =>
    rw [List.map_cons, List.sum_cons, List.filter_cons]
    by_cases hq : q a
    · rw [if_pos hq, if_pos (by simp [hq])]
      rw [List.map_cons, List.sum_cons, ih]
    · rw [if_neg hq, if_neg (by simp [hq])]
      rw [ih]
      omega

/-- Under the invariant with nonnegative weights, the cost loop of
`algoritmoPrim` adds, for every vertex holding a parent, exactly its stored
key: the forward lookup finds the entry `paifatos` promises, and a
nonnegative weight can never collide with the `-1` not-found sentinel. -/
theorem custoPrim_chaves {g : Grafo} (hsim : InvarianteSimetria g)
    (hnn : PesosNaoNegativos g) {st : PrimEstado} (hinv : InvPrim g st) :
    g.custoPrim st.pai = ((List.range g.numVertices).map
      (fun i => if st.pai.getD i (-1) ≠ -1 then st.chave.getD i INFINITO else 0)).sum := by
  rw [Grafo.custoPrim]
  have h0 : ((List.range g.numVertices).map
      (fun i => if st.pai.getD i (-1) ≠ -1 then st.chave.getD i INFINITO else 0)).sum
      = 0 + ((List.range g.numVertices).map
      (fun i => if st.pai.getD i (-1) ≠ -1 then st.chave.getD i INFINITO else 0)).sum := by
    omega
  rw [h0]
  refine foldl_soma (List.range g.numVertices) 0 _ ?_
  intro i hi c
  have hin : i < g.numVertices := List.mem_range.mp hi
  show (if st.pai.getD i (-1) ≠ -1 then
      (if g.buscaPeso (st.pai.getD i (-1)).toNat i ≠ -1 then
        c + g.buscaPeso (st.pai.getD i (-1)).toNat i
      else if !g.direcionado then
        (if g.buscaPeso i (st.pai.getD i (-1)).toNat ≠ -1 then
          c + g.buscaPeso i (st.pai.getD i (-1)).toNat
        else c)
      else c)
    else c) = c + (if st.pai.getD i (-1) ≠ -1 then st.chave.getD i INFINITO else 0)
  by_cases hpi : st.pai.getD i (-1) ≠ -1
  · obtain ⟨p, hpv, hpn, hpm, hpe⟩ := hinv.paifatos i hin hpi
    have htoNat : (st.pai.getD i (-1)).toNat = p := by
      rw [hpv]
      exact Int.toNat_ofNat p
    have hfind := busca_encontra (hsim.ordenada p) hpe
    have hb : g.buscaPeso (st.pai.getD i (-1)).toNat i = st.chave.getD i INFINITO := by
      rw [Grafo.buscaPeso, htoNat, hfind]
    have hge : (0:Int) ≤ st.chave.getD i INFINITO :=
      hnn p ⟨i, st.chave.getD i INFINITO⟩ hpe
    have hne : st.chave.getD i INFINITO ≠ -1 := by omega
    rw [if_pos hpi, if_pos hpi, hb, if_pos hne]
  · rw [if_neg hpi, if_neg hpi]
    omega

/-- On a symmetric, connected graph with nonnegative sub-sentinel weights and
at least two vertices, Prim prints exactly Kruskal's total: the loop admits
every vertex but one, the cost loop sums one recorded key per non-start
vertex, and a final cut exchange places the last frontier edge into the
minimum forest the invariant carries. -/
theorem prim_total {g : Grafo} (hsim : InvarianteSimetria g)
    (hnn : PesosNaoNegativos g) (hstr : PesosEstritos g)
    (hconn : ∀ v, v < g.numVertices → ConexoAdj g 0 v) (h1n : 1 < g.numVertices) :
    g.algoritmoPrim = some (g.algoritmoKruskal).2 := by
  have hn1 : ¬ g.numVertices ≤ 1 := by omega
  rw [algoritmoPrim_eq hn1]
  have hk : g.numVertices - 1 = (g.numVertices - 2) + 1 := by omega
  have hred : primLoop g (g.numVertices - 1) (primInicial g) =
      primLoop g (g.numVertices - 2) (primRelaxa g 1 (primBase g)) := by
    rw [hk]
    have hm : primLoop g ((g.numVertices - 2) + 1) (primInicial g) =
        match (selecionaMinimo (primInicial g).chave (primInicial g).naArvore
            g.numVertices).1 with
        | none => primInicial g
        | some u => primLoop g (g.numVertices - 2) (primRelaxa g u
            { primInicial g with naArvore := (primInicial g).naArvore.set u true }) := rfl
    rw [hm, primSelecao_inicial h1n]
    rfl
  rw [hred]
  obtain ⟨hinv1, hcnt1⟩ := primIni_inv hsim hstr h1n
  set stF : PrimEstado := primLoop g (g.numVertices - 2) (primRelaxa g 1 (primBase g))
    with hstF
  obtain ⟨hinvF, hcntF⟩ := primLoop_espec hsim hnn hstr hconn h1n (g.numVertices - 2)
    (primRelaxa g 1 (primBase g)) hinv1 (by rw [hcnt1]; omega)
  have hcntn : stF.naArvore.count true = g.numVertices - 1 := by
    rw [hcntF, hcnt1]
    omega
  have hvlen : stF.naArvore.length = g.numVertices := hinvF.vlen
  have hltc : stF.naArvore.count true < stF.naArvore.length := by
    rw [hvlen, hcntn]
    omega
  obtain ⟨z, hzl, hzf⟩ := existe_falso hltc
  have hzn : z < g.numVertices := by
    rw [hvlen] at hzl
    exact hzl
  have huniq : ∀ v, v < g.numVertices → stF.naArvore.getD v false = false → v = z := by
    intro v hv hvf
    by_contra hvz
    have h2 := count_true_dois_falsos (by rw [hvlen]; exact hv) hzl hvz hvf hzf
    rw [hvlen, hcntn] at h2
    omega
  have hz1 : z ≠ 1 := by
    intro h
    rw [h, hinvF.marcado1] at hzf
    cases hzf
  obtain ⟨y, hyn, hyf, hylt0⟩ := prim_fronteira hsim hstr hconn h1n hinvF hzn hzf
  have hyz : y = z := huniq y hyn hyf
  rw [hyz] at hylt0
  have hpz : stF.pai.getD z (-1) ≠ -1 := (hinvF.paichave z hzn hz1).mpr hylt0
  have hpall : ∀ v, v < g.numVertices → v ≠ 1 → stF.pai.getD v (-1) ≠ -1 := by
    intro v hv hv1
    by_cases hvm : stF.naArvore.getD v false = true
    · exact hinvF.marcadopai v hv hvm hv1
    · have hvf : stF.naArvore.getD v false = false := by
        cases hb : stF.naArvore.getD v false
        · rfl
        · exact absurd hb hvm
      rw [huniq v hv hvf]
      exact hpz
  obtain ⟨M0, hMsub, hMfl, hMiff, hMmin, hMsum, hMfroz⟩ := hinvF.otimo
  have hMnd : (M0.map (fun a => (a.verticeOrigem, a.verticeDestino))).Nodup :=
    florestaL_pares hMfl
  have hMvnd : M0.Nodup := List.Nodup.of_map _ hMnd
  obtain ⟨p, hpv, hpn, hpm, hpe⟩ := hinvF.paifatos z hzn hpz
  have htoNz : (stF.pai.getD z (-1)).toNat = p := by
    rw [hpv]
    exact Int.toNat_ofNat p
  have hzCol : arestaPai stF z ∈ g.coletaArestas := by
    rw [arestaPai, htoNz]
    by_cases hplt : p < z
    · rw [if_pos hplt]
      exact (coletaArestas_mem hsim.direcao hsim.comprimento ⟨p, z,
        stF.chave.getD z INFINITO⟩).mpr ⟨hplt, hpe⟩
    · rw [if_neg hplt]
      have hpzq : p ≠ z := by
        intro h
        rw [h, hzf] at hpm
        cases hpm
      have hzp : z < p := by omega
      refine (coletaArestas_mem hsim.direcao hsim.comprimento ⟨z, p,
        stF.chave.getD z INFINITO⟩).mpr ⟨hzp, ?_⟩
      exact (hsim.simetrica p z (stF.chave.getD z INFINITO)).mp hpe
  have hzmkb : ¬ stF.naArvore.getD z false = true := by
    rw [hzf]
    simp
  have hcross : ((fun w => stF.naArvore.getD w false = true)
        (arestaPai stF z).verticeOrigem ∧
      ¬ (fun w => stF.naArvore.getD w false = true) (arestaPai stF z).verticeDestino) ∨
      ((fun w => stF.naArvore.getD w false = true) (arestaPai stF z).verticeDestino ∧
      ¬ (fun w => stF.naArvore.getD w false = true) (arestaPai stF z).verticeOrigem) := by
    rw [arestaPai, htoNz]
    by_cases hplt : p < z
    · rw [if_pos hplt]
      exact Or.inl ⟨hpm, hzmkb⟩
    · rw [if_neg hplt]
      exact Or.inr ⟨hpm, hzmkb⟩
  have hMadjz : ConexoAdj g p z := ConexoAdj.avante (ConexoAdj.refl p) hpe
  have hMcz : Conexo M0 (arestaPai stF z).verticeOrigem
      (arestaPai stF z).verticeDestino := by
    rw [arestaPai, htoNz]
    by_cases hplt : p < z
    · rw [if_pos hplt]
      exact (hMiff p z hpn hzn).mpr hMadjz
    · rw [if_neg hplt]
      exact (hMiff z p hzn hpn).mpr (conexoAdj_symm hMadjz)
  have hfrozedge : ∀ v, v < g.numVertices → stF.naArvore.getD v false = true →
      v ≠ 1 → stF.naArvore.getD (arestaPai stF v).verticeOrigem false = true ∧
        stF.naArvore.getD (arestaPai stF v).verticeDestino false = true := by
    intro v hv hvmk hv1
    have hpav : stF.pai.getD v (-1) ≠ -1 := hinvF.marcadopai v hv hvmk hv1
    obtain ⟨q, hqval, hqn, hqmk, _⟩ := hinvF.paifatos v hv hpav
    have htq : (stF.pai.getD v (-1)).toNat = q := by
      rw [hqval]
      exact Int.toNat_ofNat q
    rw [arestaPai, htq]
    by_cases hqlt : q < v
    · rw [if_pos hqlt]
      exact ⟨hqmk, hvmk⟩
    · rw [if_neg hqlt]
      exact ⟨hvmk, hqmk⟩
  have hotimo : ∃ M : List Aresta, (∀ f ∈ M, f ∈ g.coletaArestas) ∧ FlorestaL M ∧
      (∀ x y, x < g.numVertices → y < g.numVertices →
        (Conexo M x y ↔ ConexoAdj g x y)) ∧
      (M.map Aresta.peso).sum = (g.algoritmoKruskal).2 ∧
      (∀ v, v < g.numVertices → stF.naArvore.getD v false = true → v ≠ 1 →
        arestaPai stF v ∈ M) ∧ arestaPai stF z ∈ M := by
    by_cases heM : arestaPai stF z ∈ M0
    · exact ⟨M0, hMsub, hMfl, hMiff, hMsum, hMfroz, heM⟩
    · obtain ⟨f, hfM, hfcross, hfl2, hiff2, hsum2⟩ :=
        troca_em hMfl (fun w => stF.naArvore.getD w false = true) hcross hMcz
      have hfcol := hMsub f hfM
      have hfint := coletaArestas_intervalo ⟨hsim.comprimento, hsim.limites⟩ f hfcol
      have hfadj := (coletaArestas_mem hsim.direcao hsim.comprimento f).mp hfcol
      have hwf : stF.chave.getD z INFINITO ≤ f.peso := by
        rcases hfcross with ⟨hfo, hfd⟩ | ⟨hfd, hfo⟩
        · have hfdum : stF.naArvore.getD f.verticeDestino false = false := by
            cases hx : stF.naArvore.getD f.verticeDestino false
            · rfl
            · exact absurd hx hfd
          have hdz : f.verticeDestino = z := huniq f.verticeDestino hfint.2 hfdum
          have hrel : stF.chave.getD f.verticeDestino INFINITO ≤ f.peso :=
            hinvF.relaxado f.verticeOrigem hfo ⟨f.verticeDestino, f.peso⟩ hfadj.2 hfdum
          rw [hdz] at hrel
          exact hrel
        · have hfoum : stF.naArvore.getD f.verticeOrigem false = false := by
            cases hx : stF.naArvore.getD f.verticeOrigem false
            · rfl
            · exact absurd hx hfo
          have hoz : f.verticeOrigem = z := huniq f.verticeOrigem hfint.1 hfoum
          have hent2 : (⟨f.verticeOrigem, f.peso⟩ : ElemLista) ∈ g.adj f.verticeDestino :=
            (hsim.simetrica f.verticeOrigem f.verticeDestino f.peso).mp hfadj.2
          have hrel : stF.chave.getD f.verticeOrigem INFINITO ≤ f.peso :=
            hinvF.relaxado f.verticeDestino hfd ⟨f.verticeOrigem, f.peso⟩ hent2 hfoum
          rw [hoz] at hrel
          exact hrel
      have hsub2 : ∀ x ∈ arestaPai stF z :: M0.erase f, x ∈ g.coletaArestas := by
        intro x hx
        rcases List.mem_cons.mp hx with heq | hx2
        · rw [heq]
          exact hzCol
        · exact hMsub x (List.mem_of_mem_erase hx2)
      have hiff3 : ∀ x y, x < g.numVertices → y < g.numVertices →
          (Conexo (arestaPai stF z :: M0.erase f) x y ↔ ConexoAdj g x y) := by
        intro x y hx hy
        rw [hiff2 x y]
        exact hMiff x y hx hy
      have hpeu : (arestaPai stF z).peso = stF.chave.getD z INFINITO :=
        arestaPai_peso stF z
      have hsum3 : (((arestaPai stF z :: M0.erase f).map Aresta.peso).sum)
          ≤ (M0.map Aresta.peso).sum := by
        rw [hpeu] at hsum2
        omega
      have hsum4 : (((arestaPai stF z :: M0.erase f).map Aresta.peso).sum)
          = (g.algoritmoKruskal).2 := by
        have hback := hMmin (arestaPai stF z :: M0.erase f) hsub2 hfl2 hiff3
        omega
      refine ⟨arestaPai stF z :: M0.erase f, hsub2, hfl2, hiff3, hsum4, ?_,
        List.mem_cons_self _ _⟩
      intro v hv hvmk hv1
      have hold := hMfroz v hv hvmk hv1
      have hne : arestaPai stF v ≠ f := by
        intro heq2
        have hboth := hfrozedge v hv hvmk hv1
        rw [heq2] at hboth
        rcases hfcross with ⟨_, hfd⟩ | ⟨_, hfo⟩
        · exact hfd hboth.2
        · exact hfo hboth.1
      exact List.mem_cons_of_mem _
        ((List.Nodup.mem_erase_iff hMvnd).mpr ⟨hne, hold⟩)
  obtain ⟨M, hM1, hM2, hM3, hM5, hM6, hM7⟩ := hotimo
  have hfilter_eq : (List.range g.numVertices).filter
      (fun v => decide (stF.pai.getD v (-1) ≠ -1)) =
      (List.range g.numVertices).filter (fun v => decide (¬ v = 1)) := by
    apply List.filter_congr
    intro v hv
    have hvn := List.mem_range.mp hv
    by_cases hv1 : v = 1
    · rw [hv1]
      have hq1 : stF.pai.getD 1 (-1) = -1 := hinvF.pai1
      rw [hq1]
      simp
    · have h2 := hpall v hvn hv1
      rw [decide_eq_true h2, decide_eq_true hv1]
  have hPnodupbase : ((List.range g.numVertices).filter
      (fun v => decide (stF.pai.getD v (-1) ≠ -1))).Nodup :=
    (List.nodup_range g.numVertices).filter _
  have hPmem : ∀ v ∈ (List.range g.numVertices).filter
      (fun v => decide (stF.pai.getD v (-1) ≠ -1)),
      v < g.numVertices ∧ stF.pai.getD v (-1) ≠ -1 := by
    intro v hv
    rw [List.mem_filter] at hv
    exact ⟨List.mem_range.mp hv.1, of_decide_eq_true hv.2⟩
  have hinj : ∀ v ∈ (List.range g.numVertices).filter
      (fun v => decide (stF.pai.getD v (-1) ≠ -1)),
      ∀ w ∈ (List.range g.numVertices).filter
      (fun v => decide (stF.pai.getD v (-1) ≠ -1)),
      arestaPai stF v = arestaPai stF w → v = w := by
    intro v hvF w hwF heq
    obtain ⟨hvn, hvp⟩ := hPmem v hvF
    obtain ⟨hwn, hwp⟩ := hPmem w hwF
    by_cases hvw : v = w
    · exact hvw
    exfalso
    obtain ⟨pv, hpvv, hpvn, hpvm, hpve⟩ := hinvF.paifatos v hvn hvp
    obtain ⟨pw, hpwv, hpwn, hpwm, hpwe⟩ := hinvF.paifatos w hwn hwp
    have htv : (stF.pai.getD v (-1)).toNat = pv := by
      rw [hpvv]
      exact Int.toNat_ofNat pv
    have htw : (stF.pai.getD w (-1)).toNat = pw := by
      rw [hpwv]
      exact Int.toNat_ofNat pw
    have ho : (arestaPai stF v).verticeOrigem = (arestaPai stF w).verticeOrigem := by
      rw [heq]
    have hd : (arestaPai stF v).verticeDestino = (arestaPai stF w).verticeDestino := by
      rw [heq]
    have hcruz : stF.pai.getD v (-1) = ((w : Nat) : Int) →
        stF.pai.getD w (-1) = ((v : Nat) : Int) → False := by
      intro hpv2 hpw2
      by_cases hvm : stF.naArvore.getD v false = true
      · exact hinvF.distintos v w hvm ⟨hpv2, hpw2⟩
      · by_cases hwm : stF.naArvore.getD w false = true
        · exact hinvF.distintos w v hwm ⟨hpw2, hpv2⟩
        · have hvf2 : stF.naArvore.getD v false = false := by
            cases hb : stF.naArvore.getD v false
            · rfl
            · exact absurd hb hvm
          have hwf2 : stF.naArvore.getD w false = false := by
            cases hb : stF.naArvore.getD w false
            · rfl
            · exact absurd hb hwm
          apply hvw
          rw [huniq v hvn hvf2, huniq w hwn hwf2]
    rcases arestaPai_extremos stF v with ⟨hvo, hvd⟩ | ⟨hvo, hvd⟩
    · rcases arestaPai_extremos stF w with ⟨hwo, hwd⟩ | ⟨hwo, hwd⟩
      · apply hvw
        rw [← hvd, hd, hwd]
      · refine hcruz ?_ ?_
        · rw [hpvv, show pv = w from by rw [← htv, ← hvo, ho, hwo]]
        · rw [hpwv, show pw = v from by rw [← htw, ← hwd, ← hd, hvd]]
    · rcases arestaPai_extremos stF w with ⟨hwo, hwd⟩ | ⟨hwo, hwd⟩
      · refine hcruz ?_ ?_
        · rw [hpvv, show pv = w from by rw [← htv, ← hvd, hd, hwd]]
        · rw [hpwv, show pw = v from by rw [← htw, ← hwo, ← ho]; exact hvo]
      · apply hvw
        rw [← hvo, ho, hwo]
  have hPnd : (((List.range g.numVertices).filter
      (fun v => decide (stF.pai.getD v (-1) ≠ -1))).map (arestaPai stF)).Nodup :=
    List.Nodup.map_on hinj hPnodupbase
  have hPsub : ∀ a ∈ ((List.range g.numVertices).filter
      (fun v => decide (stF.pai.getD v (-1) ≠ -1))).map (arestaPai stF), a ∈ M := by
    intro a ha
    rw [List.mem_map] at ha
    obtain ⟨v, hvF, hva⟩ := ha
    obtain ⟨hvn, hvp⟩ := hPmem v hvF
    have hv1 : v ≠ 1 := by
      intro h
      rw [h, hinvF.pai1] at hvp
      exact hvp rfl
    rw [← hva]
    by_cases hvm : stF.naArvore.getD v false = true
    · exact hM6 v hvn hvm hv1
    · have hvf2 : stF.naArvore.getD v false = false := by
        cases hb : stF.naArvore.getD v false
        · rfl
        · exact absurd hb hvm
      rw [huniq v hvn hvf2]
      exact hM7
  have hlenP : (((List.range g.numVertices).filter
      (fun v => decide (stF.pai.getD v (-1) ≠ -1))).map (arestaPai stF)).length
      = g.numVertices - 1 := by
    rw [List.length_map, hfilter_eq]
    have h2 := @filter_menos_um (fun _ => true) (fun v => decide (¬ v = 1))
      (List.range g.numVertices) (List.nodup_range g.numVertices) 1
      (List.mem_range.mpr h1n) rfl (by simp)
      (fun v _ hv => by simp [hv])
    have h3 : ((List.range g.numVertices).filter (fun _ => true)).length
        = g.numVertices := by
      rw [List.filter_true, List.length_range]
    omega
  have hMr : ArestasNoIntervalo g.numVertices M := fun a ha =>
    coletaArestas_intervalo ⟨hsim.comprimento, hsim.limites⟩ a (hM1 a ha)
  have hMc1 : numComp g.numVertices M = 1 :=
    numComp_conectado (by omega) (fun v hv => (hM3 0 v (by omega) hv).mpr (hconn v hv))
  have hMlen : M.length = g.numVertices - 1 := by
    have h := florestaL_conta hM2 hMr
    omega
  have hsubperm := List.subperm_of_subset hPnd (fun a ha => hPsub a ha)
  have hperm := hsubperm.perm_of_length_le (le_of_eq (by rw [hMlen, hlenP]))
  have hsumPM : ((((List.range g.numVertices).filter
      (fun v => decide (stF.pai.getD v (-1) ≠ -1))).map (arestaPai stF)).map
      Aresta.peso).sum = (M.map Aresta.peso).sum :=
    (hperm.map Aresta.peso).sum_eq
  have hmapP : (((List.range g.numVertices).filter
      (fun v => decide (stF.pai.getD v (-1) ≠ -1))).map (arestaPai stF)).map Aresta.peso
      = ((List.range g.numVertices).filter
      (fun v => decide (stF.pai.getD v (-1) ≠ -1))).map
        (fun v => stF.chave.getD v INFINITO) := by
    rw [List.map_map]
    apply List.map_congr_left
    intro v _
    exact arestaPai_peso stF v
  have hcusto := custoPrim_chaves hsim hnn hinvF
  have hfinal : ((List.range g.numVertices).map
      (fun i => if stF.pai.getD i (-1) ≠ -1 then stF.chave.getD i INFINITO else 0)).sum
      = (g.algoritmoKruskal).2 := by
    rw [soma_filtrada (List.range g.numVertices), ← hmapP, hsumPM, hM5]
  rw [hcusto, hfinal]

/-- Reverse-Delete and Kruskal print the same total: each of the two spanning
forests is admissible for the other's minimality clause. -/
theorem apaga_total {g : Grafo} (hsim : InvarianteSimetria g)
    (hpond : g.ponderado = true) (h1n : 1 < g.numVertices)
    (hconn : ∀ v, v < g.numVertices → ConexoAdj g 0 v) :
    (g.algoritmoApagaReverso).custoTotalArestas = (g.algoritmoKruskal).2 := by
  obtain ⟨-, -, hsub, hspan, hfl, -, hcusto, hmin, hsimF⟩ :=
    apagaReverso_resumo hsim hpond hconn
  obtain ⟨M, hM1, hM2, hM3, hM4, hM5⟩ := kruskal_resumo hsim
  have hSiff : ∀ x y, x < g.numVertices → y < g.numVertices →
      (Conexo (g.algoritmoApagaReverso).coletaArestas x y ↔ ConexoAdj g x y) := by
    intro x y hx hy
    constructor
    · intro h
      exact (conexo_coleta_adj hsim x y).mp (conexo_mono hsub h)
    · intro _
      exact (conexo_coleta_adj hsimF x y).mpr (hspan x y hx hy)
  have hks : (M.map Aresta.peso).sum ≤
      (((g.algoritmoApagaReverso).coletaArestas).map Aresta.peso).sum :=
    hM4 _ hsub hfl hSiff
  have hsk : (((g.algoritmoApagaReverso).coletaArestas).map Aresta.peso).sum ≤
      (M.map Aresta.peso).sum :=
    hmin M hM1 hM2 (fun v hv => (hM3 0 v (by omega) hv).mpr (hconn v hv))
  rw [hcusto]
  omega

/-- C2 (corrected): on an undirected weighted graph satisfying the mutators'
symmetry invariant, with every vertex connected to vertex 0, at least two
vertices (so Prim's start-vertex check passes), and every stored weight
nonnegative and strictly below the sentinel 999999, the total Kruskal prints,
the total Prim prints and the total Reverse-Delete prints all coincide. As
stated the claim is false: weights at or above the sentinel defeat Prim's
relaxation guard `peso < chave` against keys seeded with 999999, so Prim can
print 0 while Kruskal and Reverse-Delete print the true total. -/
theorem algoritmosMST_concordam {g : Grafo} (hsim : InvarianteSimetria g)
    (hpond : g.ponderado = true) (hnn : PesosNaoNegativos g)
    (hstr : PesosEstritos g) (h1n : 1 < g.numVertices)
    (hconn : ∀ v, v < g.numVertices → ConexoAdj g 0 v) :
    g.algoritmoPrim = some ((g.algoritmoKruskal).2) ∧
    (g.algoritmoApagaReverso).custoTotalArestas = (g.algoritmoKruskal).2 :=
  ⟨prim_total hsim hnn hstr hconn h1n, apaga_total hsim hpond h1n hconn⟩

/-- Witness for C2 on the connected weighted triangle. -/
theorem algoritmosMST_concordam_witness :
    PesosNaoNegativos grafoC3 ∧ PesosEstritos grafoC3 ∧ 1 < grafoC3.numVertices ∧
    grafoC3.algoritmoPrim = some ((grafoC3.algoritmoKruskal).2) ∧
    (grafoC3.algoritmoApagaReverso).custoTotalArestas = (grafoC3.algoritmoKruskal).2 := by
  have hsim : InvarianteSimetria grafoC3 :=
    invarianteSimetria_adicionaAresta (invarianteSimetria_adicionaAresta
      (invarianteSimetria_adicionaAresta (invarianteSimetria_nova 3 true) 0 1 4) 1 2 2) 0 2 7
  have hnn : PesosNaoNegativos grafoC3 :=
    pesosNaoNegativos_de_listas (by decide)
  have hstr : PesosEstritos grafoC3 :=
    pesosEstritos_de_listas (by decide)
  have hconn : ∀ v, v < grafoC3.numVertices → ConexoAdj grafoC3 0 v := by
    intro v hv
    have hv3 : v < 3 := hv
    interval_cases v
    · exact ConexoAdj.refl 0
    · exact ConexoAdj.avante (ConexoAdj.refl 0)
        (show (⟨1, 4⟩ : ElemLista) ∈ grafoC3.adj 0 by decide)
    · exact ConexoAdj.avante (ConexoAdj.refl 0)
        (show (⟨2, 7⟩ : ElemLista) ∈ grafoC3.adj 0 by decide)
  exact ⟨hnn, hstr, by decide,
    (algoritmosMST_concordam hsim rfl hnn hstr (by decide) hconn).1,
    (algoritmosMST_concordam hsim rfl hnn hstr (by decide) hconn).2⟩

/-- The two-vertex graph whose single edge weighs exactly the sentinel. -/
def grafoC2x : Grafo := (Grafo.nova 2 false true).adicionaAresta 0 1 999999

/-- Counterexample to C2 as stated: a connected, undirected, weighted graph
with strictly nonnegative weights on which Kruskal and Reverse-Delete print
total 999999 while Prim prints 0. Prim's keys are seeded with the sentinel
999999 and its relaxation guard demands `peso < chave`, so the weight-999999
edge is never adopted: `pai` stays all `-1` and the cost loop adds nothing. -/
theorem algoritmosMST_discordam :
    grafoC2x.direcionado = false ∧ grafoC2x.ponderado = true ∧
    PesosNaoNegativos grafoC2x ∧ 1 < grafoC2x.numVertices ∧
    (∀ v, v < grafoC2x.numVertices → ConexoAdj grafoC2x 0 v) ∧
    (grafoC2x.algoritmoKruskal).2 = 999999 ∧
    (grafoC2x.algoritmoApagaReverso).custoTotalArestas = 999999 ∧
    grafoC2x.algoritmoPrim = some 0 := by
  have hcol : grafoC2x.coletaArestas = [⟨0, 1, 999999⟩] := by decide
  refine ⟨rfl, rfl, pesosNaoNegativos_de_listas (by decide), by decide,
    ?_, ?_, ?_, ?_⟩
  · intro v hv
    have hv2 : v < 2 := hv
    interval_cases v
    · exact ConexoAdj.refl 0
    · exact ConexoAdj.avante (ConexoAdj.refl 0)
        (show (⟨1, 999999⟩ : ElemLista) ∈ grafoC2x.adj 0 by decide)
  · show ((grafoC2x.coletaArestas.mergeSort (fun a b => a.peso ≤ b.peso)).foldl
      kruskalPasso (DisjointSet.nova grafoC2x.numVertices, [], 0)).2.2 = 999999
    rw [show grafoC2x.coletaArestas.mergeSort (fun a b => a.peso ≤ b.peso)
        = [⟨0, 1, 999999⟩] from by rw [hcol, List.mergeSort_singleton]]
    decide
  · rw [apagaReverso_eq]
    rw [show grafoC2x.coletaArestas.mergeSort (fun a b => b.peso ≤ a.peso)
        = [⟨0, 1, 999999⟩] from by rw [hcol, List.mergeSort_singleton]]
    decide
  · decide

end Grafos
